import Mathlib

/-! # Variant: a closed-union value container

Shallow embedding of `src/variant/variant.h`, `variant_storage.h`,
`variant_utils.h` and `variant_constraints.h`.

* The alternative list `Ts...` is a list of `Alt` descriptors: the operations
  of each alternative type (constructors, assignments, swap, comparisons) and
  the type traits the container inspects.
* A `Variant` is the stored index `ind` together with the union `val`; the
  union records which member object is live, and the destructor calls made on
  the storage are logged in `destroyed`.
* Every operation returns a `Res`: normal return, an exception leaving a
  state behind, `std::terminate`, or undefined behaviour.
* Object lifetime is explicit.  The source reads, destroys and constructs
  union members without any check; the embedding gives these steps no
  behaviour (`ub`) when the member read or destroyed is not live, or when a
  member is constructed while another one still is.
* Arguments are values: an argument of a constructor or an assignment never
  aliases the value held by the variant it is passed to.
-/

namespace cpp.variant

/-- The sentinel `kVariantNPos = size_t(-1)` of `variant_utils.h`. -/
def kVariantNPos : Nat := 2 ^ 64 - 1

/-- Exceptions: `BadVariantAccess` of the container, or one thrown by an
operation of an alternative type (identified by a code). -/
inductive Exc where
  | BadVariantAccess : Exc
  | thrown (code : Nat) : Exc
  deriving DecidableEq, Repr

/-- Outcome of an operation over state `σ` with result `α`.
`ok a s`: returned `a`, state `s`.  `throw e s`: exception `e` propagated to
the caller, state `s` left behind.  `terminate`: an exception tried to leave a
`noexcept` function.  `ub`: undefined behaviour (out-of-bounds table lookup,
use or destruction of a member that is not live, construction into storage
that still holds a live member). -/
inductive Res (σ α : Type) where
  | ok (a : α) (s : σ) : Res σ α
  | throw (e : Exc) (s : σ) : Res σ α
  | terminate : Res σ α
  | ub : Res σ α
  deriving DecidableEq, Repr

/-- One alternative type `T` of the list `Ts...`, as the container sees it.
`V` is the universe of alternative values, `A` the universe of values a caller
forwards to a constructor or assigns.  Operations that can throw return an
optional exception; operations on two objects return the new state of both. -/
structure Alt (V A : Type) where
  /-- `T()`: value-initialization. -/
  defaultCtor : Except Exc V
  /-- `T(std::forward<Args>(args)...)`. -/
  construct : A → Except Exc V
  /-- `T(const T&)`. -/
  copyCtor : V → Except Exc V
  /-- `T(T&&)`: the outcome and the state the source is left in. -/
  moveCtor : V → Except Exc V × V
  /-- `T& = U&&` for a forwarded value: exception if any, new state of the target. -/
  assign : V → A → Option Exc × V
  /-- `T& = const T&`. -/
  copyAssign : V → V → Option Exc × V
  /-- `T& = T&&`: exception if any, new target, state the source is left in. -/
  moveAssign : V → V → Option Exc × V × V
  /-- `swap(T&, T&)`. -/
  swap : V → V → Option Exc × V × V
  /-- `operator==` of the alternative. -/
  eq : V → V → Bool
  /-- `operator<` of the alternative. -/
  lt : V → V → Bool
  /-- `std::is_nothrow_default_constructible_v<T>`. -/
  nothrowDefaultConstructible : Bool
  /-- `std::is_nothrow_constructible_v<T, U>` for the type `U` of the forwarded value. -/
  nothrowConstructible : A → Bool
  /-- `std::is_nothrow_constructible_v<U, T>`, the trait with the arguments the
  other way round, as the converting constructor writes it. -/
  nothrowConvertibleTo : A → Bool
  /-- `std::is_nothrow_assignable_v<T&, U>` for the type `U` of the forwarded value. -/
  nothrowAssignable : A → Bool
  /-- `std::is_nothrow_copy_constructible_v<T>`. -/
  nothrowCopyConstructible : Bool
  /-- `std::is_nothrow_move_constructible_v<T>`. -/
  nothrowMoveConstructible : Bool
  /-- `std::is_nothrow_move_assignable_v<T>`. -/
  nothrowMoveAssignable : Bool
  /-- `std::is_trivially_copy_constructible_v<T>`. -/
  triviallyCopyConstructible : Bool
  /-- `std::is_trivially_move_constructible_v<T>`. -/
  triviallyMoveConstructible : Bool
  /-- `std::is_trivially_copy_assignable_v<T>`. -/
  triviallyCopyAssignable : Bool
  /-- `std::is_trivially_move_assignable_v<T>`. -/
  triviallyMoveAssignable : Bool
  /-- `std::is_trivially_destructible_v<T>`. -/
  triviallyDestructible : Bool

/-- What a constructor of an alternative is called with. -/
inductive Arg (V A : Type) where
  /-- Arguments forwarded by the caller. -/
  | fwd (t : A) : Arg V A
  /-- A `const T&`: selects the copy constructor. -/
  | cref (x : V) : Arg V A
  /-- A `T&&`: selects the move constructor. -/
  | rref (x : V) : Arg V A

/-- The expression `T(std::forward<Args>(args)...)` of
`MegaUnion::ConstructInternalValue(InPlaceIndex<0>, ...)`. -/
def Alt.init {V A : Type} (T : Alt V A) : Arg V A → Except Exc V
  | .fwd t => T.construct t
  | .cref x => T.copyCtor x
  | .rref x => (T.moveCtor x).1

/-- A `noexcept` trait that is true means the operation does not throw. -/
structure Alt.Sound {V A : Type} (T : Alt V A) : Prop where
  construct : ∀ t, T.nothrowConstructible t = true → ∃ x, T.construct t = .ok x
  copyCtor : T.nothrowCopyConstructible = true → ∀ y, ∃ x, T.copyCtor y = .ok x
  moveCtor : T.nothrowMoveConstructible = true → ∀ y, ∃ x, (T.moveCtor y).1 = .ok x

/-- `Variant<Ts...>` with its base `VariantStorage`: the union `val` and the
index `ind`.  `val = some (i, x)` says the member of layer `i` of the
`MegaUnion` chain is live with value `x`; `none` says no member is live.
`destroyed` lists the destructor calls made on this storage, oldest first. -/
structure Variant (V : Type) where
  val : Option (Nat × V)
  ind : Nat
  destroyed : List (Nat × V)
  deriving DecidableEq, Repr

variable {V A : Type}

/-- `Variant::Index()`. -/
def Variant.Index (v : Variant V) : Nat := v.ind

/-- `Variant::ValuelessByException()`. -/
def Variant.ValuelessByException (v : Variant V) : Bool := v.Index == kVariantNPos

/-- `Variant::MakeValueless()`: `this->ind = kVariantNPos`.  The helper of
`Emplace` and of the assignments; `variant.h` declares it in the public section. -/
def Variant.MakeValueless (v : Variant V) : Variant V := { v with ind := kVariantNPos }

/-- `VariantStorage(UninitializedStorageTag)`: no member is constructed and
`ind` takes its default member initializer `kVariantNPos`. -/
def uninitializedStorage : Variant V := { val := none, ind := kVariantNPos, destroyed := [] }

/-- `GenFmatrixIndex` for one variant of `N` alternatives: entry `i` calls the
visitor with `std::integral_constant<size_t, i>`. -/
def GenFmatrixIndex (β : Type) (N : Nat) : List ((Nat → β) → β) :=
  (List.range N).map fun i vis => vis i

/-- `details::VisitIndex(vis, variant)`: `at(kFmatrixIndex, variant.Index())(vis)`.
The table has `N` entries; indexing past it is undefined. -/
def VisitIndex {σ α : Type} (N : Nat) (vis : Nat → Res σ α) (index : Nat) : Res σ α :=
  match (GenFmatrixIndex (Res σ α) N)[index]? with
  | some entry => entry vis
  | none => .ub

/-- `MegaUnion<false, ...>::DestroyInternalValue(InPlaceIndex<N>)`: walks to
layer `N` and runs `val.~T()` there; the member of layer `N` must be the live
one.  In `MegaUnion<true, ...>` the body is empty, the destructors being
trivial; the end of the member's lifetime is recorded in the same way. -/
def MegaUnion.DestroyInternalValue (v : Variant V) (N : Nat) : Res (Variant V) Unit :=
  match v.val with
  | some (M, x) =>
    if M = N then .ok () { v with val := none, destroyed := v.destroyed ++ [(N, x)] } else .ub
  | none => .ub

/-- `VariantStorage::DestroyInternalValue()`. -/
def Variant.DestroyInternalValue (N : Nat) (v : Variant V) : Res (Variant V) Unit :=
  if v.ind ≠ kVariantNPos then
    VisitIndex N (fun ind_ => MegaUnion.DestroyInternalValue v ind_) v.Index
  else .ok () v

/-- `VariantStorage::ConstructInternalValue(InPlaceIndex<N>, args...)`:
placement-new of alternative `N` in its layer, then `ind = N`.  When the
constructor throws the assignment to `ind` is not reached.  Nothing is
destroyed first: the storage must hold no live member. -/
def Variant.ConstructInternalValue (alts : List (Alt V A)) (N : Nat) (args : Arg V A)
    (v : Variant V) : Res (Variant V) V :=
  match alts[N]? with
  | none => .ub
  | some T_N =>
    match v.val with
    | some _ => .ub
    | none =>
      match T_N.init args with
      | .error e => .throw e v
      | .ok x => .ok x { v with val := some (N, x), ind := N }

/-- `Variant::Emplace<N>(args...)`. -/
def Variant.Emplace (alts : List (Alt V A)) (N : Nat) (args : Arg V A) (v : Variant V) :
    Res (Variant V) V :=
  match v.DestroyInternalValue alts.length with
  | .ok _ v1 => v1.MakeValueless.ConstructInternalValue alts N args
  | .throw e v1 => .throw e v1
  | .terminate => .terminate
  | .ub => .ub

/-- `Get<N>(Variant&)`: `v.val.Get(kInPlaceIndex<N>)` when `N == v.Index()`,
otherwise `BadVariantAccess`.  Reading a layer whose member is not live is
undefined. -/
def Get (N : Nat) (v : Variant V) : Res Unit V :=
  if N = v.Index then
    match v.val with
    | some (M, x) => if M = N then .ok x () else .ub
    | none => .ub
  else .throw .BadVariantAccess ()

/-- An exception leaving a function whose exception specification evaluates
to `noexcept(true)` calls `std::terminate`. -/
def noexceptIf {σ α : Type} (spec : Bool) (r : Res σ α) : Res σ α :=
  if spec then
    match r with
    | .throw _ _ => .terminate
    | r => r
  else r

/-- Discards the returned reference, as an expression statement does. -/
def Res.void {σ α : Type} : Res σ α → Res σ Unit
  | .ok _ s => .ok () s
  | .throw e s => .throw e s
  | .terminate => .terminate
  | .ub => .ub

/-- Runs an operation on one object inside a larger state. -/
def Res.mapState {σ τ α : Type} (f : σ → τ) : Res σ α → Res τ α
  | .ok a s => .ok a (f s)
  | .throw e s => .throw e (f s)
  | .terminate => .terminate
  | .ub => .ub

/-- `VariantStorage(InPlaceIndex<N>, args...)`: `val(ind, args...)`, `ind(N)`.
Base of the converting and the in-place constructors. -/
def VariantStorage.inPlace (alts : List (Alt V A)) (N : Nat) (args : Arg V A) :
    Res Unit (Variant V) :=
  match alts[N]? with
  | none => .ub
  | some T_N =>
    match T_N.init args with
    | .error e => .throw e ()
    | .ok x => .ok { val := some (N, x), ind := N, destroyed := [] } ()

/-- `Variant()`, defaulted over `VariantStorage()`: `val()`, `ind(0)`, where
`MegaUnion()` value-initializes the first alternative; declared
`noexcept(std::is_nothrow_default_constructible_v<ZeroAlt>)`. -/
def Variant.default (alts : List (Alt V A)) : Res Unit (Variant V) :=
  match alts[0]? with
  | none => .ub
  | some ZeroAlt =>
    noexceptIf ZeroAlt.nothrowDefaultConstructible <|
      match ZeroAlt.defaultCtor with
      | .error e => .throw e ()
      | .ok x => .ok { val := some (0, x), ind := 0, destroyed := [] } ()

/-- `Variant(T&& t)`, the converting constructor, for the resolved `Index`;
declared `noexcept(std::is_nothrow_constructible_v<T, ChosenT>)`. -/
def Variant.ofValue (alts : List (Alt V A)) (Index : Nat) (t : A) : Res Unit (Variant V) :=
  match alts[Index]? with
  | none => .ub
  | some ChosenT =>
    noexceptIf (ChosenT.nothrowConvertibleTo t) (VariantStorage.inPlace alts Index (.fwd t))

/-- `Variant(InPlaceIndex<N>, args...)`, and `Variant(InPlaceType<T>, args...)`
for the position `N` of `T`. -/
def Variant.inPlace (alts : List (Alt V A)) (N : Nat) (t : A) : Res Unit (Variant V) :=
  VariantStorage.inPlace alts N (.fwd t)

/-- `Variant::operator=(T&& t)`, the converting assignment, for the resolved
alternative `ChosenT` at position `Index`. -/
def Variant.assignValue (alts : List (Alt V A)) (Index : Nat) (t : A) (v : Variant V) :
    Res (Variant V) Unit :=
  match alts[Index]? with
  | none => .ub
  | some ChosenT =>
    noexceptIf (ChosenT.nothrowAssignable t && ChosenT.nothrowConstructible t) <|
      if v.Index = Index then
        match Get Index v with
        | .ok x _ =>
          let r := ChosenT.assign x t
          match r.1 with
          | none => .ok () { v with val := some (Index, r.2) }
          | some e => .throw e { v with val := some (Index, r.2) }
        | .throw e _ => .throw e v
        | .terminate => .terminate
        | .ub => .ub
      else if ChosenT.nothrowConstructible t || !ChosenT.nothrowMoveConstructible then
        (v.Emplace alts Index (.fwd t)).void
      else
        match ChosenT.construct t with
        | .error e => .throw e v
        | .ok tmp => (v.Emplace alts Index (.rref tmp)).void

/-- `details::IsTriviallyCopyConstructible<Ts...>` (the operation is assumed to
be available, so the `IsCopyConstructible` conjunct holds). -/
def IsTriviallyCopyConstructible (alts : List (Alt V A)) : Bool :=
  alts.all fun T => T.triviallyCopyConstructible

/-- `details::IsTriviallyMoveConstructible<Ts...>`. -/
def IsTriviallyMoveConstructible (alts : List (Alt V A)) : Bool :=
  alts.all fun T => T.triviallyMoveConstructible

/-- `details::IsTriviallyDestructible<Ts...>`. -/
def IsTriviallyDestructible (alts : List (Alt V A)) : Bool :=
  alts.all fun T => T.triviallyDestructible

/-- `details::IsTriviallyCopyAssignable<Ts...>`. -/
def IsTriviallyCopyAssignable (alts : List (Alt V A)) : Bool :=
  IsTriviallyCopyConstructible alts && (alts.all fun T => T.triviallyCopyAssignable)
    && IsTriviallyDestructible alts

/-- `details::IsTriviallyMoveAssignable<Ts...>`. -/
def IsTriviallyMoveAssignable (alts : List (Alt V A)) : Bool :=
  IsTriviallyMoveConstructible alts && (alts.all fun T => T.triviallyMoveAssignable)
    && IsTriviallyDestructible alts

/-- `~Variant()`: the general `VariantStorage` destroys the active value, the
trivially destructible one does nothing. -/
def Variant.destructor (alts : List (Alt V A)) (v : Variant V) : Res (Variant V) Unit :=
  if IsTriviallyDestructible alts then .ok () v else v.DestroyInternalValue alts.length

/-- The user-provided `Variant(const Variant& other)`. -/
def Variant.copyCtorBody (alts : List (Alt V A)) (other : Variant V) : Res Unit (Variant V) :=
  if !other.ValuelessByException then
    VisitIndex alts.length
      (fun ind_ =>
        match Get ind_ other with
        | .ok y _ =>
          match (uninitializedStorage : Variant V).ConstructInternalValue alts ind_ (.cref y) with
          | .ok _ this => .ok this ()
          | .throw e _ => .throw e ()
          | .terminate => .terminate
          | .ub => .ub
        | .throw e _ => .throw e ()
        | .terminate => .terminate
        | .ub => .ub)
      other.Index
  else .ok (uninitializedStorage : Variant V).MakeValueless ()

/-- `Variant(const Variant&)`: the defaulted member-wise copy when every
alternative is trivially copy constructible, the user-provided one otherwise. -/
def Variant.copyCtor (alts : List (Alt V A)) (other : Variant V) : Res Unit (Variant V) :=
  if IsTriviallyCopyConstructible alts then
    .ok { val := other.val, ind := other.ind, destroyed := [] } ()
  else Variant.copyCtorBody alts other

/-- The user-provided `Variant(Variant&& other)`; the state is `other`. -/
def Variant.moveCtorBody (alts : List (Alt V A)) (other : Variant V) :
    Res (Variant V) (Variant V) :=
  if !other.ValuelessByException then
    VisitIndex alts.length
      (fun ind_ =>
        match alts[ind_]?, Get ind_ other with
        | some T, .ok y _ =>
          let other1 := { other with val := some (ind_, (T.moveCtor y).2) }
          match (uninitializedStorage : Variant V).ConstructInternalValue alts ind_ (.rref y) with
          | .ok _ this => .ok this other1
          | .throw e _ => .throw e other1
          | .terminate => .terminate
          | .ub => .ub
        | _, .throw e _ => .throw e other
        | _, .terminate => .terminate
        | _, _ => .ub)
      other.Index
  else .ok (uninitializedStorage : Variant V).MakeValueless other

/-- `Variant(Variant&&)`: defaulted or user-provided, with the exception
specification `noexcept((std::is_nothrow_move_constructible_v<Ts> && ...))`. -/
def Variant.moveCtor (alts : List (Alt V A)) (other : Variant V) :
    Res (Variant V) (Variant V) :=
  noexceptIf (alts.all fun T => T.nothrowMoveConstructible) <|
    if IsTriviallyMoveConstructible alts then
      .ok { val := other.val, ind := other.ind, destroyed := [] } other
    else Variant.moveCtorBody alts other

/-- The visitor of the user-provided move assignment, called with the index
of `other`. -/
def Variant.moveAssignVisitor (alts : List (Alt V A)) (this other : Variant V) (ind_ : Nat) :
    Res (Variant V × Variant V) Unit :=
  match alts[ind_]?, Get ind_ other with
  | some T, .ok y _ =>
    if this.Index = ind_ then
      match Get ind_ this with
      | .ok x _ =>
        let r := T.moveAssign x y
        let st := ({ this with val := some (ind_, r.2.1) }, { other with val := some (ind_, r.2.2) })
        match r.1 with
        | none => .ok () st
        | some e => .throw e st
      | .throw e _ => .throw e (this, other)
      | .terminate => .terminate
      | .ub => .ub
    else
      ((this.Emplace alts ind_ (.rref y)).void).mapState fun this1 =>
        (this1, { other with val := some (ind_, (T.moveCtor y).2) })
  | _, .throw e _ => .throw e (this, other)
  | _, .terminate => .terminate
  | _, _ => .ub

/-- The user-provided `Variant::operator=(Variant&& other)`; the state is the
pair `(*this, other)`. -/
def Variant.moveAssignBody (alts : List (Alt V A)) (this other : Variant V) :
    Res (Variant V × Variant V) Unit :=
  if other.ValuelessByException then
    if this.ValuelessByException then .ok () (this, other)
    else
      (this.DestroyInternalValue alts.length).mapState fun this1 => (this1.MakeValueless, other)
  else
    VisitIndex alts.length (Variant.moveAssignVisitor alts this other) other.Index

/-- `Variant::operator=(Variant&&)`: defaulted or user-provided, with the
exception specification over nothrow move construction and move assignment. -/
def Variant.moveAssign (alts : List (Alt V A)) (this other : Variant V) :
    Res (Variant V × Variant V) Unit :=
  noexceptIf (alts.all fun T => T.nothrowMoveConstructible && T.nothrowMoveAssignable) <|
    if IsTriviallyMoveAssignable alts then
      .ok () ({ this with val := other.val, ind := other.ind }, other)
    else Variant.moveAssignBody alts this other

/-- The visitor of the user-provided copy assignment, called with the index
of `other`. -/
def Variant.copyAssignVisitor (alts : List (Alt V A)) (this other : Variant V) (ind_ : Nat) :
    Res (Variant V) Unit :=
  match alts[ind_]? with
  | none => .ub
  | some OtherAlt =>
    if this.Index = ind_ then
      match Get ind_ other, Get ind_ this with
      | .ok y _, .ok x _ =>
        let r := OtherAlt.copyAssign x y
        match r.1 with
        | none => .ok () { this with val := some (ind_, r.2) }
        | some e => .throw e { this with val := some (ind_, r.2) }
      | .throw e _, _ => .throw e this
      | .ok _ _, .throw e _ => .throw e this
      | .terminate, _ => .terminate
      | .ok _ _, .terminate => .terminate
      | _, _ => .ub
    else if OtherAlt.nothrowCopyConstructible || !OtherAlt.nothrowMoveConstructible then
      match Get ind_ other with
      | .ok y _ => (this.Emplace alts ind_ (.cref y)).void
      | .throw e _ => .throw e this
      | .terminate => .terminate
      | .ub => .ub
    else
      match Variant.copyCtor alts other with
      | .ok tmp _ =>
        match Variant.moveAssign alts this tmp with
        | .ok _ (this1, tmp1) =>
          match tmp1.destructor alts with
          | .ub => .ub
          | _ => .ok () this1
        | .throw e (this1, tmp1) =>
          match tmp1.destructor alts with
          | .ub => .ub
          | _ => .throw e this1
        | .terminate => .terminate
        | .ub => .ub
      | .throw e _ => .throw e this
      | .terminate => .terminate
      | .ub => .ub

/-- The user-provided `Variant::operator=(const Variant& other)`.  When only
`other` is valueless the first block destroys the value and marks `*this`
valueless, and control then continues with the dispatch on `other`. -/
def Variant.copyAssignBody (alts : List (Alt V A)) (this other : Variant V) :
    Res (Variant V) Unit :=
  if other.ValuelessByException then
    if this.ValuelessByException then .ok () this
    else
      match this.DestroyInternalValue alts.length with
      | .ok _ this1 =>
        VisitIndex alts.length (Variant.copyAssignVisitor alts this1.MakeValueless other)
          other.Index
      | .throw e this1 => .throw e this1
      | .terminate => .terminate
      | .ub => .ub
  else
    VisitIndex alts.length (Variant.copyAssignVisitor alts this other) other.Index

/-- `Variant::operator=(const Variant&)`: the defaulted member-wise copy when
`IsTriviallyCopyAssignable`, the user-provided one otherwise. -/
def Variant.copyAssign (alts : List (Alt V A)) (this other : Variant V) : Res (Variant V) Unit :=
  if IsTriviallyCopyAssignable alts then
    .ok () { this with val := other.val, ind := other.ind }
  else Variant.copyAssignBody alts this other

/-- `std::swap(a, b)` on two variants, reached from `Variant::Swap` through
`using std::swap; swap(*this, other)` (no overload of `swap` for `Variant` is
declared): `Variant tmp(std::move(a)); a = std::move(b); b = std::move(tmp);`
followed by the destruction of `tmp`. -/
def stdSwap (alts : List (Alt V A)) (a b : Variant V) : Res (Variant V × Variant V) Unit :=
  match Variant.moveCtor alts a with
  | .ok tmp a1 =>
    match Variant.moveAssign alts a1 b with
    | .ok _ (a2, b1) =>
      match Variant.moveAssign alts b1 tmp with
      | .ok _ (b2, tmp1) =>
        match tmp1.destructor alts with
        | .ub => .ub
        | _ => .ok () (a2, b2)
      | .throw e (b2, tmp1) =>
        match tmp1.destructor alts with
        | .ub => .ub
        | _ => .throw e (a2, b2)
      | .terminate => .terminate
      | .ub => .ub
    | .throw e (a2, b1) =>
      match tmp.destructor alts with
      | .ub => .ub
      | _ => .throw e (a2, b1)
    | .terminate => .terminate
    | .ub => .ub
  | .throw e a1 => .throw e (a1, b)
  | .terminate => .terminate
  | .ub => .ub

/-- The visitor of `Variant::Swap` for equal indices:
`swap(Get<ind_()>(*this), Get<ind_()>(other)); swap(this->ind, other.ind);`. -/
def Variant.swapVisitor (alts : List (Alt V A)) (this other : Variant V) (ind_ : Nat) :
    Res (Variant V × Variant V) Unit :=
  match alts[ind_]?, Get ind_ this, Get ind_ other with
  | some T, .ok x _, .ok y _ =>
    let r := T.swap x y
    match r.1 with
    | none =>
      .ok () ({ this with val := some (ind_, r.2.1), ind := other.ind },
              { other with val := some (ind_, r.2.2), ind := this.ind })
    | some e =>
      .throw e ({ this with val := some (ind_, r.2.1) }, { other with val := some (ind_, r.2.2) })
  | _, .throw e _, _ => .throw e (this, other)
  | _, .ok _ _, .throw e _ => .throw e (this, other)
  | _, .terminate, _ => .terminate
  | _, .ok _ _, .terminate => .terminate
  | _, _, _ => .ub

/-- `Variant::Swap(Variant& other)`.  Its exception specification
`noexcept(noexcept(<constant>))` is `noexcept(true)` whatever the
alternatives are. -/
def Variant.Swap (alts : List (Alt V A)) (this other : Variant V) :
    Res (Variant V × Variant V) Unit :=
  noexceptIf true <|
    if this.ValuelessByException && other.ValuelessByException then .ok () (this, other)
    else if other.Index = this.Index then
      VisitIndex alts.length (Variant.swapVisitor alts this other) other.Index
    else stdSwap alts this other

/-- The state invariant of a variant over `N` alternatives: either the index
is the sentinel and no member is live, or the index is a position and the live
member is the one of that layer. -/
def Variant.WF (N : Nat) (v : Variant V) : Prop :=
  (v.ind = kVariantNPos ∧ v.val.isNone = true) ∨
    (v.ind < N ∧ v.val.map Prod.fst = some v.ind)

instance (N : Nat) (v : Variant V) : Decidable (v.WF N) := by
  unfold Variant.WF; infer_instance

/-- The state `Emplace` constructs into: the old value destroyed, the index
set to the sentinel. -/
def Variant.cleared (v : Variant V) : Variant V :=
  { val := none, ind := kVariantNPos, destroyed := v.destroyed ++ v.val.toList }

/-! ## Programs over several variants -/

/-- One statement of a client program over the variants `vars[0], vars[1], ...`
of one `Variant<Ts...>` type: a declaration with one of the public
constructors (the new object is appended to `vars`) or a call of a public
mutating member.  The `const` members and the accessors change nothing and
are not listed. -/
inductive Op (A : Type) where
  /-- `Variant v;` -/
  | defaultCtor : Op A
  /-- `Variant v(t);` resolved to the alternative at `Index`. -/
  | ofValue (Index : Nat) (t : A) : Op A
  /-- `Variant v(kInPlaceIndex<N>, t);` -/
  | inPlace (N : Nat) (t : A) : Op A
  /-- `Variant v(vars[src]);` -/
  | copyCtor (src : Nat) : Op A
  /-- `Variant v(std::move(vars[src]));` -/
  | moveCtor (src : Nat) : Op A
  /-- `vars[dst] = t;` resolved to the alternative at `Index`. -/
  | assign (dst Index : Nat) (t : A) : Op A
  /-- `vars[dst] = vars[src];` -/
  | copyAssign (dst src : Nat) : Op A
  /-- `vars[dst] = std::move(vars[src]);` -/
  | moveAssign (dst src : Nat) : Op A
  /-- `vars[dst].Emplace<N>(t);` -/
  | emplace (dst N : Nat) (t : A) : Op A
  /-- `vars[dst].Swap(vars[src]);` -/
  | swap (dst src : Nat) : Op A
  /-- `vars[dst].MakeValueless();` -/
  | makeValueless (dst : Nat) : Op A
  deriving DecidableEq, Repr

/-- The statement is a direct call of the helper `MakeValueless`. -/
def Op.isMakeValueless : Op A → Bool
  | .makeValueless _ => true
  | _ => false

/-- The statement is an assignment (converting, copy or move) or a `Swap`. -/
def Op.isAssignOrSwap : Op A → Bool
  | .assign _ _ _ => true
  | .copyAssign _ _ => true
  | .moveAssign _ _ => true
  | .swap _ _ => true
  | _ => false

/-- A constructor statement: appends the new object when it returns. -/
def declare (s : List (Variant V)) : Res Unit (Variant V) → Res (List (Variant V)) Unit
  | .ok v _ => .ok () (s ++ [v])
  | .throw e _ => .throw e s
  | .terminate => .terminate
  | .ub => .ub

/-- Executes one statement.  A statement naming a variable that does not
exist, or an alternative outside the list, is not a program and is given no
behaviour.  When both operands are the same variable its final state is the
one computed for `*this`. -/
def step (alts : List (Alt V A)) (s : List (Variant V)) : Op A → Res (List (Variant V)) Unit
  | .defaultCtor => declare s (Variant.default alts)
  | .ofValue Index t => declare s (Variant.ofValue alts Index t)
  | .inPlace N t => declare s (Variant.inPlace alts N t)
  | .copyCtor src =>
    match s[src]? with
    | some other => declare s (Variant.copyCtor alts other)
    | none => .ub
  | .moveCtor src =>
    match s[src]? with
    | some other =>
      match Variant.moveCtor alts other with
      | .ok v other1 => .ok () (s.set src other1 ++ [v])
      | .throw e other1 => .throw e (s.set src other1)
      | .terminate => .terminate
      | .ub => .ub
    | none => .ub
  | .assign dst Index t =>
    match s[dst]? with
    | some v => (v.assignValue alts Index t).mapState fun v1 => s.set dst v1
    | none => .ub
  | .copyAssign dst src =>
    match s[dst]?, s[src]? with
    | some this, some other =>
      (Variant.copyAssign alts this other).mapState fun this1 => s.set dst this1
    | _, _ => .ub
  | .moveAssign dst src =>
    match s[dst]?, s[src]? with
    | some this, some other =>
      (Variant.moveAssign alts this other).mapState fun p => (s.set src p.2).set dst p.1
    | _, _ => .ub
  | .emplace dst N t =>
    match s[dst]? with
    | some v => ((v.Emplace alts N (.fwd t)).void).mapState fun v1 => s.set dst v1
    | none => .ub
  | .swap dst src =>
    match s[dst]?, s[src]? with
    | some this, some other =>
      (Variant.Swap alts this other).mapState fun p => (s.set src p.2).set dst p.1
    | _, _ => .ub
  | .makeValueless dst =>
    match s[dst]? with
    | some v => .ok () (s.set dst v.MakeValueless)
    | none => .ub

/-- Executes a sequence of statements; an exception is caught by the client
and the next statement runs on the state it left. -/
def run (alts : List (Alt V A)) : List (Op A) → List (Variant V) → Res (List (Variant V)) Unit
  | [], s => .ok () s
  | op :: ops, s =>
    match step alts s op with
    | .ok _ s1 => run alts ops s1
    | .throw _ s1 => run alts ops s1
    | .terminate => .terminate
    | .ub => .ub

/-- The statement names only existing variables and alternatives. -/
def Op.wellFormed (N : Nat) (s : List (Variant V)) : Op A → Prop
  | .defaultCtor => 0 < N
  | .ofValue Index _ => Index < N
  | .inPlace M _ => M < N
  | .copyCtor src => src < s.length
  | .moveCtor src => src < s.length
  | .assign dst Index _ => dst < s.length ∧ Index < N
  | .copyAssign dst src => dst < s.length ∧ src < s.length
  | .moveAssign dst src => dst < s.length ∧ src < s.length
  | .emplace dst M _ => dst < s.length ∧ M < N
  | .swap dst src => dst < s.length ∧ src < s.length
  | .makeValueless dst => dst < s.length

/-- The statement is a user-provided copy assignment from a valueless source
over a destination that holds a value. -/
def Op.copiesValuelessOverValue (alts : List (Alt V A)) (s : List (Variant V)) : Op A → Prop
  | .copyAssign dst src =>
    IsTriviallyCopyAssignable alts = false ∧
      ∃ this other, s[dst]? = some this ∧ s[src]? = some other ∧
        other.ValuelessByException = true ∧ this.ValuelessByException = false
  | _ => False

/-- Postcondition of an outcome: `ok` on a normal return, `thr` on the state an
exception leaves; undefined behaviour never satisfies it. -/
def Res.Post {σ α : Type} (ok : α → σ → Prop) (thr : σ → Prop) : Res σ α → Prop
  | .ok a s => ok a s
  | .throw _ s => thr s
  | .terminate => True
  | .ub => False

/-- Every alternative has a `noexcept` move constructor, and the `noexcept`
traits of the alternatives are truthful. -/
def AllNothrowMove (alts : List (Alt V A)) : Prop :=
  ∀ T ∈ alts, T.nothrowMoveConstructible = true ∧ T.Sound

/-- The invariant of one variant, with `nv` switching on the extra demand
that it is not valueless. -/
def Variant.Inv (N : Nat) (nv : Prop) (v : Variant V) : Prop :=
  v.WF N ∧ (nv → v.ind ≠ kVariantNPos)

/-- The invariant of every variant of a program state. -/
def StoreInv (N : Nat) (nv : Prop) (s : List (Variant V)) : Prop :=
  ∀ v ∈ s, v.Inv N nv

/-! ## Overload resolution of the converting constructor and assignment -/

/-- What the compiler knows about the types involved in a converting
construction or assignment from a value of type `T`. -/
structure Conversions (Ty : Type) where
  /-- `details::IsValidConversion<T, U>`: `U{std::forward<T>(x)}` is well-formed. -/
  IsValidConversion : Ty → Ty → Bool
  /-- Rank of the implicit conversion sequence from `T` to a parameter of type
  `U`; `none` when there is no implicit conversion. -/
  rank : Ty → Ty → Option Nat
  /-- `details::kIsInPlaceTypeValue<std::remove_cvref_t<T>>`. -/
  isInPlace : Ty → Bool
  /-- `std::is_same_v<T, Variant>`. -/
  isVariant : Ty → Bool
  /-- `std::is_constructible_v<U, T>`, first argument the constructed type. -/
  isConstructible : Ty → Ty → Bool

/-- `details::OverloadSet<N, T, Ts...>`: the functions `Overload(U)` visible in
it, each with the position it reports in `TypeInfo`.  A layer declares
`Overload(U) requires IsValidConversion<T, U>` and inherits the rest through a
using-declaration; a declaration with the same parameter type and
requires-clause hides the inherited one.  Functions whose constraint is not
satisfied are never viable and are left out.  The last layer
`OverloadSet<N, T, U>` inherits nothing. -/
def OverloadSet {Ty : Type} [DecidableEq Ty] (IsValidConversion : Ty → Ty → Bool) :
    Nat → Ty → List Ty → List (Nat × Ty)
  | _, _, [] => []
  | N, T, U :: Ts =>
    (if IsValidConversion T U then [(N, U)] else []) ++
      (OverloadSet IsValidConversion (N + 1) T Ts).filter fun c => c.2 ≠ U

/-- The call `Overload(std::declval<T>())`: the viable functions are those
whose parameter the argument converts to implicitly (`rank T U` is the rank of
that conversion sequence); the call is well-formed when one of them is better
than every other. -/
def resolveOverload {Ty : Type} (rank : Ty → Ty → Option Nat) (T : Ty)
    (cands : List (Nat × Ty)) : Option (Nat × Ty) :=
  let viable := cands.filterMap fun c => (rank T c.2).map fun r => (r, c)
  (viable.find? fun rc => (viable.filter fun rc1 => rc1.1 ≤ rc.1).length = 1).map Prod.snd

/-- `details::ChosenOverload<T, Ts...>`, as `(index, Type)` of the `TypeInfo`
it names; `none` when the call is ill-formed. -/
def ChosenOverload {Ty : Type} [DecidableEq Ty] (C : Conversions Ty) (T : Ty) (Ts : List Ty) :
    Option (Nat × Ty) :=
  resolveOverload C.rank T (OverloadSet C.IsValidConversion 0 T Ts)

/-- `details::IsConvertibleToChosenTypeVariant<Variant, T, ChosenT, Ts...>`. -/
def IsConvertibleToChosenTypeVariant {Ty : Type} (C : Conversions Ty) (Ts : List Ty)
    (T ChosenT : Ty) : Bool :=
  decide (Ts.length > 0) && !C.isInPlace T && !C.isVariant T && C.isConstructible ChosenT T

/-- The converting constructor with its default template arguments resolved:
`none` when `ChosenOverload` is ill-formed or the requires-clause is false,
so that the constructor is not a candidate. -/
def Variant.convertingCtor {Ty : Type} [DecidableEq Ty] (C : Conversions Ty) (Ts : List Ty)
    (alts : List (Alt V A)) (T : Ty) (t : A) : Option (Res Unit (Variant V)) :=
  match ChosenOverload C T Ts with
  | some (Index, ChosenT) =>
    if IsConvertibleToChosenTypeVariant C Ts T ChosenT then some (Variant.ofValue alts Index t)
    else none
  | none => none

/-- The converting assignment with its default template arguments resolved. -/
def Variant.convertingAssign {Ty : Type} [DecidableEq Ty] (C : Conversions Ty) (Ts : List Ty)
    (alts : List (Alt V A)) (T : Ty) (t : A) (v : Variant V) :
    Option (Res (Variant V) Unit) :=
  match ChosenOverload C T Ts with
  | some (Index, ChosenT) =>
    if IsConvertibleToChosenTypeVariant C Ts T ChosenT then some (v.assignValue alts Index t)
    else none
  | none => none

/-! ## Example alternative lists -/

/-- Values used in the examples: an `int`, a `double` whose value is integral,
and an object of a class type. -/
inductive Lit where
  | int (n : Int) : Lit
  | dbl (n : Int) : Lit
  | obj (n : Nat) : Lit
  deriving DecidableEq, Repr

/-- The number carried by an example value. -/
def Lit.num : Lit → Int
  | .int n => n
  | .dbl n => n
  | .obj n => n

/-- A scalar alternative (`int` or `double`): every operation is trivial and
non-throwing; `wrap` tags the stored number with the type. -/
def scalarAlt (wrap : Int → Lit) : Alt Lit Lit where
  defaultCtor := .ok (wrap 0)
  construct t := .ok (wrap t.num)
  copyCtor x := .ok x
  moveCtor x := (.ok x, x)
  assign _ t := (none, wrap t.num)
  copyAssign _ y := (none, y)
  moveAssign _ y := (none, y, y)
  swap x y := (none, y, x)
  eq x y := x.num == y.num
  lt x y := decide (x.num < y.num)
  nothrowDefaultConstructible := true
  nothrowConstructible _ := true
  nothrowConvertibleTo _ := true
  nothrowAssignable _ := true
  nothrowCopyConstructible := true
  nothrowMoveConstructible := true
  nothrowMoveAssignable := true
  triviallyCopyConstructible := true
  triviallyMoveConstructible := true
  triviallyCopyAssignable := true
  triviallyMoveAssignable := true
  triviallyDestructible := true

/-- A class alternative with user-provided special members: construction from
a negative number throws, copying the object `13` throws, moving leaves the
source as object `0`.  `nothrowMove` is whether its move constructor is
declared `noexcept`. -/
def classAlt (nothrowMove : Bool) : Alt Lit Lit where
  defaultCtor := .ok (.obj 0)
  construct t := if t.num < 0 then .error (.thrown 1) else .ok (.obj t.num.toNat)
  copyCtor x := if x = .obj 13 then .error (.thrown 2) else .ok x
  moveCtor x := (.ok x, .obj 0)
  assign x t := if t.num < 0 then (some (.thrown 1), x) else (none, .obj t.num.toNat)
  copyAssign x y := if y = .obj 13 then (some (.thrown 2), x) else (none, y)
  moveAssign _ y := (none, y, .obj 0)
  swap x y := (none, y, x)
  eq x y := x.num == y.num
  lt x y := decide (x.num < y.num)
  nothrowDefaultConstructible := false
  nothrowConstructible _ := false
  nothrowConvertibleTo _ := false
  nothrowAssignable _ := false
  nothrowCopyConstructible := false
  nothrowMoveConstructible := nothrowMove
  nothrowMoveAssignable := nothrowMove
  triviallyCopyConstructible := false
  triviallyMoveConstructible := false
  triviallyCopyAssignable := false
  triviallyMoveAssignable := false
  triviallyDestructible := false

/-- The alternatives of `Variant<int, double>`. -/
def intDouble : List (Alt Lit Lit) := [scalarAlt .int, scalarAlt .dbl]

/-- The alternatives of `Variant<int, C>` for the class `C` of `classAlt`. -/
def intClass (nothrowMove : Bool) : List (Alt Lit Lit) := [scalarAlt .int, classAlt nothrowMove]

/-- The scalar types of the examples. -/
inductive ScalarTy where
  | int : ScalarTy
  | double : ScalarTy
  deriving DecidableEq, Repr

/-- The scalar types: `IsValidConversion<T, U>` is list-initialization
`U{std::forward<T>(x)}`, which rejects the narrowing conversions between `int`
and `double`; implicitly each converts to itself by an exact match and to the
other by a conversion; neither is an in-place marker or the variant. -/
def scalarConversions : Conversions ScalarTy where
  IsValidConversion T U := decide (T = U)
  rank T U := if T = U then some 0 else some 2
  isInPlace _ := false
  isVariant _ := false
  isConstructible _ _ := true

/-- A `Variant<int, double>` holding the `int` given. -/
def holdsInt (n : Int) : Variant Lit := { val := some (0, .int n), ind := 0, destroyed := [] }

/-- A `Variant<int, double>` holding the `double` given. -/
def holdsDouble (n : Int) : Variant Lit := { val := some (1, .dbl n), ind := 1, destroyed := [] }

/-! ## Access by type, `GetIf` -/

/-- `details::OccurrencesCount<T, Ts...>::value`. -/
def OccurrencesCount {Ty : Type} [DecidableEq Ty] (T : Ty) : List Ty → Nat
  | [] => 0
  | U :: Ts => (if T = U then 1 else 0) + OccurrencesCount T Ts

/-- `details::kOccursOnlyOnceValue<T, Ts...>`. -/
def kOccursOnlyOnceValue {Ty : Type} [DecidableEq Ty] (T : Ty) (Ts : List Ty) : Bool :=
  OccurrencesCount T Ts == 1

/-- `details::FindInPack<T, N, Ts...>::value`: the position of the first `T`,
counted from `N`; `size_t(-1)` when there is none. -/
def FindInPack {Ty : Type} [DecidableEq Ty] (T : Ty) : Nat → List Ty → Nat
  | _, [] => 2 ^ 64 - 1
  | N, U :: Ts => if T = U then N else FindInPack T (N + 1) Ts

/-- `details::kFindInPackValue<T, Ts...>`. -/
def kFindInPackValue {Ty : Type} [DecidableEq Ty] (T : Ty) (Ts : List Ty) : Nat :=
  FindInPack T 0 Ts

/-- The member functions of `Variant` that take no argument and return a
`size_t`, by name: `Index` is the only one.  A call `v.name()` in the body of
a function template is looked up when the template is instantiated; for any
other name the instantiation is ill-formed (`none`). -/
def Variant.sizeMember (name : String) : Option (Variant V → Nat) :=
  if name = "Index" then some Variant.Index else none

/-- `MegaUnion::Get(InPlaceIndex<N>)`: the member of layer `N`; reading it
while it is not live is undefined. -/
def MegaUnion.Get (N : Nat) (v : Variant V) : Res Unit V :=
  match v.val with
  | some (M, x) => if M = N then .ok x () else .ub
  | none => .ub

/-- The accessors of `MegaUnion` taking an `InPlaceIndex`, by name: `Get` is
the only one. -/
def MegaUnion.accessMember (name : String) : Option (Nat → Variant V → Res Unit V) :=
  if name = "Get" then some MegaUnion.Get else none

/-- `kHoldsAlternative<T>(v)`: `v.index() == details::kFindInPackValue<T, Ts...>`,
constrained by `kOccursOnlyOnceValue<T, Ts...>`.  `none` when the call is
ill-formed. -/
def kHoldsAlternative {Ty : Type} [DecidableEq Ty] (Ts : List Ty) (T : Ty) (v : Variant V) :
    Option Bool :=
  if kOccursOnlyOnceValue T Ts then
    (Variant.sizeMember "index").map fun index => index v == kFindInPackValue T Ts
  else none

/-- `Get<T>(Variant<Ts...>&)`; the overloads taking `Variant&&` forward to it.
`none` when the call is ill-formed. -/
def GetByType {Ty : Type} [DecidableEq Ty] (Ts : List Ty) (T : Ty) (v : Variant V) :
    Option (Res Unit V) :=
  match kHoldsAlternative Ts T v, MegaUnion.accessMember "Get" with
  | some holds, some get =>
    some (if holds then get (kFindInPackValue T Ts) v else .throw .BadVariantAccess ())
  | _, _ => none

/-- `Get<T>(const Variant<Ts...>&)`, which reads the member through
`v.val.get(...)`. -/
def GetByTypeConst {Ty : Type} [DecidableEq Ty] (Ts : List Ty) (T : Ty) (v : Variant V) :
    Option (Res Unit V) :=
  match kHoldsAlternative Ts T v, MegaUnion.accessMember "get" with
  | some holds, some get =>
    some (if holds then get (kFindInPackValue T Ts) v else .throw .BadVariantAccess ())
  | _, _ => none

/-- `GetIf<N>(Variant<Ts...>* pv) noexcept`; `none` is the null pointer, both
as argument and as result, and `some x` a pointer to the member with value
`x`. -/
def GetIf (N : Nat) (pv : Option (Variant V)) : Res Unit (Option V) :=
  noexceptIf true <|
    match pv with
    | none => .ok none ()
    | some v =>
      if N = v.Index then
        match Get N v with
        | .ok x _ => .ok (some x) ()
        | .throw e _ => .throw e ()
        | .terminate => .terminate
        | .ub => .ub
      else .ok none ()

/-- `GetIf<N>(const Variant<Ts...>* pv) noexcept`, which compares `N` with
`pv->index()` and reads `pv->val` directly.  `none` when the instantiation is
ill-formed. -/
def GetIfConst (N : Nat) (pv : Option (Variant V)) : Option (Res Unit (Option V)) :=
  match (Variant.sizeMember "index" : Option (Variant V → Nat)) with
  | none => none
  | some index =>
    some <| noexceptIf true <|
      match pv with
      | none => .ok none ()
      | some v =>
        if N = index v then
          match MegaUnion.Get N v with
          | .ok x _ => .ok (some x) ()
          | .throw e _ => .throw e ()
          | .terminate => .terminate
          | .ub => .ub
        else .ok none ()

/-- `GetIf<T>(Variant<Ts...>* pv)`: `GetIf<N>(pv)` for `N = kFindInPackValue<T, Ts...>`. -/
def GetIfByType {Ty : Type} [DecidableEq Ty] (Ts : List Ty) (T : Ty) (pv : Option (Variant V)) :
    Res Unit (Option V) :=
  GetIf (kFindInPackValue T Ts) pv

/-- `GetIf<T>(const Variant<Ts...>* pv)`. -/
def GetIfByTypeConst {Ty : Type} [DecidableEq Ty] (Ts : List Ty) (T : Ty)
    (pv : Option (Variant V)) : Option (Res Unit (Option V)) :=
  GetIfConst (kFindInPackValue T Ts) pv

/-! ## `Visit` -/

/-- What `Visit` does that a caller can observe besides its result. -/
inductive VisitEvent (V : Type) where
  /-- The dispatch table was indexed with these indices. -/
  | lookup (inds : List Nat) : VisitEvent V
  /-- The callable was invoked with these arguments. -/
  | call (args : List V) : VisitEvent V
  deriving DecidableEq, Repr

/-- A callable passed to `Visit`: it receives the active values and returns
or throws. -/
abbrev Visitor (V R : Type) : Type := List V → Except Exc R

/-- The pack expansion `Get<Inds>(std::forward<Vs>(vs))...`. -/
def getPack : List Nat → List (Variant V) → Res Unit (List V)
  | N :: Inds, v :: vs =>
    match Get N v with
    | .ok x _ =>
      match getPack Inds vs with
      | .ok xs _ => .ok (x :: xs) ()
      | .throw e _ => .throw e ()
      | .terminate => .terminate
      | .ub => .ub
    | .throw e _ => .throw e ()
    | .terminate => .terminate
    | .ub => .ub
  | _, _ => .ok [] ()

/-- The closure `GenFmatrixImpl<F, Vs...>(std::index_sequence<Inds...>)` returns:
`[](F f, Vs... vs) { return std::invoke(f, Get<Inds>(vs)...); }`.  The state is
the list of events so far. -/
def fmatrixEntry {R : Type} (Inds : List Nat) (f : Visitor V R) (vs : List (Variant V))
    (events : List (VisitEvent V)) : Res (List (VisitEvent V)) R :=
  match getPack Inds vs with
  | .ok args _ =>
    match f args with
    | .ok r => .ok r (events ++ [.call args])
    | .error e => .throw e (events ++ [.call args])
  | .throw e _ => .throw e events
  | .terminate => .terminate
  | .ub => .ub

/-- A `std::array` of `std::array`s ... of closures, as `MakeArray` nests them. -/
inductive Fmatrix (β : Type) where
  | entry (closure : β) : Fmatrix β
  | row (cells : List (Fmatrix β)) : Fmatrix β

/-- `details::GenFmatrixImpl<F, Vs...>(std::index_sequence<FixedInds...>,
std::index_sequence<NextInds...>, rInds...)`, the remaining index sequences
given by their lengths: one cell for every next index. -/
def GenFmatrixImpl {R : Type} (FixedInds : List Nat) :
    List Nat → Fmatrix (Visitor V R → List (Variant V) → List (VisitEvent V) →
      Res (List (VisitEvent V)) R)
  | [] => .entry (fmatrixEntry FixedInds)
  | N :: Rest =>
    .row ((List.range N).map fun NextInd => GenFmatrixImpl (FixedInds ++ [NextInd]) Rest)

/-- `details::GenFmatrix<F, Vs...>()` for variants with `Ns` alternatives. -/
def GenFmatrix {R : Type} (Ns : List Nat) :
    Fmatrix (Visitor V R → List (Variant V) → List (VisitEvent V) →
      Res (List (VisitEvent V)) R) :=
  GenFmatrixImpl [] Ns

/-- `details::AtImpl(matrix, i, inds...)`: `matrix[i]` and on; `none` when an
index is past the end of its array. -/
def AtImpl {β : Type} : Fmatrix β → List Nat → Option (Fmatrix β)
  | m, [] => some m
  | .row cells, i :: inds =>
    match cells[i]? with
    | some m => AtImpl m inds
    | none => none
  | .entry _, _ :: _ => none

/-- `Visit(vis, variants...)` over variants with `Ns` alternatives. -/
def Visit {R : Type} (Ns : List Nat) (vis : Visitor V R) (variants : List (Variant V)) :
    Res (List (VisitEvent V)) R :=
  if variants.any fun v => v.ValuelessByException then .throw .BadVariantAccess []
  else
    match AtImpl (GenFmatrix Ns) (variants.map Variant.Index) with
    | some (.entry closure) => closure vis variants [.lookup (variants.map Variant.Index)]
    | _ => .ub

/-- A class alternative with user-provided special members none of which
throws; moving leaves the source as object `0`. -/
def recordAlt : Alt Lit Lit where
  defaultCtor := .ok (.obj 0)
  construct t := .ok (.obj t.num.toNat)
  copyCtor x := .ok x
  moveCtor x := (.ok x, .obj 0)
  assign _ t := (none, .obj t.num.toNat)
  copyAssign _ y := (none, y)
  moveAssign _ y := (none, y, .obj 0)
  swap x y := (none, y, x)
  eq x y := x.num == y.num
  lt x y := decide (x.num < y.num)
  nothrowDefaultConstructible := true
  nothrowConstructible _ := true
  nothrowConvertibleTo _ := false
  nothrowAssignable _ := true
  nothrowCopyConstructible := true
  nothrowMoveConstructible := true
  nothrowMoveAssignable := true
  triviallyCopyConstructible := false
  triviallyMoveConstructible := false
  triviallyCopyAssignable := false
  triviallyMoveAssignable := false
  triviallyDestructible := false

/-- The alternatives of `Variant<int, R>` for the class `R` of `recordAlt`. -/
def intRecord : List (Alt Lit Lit) := [scalarAlt .int, recordAlt]

/-- A variant holding the object given at position 1. -/
def holdsObj (n : Nat) : Variant Lit := { val := some (1, .obj n), ind := 1, destroyed := [] }

/-- A callable for the examples: the sum of the numbers it is given. -/
def sumVisitor : Visitor Lit Int := fun args => .ok (args.map Lit.num).sum

/-- The alternative's copy, move and swap neither throw nor change the value
they transfer. -/
structure Alt.Regular (T : Alt V A) : Prop where
  copyCtor : ∀ y, T.copyCtor y = .ok y
  moveCtor : ∀ y, (T.moveCtor y).1 = .ok y
  copyAssign : ∀ x y, T.copyAssign x y = (none, y)
  moveAssign : ∀ x y, (T.moveAssign x y).1 = none ∧ (T.moveAssign x y).2.1 = y
  swap : ∀ x y, T.swap x y = (none, y, x)

/-! ## Comparison operators -/

/-- `details::GenFmatrixIndexImpl<F>(std::index_sequence<FixedInds...>,
std::index_sequence<NextInds...>, rInds...)` for any number of variants, the
remaining index sequences given by their lengths; the innermost closure is
`[](F f) { return std::invoke(f, std::integral_constant<size_t, Inds>()...); }`. -/
def GenFmatrixIndexImpl {β : Type} (FixedInds : List Nat) :
    List Nat → Fmatrix ((List Nat → β) → β)
  | [] => .entry fun f => f FixedInds
  | N :: Rest =>
    .row ((List.range N).map fun NextInd => GenFmatrixIndexImpl (FixedInds ++ [NextInd]) Rest)

/-- `details::VisitIndex(vis, variants...)` for several variants with `Ns`
alternatives: `at(kFmatrixIndex<F, Vs...>, variants.Index()...)(vis)`. -/
def VisitIndexPack {σ α : Type} (Ns : List Nat) (vis : List Nat → Res σ α)
    (indices : List Nat) : Res σ α :=
  match AtImpl (GenFmatrixIndexImpl [] Ns) indices with
  | some (.entry closure) => closure vis
  | _ => .ub

/-- The visitor of `operator==`:
`[&v, &w](auto ind_) -> bool { return Get<ind_()>(v) == Get<ind_()>(w); }`. -/
def Variant.eqVisitor (alts : List (Alt V A)) (v w : Variant V) (ind_ : Nat) : Res Unit Bool :=
  match alts[ind_]?, Get ind_ v, Get ind_ w with
  | some T, .ok x _, .ok y _ => .ok (T.eq x y) ()
  | _, .throw e _, _ => .throw e ()
  | _, .ok _ _, .throw e _ => .throw e ()
  | _, .terminate, _ => .terminate
  | _, .ok _ _, .terminate => .terminate
  | _, _, _ => .ub

/-- `operator==(const Variant<Ts...>& v, const Variant<Ts...>& w) noexcept`. -/
def Variant.operatorEq (alts : List (Alt V A)) (v w : Variant V) : Res Unit Bool :=
  noexceptIf true <|
    if v.Index ≠ w.Index then .ok false ()
    else if v.ValuelessByException then .ok true ()
    else VisitIndex alts.length (Variant.eqVisitor alts v w) v.Index

/-- `operator!=(v, w) noexcept`: `!(v == w)`. -/
def Variant.operatorNe (alts : List (Alt V A)) (v w : Variant V) : Res Unit Bool :=
  noexceptIf true <|
    match Variant.operatorEq alts v w with
    | .ok b _ => .ok (!b) ()
    | .throw e _ => .throw e ()
    | .terminate => .terminate
    | .ub => .ub

/-- The visitor of `operator<`: `true` for `ind1() < ind2()`, `false` for
`ind1() > ind2()`, else `Get<ind1()>(v) < Get<ind1()>(w)`. -/
def Variant.ltVisitor (alts : List (Alt V A)) (v w : Variant V) : List Nat → Res Unit Bool
  | [ind1, ind2] =>
    if ind1 < ind2 then .ok true ()
    else if ind1 > ind2 then .ok false ()
    else
      match alts[ind1]?, Get ind1 v, Get ind1 w with
      | some T, .ok x _, .ok y _ => .ok (T.lt x y) ()
      | _, .throw e _, _ => .throw e ()
      | _, .ok _ _, .throw e _ => .throw e ()
      | _, .terminate, _ => .terminate
      | _, .ok _ _, .terminate => .terminate
      | _, _, _ => .ub
  | _ => .ub

/-- `operator<(const Variant<Ts...>& v, const Variant<Ts...>& w) noexcept`. -/
def Variant.operatorLt (alts : List (Alt V A)) (v w : Variant V) : Res Unit Bool :=
  noexceptIf true <|
    if w.ValuelessByException then .ok false ()
    else if v.ValuelessByException then .ok true ()
    else
      VisitIndexPack [alts.length, alts.length] (Variant.ltVisitor alts v w) [v.Index, w.Index]

/-- The operator `!` applied to what a comparison returned. -/
def Res.negate : Res Unit Bool → Res Unit Bool
  | .ok b _ => .ok (!b) ()
  | r => r

/-- `operator>(v, w) noexcept`: `w < v`. -/
def Variant.operatorGt (alts : List (Alt V A)) (v w : Variant V) : Res Unit Bool :=
  noexceptIf true (Variant.operatorLt alts w v)

/-- `operator<=(v, w) noexcept`: `!(v > w)`. -/
def Variant.operatorLe (alts : List (Alt V A)) (v w : Variant V) : Res Unit Bool :=
  noexceptIf true (Variant.operatorGt alts v w).negate

/-- `operator>=(v, w) noexcept`: `!(v < w)`. -/
def Variant.operatorGe (alts : List (Alt V A)) (v w : Variant V) : Res Unit Bool :=
  noexceptIf true (Variant.operatorLt alts v w).negate

/-- The alternative's `<` is a strict total order consistent with its `==`:
irreflexive, transitive, and two values are `==` exactly when neither is less
than the other. -/
structure Alt.StrictTotalOrder (T : Alt V A) : Prop where
  irrefl : ∀ x, T.lt x x = false
  trans : ∀ x y z, T.lt x y = true → T.lt y z = true → T.lt x z = true
  eq_iff : ∀ x y, T.eq x y = true ↔ (T.lt x y = false ∧ T.lt y x = false)

/-! ## Source types of the converting overloads -/

/-- Reference qualifier of a type. -/
inductive RefQual where
  | none : RefQual
  | lvalue : RefQual
  | rvalue : RefQual
  deriving DecidableEq, Repr

/-- Object types without qualifiers, as far as the constraints tell them
apart: the in-place markers, the `Variant<Ts...>` whose overloads are being
considered, and any other type, named by `U`. -/
inductive BaseTy (U : Type) where
  | InPlaceType (T : U) : BaseTy U
  | InPlaceIndex (I : Nat) : BaseTy U
  | Variant : BaseTy U
  | other (T : U) : BaseTy U
  deriving DecidableEq, Repr

/-- A type with its cv-qualifiers and its reference qualifier: what the
template parameter `T` of a forwarding reference `T&&` is deduced as. -/
structure CvRefTy (U : Type) where
  base : BaseTy U
  isConst : Bool
  isVolatile : Bool
  ref : RefQual
  deriving DecidableEq, Repr

/-- The type without qualifiers. -/
def CvRefTy.plain {U : Type} (base : BaseTy U) : CvRefTy U :=
  { base := base, isConst := false, isVolatile := false, ref := .none }

/-- `std::remove_cvref_t<T>`. -/
def remove_cvref_t {U : Type} (T : CvRefTy U) : CvRefTy U := CvRefTy.plain T.base

/-- `std::is_same_v<T, U>`. -/
def is_same_v {U : Type} [DecidableEq U] (T T1 : CvRefTy U) : Bool := decide (T = T1)

/-- `details::IsInPlaceType<T>::value`: `false` in the primary template, `true`
in the partial specializations for `InPlaceType<U>` and `InPlaceIndex<N>`,
which match these types only without qualifiers. -/
def IsInPlaceType {U : Type} (T : CvRefTy U) : Bool :=
  match T with
  | ⟨.InPlaceType _, false, false, .none⟩ => true
  | ⟨.InPlaceIndex _, false, false, .none⟩ => true
  | _ => false

/-- `details::kIsInPlaceTypeValue<T>`. -/
def kIsInPlaceTypeValue {U : Type} (T : CvRefTy U) : Bool := IsInPlaceType T

/-- What the compiler knows when the source type `T` carries qualifiers: the
two conjuncts of `IsConvertibleToChosenTypeVariant` about markers and about
the variant itself are as the concept writes them,
`!kIsInPlaceTypeValue<std::remove_cvref_t<T>>` and `!std::is_same_v<T, Variant>`;
the conversions between the types are parameters. -/
def sourceConversions {U : Type} [DecidableEq U]
    (IsValidConversion : CvRefTy U → CvRefTy U → Bool)
    (rank : CvRefTy U → CvRefTy U → Option Nat)
    (isConstructible : CvRefTy U → CvRefTy U → Bool) : Conversions (CvRefTy U) where
  IsValidConversion := IsValidConversion
  rank := rank
  isInPlace T := kIsInPlaceTypeValue (remove_cvref_t T)
  isVariant T := is_same_v T (CvRefTy.plain .Variant)
  isConstructible := isConstructible

/-- Names of the alternative types of `Variant<int, Any>`, where `Any` is a
class with a constructor template `template <typename T> Any(T&&)`. -/
inductive AnyTy where
  | int : AnyTy
  | Any : AnyTy
  deriving DecidableEq, Repr

/-- The conversions around `Variant<int, Any>`: everything converts to `Any`
through its constructor template (a user-defined conversion); `int` is
initialized from `int` only. -/
def anyConversions : Conversions (CvRefTy AnyTy) :=
  sourceConversions
    (fun T U => decide (U.base = .other .Any) || decide (T.base = .other .int ∧ U.base = .other .int))
    (fun T U =>
      if U.base = .other .Any then some 3
      else if T.base = .other .int ∧ U.base = .other .int then some 0 else none)
    (fun U T => decide (U.base = .other .Any) || decide (T.base = .other .int ∧ U.base = .other .int))

/-- The alternative list of `Variant<int, Any>`. -/
def intAny : List (CvRefTy AnyTy) := [CvRefTy.plain (.other .int), CvRefTy.plain (.other .Any)]

/-- `Variant<int, Any>&`: what `T` is deduced as for an lvalue source. -/
def variantLvalue : CvRefTy AnyTy :=
  { base := .Variant, isConst := false, isVolatile := false, ref := .lvalue }

end cpp.variant

/-! # Optional: a value that may be absent

Shallow embedding of `src/optional/optional.h` for a trivially copyable `T`
(`bool`, `int`, `std::array<int, N>` in `src/optional/main.cpp`): the special
members of the union `OptionalValue<T>` are then the implicit trivial ones,
which copy the active member.
-/

namespace cpp.optional

variable {T : Type}

/-- `details::OptionalValue<T>`, the union of `dummy_` and `value_`, given by
its active member. -/
inductive OptionalValue (T : Type) where
  | dummy_ : OptionalValue T
  | value_ (value : T) : OptionalValue T
  deriving DecidableEq, Repr

/-- `Optional<T>` with the members of its base `details::Base`. -/
structure Optional (T : Type) where
  is_present_ : Bool
  optional_value_ : OptionalValue T
  deriving DecidableEq, Repr

/-- `Optional()`, over `Base()`: `is_present_(false), optional_value_()`, where
`OptionalValue()` activates `dummy_`. -/
def Optional.default : Optional T := { is_present_ := false, optional_value_ := .dummy_ }

/-- `Optional(nullopt_t)`, over `Base(nullopt_t)`. -/
def Optional.ofNullopt : Optional T := { is_present_ := false, optional_value_ := .dummy_ }

/-- `Optional(const T& value)` and `Optional(T&& value)`:
`is_present_(true), optional_value_(value)`, where `OptionalValue(const T&)`
activates `value_`. -/
def Optional.ofValue (value : T) : Optional T :=
  { is_present_ := true, optional_value_ := .value_ value }

/-- `Optional::operator bool()`: `is_present_`. -/
def Optional.operatorBool (o : Optional T) : Bool := o.is_present_

/-- `Optional::operator*()`: `optional_value_.value_`, without a check; reading
`value_` while `dummy_` is the active member is undefined (`none`). -/
def Optional.operatorStar (o : Optional T) : Option T :=
  match o.optional_value_ with
  | .value_ value => some value
  | .dummy_ => none

/-- `std::swap(a, b)` for a trivially copyable type:
`T tmp(std::move(a)); a = std::move(b); b = std::move(tmp);`. -/
def stdSwap {α : Type} (a b : α) : α × α :=
  let tmp := a
  let a := b
  let b := tmp
  (a, b)

/-- `Optional::Swap(Optional& other)`: `swap(optional_value_, other.optional_value_)`
then `swap(is_present_, other.is_present_)`, both `std::swap`. -/
def Optional.Swap (this other : Optional T) : Optional T × Optional T :=
  let values := stdSwap this.optional_value_ other.optional_value_
  let flags := stdSwap this.is_present_ other.is_present_
  ({ is_present_ := flags.1, optional_value_ := values.1 },
   { is_present_ := flags.2, optional_value_ := values.2 })

/-- The free function `swap(Optional<T>& a, Optional<T>& b)`: `a.Swap(b)`. -/
def swap (a b : Optional T) : Optional T × Optional T := a.Swap b

/-- The class invariant: `value_` is the active member exactly when
`is_present_` is set. -/
def Optional.WF (o : Optional T) : Prop :=
  o.is_present_ = true ↔ ∃ value, o.optional_value_ = .value_ value

end cpp.optional

/-! # SharedPointer and WeakPointer

Shallow embedding of `src/shared_ptr/shared_ptr.h`.

* Control blocks live in a `Heap`, a pointer to one is its address; a deleted
  block stays deleted, and reaching through a pointer to it is undefined.
* The counters are `size_t`: arithmetic is modulo `2 ^ 64`.
* `assert` is active: a failed `CheckInvariant` aborts the program.
* Allocation succeeds; the managed objects are named by numbers and the calls
  of `DestructData` are logged.
-/

namespace cpp.pointer

/-- Outcome of an operation: it returns, an `assert` fails, or its behaviour
is undefined (null or dangling pointer dereferenced, object used outside its
lifetime). -/
inductive Outcome (α : Type) where
  | ok (a : α) : Outcome α
  | assertFailed : Outcome α
  | ub : Outcome α
  deriving DecidableEq, Repr

/-- Sequencing: the rest runs when the first part returned. -/
def Outcome.bind {α β : Type} : Outcome α → (α → Outcome β) → Outcome β
  | .ok a, f => f a
  | .assertFailed, _ => .assertFailed
  | .ub, _ => .ub

/-- `details::ControlBlock<T>` with the data member of its two final classes:
`inplace` tells `InplaceControlBlock` from `PointerControlBlock`, `data_` is
the managed object. -/
structure ControlBlock where
  strong_ptr_count_ : Nat
  ptr_count_ : Nat
  data_is_deleted_ : Bool
  inplace : Bool
  data_ : Option Nat
  deriving DecidableEq, Repr

/-- `ControlBlock::CheckInvariant()`: `assert(strong_ptr_count_ <= ptr_count_)`. -/
def ControlBlock.CheckInvariant (cb : ControlBlock) : Outcome Unit :=
  if cb.strong_ptr_count_ ≤ cb.ptr_count_ then .ok () else .assertFailed

/-- `ControlBlock::AddStrongPointer()`. -/
def ControlBlock.AddStrongPointer (cb : ControlBlock) : Outcome ControlBlock :=
  cb.CheckInvariant.bind fun _ =>
    .ok { cb with
      strong_ptr_count_ := (cb.strong_ptr_count_ + 1) % 2 ^ 64
      ptr_count_ := (cb.ptr_count_ + 1) % 2 ^ 64 }

/-- `ControlBlock::DataMustBeDeleted()`: `!data_is_deleted_ && !strong_ptr_count_`. -/
def ControlBlock.DataMustBeDeleted (cb : ControlBlock) : Bool :=
  !cb.data_is_deleted_ && cb.strong_ptr_count_ == 0

/-- `ControlBlock::DeleteData()`: sets `data_is_deleted_` and calls the virtual
`DestructData()`, which runs the deleter on `data_` (`PointerControlBlock`) or
the destructor of the object in place (`InplaceControlBlock`).  Returns the
block and the object destructed. -/
def ControlBlock.DeleteData (cb : ControlBlock) : ControlBlock × List (Option Nat) :=
  ({ cb with data_is_deleted_ := true }, [cb.data_])

/-- `ControlBlock::RemoveStrongPointer()`. -/
def ControlBlock.RemoveStrongPointer (cb : ControlBlock) :
    Outcome (ControlBlock × List (Option Nat)) :=
  cb.CheckInvariant.bind fun _ =>
    let cb1 := { cb with
      strong_ptr_count_ := (cb.strong_ptr_count_ + (2 ^ 64 - 1)) % 2 ^ 64
      ptr_count_ := (cb.ptr_count_ + (2 ^ 64 - 1)) % 2 ^ 64 }
    .ok (if cb1.DataMustBeDeleted then cb1.DeleteData else (cb1, []))

/-- `ControlBlock::AddWeakPointer()`: the increment, then the check. -/
def ControlBlock.AddWeakPointer (cb : ControlBlock) : Outcome ControlBlock :=
  let cb1 := { cb with ptr_count_ := (cb.ptr_count_ + 1) % 2 ^ 64 }
  cb1.CheckInvariant.bind fun _ => .ok cb1

/-- `ControlBlock::RemoveWeakPointer()`: the decrement, then the check. -/
def ControlBlock.RemoveWeakPointer (cb : ControlBlock) : Outcome ControlBlock :=
  let cb1 := { cb with ptr_count_ := (cb.ptr_count_ + (2 ^ 64 - 1)) % 2 ^ 64 }
  cb1.CheckInvariant.bind fun _ => .ok cb1

/-- `ControlBlock::ControlBlockMustBeDeleted()`: `!ptr_count_`. -/
def ControlBlock.ControlBlockMustBeDeleted (cb : ControlBlock) : Bool := cb.ptr_count_ == 0

/-- `GetPointer()` of both final classes: the address of the managed object. -/
def ControlBlock.GetPointer (cb : ControlBlock) : Option Nat := cb.data_

/-- The free store: the control blocks by address (`none` once deleted) and the
objects `DestructData` was called on, oldest first. -/
structure Heap where
  blocks : List (Option ControlBlock)
  destructed : List (Option Nat)
  deriving DecidableEq, Repr

/-- Reaching a control block through a pointer to it. -/
def Heap.read (h : Heap) (c : Nat) : Outcome ControlBlock :=
  match h.blocks[c]? with
  | some (some cb) => .ok cb
  | _ => .ub

/-- Storing the members of the control block at `c`. -/
def Heap.write (h : Heap) (c : Nat) (cb : ControlBlock) : Heap :=
  { h with blocks := h.blocks.set c (some cb) }

/-- The expression `new` for a control block: a fresh address. -/
def Heap.new (h : Heap) (cb : ControlBlock) : Heap × Nat :=
  ({ h with blocks := h.blocks ++ [some cb] }, h.blocks.length)

/-- The expression `delete control_block_`: the destructor of the final class
calls `DestructData()` unless `data_is_deleted_`, then the storage is released. -/
def Heap.delete (h : Heap) (c : Nat) : Outcome Heap :=
  (h.read c).bind fun cb =>
    .ok { blocks := h.blocks.set c none
          destructed := h.destructed ++ (if cb.data_is_deleted_ then [] else [cb.data_]) }

/-- The statement `control_block_->AddStrongPointer()`. -/
def Heap.AddStrongPointer (h : Heap) (c : Nat) : Outcome Heap :=
  (h.read c).bind fun cb => cb.AddStrongPointer.bind fun cb1 => .ok (h.write c cb1)

/-- The statement `control_block_->AddWeakPointer()`. -/
def Heap.AddWeakPointer (h : Heap) (c : Nat) : Outcome Heap :=
  (h.read c).bind fun cb => cb.AddWeakPointer.bind fun cb1 => .ok (h.write c cb1)

/-- The tail of both destructors:
`if (control_block_->ControlBlockMustBeDeleted()) delete control_block_;`. -/
def Heap.deleteIfUnused (h : Heap) (c : Nat) : Outcome Heap :=
  (h.read c).bind fun cb => if cb.ControlBlockMustBeDeleted then h.delete c else .ok h

/-- `SharedPointer<T>`. -/
structure SharedPointer where
  control_block_ : Option Nat
  pointer_ : Option Nat
  deriving DecidableEq, Repr

/-- `WeakPointer<T>`. -/
structure WeakPointer where
  control_block_ : Option Nat
  deriving DecidableEq, Repr

/-- `SharedPointer()`: both members null. -/
def SharedPointer.default : SharedPointer := { control_block_ := none, pointer_ := none }

/-- The private `SharedPointer(ControlBlock* control_block, T* data)`. -/
def SharedPointer.ofControlBlock (h : Heap) (control_block data : Option Nat) :
    Outcome (Heap × SharedPointer) :=
  match control_block with
  | none => .ok (h, { control_block_ := none, pointer_ := data })
  | some c =>
    (h.AddStrongPointer c).bind fun h1 =>
      .ok (h1, { control_block_ := some c, pointer_ := data })

/-- `SharedPointer(_T* data, Deleter&& deleter = Deleter())`: a new
`PointerControlBlock` for `data`, then `AddStrongPointer()`. -/
def SharedPointer.ofRaw (h : Heap) (data : Option Nat) : Outcome (Heap × SharedPointer) :=
  let r := h.new { strong_ptr_count_ := 0, ptr_count_ := 0, data_is_deleted_ := false,
                   inplace := false, data_ := data }
  (r.1.AddStrongPointer r.2).bind fun h1 =>
    .ok (h1, { control_block_ := some r.2, pointer_ := data })

/-- `MakeShared<T>(args...)`: a new `InplaceControlBlock` holding the object
`obj` constructed from the arguments, then
`SharedPointer<T>(control_block, control_block->GetPointer())`. -/
def MakeShared (h : Heap) (obj : Nat) : Outcome (Heap × SharedPointer) :=
  let r := h.new { strong_ptr_count_ := 0, ptr_count_ := 0, data_is_deleted_ := false,
                   inplace := true, data_ := some obj }
  (r.1.read r.2).bind fun cb => SharedPointer.ofControlBlock r.1 (some r.2) cb.GetPointer

/-- `SharedPointer(const SharedPointer& other)`. -/
def SharedPointer.copyCtor (h : Heap) (other : SharedPointer) :
    Outcome (Heap × SharedPointer) :=
  match other.control_block_ with
  | none => .ok (h, { control_block_ := none, pointer_ := other.pointer_ })
  | some c =>
    (h.AddStrongPointer c).bind fun h1 =>
      .ok (h1, { control_block_ := some c, pointer_ := other.pointer_ })

/-- `SharedPointer(SharedPointer&& other)`: the new pointer and what is left
of `other`. -/
def SharedPointer.moveCtor (other : SharedPointer) : SharedPointer × SharedPointer :=
  ({ control_block_ := other.control_block_, pointer_ := other.pointer_ },
   { control_block_ := none, pointer_ := none })

/-- `SharedPointer::Swap(SharedPointer& other)`. -/
def SharedPointer.Swap (this other : SharedPointer) : SharedPointer × SharedPointer :=
  ({ control_block_ := other.control_block_, pointer_ := other.pointer_ },
   { control_block_ := this.control_block_, pointer_ := this.pointer_ })

/-- `SharedPointer::~SharedPointer()`. -/
def SharedPointer.destructor (h : Heap) (this : SharedPointer) : Outcome Heap :=
  match this.control_block_ with
  | none => .ok h
  | some c =>
    (h.read c).bind fun cb =>
      cb.RemoveStrongPointer.bind fun r =>
        ({ (h.write c r.1) with destructed := h.destructed ++ r.2 } : Heap).deleteIfUnused c

/-- `SharedPointer::operator=(const SharedPointer& other)`; `self` is
`this == &other`.  Otherwise `SharedPointer(other).Swap(*this)`, and the
temporary is destroyed at the end of the statement. -/
def SharedPointer.copyAssign (h : Heap) (self : Bool) (this other : SharedPointer) :
    Outcome (Heap × SharedPointer) :=
  if self then .ok (h, this)
  else
    (SharedPointer.copyCtor h other).bind fun r =>
      let s := r.2.Swap this
      (SharedPointer.destructor r.1 s.1).bind fun h1 => .ok (h1, s.2)

/-- `SharedPointer::operator=(SharedPointer&& other)`; returns `*this` and
`other`. -/
def SharedPointer.moveAssign (h : Heap) (self : Bool) (this other : SharedPointer) :
    Outcome (Heap × SharedPointer × SharedPointer) :=
  if self then .ok (h, this, other)
  else
    let m := SharedPointer.moveCtor other
    let s := m.1.Swap this
    (SharedPointer.destructor h s.1).bind fun h1 => .ok (h1, s.2, m.2)

/-- `SharedPointer::Reset()`: `SharedPointer().Swap(*this)`. -/
def SharedPointer.Reset (h : Heap) (this : SharedPointer) : Outcome (Heap × SharedPointer) :=
  let s := SharedPointer.default.Swap this
  (SharedPointer.destructor h s.1).bind fun h1 => .ok (h1, s.2)

/-- `SharedPointer::UseCount()`. -/
def SharedPointer.UseCount (h : Heap) (this : SharedPointer) : Outcome Nat :=
  match this.control_block_ with
  | none => .ok 0
  | some c => (h.read c).bind fun cb => .ok cb.strong_ptr_count_

/-- `WeakPointer()`. -/
def WeakPointer.default : WeakPointer := { control_block_ := none }

/-- `WeakPointer(const SharedPointer<T>& shared_pointer)`. -/
def WeakPointer.ofShared (h : Heap) (shared_pointer : SharedPointer) :
    Outcome (Heap × WeakPointer) :=
  match shared_pointer.control_block_ with
  | none => .ok (h, { control_block_ := none })
  | some c => (h.AddWeakPointer c).bind fun h1 => .ok (h1, { control_block_ := some c })

/-- `WeakPointer(const WeakPointer& other)`. -/
def WeakPointer.copyCtor (h : Heap) (other : WeakPointer) : Outcome (Heap × WeakPointer) :=
  match other.control_block_ with
  | none => .ok (h, { control_block_ := none })
  | some c => (h.AddWeakPointer c).bind fun h1 => .ok (h1, { control_block_ := some c })

/-- `WeakPointer(WeakPointer&& other)`: the new pointer and what is left of
`other`. -/
def WeakPointer.moveCtor (other : WeakPointer) : WeakPointer × WeakPointer :=
  ({ control_block_ := other.control_block_ }, { control_block_ := none })

/-- `WeakPointer::Swap(WeakPointer& other)`. -/
def WeakPointer.Swap (this other : WeakPointer) : WeakPointer × WeakPointer :=
  ({ control_block_ := other.control_block_ }, { control_block_ := this.control_block_ })

/-- `WeakPointer::~WeakPointer()`. -/
def WeakPointer.destructor (h : Heap) (this : WeakPointer) : Outcome Heap :=
  match this.control_block_ with
  | none => .ok h
  | some c =>
    (h.read c).bind fun cb =>
      cb.RemoveWeakPointer.bind fun cb1 => (h.write c cb1).deleteIfUnused c

/-- `WeakPointer::operator=(const WeakPointer& other)`; `self` is
`this == &other`. -/
def WeakPointer.copyAssign (h : Heap) (self : Bool) (this other : WeakPointer) :
    Outcome (Heap × WeakPointer) :=
  if self then .ok (h, this)
  else
    (WeakPointer.copyCtor h other).bind fun r =>
      let s := r.2.Swap this
      (WeakPointer.destructor r.1 s.1).bind fun h1 => .ok (h1, s.2)

/-- `WeakPointer::operator=(WeakPointer&& other)`; returns `*this` and `other`. -/
def WeakPointer.moveAssign (h : Heap) (self : Bool) (this other : WeakPointer) :
    Outcome (Heap × WeakPointer × WeakPointer) :=
  if self then .ok (h, this, other)
  else
    let m := WeakPointer.moveCtor other
    let s := m.1.Swap this
    (WeakPointer.destructor h s.1).bind fun h1 => .ok (h1, s.2, m.2)

/-- `WeakPointer::UseCount()`. -/
def WeakPointer.UseCount (h : Heap) (this : WeakPointer) : Outcome Nat :=
  match this.control_block_ with
  | none => .ok 0
  | some c => (h.read c).bind fun cb => .ok cb.strong_ptr_count_

/-- `WeakPointer::IsExpired()`: `control_block_ && !control_block_->strong_ptr_count_`. -/
def WeakPointer.IsExpired (h : Heap) (this : WeakPointer) : Outcome Bool :=
  match this.control_block_ with
  | none => .ok false
  | some c => (h.read c).bind fun cb => .ok (cb.strong_ptr_count_ == 0)

/-- `WeakPointer::Lock()`: `IsExpired() ? SharedPointer<T>() :
SharedPointer<T>(control_block_, control_block_->GetPointer())`; the second
branch calls `GetPointer()` through `control_block_` whatever it is. -/
def WeakPointer.Lock (h : Heap) (this : WeakPointer) : Outcome (Heap × SharedPointer) :=
  (this.IsExpired h).bind fun expired =>
    if expired then .ok (h, SharedPointer.default)
    else
      match this.control_block_ with
      | none => .ub
      | some c =>
        (h.read c).bind fun cb => SharedPointer.ofControlBlock h (some c) cb.GetPointer

/-! ## Programs over shared and weak pointers -/

/-- A program state: the free store and the pointer objects declared so far,
in order of declaration; an object is `none` once destroyed. -/
structure State where
  heap : Heap
  shared : List (Option SharedPointer)
  weak : List (Option WeakPointer)
  deriving DecidableEq, Repr

/-- The state before any declaration. -/
def State.empty : State := { heap := { blocks := [], destructed := [] }, shared := [], weak := [] }

/-- The statements of a program; objects are named by their position of
declaration. -/
inductive Op where
  /-- `SharedPointer<T> p;` -/
  | sharedDefault : Op
  /-- `SharedPointer<T> p{data};` for a raw pointer `data`. -/
  | sharedOfRaw (data : Option Nat) : Op
  /-- `auto p = MakeShared<T>(...);` constructing the object `obj`. -/
  | makeShared (obj : Nat) : Op
  /-- `auto p = shared[j];` -/
  | sharedCopy (j : Nat) : Op
  /-- `auto p = std::move(shared[j]);` -/
  | sharedMove (j : Nat) : Op
  /-- `shared[i] = shared[j];` -/
  | sharedAssign (i j : Nat) : Op
  /-- `shared[i] = std::move(shared[j]);` -/
  | sharedMoveAssign (i j : Nat) : Op
  /-- `shared[i].Swap(shared[j]);` -/
  | sharedSwap (i j : Nat) : Op
  /-- `shared[i].Reset();` -/
  | sharedReset (i : Nat) : Op
  /-- The end of the lifetime of `shared[i]`. -/
  | sharedDestroy (i : Nat) : Op
  /-- `WeakPointer<T> w;` -/
  | weakDefault : Op
  /-- `WeakPointer<T> w(shared[j]);` -/
  | weakOfShared (j : Nat) : Op
  /-- `auto w = weak[j];` -/
  | weakCopy (j : Nat) : Op
  /-- `auto w = std::move(weak[j]);` -/
  | weakMove (j : Nat) : Op
  /-- `weak[i] = weak[j];` -/
  | weakAssign (i j : Nat) : Op
  /-- `weak[i] = std::move(weak[j]);` -/
  | weakMoveAssign (i j : Nat) : Op
  /-- `weak[i].Swap(weak[j]);` -/
  | weakSwap (i j : Nat) : Op
  /-- `auto p = weak[j].Lock();` -/
  | weakLock (j : Nat) : Op
  /-- The end of the lifetime of `weak[i]`. -/
  | weakDestroy (i : Nat) : Op
  deriving DecidableEq, Repr

/-- The object `shared[i]`; naming an object outside its lifetime is undefined. -/
def State.sharedAt (s : State) (i : Nat) : Outcome SharedPointer :=
  match s.shared[i]? with
  | some (some p) => .ok p
  | _ => .ub

/-- The object `weak[i]`. -/
def State.weakAt (s : State) (i : Nat) : Outcome WeakPointer :=
  match s.weak[i]? with
  | some (some w) => .ok w
  | _ => .ub

/-- One statement. -/
def step (s : State) : Op → Outcome State
  | .sharedDefault => .ok { s with shared := s.shared ++ [some SharedPointer.default] }
  | .sharedOfRaw data =>
    (SharedPointer.ofRaw s.heap data).bind fun r =>
      .ok { s with heap := r.1, shared := s.shared ++ [some r.2] }
  | .makeShared obj =>
    (MakeShared s.heap obj).bind fun r =>
      .ok { s with heap := r.1, shared := s.shared ++ [some r.2] }
  | .sharedCopy j =>
    (s.sharedAt j).bind fun other =>
      (SharedPointer.copyCtor s.heap other).bind fun r =>
        .ok { s with heap := r.1, shared := s.shared ++ [some r.2] }
  | .sharedMove j =>
    (s.sharedAt j).bind fun other =>
      let m := SharedPointer.moveCtor other
      .ok { s with shared := s.shared.set j (some m.2) ++ [some m.1] }
  | .sharedAssign i j =>
    (s.sharedAt i).bind fun this =>
      (s.sharedAt j).bind fun other =>
        (SharedPointer.copyAssign s.heap (i == j) this other).bind fun r =>
          .ok { s with heap := r.1, shared := s.shared.set i (some r.2) }
  | .sharedMoveAssign i j =>
    (s.sharedAt i).bind fun this =>
      (s.sharedAt j).bind fun other =>
        (SharedPointer.moveAssign s.heap (i == j) this other).bind fun r =>
          .ok { s with
            heap := r.1, shared := (s.shared.set j (some r.2.2)).set i (some r.2.1) }
  | .sharedSwap i j =>
    (s.sharedAt i).bind fun this =>
      (s.sharedAt j).bind fun other =>
        let r := this.Swap other
        .ok { s with shared := (s.shared.set i (some r.1)).set j (some r.2) }
  | .sharedReset i =>
    (s.sharedAt i).bind fun this =>
      (SharedPointer.Reset s.heap this).bind fun r =>
        .ok { s with heap := r.1, shared := s.shared.set i (some r.2) }
  | .sharedDestroy i =>
    (s.sharedAt i).bind fun this =>
      (SharedPointer.destructor s.heap this).bind fun h =>
        .ok { s with heap := h, shared := s.shared.set i none }
  | .weakDefault => .ok { s with weak := s.weak ++ [some WeakPointer.default] }
  | .weakOfShared j =>
    (s.sharedAt j).bind fun shared_pointer =>
      (WeakPointer.ofShared s.heap shared_pointer).bind fun r =>
        .ok { s with heap := r.1, weak := s.weak ++ [some r.2] }
  | .weakCopy j =>
    (s.weakAt j).bind fun other =>
      (WeakPointer.copyCtor s.heap other).bind fun r =>
        .ok { s with heap := r.1, weak := s.weak ++ [some r.2] }
  | .weakMove j =>
    (s.weakAt j).bind fun other =>
      let m := WeakPointer.moveCtor other
      .ok { s with weak := s.weak.set j (some m.2) ++ [some m.1] }
  | .weakAssign i j =>
    (s.weakAt i).bind fun this =>
      (s.weakAt j).bind fun other =>
        (WeakPointer.copyAssign s.heap (i == j) this other).bind fun r =>
          .ok { s with heap := r.1, weak := s.weak.set i (some r.2) }
  | .weakMoveAssign i j =>
    (s.weakAt i).bind fun this =>
      (s.weakAt j).bind fun other =>
        (WeakPointer.moveAssign s.heap (i == j) this other).bind fun r =>
          .ok { s with heap := r.1, weak := (s.weak.set j (some r.2.2)).set i (some r.2.1) }
  | .weakSwap i j =>
    (s.weakAt i).bind fun this =>
      (s.weakAt j).bind fun other =>
        let r := this.Swap other
        .ok { s with weak := (s.weak.set i (some r.1)).set j (some r.2) }
  | .weakLock j =>
    (s.weakAt j).bind fun this =>
      (this.Lock s.heap).bind fun r =>
        .ok { s with heap := r.1, shared := s.shared ++ [some r.2] }
  | .weakDestroy i =>
    (s.weakAt i).bind fun this =>
      (WeakPointer.destructor s.heap this).bind fun h =>
        .ok { s with heap := h, weak := s.weak.set i none }

/-- A program: its statements in order. -/
def run : List Op → State → Outcome State
  | [], s => .ok s
  | op :: ops, s => (step s op).bind (run ops)

/-- Whether the object, if alive, holds a pointer to the control block `c`. -/
def sharesBlock (c : Nat) : Option SharedPointer → Bool
  | some p => p.control_block_ == some c
  | none => false

/-- Whether the weak pointer, if alive, holds a pointer to the control block `c`. -/
def observesBlock (c : Nat) : Option WeakPointer → Bool
  | some w => w.control_block_ == some c
  | none => false

/-- The number of live `SharedPointer` objects sharing the control block `c`. -/
def State.sharers (s : State) (c : Nat) : Nat := s.shared.countP (sharesBlock c)

/-- The number of live `WeakPointer` objects on the control block `c`. -/
def State.observers (s : State) (c : Nat) : Nat := s.weak.countP (observesBlock c)

/-- The counters of every live control block agree with `strong` and `weak`,
the numbers of pointers of each kind on it, and no pointer is on an address
without a live block. -/
def Heap.Counts (h : Heap) (strong weak : Nat → Nat) : Prop :=
  ∀ c,
    match h.blocks[c]? with
    | some (some cb) =>
      cb.strong_ptr_count_ = strong c ∧ cb.ptr_count_ = strong c + weak c
    | _ => strong c = 0 ∧ weak c = 0

/-- The invariant of a program state. -/
def State.Inv (s : State) : Prop := s.heap.Counts s.sharers s.observers

/-- The statement names objects within their lifetime, and does not call
`Lock` on a weak pointer without a control block. -/
def Op.valid (s : State) : Op → Prop
  | .sharedCopy j | .sharedMove j | .sharedReset j | .sharedDestroy j | .weakOfShared j =>
    ∃ p, s.shared[j]? = some (some p)
  | .sharedAssign i j | .sharedMoveAssign i j | .sharedSwap i j =>
    (∃ p, s.shared[i]? = some (some p)) ∧ ∃ q, s.shared[j]? = some (some q)
  | .weakCopy j | .weakMove j | .weakDestroy j => ∃ w, s.weak[j]? = some (some w)
  | .weakAssign i j | .weakMoveAssign i j | .weakSwap i j =>
    (∃ w, s.weak[i]? = some (some w)) ∧ ∃ x, s.weak[j]? = some (some x)
  | .weakLock j => ∃ w c, s.weak[j]? = some (some w) ∧ w.control_block_ = some c
  | _ => True

/-- The statements of `main` in `src/shared_ptr/main.cpp` up to the first group
of assertions and on to the second: `shared_ptr{new EmptyClass}`, two copies,
`MakeShared`, `shared_ptr = inplace_shared_ptr`, one more copy. -/
def mainProgram : List Op :=
  [.sharedOfRaw (some 0), .sharedCopy 0, .sharedCopy 1, .makeShared 1, .sharedAssign 0 3,
    .sharedCopy 3]

/-- The state `mainProgram` ends in: the block of the raw pointer has two
sharers left, the block of `MakeShared` three. -/
def mainState : State where
  heap :=
    { blocks :=
        [some { strong_ptr_count_ := 2, ptr_count_ := 2, data_is_deleted_ := false,
                inplace := false, data_ := some 0 },
         some { strong_ptr_count_ := 3, ptr_count_ := 3, data_is_deleted_ := false,
                inplace := true, data_ := some 1 }]
      destructed := [] }
  shared :=
    [some { control_block_ := some 1, pointer_ := some 1 },
     some { control_block_ := some 0, pointer_ := some 0 },
     some { control_block_ := some 0, pointer_ := some 0 },
     some { control_block_ := some 1, pointer_ := some 1 },
     some { control_block_ := some 1, pointer_ := some 1 }]
  weak := []

/-- A weak pointer on the block of `MakeShared`, whose only owner has gone:
`{ auto p = MakeShared<T>(); w = new WeakPointer(p); }`. -/
def expiredProgram : List Op := [.makeShared 7, .weakOfShared 0, .sharedDestroy 0]

/-- The state `expiredProgram` ends in: the object destructed, the block kept
for the weak pointer. -/
def expiredState : State where
  heap :=
    { blocks :=
        [some { strong_ptr_count_ := 0, ptr_count_ := 1, data_is_deleted_ := true,
                inplace := true, data_ := some 7 }]
      destructed := [some 7] }
  shared := [none]
  weak := [some { control_block_ := some 0 }]

/-- A program that locks a weak pointer twice, first while an owner is alive
and then after the last owner has gone:
`auto p = MakeShared<T>(); WeakPointer<T> w(p); auto q = w.Lock();`, the end of
`p`, `q.Reset(); auto r = w.Lock();`, the end of `w`. -/
def lockProgram : List Op :=
  [.makeShared 7, .weakOfShared 0, .weakLock 0, .sharedDestroy 0, .sharedReset 1, .weakLock 0,
    .weakDestroy 0]

end cpp.pointer

/-! # Intrusive list: a ring of elements through a sentinel

Shallow embedding of `ListElementBase` (`src/signal/intrusive_list/intrusive_list.cpp`)
and of `List<T, Tag>` (`src/intrusive_list/intrusive_list.h`).

* A pointer to a `ListElementBase` is its address, a natural number; the
  memory maps every address to the two pointer members of the object there.
  An object that was constructed and never linked points to itself both ways.
* A `List` is named by the address of its member `empty_element_`, the
  sentinel; an iterator is the address in `current_element_`.
* `ToListElementBase` and `ToTemplateType` are casts and do not show.
-/

namespace cpp.intrusive

/-- The data members of `ListElementBase`. -/
structure ListElementBase where
  prev_ : Nat
  next_ : Nat
  deriving DecidableEq, Repr

/-- The `ListElementBase` objects of a program, by address. -/
abbrev Memory : Type := Nat → ListElementBase

/-- Every object as its constructor leaves it:
`ListElementBase() : prev_(this), next_(this)`. -/
def Memory.initial : Memory := fun a => { prev_ := a, next_ := a }

/-- `ListElementBase::ListElementBase()` for the object at `this`:
`prev_(this), next_(this)`. -/
def Memory.construct (m : Memory) (this : Nat) : Memory :=
  fun b => if b = this then { prev_ := this, next_ := this } else m b

/-- The assignment `a->prev_ = p`. -/
def Memory.setPrev (m : Memory) (a p : Nat) : Memory :=
  fun b => if b = a then { m b with prev_ := p } else m b

/-- The assignment `a->next_ = n`. -/
def Memory.setNext (m : Memory) (a n : Nat) : Memory :=
  fun b => if b = a then { m b with next_ := n } else m b

/-- `ListElementBase::InsertBetween(left, right)` on the object at `this`. -/
def InsertBetween (m : Memory) (this left right : Nat) : Memory :=
  let m1 := m.setPrev this left
  let m2 := m1.setNext this right
  let m3 := m2.setNext left this
  m3.setPrev right this

/-- `ListElementBase::InsertBefore(element)`: `InsertBetween(element.prev_, &element)`. -/
def InsertBefore (m : Memory) (this element : Nat) : Memory :=
  InsertBetween m this (m element).prev_ element

/-- `ListElementBase::InsertAfter(element)`: `InsertBetween(&element, element.next_)`. -/
def InsertAfter (m : Memory) (this element : Nat) : Memory :=
  InsertBetween m this element (m element).next_

/-- `ListElementBase::Unlink()`: `prev_->next_ = next_; next_->prev_ = prev_;
prev_ = next_ = this;`, each statement reading the members as the one before
left them. -/
def Unlink (m : Memory) (this : Nat) : Memory :=
  let m1 := m.setNext (m this).prev_ (m this).next_
  let m2 := m1.setPrev (m1 this).next_ (m1 this).prev_
  let m3 := m2.setNext this this
  m3.setPrev this this

/-- `ListElementBase::IsLinked()`: `prev_ != this && next_ != this`. -/
def IsLinked (m : Memory) (this : Nat) : Bool :=
  (m this).prev_ != this && (m this).next_ != this

/-- `std::swap(a->prev_, b->prev_)`. -/
def swapPrev (m : Memory) (a b : Nat) : Memory :=
  let tmp := (m a).prev_
  let m1 := m.setPrev a (m b).prev_
  m1.setPrev b tmp

/-- `std::swap(a->next_, b->next_)`. -/
def swapNext (m : Memory) (a b : Nat) : Memory :=
  let tmp := (m a).next_
  let m1 := m.setNext a (m b).next_
  m1.setNext b tmp

/-- `List::Swap(other)`, the lists being named by their sentinels: the four
calls of `swap`, the operands of each evaluated in the memory the call before
left. -/
def List.Swap (m : Memory) (this other : Nat) : Memory :=
  let m1 := swapPrev m (m this).next_ (m other).next_
  let m2 := swapNext m1 (m1 this).prev_ (m1 other).prev_
  let m3 := swapNext m2 this other
  swapPrev m3 this other

/-- `List::Front()`. -/
def List.Front (m : Memory) (this : Nat) : Nat := (m this).next_

/-- `List::Back()`. -/
def List.Back (m : Memory) (this : Nat) : Nat := (m this).prev_

/-- `List::begin()`. -/
def List.begin (m : Memory) (this : Nat) : Nat := (m this).next_

/-- `List::end()`: the sentinel. -/
def List.end (this : Nat) : Nat := this

/-- `List::Insert(position, element)`: the memory and the iterator returned. -/
def List.Insert (m : Memory) (position element : Nat) : Memory × Nat :=
  let m1 := Unlink m element
  (InsertBefore m1 element position, element)

/-- `List::Erase(position)`: the memory and the iterator returned. -/
def List.Erase (m : Memory) (position : Nat) : Memory × Nat :=
  let result := (m position).next_
  (Unlink m position, result)

/-- `List::PushBack(element)`. -/
def List.PushBack (m : Memory) (this element : Nat) : Memory := InsertBefore m element this

/-- `List::PushFront(element)`. -/
def List.PushFront (m : Memory) (this element : Nat) : Memory := InsertAfter m element this

/-- `List::PopBack()`. -/
def List.PopBack (m : Memory) (this : Nat) : Memory := Unlink m (m this).prev_

/-- `List::PopFront()`. -/
def List.PopFront (m : Memory) (this : Nat) : Memory := Unlink m (m this).next_

/-- The loop of `List::TraverseListAndInvoke` from `cur` on, collecting the
elements it calls the function on; `fuel` bounds the number of iterations. -/
def traverse (m : Memory) (this : Nat) : Nat → Nat → List Nat
  | 0, _ => []
  | fuel + 1, cur => if cur = this then [] else cur :: traverse m this fuel (m cur).next_

/-- The elements `TraverseListAndInvoke` visits, front to back. -/
def List.elements (m : Memory) (this fuel : Nat) : List Nat :=
  traverse m this fuel (m this).next_

/-- The links from `a` through the elements of `l`, in order, to `b`: each
`next_` is the following one and each `prev_` the one before. -/
def Chain (m : Memory) : Nat → List Nat → Nat → Prop
  | a, [], b => (m a).next_ = b ∧ (m b).prev_ = a
  | a, x :: l, b => (m a).next_ = x ∧ (m x).prev_ = a ∧ Chain m x l b

/-- The list with sentinel `this` holds exactly the elements of `l`, front to
back: the links run from the sentinel through `l` and back to the sentinel,
and no object is met twice. -/
def IsList (m : Memory) (this : Nat) (l : List Nat) : Prop :=
  Chain m this l this ∧ (this :: l).Nodup

/-- The links form rings: following `next_` and then `prev_`, or `prev_` and
then `next_`, from any object leads back to it. -/
def Ring (m : Memory) : Prop :=
  ∀ x, (m (m x).next_).prev_ = x ∧ (m (m x).prev_).next_ = x

instance Chain.decidable (m : Memory) : ∀ (l : List Nat) (a b : Nat), Decidable (Chain m a l b)
  | [], a, b => inferInstanceAs (Decidable ((m a).next_ = b ∧ (m b).prev_ = a))
  | x :: l, a, b =>
    have := Chain.decidable m l x b
    inferInstanceAs (Decidable ((m a).next_ = x ∧ (m x).prev_ = a ∧ Chain m x l b))

instance (m : Memory) (this : Nat) (l : List Nat) : Decidable (IsList m this l) := by
  unfold IsList; infer_instance

/-- The memory of the program `List<E> a, b; E x; b.PushBack(x);` with `a` at
0, `b` at 1 and `x` at 2. -/
def oneEmpty : Memory := List.PushBack Memory.initial 1 2

/-- The memory of `List<E> a, b; E x, y, z; a.PushBack(x); b.PushBack(y);
b.PushBack(z);` with `a` at 0, `b` at 1 and the elements at 2, 3 and 4. -/
def bothFilled : Memory :=
  List.PushBack (List.PushBack (List.PushBack Memory.initial 0 2) 1 3) 1 4

/-- The memory after the five insertions of `main` in
`src/intrusive_list/main.cpp`, the list at 0 and `node1` to `node5` at 1 to 5:
`PushBack(node1)`, `PushFront(node2)`, `PushBack(node3)`, `PushFront(node4)`,
`PushBack(node5)`. -/
def mainList : Memory :=
  List.PushBack (List.PushFront (List.PushBack (List.PushFront
    (List.PushBack Memory.initial 0 1) 0 2) 0 3) 0 4) 0 5

end cpp.intrusive

/-! # Signal: slots called on emission

Shallow embedding of `Signal<void(Args...)>` of `src/signal/cpp_signal.h`:
`Connect` with the constructor of `Connection` it calls, `operator()`, and the
constructor and destructor of `IteratorHolder`.

* The `Connection` objects and the sentinel of `connections_` are list
  elements in a `cpp.intrusive.Memory`; the member functions of
  `ListElementBase` are those of `src/signal/intrusive_list/intrusive_list.cpp`.
* `cpp_signal.h` includes `intrusive_list/intrusive_list.h` from its own
  directory, and that header is not among the sources.  The members of
  `List<Connection, ConnectionTag>` and of its iterator that the signal calls
  (`PushBack`, `begin`, `end`, `operator++`) are therefore modelled, after the
  list of `src/intrusive_list/intrusive_list.h`; their definitions say so.
* A slot acts on the state `W` of its caller (what the callable captured),
  returns normally and does not reach the signal it is connected to: it does
  not connect, emit or destroy.  The arguments of an emission are of scalar or
  reference type, so that forwarding them to one slot leaves them as they were
  for the next.
* The calls of `slot_` are logged by the address of the `Connection`.
-/

namespace cpp.signal

variable {Args W : Type}

/-- The data members of `Signal<void(Args...)>::Connection`; its base
`ListElement<ConnectionTag>` is the list element at the address of the
object. -/
structure Connection (Args W : Type) where
  signal_ : Option Nat
  slot_ : Args → W → W

/-- The data members `current_` and `signal_` of `Signal::IteratorHolder`; the
member `next_` is the rest of the chain the holder stands in. -/
structure IteratorHolder where
  current_ : Nat
  signal_ : Option Nat
  deriving DecidableEq, Repr

/-- A `Signal<void(Args...)>` at `address` with what it reaches: the sentinel
`connections_.empty_element_` (by address), the list elements, the `Connection`
objects alive (by address), and the chain of holders from `top_` through
`next_`, empty for `nullptr`. -/
structure Signal (Args W : Type) where
  address : Nat
  empty_element_ : Nat
  links : cpp.intrusive.Memory
  connection : Nat → Option (Connection Args W)
  top_ : List IteratorHolder

/-- What a call of `operator()` comes to: it returns, its behaviour is
undefined, or the steps allowed did not suffice. -/
inductive Emission (α : Type) where
  | returned (a : α) : Emission α
  | ub : Emission α
  | unfinished : Emission α

/-- Modelled from the spec: `List<Connection, ConnectionTag>::PushBack(element)`
of the list header that `cpp_signal.h` includes, which is not among the
sources.  Taken to link the element at the back, before the sentinel, through
`ListElementBase::InsertBefore`, as `PushBack` of
`src/intrusive_list/intrusive_list.h` does. -/
def List.PushBack (m : cpp.intrusive.Memory) (this element : Nat) : cpp.intrusive.Memory :=
  cpp.intrusive.InsertBefore m element this

/-- Modelled from the spec: `List<Connection, ConnectionTag>::begin()` of the
absent list header, taken to be the iterator at `empty_element_.next_`. -/
def List.begin (m : cpp.intrusive.Memory) (this : Nat) : Nat := (m this).next_

/-- Modelled from the spec: `List<Connection, ConnectionTag>::end()` of the
absent list header, taken to be the iterator at the sentinel. -/
def List.end (this : Nat) : Nat := this

/-- Modelled from the spec: the increment of a list iterator of the absent
list header, taken to be `current_element_ = current_element_->next_`. -/
def Iterator.increment (m : cpp.intrusive.Memory) (current_element_ : Nat) : Nat :=
  (m current_element_).next_

/-- `Signal()`, with its members at `address` and `empty_element` in the
memory `links`: `connections_{}` constructs the sentinel, `top_{nullptr}`. -/
def Signal.default (address empty_element : Nat) (links : cpp.intrusive.Memory) :
    Signal Args W :=
  { address := address
    empty_element_ := empty_element
    links := links.construct empty_element
    connection := fun _ => none
    top_ := [] }

/-- `Signal::Connect(slot)`: `return Connection(this, std::move(slot));`, the
object returned being constructed at `address`.  The base subobject is
constructed first, then `signal_(signal), slot_(slot)`, then the body
`signal_->connections_.PushBack(*this)`. -/
def Signal.Connect (signal : Signal Args W) (address : Nat) (slot : Args → W → W) :
    Signal Args W :=
  let links := signal.links.construct address
  { signal with
    connection := fun a =>
      if a = address then some { signal_ := some signal.address, slot_ := slot }
      else signal.connection a
    links := List.PushBack links signal.empty_element_ address }

/-- `IteratorHolder::IteratorHolder(signal)`:
`current_(signal->connections_.begin()), next_(signal->top_), signal_(signal)`,
then `signal_->top_ = this`. -/
def IteratorHolder.construct (signal : Signal Args W) : Signal Args W :=
  { signal with
    top_ :=
      { current_ := List.begin signal.links signal.empty_element_
        signal_ := some signal.address } :: signal.top_ }

/-- `IteratorHolder::~IteratorHolder()` of the holder `top_` points to:
`if (signal_ != nullptr) signal_->top_ = next_;`. -/
def IteratorHolder.destructor (signal : Signal Args W) : Signal Args W :=
  match signal.top_ with
  | holder :: next_ => if holder.signal_ ≠ none then { signal with top_ := next_ } else signal
  | [] => signal

/-- The loop of `Signal::operator()`, `holder` being the first of `top_`:
`while (holder.current_ != connections_.end()) { auto copy = holder.current_;
holder.current_++; copy->slot_(args...); if (holder.signal_ == nullptr) return; }`.
Carries the state of the caller and the log of the connections called; `fuel`
bounds the number of iterations. -/
def Signal.loop (args : Args) :
    Nat → Signal Args W → W → List Nat → Emission (Signal Args W × W × List Nat)
  | 0, _, _, _ => .unfinished
  | fuel + 1, signal, w, called =>
    match signal.top_ with
    | [] => .ub
    | holder :: next_ =>
      if holder.current_ ≠ List.end signal.empty_element_ then
        let copy := holder.current_
        let holder1 := { holder with current_ := Iterator.increment signal.links holder.current_ }
        let signal1 := { signal with top_ := holder1 :: next_ }
        match signal1.connection copy with
        | none => .ub
        | some c =>
          let w1 := c.slot_ args w
          if holder1.signal_ = none then .returned (signal1, w1, called ++ [copy])
          else Signal.loop args fuel signal1 w1 (called ++ [copy])
      else .returned (signal, w, called)

/-- `Signal::operator()(args...)`: `IteratorHolder holder(this);`, the loop,
and the destructor of `holder` on the way out. -/
def Signal.operatorCall (signal : Signal Args W) (args : Args) (fuel : Nat) (w : W) :
    Emission (Signal Args W × W × List Nat) :=
  match Signal.loop args fuel (IteratorHolder.construct signal) w [] with
  | .returned r => .returned (IteratorHolder.destructor r.1, r.2.1, r.2.2)
  | .ub => .ub
  | .unfinished => .unfinished

/-- The statement `signal(args...);` repeated `n` times. -/
def Signal.emissions (args : Args) (fuel : Nat) :
    Nat → Signal Args W → W → Emission (Signal Args W × W × List Nat)
  | 0, signal, w => .returned (signal, w, [])
  | n + 1, signal, w =>
    match signal.operatorCall args fuel w with
    | .returned first =>
      match Signal.emissions args fuel n first.1 first.2.1 with
      | .returned rest => .returned (rest.1, rest.2.1, first.2.2 ++ rest.2.2)
      | .ub => .ub
      | .unfinished => .unfinished
    | .ub => .ub
    | .unfinished => .unfinished

/-- The statements `auto conn = signal.Connect(slot);`, one for each entry in
order, the entry giving the address of `conn` and the slot. -/
def Signal.connectAll (signal : Signal Args W) : List (Nat × (Args → W → W)) → Signal Args W
  | [] => signal
  | c :: cs => (signal.Connect c.1 c.2).connectAll cs

/-- The `Connection` objects at the addresses of `cs` hold the slots of `cs`. -/
def Slots (signal : Signal Args W) (cs : List (Nat × (Args → W → W))) : Prop :=
  ∀ c ∈ cs, ∃ sg, signal.connection c.1 = some { signal_ := sg, slot_ := c.2 }

/-- One emission after the other, `n` times, on the state of the caller: what
the slots of `cs`, called in order, make of it. -/
def invokeAll (cs : List (Nat × (Args → W → W))) (args : Args) : Nat → W → W
  | 0, w => w
  | n + 1, w => invokeAll cs args n (cs.foldl (fun w c => c.2 args w) w)

/-- The two slots of `main` in `src/signal/main.cpp`, `++got1` and `++got2`,
with the addresses of `conn1` and `conn2`; the state of the caller is
`(got1, got2)`. -/
def mainSlots : List (Nat × (Unit → Nat × Nat → Nat × Nat)) :=
  [(1, fun _ got => (got.1 + 1, got.2)), (2, fun _ got => (got.1, got.2 + 1))]

/-- The signal of `main` after the two calls of `Connect`. -/
def mainSignal : Signal Unit (Nat × Nat) :=
  (Signal.default 0 0 cpp.intrusive.Memory.initial).connectAll mainSlots

end cpp.signal

/-! # Variant: properties -/

namespace cpp.variant

variable {V A : Type}

/-! ## Dispatch and storage lemmas -/

theorem VisitIndex_lt {σ α : Type} {N index : Nat} (vis : Nat → Res σ α) (h : index < N) :
    VisitIndex N vis index = vis index := by
  simp [VisitIndex, GenFmatrixIndex, List.getElem?_map, List.getElem?_range h]

theorem VisitIndex_ge {σ α : Type} {N index : Nat} (vis : Nat → Res σ α) (h : N ≤ index) :
    VisitIndex N vis index = .ub := by
  have : (List.range N)[index]? = none := by
    apply List.getElem?_eq_none; simpa using h
  simp [VisitIndex, GenFmatrixIndex, List.getElem?_map, this]

theorem WF_cases {N : Nat} {v : Variant V} (h : v.WF N) :
    (v.ind = kVariantNPos ∧ v.val = none) ∨ (v.ind < N ∧ ∃ x, v.val = some (v.ind, x)) := by
  rcases h with ⟨h1, h2⟩ | ⟨h1, h2⟩
  · left; exact ⟨h1, by simpa using h2⟩
  · right
    refine ⟨h1, ?_⟩
    cases hv : v.val with
    | none => simp [hv] at h2
    | some p =>
      obtain ⟨i, x⟩ := p
      simp [hv] at h2
      exact ⟨x, by rw [h2]⟩

theorem DestroyInternalValue_WF {N : Nat} (hN : N ≤ kVariantNPos) {v : Variant V}
    (h : v.WF N) :
    v.DestroyInternalValue N =
      .ok () { val := none, ind := v.ind, destroyed := v.destroyed ++ v.val.toList } := by
  rcases WF_cases h with ⟨h1, h2⟩ | ⟨h1, x, h2⟩
  · cases v; simp_all [Variant.DestroyInternalValue]
  · have hne : v.ind ≠ kVariantNPos := by omega
    simp [Variant.DestroyInternalValue, hne, Variant.Index, VisitIndex_lt _ h1,
      MegaUnion.DestroyInternalValue, h2]

theorem Emplace_WF {alts : List (Alt V A)} (hN : alts.length ≤ kVariantNPos) {v : Variant V}
    (h : v.WF alts.length) (N : Nat) (args : Arg V A) :
    v.Emplace alts N args = v.cleared.ConstructInternalValue alts N args := by
  simp [Variant.Emplace, DestroyInternalValue_WF hN h, Variant.MakeValueless, Variant.cleared]

theorem ConstructInternalValue_cleared {alts : List (Alt V A)} {N : Nat} {T : Alt V A}
    (hT : alts[N]? = some T) (args : Arg V A) (v : Variant V) :
    v.cleared.ConstructInternalValue alts N args =
      match T.init args with
      | .error e => .throw e v.cleared
      | .ok x => .ok x { v.cleared with val := some (N, x), ind := N } := by
  simp only [Variant.ConstructInternalValue, hT, Variant.cleared]

theorem noexceptIf_false {σ α : Type} (r : Res σ α) : noexceptIf false r = r := rfl

theorem noexceptIf_ok {σ α : Type} (spec : Bool) (a : α) (s : σ) :
    noexceptIf spec (.ok a s) = .ok a s := by
  cases spec <;> rfl

theorem cleared_valueless (v : Variant V) : v.cleared.ValuelessByException = true := by
  simp [Variant.cleared, Variant.ValuelessByException, Variant.Index]

/-! ## Emplace -/

/-- C5. For every well-formed state (holding an alternative or valueless),
every valid index `i` and every argument list from which alternative `i`
constructs the value `x` without throwing, `Emplace<i>(args...)` returns `x`,
leaves `Index() == i`, and `Get<i>` afterwards yields `x`. -/
theorem Emplace_roundtrip (alts : List (Alt V A)) (hN : alts.length ≤ kVariantNPos)
    (v : Variant V) (hv : v.WF alts.length) (i : Nat) (T : Alt V A) (hT : alts[i]? = some T)
    (args : Arg V A) (x : V) (hx : T.init args = .ok x) :
    ∃ v1, v.Emplace alts i args = .ok x v1 ∧ v1.Index = i ∧
      v1.ValuelessByException = false ∧ Get i v1 = .ok x () := by
  have hi : i < alts.length := by
    rcases Nat.lt_or_ge i alts.length with h | h
    · exact h
    · rw [List.getElem?_eq_none h] at hT; cases hT
  refine ⟨{ v.cleared with val := some (i, x), ind := i }, ?_, rfl, ?_, ?_⟩
  · rw [Emplace_WF hN hv, ConstructInternalValue_cleared hT, hx]
  · have : i ≠ kVariantNPos := by omega
    simp [Variant.ValuelessByException, Variant.Index, this]
  · simp [Get, Variant.Index]

theorem Emplace_roundtrip_witness :
    ∃ v1, (holdsInt 7).Emplace intDouble 1 (.fwd (.int 3)) = .ok (.dbl 3) v1 ∧ v1.Index = 1 ∧
      v1.ValuelessByException = false ∧ Get 1 v1 = .ok (.dbl 3) () :=
  Emplace_roundtrip intDouble (by decide) (holdsInt 7) (by decide) 1 (scalarAlt .dbl) rfl
    (.fwd (.int 3)) (.dbl 3) rfl

/-- C6. If the construction of the new value inside `Emplace<i>(args...)`
throws `e`, then `e` propagates and the variant is left valueless: the index
is the sentinel, no member is live, and the only destructor call made is the
one on the value held before. -/
theorem Emplace_throw (alts : List (Alt V A)) (hN : alts.length ≤ kVariantNPos)
    (v : Variant V) (hv : v.WF alts.length) (i : Nat) (T : Alt V A) (hT : alts[i]? = some T)
    (args : Arg V A) (e : Exc) (he : T.init args = .error e) :
    ∃ v1, v.Emplace alts i args = .throw e v1 ∧ v1.Index = kVariantNPos ∧
      v1.ValuelessByException = true ∧ v1.val = none ∧
      v1.destroyed = v.destroyed ++ v.val.toList := by
  refine ⟨v.cleared, ?_, rfl, cleared_valueless v, rfl, rfl⟩
  rw [Emplace_WF hN hv, ConstructInternalValue_cleared hT, he]

theorem Emplace_throw_witness :
    ∃ v1, (holdsInt 7).Emplace (intClass true) 1 (.fwd (.int (-1))) = .throw (.thrown 1) v1 ∧
      v1.Index = kVariantNPos ∧ v1.ValuelessByException = true ∧ v1.val = none ∧
      v1.destroyed = (holdsInt 7).destroyed ++ (holdsInt 7).val.toList :=
  Emplace_throw (intClass true) (by decide) (holdsInt 7) (by decide) 1 (classAlt true) rfl
    (.fwd (.int (-1))) (.thrown 1) rfl

/-! ## Converting assignment -/

/-- C1 (as amended). Assigning a value whose alternative's construction from
it can throw and whose move constructor is not `noexcept`, into a variant in
another state: the value is emplaced directly, so when the construction throws
`e` the exception propagates and the destination is left valueless, its former
value destroyed. -/
theorem assignValue_direct_throw (alts : List (Alt V A)) (hN : alts.length ≤ kVariantNPos)
    (v : Variant V) (hv : v.WF alts.length) (Index : Nat) (ChosenT : Alt V A)
    (hT : alts[Index]? = some ChosenT) (t : A) (hidx : v.Index ≠ Index)
    (hc : ChosenT.nothrowConstructible t = false)
    (hm : ChosenT.nothrowMoveConstructible = false)
    (e : Exc) (he : ChosenT.construct t = .error e) :
    v.assignValue alts Index t = .throw e v.cleared ∧
      v.cleared.ValuelessByException = true ∧ v.cleared.val = none ∧
      v.cleared.destroyed = v.destroyed ++ v.val.toList := by
  refine ⟨?_, cleared_valueless v, rfl, rfl⟩
  simp [Variant.assignValue, hT, hidx, hc, hm, noexceptIf, Emplace_WF hN hv,
    ConstructInternalValue_cleared hT, Alt.init, he, Res.void]

theorem assignValue_direct_throw_witness :
    (holdsInt 7).assignValue (intClass false) 1 (.int (-3)) = .throw (.thrown 1) (holdsInt 7).cleared ∧
      (holdsInt 7).cleared.ValuelessByException = true ∧ (holdsInt 7).cleared.val = none ∧
      (holdsInt 7).cleared.destroyed = (holdsInt 7).destroyed ++ (holdsInt 7).val.toList :=
  assignValue_direct_throw (intClass false) (by decide) (holdsInt 7) (by decide) 1
    (classAlt false) rfl (.int (-3)) (by decide) rfl rfl (.thrown 1) rfl

/-- C1 as stated fails: `Variant<int, C>` holding the `int` 7 is assigned a
value from which constructing `C` throws, `C` having neither a non-throwing
construction from it nor a `noexcept` move constructor.  The assignment throws
and leaves the variant valueless, not holding 7 at index 0. -/
theorem assignValue_keeps_value_counterexample :
    (classAlt false).nothrowConstructible (.int (-3)) = false ∧
    (classAlt false).nothrowMoveConstructible = false ∧
    (classAlt false).construct (.int (-3)) = .error (.thrown 1) ∧
    (holdsInt 7).Index = 0 ∧ (holdsInt 7).val = some (0, .int 7) ∧
    ∃ v1, (holdsInt 7).assignValue (intClass false) 1 (.int (-3)) = .throw (.thrown 1) v1 ∧
      v1.ValuelessByException = true ∧ v1.Index ≠ 0 ∧ v1.val = none := by
  refine ⟨rfl, rfl, rfl, rfl, rfl, ⟨(holdsInt 7).cleared, ?_, ?_, ?_, rfl⟩⟩
  · decide
  · decide
  · decide

theorem all_eq_false_of_getElem? {α : Type} {l : List α} {i : Nat} {a : α} (p : α → Bool)
    (h : l[i]? = some a) (hp : p a = false) : l.all p = false := by
  have hmem : a ∈ l := List.getElem?_mem h
  rw [Bool.eq_false_iff]
  intro hall
  rw [List.all_eq_true] at hall
  have := hall a hmem
  rw [hp] at this
  cases this

theorem lt_length_of_getElem? {α : Type} {l : List α} {i : Nat} {a : α} (h : l[i]? = some a) :
    i < l.length := by
  rcases Nat.lt_or_ge i l.length with h1 | h1
  · exact h1
  · rw [List.getElem?_eq_none h1] at h; cases h

/-- C7. In a type-changing converting assignment or copy assignment where the
new alternative's move constructor is `noexcept` but its construction (from
the assigned value, or by copy) is not, the new value is built in a temporary
first: when building it throws `e`, the exception propagates and the
destination is exactly as before. -/
theorem assign_temporary_throw (alts : List (Alt V A)) (hN : alts.length ≤ kVariantNPos)
    (v : Variant V) (Index : Nat) (T : Alt V A) (hT : alts[Index]? = some T)
    (hidx : v.Index ≠ Index) (hm : T.nothrowMoveConstructible = true) :
    (∀ (t : A) (e : Exc), T.nothrowConstructible t = false → T.construct t = .error e →
        v.assignValue alts Index t = .throw e v) ∧
    (∀ (other : Variant V) (y : V) (e : Exc), other.Index = Index →
        other.val = some (Index, y) → T.nothrowCopyConstructible = false →
        T.triviallyCopyConstructible = false → T.copyCtor y = .error e →
        Variant.copyAssign alts v other = .throw e v) := by
  have hlt : Index < alts.length := lt_length_of_getElem? hT
  constructor
  · intro t e hc he
    simp [Variant.assignValue, hT, hidx, hc, hm, noexceptIf, he]
  · intro other y e ho hval hcc htc he
    have h1 : IsTriviallyCopyConstructible alts = false :=
      all_eq_false_of_getElem? _ hT htc
    have h2 : IsTriviallyCopyAssignable alts = false := by
      simp [IsTriviallyCopyAssignable, h1]
    have hne : other.ValuelessByException = false := by
      have : Index ≠ kVariantNPos := by omega
      simp [Variant.ValuelessByException, ho, this]
    have hctor : Variant.copyCtor alts other = .throw e () := by
      simp [Variant.copyCtor, h1, Variant.copyCtorBody, hne, ho, VisitIndex_lt _ hlt, Get,
        hval, Variant.ConstructInternalValue, hT, uninitializedStorage, Alt.init, he]
    simp [Variant.copyAssign, h2, Variant.copyAssignBody, hne, ho, VisitIndex_lt _ hlt,
      Variant.copyAssignVisitor, hT, hidx, hcc, hm, hctor]

theorem assign_temporary_throw_witness :
    (∀ (t : Lit) (e : Exc), (classAlt true).nothrowConstructible t = false →
        (classAlt true).construct t = .error e →
        (holdsInt 7).assignValue (intClass true) 1 t = .throw e (holdsInt 7)) ∧
    (∀ (other : Variant Lit) (y : Lit) (e : Exc), other.Index = 1 →
        other.val = some (1, y) → (classAlt true).nothrowCopyConstructible = false →
        (classAlt true).triviallyCopyConstructible = false → (classAlt true).copyCtor y = .error e →
        Variant.copyAssign (intClass true) (holdsInt 7) other = .throw e (holdsInt 7)) :=
  assign_temporary_throw (intClass true) (by decide) (holdsInt 7) 1 (classAlt true) rfl
    (by decide) rfl

/-! ## Copy assignment from a valueless source -/

/-- C2, at the failing input.  The source is the valueless `Variant<int, C>`
left by a failed `Emplace`; the destination holds the `int` 7.  The
user-provided copy assignment destroys the 7, marks the destination valueless
and then still dispatches on the source: `VisitIndex` indexes its table with
the sentinel, past the end.  Copy-assigning valueless to valueless returns
early and leaves the destination valueless. -/
theorem copyAssign_valueless_source_ub :
    ∃ src, (holdsInt 7).Emplace (intClass true) 1 (.fwd (.int (-1))) = .throw (.thrown 1) src ∧
      src.ValuelessByException = true ∧
      IsTriviallyCopyAssignable (intClass true) = false ∧
      Variant.copyAssign (intClass true) (holdsInt 7) src = .ub ∧
      Variant.copyAssign (intClass true) src src = .ok () src := by
  refine ⟨(holdsInt 7).cleared, ?_, ?_, ?_, ?_, ?_⟩ <;> decide

theorem noexceptIf_eq_ok {σ α : Type} {spec : Bool} {r : Res σ α} {a : α} {s : σ}
    (h : noexceptIf spec r = .ok a s) : r = .ok a s := by
  cases spec
  · exact h
  · cases r <;> simp [noexceptIf] at h ⊢
    exact h

theorem noexceptIf_ne_ub {σ α : Type} {spec : Bool} {r : Res σ α} (h : r ≠ .ub) :
    noexceptIf spec r ≠ .ub := by
  cases spec
  · exact h
  · cases r <;> simp [noexceptIf] at h ⊢

/-! ## Overload resolution -/

theorem OverloadSet_mem {Ty : Type} [DecidableEq Ty] (valid : Ty → Ty → Bool) (T : Ty) :
    ∀ (Ts : List Ty) (N : Nat) (c : Nat × Ty), c ∈ OverloadSet valid N T Ts →
      ∃ j, c.1 = N + j ∧ Ts[j]? = some c.2 ∧ valid T c.2 = true := by
  intro Ts
  induction Ts with
  | nil => intro N c h; simp [OverloadSet] at h
  | cons W Ts ih =>
    intro N c h
    simp only [OverloadSet, List.mem_append, List.mem_filter] at h
    rcases h with h | ⟨h, _⟩
    · by_cases hv : valid T W = true
      · simp [hv] at h
        subst h
        exact ⟨0, rfl, by simp, hv⟩
      · simp [hv] at h
    · obtain ⟨j, h1, h2, h3⟩ := ih (N + 1) c h
      exact ⟨j + 1, by omega, by simpa using h2, h3⟩

theorem OverloadSet_unique {Ty : Type} [DecidableEq Ty] (valid : Ty → Ty → Bool) (T U : Ty) :
    ∀ (Ts : List Ty) (N i : Nat), Ts[i]? = some U → valid T U = true →
      (∀ j W, Ts[j]? = some W → valid T W = true → j = i) →
      OverloadSet valid N T Ts = [(N + i, U)] := by
  intro Ts
  induction Ts with
  | nil => intro N i h; simp at h
  | cons W Ts ih =>
    intro N i hi hv huniq
    cases i with
    | zero =>
      simp at hi
      subst hi
      have hempty : OverloadSet valid (N + 1) T Ts = [] := by
        apply List.eq_nil_iff_forall_not_mem.2
        intro c hc
        obtain ⟨j, _, h2, h3⟩ := OverloadSet_mem valid T Ts (N + 1) c hc
        have := huniq (j + 1) c.2 (by simpa using h2) h3
        omega
      simp [OverloadSet, hv, hempty]
    | succ i =>
      have hW : valid T W = false := by
        cases hW : valid T W
        · rfl
        · have := huniq 0 W (by simp) hW
          omega
      have hne : U ≠ W := by
        intro h; rw [h, hW] at hv; cases hv
      have hrec := ih (N + 1) i (by simpa using hi) hv (by
        intro j W1 h1 h2
        have := huniq (j + 1) W1 (by simpa using h1) h2
        omega)
      simp [OverloadSet, hW, hrec, hne]
      omega

theorem ChosenOverload_unique {Ty : Type} [DecidableEq Ty] (C : Conversions Ty)
    (T U : Ty) (Ts : List Ty) (i : Nat) (hi : Ts[i]? = some U)
    (hv : C.IsValidConversion T U = true)
    (huniq : ∀ j W, Ts[j]? = some W → C.IsValidConversion T W = true → j = i)
    (hconv : (C.rank T U).isSome = true) :
    ChosenOverload C T Ts = some (i, U) := by
  obtain ⟨r, hr⟩ := Option.isSome_iff_exists.1 hconv
  have := OverloadSet_unique C.IsValidConversion T U Ts 0 i hi hv huniq
  simp [ChosenOverload, this, resolveOverload, hr]

theorem Get_holding {N : Nat} {v : Variant V} {x : V} (hi : v.ind = N)
    (hval : v.val = some (N, x)) : Get N v = .ok x () := by
  simp [Get, Variant.Index, hi, hval]

/-- What a converting assignment that returns normally has done: either the
held alternative was assigned in place, or the new value was constructed
(directly, or in a temporary that was then moved) into the cleared storage. -/
theorem assignValue_ok {alts : List (Alt V A)} (hN : alts.length ≤ kVariantNPos)
    {v : Variant V} (hv : v.WF alts.length) {i : Nat} {T : Alt V A} (hT : alts[i]? = some T)
    {t : A} {v1 : Variant V} (h : v.assignValue alts i t = .ok () v1) :
    v1.ind = i ∧ ∃ x, v1.val = some (i, x) ∧
      ((∃ x0, v.ind = i ∧ v.val = some (i, x0) ∧ T.assign x0 t = (none, x)) ∨
       (v.ind ≠ i ∧ (T.construct t = .ok x ∨
          ∃ tmp, T.construct t = .ok tmp ∧ (T.moveCtor tmp).1 = .ok x))) := by
  have hlt : i < alts.length := lt_length_of_getElem? hT
  simp only [Variant.assignValue, hT] at h
  have h := noexceptIf_eq_ok h
  by_cases hidx : v.Index = i
  · have hidx1 : v.ind = i := hidx
    rw [if_pos hidx] at h
    rcases WF_cases hv with ⟨h1, _⟩ | ⟨_, x0, h2⟩
    · omega
    · rw [hidx1] at h2
      rw [Get_holding hidx1 h2] at h
      cases hr : T.assign x0 t with
      | mk exc x =>
        cases exc with
        | none =>
          simp [hr] at h
          subst h
          exact ⟨hidx1, x, rfl, Or.inl ⟨x0, hidx1, h2, hr⟩⟩
        | some e => simp [hr] at h
  · have hidx1 : v.ind ≠ i := hidx
    rw [if_neg hidx] at h
    split at h
    · rw [Emplace_WF hN hv, ConstructInternalValue_cleared hT] at h
      cases hc : T.construct t with
      | error e => simp [Alt.init, hc, Res.void] at h
      | ok x =>
        simp [Alt.init, hc, Res.void] at h
        subst h
        exact ⟨rfl, x, rfl, Or.inr ⟨hidx1, Or.inl rfl⟩⟩
    · cases hc : T.construct t with
      | error e => simp [hc] at h
      | ok tmp =>
        simp only [hc] at h
        rw [Emplace_WF hN hv, ConstructInternalValue_cleared hT] at h
        cases hm : (T.moveCtor tmp).1 with
        | error e => simp [Alt.init, hm, Res.void] at h
        | ok x =>
          simp [Alt.init, hm, Res.void] at h
          subst h
          exact ⟨rfl, x, rfl, Or.inr ⟨hidx1, Or.inr ⟨tmp, rfl, hm⟩⟩⟩

/-- C4. After a converting assignment of `t`, resolved to alternative `i`,
returns normally, `Index()` is `i` and `Get<i>` yields the value `x` that
alternative `i` direct-initialized from `t` has, whether the variant held `i`
(assignment in place) or another alternative (direct construction, or a
temporary that is then moved).  The alternative is regular: assigning `t`
gives the value constructing from `t` gives, and a move hands the value over. -/
theorem assignValue_value (alts : List (Alt V A)) (hN : alts.length ≤ kVariantNPos)
    (v : Variant V) (hv : v.WF alts.length) (i : Nat) (T : Alt V A) (hT : alts[i]? = some T)
    (t : A) (x : V) (hx : T.construct t = .ok x)
    (hassign : ∀ x0 y, T.assign x0 t = (none, y) → y = x)
    (hmove : ∀ y z, (T.moveCtor y).1 = .ok z → z = y)
    (v1 : Variant V) (h : v.assignValue alts i t = .ok () v1) :
    v1.Index = i ∧ Get i v1 = .ok x () := by
  obtain ⟨h1, y, h2, h3⟩ := assignValue_ok hN hv hT h
  refine ⟨h1, ?_⟩
  have hy : y = x := by
    rcases h3 with ⟨x0, _, _, ha⟩ | ⟨_, hc | ⟨tmp, hc, hm⟩⟩
    · exact hassign x0 y ha
    · rw [hx] at hc; cases hc; rfl
    · rw [hx] at hc; cases hc; exact hmove _ _ hm
  rw [hy] at h2
  exact Get_holding h1 h2

theorem assignValue_value_witness :
    (holdsDouble 42).assignValue intDouble 0 (.int 5) =
        .ok () { val := some (0, .int 5), ind := 0, destroyed := [(1, .dbl 42)] } ∧
      (holdsInt 9).assignValue intDouble 0 (.int 5) = .ok () (holdsInt 5) ∧
      (Variant.Index { val := some (0, Lit.int 5), ind := 0, destroyed := [(1, Lit.dbl 42)] } = 0 ∧
        Get 0 { val := some (0, Lit.int 5), ind := 0, destroyed := [(1, Lit.dbl 42)] } =
          .ok (.int 5) ()) :=
  ⟨by decide, by decide,
    assignValue_value intDouble (by decide) (holdsDouble 42) (by decide) 0 (scalarAlt .int) rfl
      (.int 5) (.int 5) rfl (by intro x0 y h; cases h; rfl) (by intro y z h; cases h; rfl)
      _ (by decide)⟩

theorem ChosenOverload_only {Ty : Type} [DecidableEq Ty] (C : Conversions Ty)
    (T U : Ty) (Ts : List Ty) (i : Nat) (hi : Ts[i]? = some U)
    (hv : C.IsValidConversion T U = true)
    (huniq : ∀ j W, Ts[j]? = some W → C.IsValidConversion T W = true → j = i)
    (c : Nat × Ty) (hc : ChosenOverload C T Ts = some c) : c = (i, U) := by
  have := OverloadSet_unique C.IsValidConversion T U Ts 0 i hi hv huniq
  simp only [ChosenOverload, this, resolveOverload, Nat.zero_add] at hc
  cases hr : C.rank T U with
  | none => simp [hr] at hc
  | some r =>
    simp [hr] at hc
    exact hc.symm

/-- C3. When the value is valid (by list-initialization) for exactly one
alternative, the one at position `i`, the only overload the resolution can
choose is that alternative: every converting construction that yields a
variant yields one with `Index() == i`, and every converting assignment that
returns leaves `Index() == i`.  Both take part as soon as the value converts
implicitly and the requires-clause holds.  In particular `Variant<int, double>`
constructed from `42.0` has index 1 and after the assignment of `5` index 0. -/
theorem converting_index {Ty : Type} [DecidableEq Ty] (C : Conversions Ty)
    (Ts : List Ty) (alts : List (Alt V A))
    (hlen : Ts.length = alts.length) (hN : alts.length ≤ kVariantNPos)
    (T U : Ty) (i : Nat) (hi : Ts[i]? = some U) (hv : C.IsValidConversion T U = true)
    (huniq : ∀ j W, Ts[j]? = some W → C.IsValidConversion T W = true → j = i) (t : A) :
    (∀ r, Variant.convertingCtor C Ts alts T t = some r →
        r ≠ .ub ∧ ∀ v, r = .ok v () → v.Index = i ∧ v.WF alts.length) ∧
    (∀ v : Variant V, v.WF alts.length →
      ∀ r, v.convertingAssign C Ts alts T t = some r → ∀ v1, r = .ok () v1 → v1.Index = i) ∧
    ((C.rank T U).isSome = true → IsConvertibleToChosenTypeVariant C Ts T U = true →
      ChosenOverload C T Ts = some (i, U) ∧
      Variant.convertingCtor C Ts alts T t = some (Variant.ofValue alts i t) ∧
      ∀ v : Variant V, v.convertingAssign C Ts alts T t = some (v.assignValue alts i t)) ∧
    (∃ v, Variant.convertingCtor scalarConversions [.int, .double] intDouble .double
          (.dbl 42) = some (.ok v ()) ∧ v.Index = 1 ∧
        ∃ v1, v.convertingAssign scalarConversions [.int, .double] intDouble .int (.int 5) =
          some (.ok () v1) ∧ v1.Index = 0) := by
  have honly := ChosenOverload_only C T U Ts i hi hv huniq
  have hlt : i < alts.length := by
    rw [← hlen]; exact lt_length_of_getElem? hi
  obtain ⟨Ti, hTi⟩ : ∃ Ti, alts[i]? = some Ti := ⟨alts[i], List.getElem?_eq_getElem hlt⟩
  refine ⟨?_, ?_, ?_, ?_⟩
  · intro r hr
    have hr1 : r = Variant.ofValue alts i t := by
      unfold Variant.convertingCtor at hr
      cases hch : ChosenOverload C T Ts with
      | none => simp [hch] at hr
      | some c =>
        have hc := honly c hch
        subst hc
        simp only [hch] at hr
        split at hr
        · exact (Option.some.inj hr).symm
        · cases hr
    subst hr1
    constructor
    · simp only [Variant.ofValue, VariantStorage.inPlace, hTi]
      apply noexceptIf_ne_ub
      cases Ti.init (.fwd t) <;> simp
    · intro v hr
      simp only [Variant.ofValue, VariantStorage.inPlace, hTi] at hr
      have hr := noexceptIf_eq_ok hr
      cases hinit : Ti.init (.fwd t) with
      | error e => simp [hinit] at hr
      | ok x =>
        simp [hinit] at hr
        subst hr
        exact ⟨rfl, Or.inr ⟨hlt, rfl⟩⟩
  · intro v hwf r hr v1 hok
    have hr1 : r = v.assignValue alts i t := by
      unfold Variant.convertingAssign at hr
      cases hch : ChosenOverload C T Ts with
      | none => simp [hch] at hr
      | some c =>
        have hc := honly c hch
        subst hc
        simp only [hch] at hr
        split at hr
        · exact (Option.some.inj hr).symm
        · cases hr
    subst hr1
    exact (assignValue_ok hN hwf hTi hok).1
  · intro hconv hreq
    have hch := ChosenOverload_unique C T U Ts i hi hv huniq hconv
    exact ⟨hch, by simp [Variant.convertingCtor, hch, hreq],
      fun v => by simp [Variant.convertingAssign, hch, hreq]⟩
  · exact ⟨holdsDouble 42, by decide, rfl,
      { val := some (0, .int 5), ind := 0, destroyed := [(1, .dbl 42)] }, by decide, rfl⟩

theorem converting_index_witness :
    (∀ r, Variant.convertingCtor scalarConversions [.int, .double] intDouble .double
          (.dbl 42) = some r →
        r ≠ .ub ∧ ∀ v, r = .ok v () → v.Index = 1 ∧ v.WF intDouble.length) ∧
    (∀ v : Variant Lit, v.WF intDouble.length →
      ∀ r, v.convertingAssign scalarConversions [.int, .double] intDouble .double
          (.dbl 42) = some r → ∀ v1, r = .ok () v1 → v1.Index = 1) ∧
    ((scalarConversions.rank .double .double).isSome = true →
      IsConvertibleToChosenTypeVariant scalarConversions [.int, .double] .double .double = true →
      ChosenOverload scalarConversions .double [.int, .double] = some (1, .double) ∧
      Variant.convertingCtor scalarConversions [.int, .double] intDouble .double (.dbl 42) =
        some (Variant.ofValue intDouble 1 (.dbl 42)) ∧
      ∀ v : Variant Lit,
        v.convertingAssign scalarConversions [.int, .double] intDouble .double (.dbl 42) =
          some (v.assignValue intDouble 1 (.dbl 42))) ∧
    (∃ v, Variant.convertingCtor scalarConversions [.int, .double] intDouble .double
          (.dbl 42) = some (.ok v ()) ∧ v.Index = 1 ∧
        ∃ v1, v.convertingAssign scalarConversions [.int, .double] intDouble .int (.int 5) =
          some (.ok () v1) ∧ v1.Index = 0) :=
  converting_index scalarConversions [.int, .double] intDouble rfl (by decide)
    .double .double 1 rfl rfl
    (by
      intro j W h1 h2
      match j, W, h1, h2 with
      | 0, _, h1, h2 => simp at h1; subst h1; cases h2
      | 1, _, _, _ => rfl
      | j + 2, _, h1, _ => simp at h1)
    (.dbl 42)

/-! ## Postconditions of the operations on well-formed states -/

theorem Post_noexceptIf {σ α : Type} {ok : α → σ → Prop} {thr : σ → Prop} (spec : Bool)
    {r : Res σ α} (h : r.Post ok thr) : (noexceptIf spec r).Post ok thr := by
  cases spec
  · exact h
  · cases r <;> simp_all [noexceptIf, Res.Post]

theorem Post_mono {σ α : Type} {ok ok1 : α → σ → Prop} {thr thr1 : σ → Prop} {r : Res σ α}
    (h : r.Post ok thr) (hok : ∀ a s, ok a s → ok1 a s) (hthr : ∀ s, thr s → thr1 s) :
    r.Post ok1 thr1 := by
  cases r with
  | ok a s => exact hok a s h
  | throw e s => exact hthr s h
  | terminate => trivial
  | ub => exact h

theorem Post_void {σ α : Type} {ok : Unit → σ → Prop} {thr : σ → Prop} {r : Res σ α}
    (h : r.Post (fun _ s => ok () s) thr) : r.void.Post ok thr := by
  cases r <;> exact h

theorem Post_mapState {σ τ α : Type} {ok : α → τ → Prop} {thr : τ → Prop} (f : σ → τ)
    {r : Res σ α} (h : r.Post (fun a s => ok a (f s)) (fun s => thr (f s))) :
    (r.mapState f).Post ok thr := by
  cases r <;> exact h

theorem WF_of_fields {N : Nat} {v w : Variant V} (h : v.WF N) (hval : w.val = v.val)
    (hind : w.ind = v.ind) : w.WF N := by
  unfold Variant.WF at h ⊢
  rw [hval, hind]
  exact h

theorem WF_cleared (N : Nat) (v : Variant V) : v.cleared.WF N :=
  Or.inl ⟨rfl, rfl⟩

theorem WF_holding {N i : Nat} {v : Variant V} {x : V} (hi : i < N) (hind : v.ind = i)
    (hval : v.val = some (i, x)) : v.WF N := by
  right
  rw [hind, hval]
  exact ⟨hi, rfl⟩

theorem WF_ind_lt {N : Nat} {v : Variant V} (h : v.WF N)
    (hne : v.ind ≠ kVariantNPos) : v.ind < N ∧ ∃ x, v.val = some (v.ind, x) := by
  rcases WF_cases h with ⟨h1, _⟩ | h1
  · exact absurd h1 hne
  · exact h1

theorem mem_of_getElem? {α : Type} {l : List α} {i : Nat} {a : α} (h : l[i]? = some a) :
    a ∈ l := List.getElem?_mem h

theorem Emplace_post {alts : List (Alt V A)} (hN : alts.length ≤ kVariantNPos) {v : Variant V}
    (hv : v.WF alts.length) {N : Nat} {T : Alt V A} (hT : alts[N]? = some T) (args : Arg V A) :
    (v.Emplace alts N args).Post
      (fun x s => s.WF alts.length ∧ s.ind = N ∧ T.init args = .ok x)
      (fun s => s.WF alts.length ∧ s.ind = kVariantNPos ∧ ∃ e, T.init args = .error e) := by
  have hlt : N < alts.length := lt_length_of_getElem? hT
  rw [Emplace_WF hN hv, ConstructInternalValue_cleared hT]
  cases h : T.init args with
  | error e => exact ⟨WF_cleared _ _, rfl, e, rfl⟩
  | ok x => exact ⟨WF_holding hlt rfl rfl, rfl, rfl⟩

theorem assignValue_post {alts : List (Alt V A)} (hN : alts.length ≤ kVariantNPos)
    {v : Variant V} (hv : v.WF alts.length) {i : Nat} {T : Alt V A} (hT : alts[i]? = some T)
    (t : A) :
    (v.assignValue alts i t).Post
      (fun _ s => s.WF alts.length ∧ s.ind = i)
      (fun s => s.WF alts.length ∧ (AllNothrowMove alts → s.ind = v.ind)) := by
  have hlt : i < alts.length := lt_length_of_getElem? hT
  simp only [Variant.assignValue, hT]
  apply Post_noexceptIf
  by_cases hidx : v.Index = i
  · have hidx1 : v.ind = i := hidx
    rw [if_pos hidx]
    obtain ⟨_, x0, h2⟩ := WF_ind_lt hv (by omega)
    rw [hidx1] at h2
    rw [Get_holding hidx1 h2]
    dsimp only
    split
    · exact ⟨WF_holding hlt hidx1 rfl, hidx1⟩
    · exact ⟨WF_holding hlt hidx1 rfl, fun _ => rfl⟩
  · rw [if_neg hidx]
    split
    · rename_i hflag
      apply Post_void
      refine Post_mono (Emplace_post hN hv hT _) (fun _ s h => ⟨h.1, h.2.1⟩) ?_
      rintro s ⟨h1, _, e, he⟩
      refine ⟨h1, fun hall => ?_⟩
      obtain ⟨hm, hs⟩ := hall T (mem_of_getElem? hT)
      simp [hm] at hflag
      obtain ⟨x, hx⟩ := hs.construct t hflag
      simp [Alt.init, hx] at he
    · cases hc : T.construct t with
      | error e => exact ⟨hv, fun _ => rfl⟩
      | ok tmp =>
        apply Post_void
        refine Post_mono (Emplace_post hN hv hT _) (fun _ s h => ⟨h.1, h.2.1⟩) ?_
        rintro s ⟨h1, _, e, he⟩
        refine ⟨h1, fun hall => ?_⟩
        obtain ⟨hm, hs⟩ := hall T (mem_of_getElem? hT)
        obtain ⟨x, hx⟩ := hs.moveCtor hm tmp
        simp [Alt.init, hx] at he


theorem valueless_iff (v : Variant V) :
    v.ValuelessByException = true ↔ v.ind = kVariantNPos := by
  simp [Variant.ValuelessByException, Variant.Index]

theorem valueless_false_iff (v : Variant V) :
    v.ValuelessByException = false ↔ v.ind ≠ kVariantNPos := by
  simp [Variant.ValuelessByException, Variant.Index]

theorem copyCtor_post (alts : List (Alt V A)) {other : Variant V}
    (ho : other.WF alts.length) :
    (Variant.copyCtor alts other).Post
      (fun tmp _ => tmp.WF alts.length ∧ tmp.ind = other.ind) (fun _ => True) := by
  unfold Variant.copyCtor
  split
  · exact ⟨WF_of_fields ho rfl rfl, rfl⟩
  · unfold Variant.copyCtorBody
    by_cases hvl : other.ind = kVariantNPos
    · simp only [(valueless_iff other).2 hvl]
      exact ⟨Or.inl ⟨rfl, rfl⟩, hvl.symm⟩
    · obtain ⟨hlt, y, hval⟩ := WF_ind_lt ho hvl
      simp only [(valueless_false_iff other).2 hvl, Variant.Index, VisitIndex_lt _ hlt,
        Get_holding rfl hval]
      obtain ⟨T, hT⟩ : ∃ T, alts[other.ind]? = some T := ⟨_, List.getElem?_eq_getElem hlt⟩
      simp only [Variant.ConstructInternalValue, hT, uninitializedStorage]
      cases T.init (.cref y) with
      | error e => trivial
      | ok x => exact ⟨WF_holding hlt rfl rfl, rfl⟩

theorem moveCtor_post (alts : List (Alt V A)) {other : Variant V}
    (ho : other.WF alts.length) :
    (Variant.moveCtor alts other).Post
      (fun tmp o1 => tmp.WF alts.length ∧ tmp.ind = other.ind ∧ o1.WF alts.length ∧
        o1.ind = other.ind)
      (fun o1 => o1.WF alts.length ∧ o1.ind = other.ind) := by
  unfold Variant.moveCtor
  apply Post_noexceptIf
  split
  · exact ⟨WF_of_fields ho rfl rfl, rfl, ho, rfl⟩
  · unfold Variant.moveCtorBody
    by_cases hvl : other.ind = kVariantNPos
    · simp only [(valueless_iff other).2 hvl]
      exact ⟨Or.inl ⟨rfl, rfl⟩, hvl.symm, ho, rfl⟩
    · obtain ⟨hlt, y, hval⟩ := WF_ind_lt ho hvl
      obtain ⟨T, hT⟩ : ∃ T, alts[other.ind]? = some T := ⟨_, List.getElem?_eq_getElem hlt⟩
      simp only [(valueless_false_iff other).2 hvl, Variant.Index, VisitIndex_lt _ hlt,
        Get_holding rfl hval, hT, Variant.ConstructInternalValue, uninitializedStorage]
      cases T.init (.rref y) with
      | error e => exact ⟨WF_holding hlt rfl rfl, rfl⟩
      | ok x => exact ⟨WF_holding hlt rfl rfl, rfl, WF_holding hlt rfl rfl, rfl⟩

theorem destructor_post {alts : List (Alt V A)} (hN : alts.length ≤ kVariantNPos)
    {v : Variant V} (hv : v.WF alts.length) :
    (v.destructor alts).Post (fun _ _ => True) (fun _ => True) := by
  unfold Variant.destructor
  split
  · trivial
  · rw [DestroyInternalValue_WF hN hv]
    trivial

theorem moveAssign_post {alts : List (Alt V A)} (hN : alts.length ≤ kVariantNPos)
    {this other : Variant V} (ht : this.WF alts.length) (ho : other.WF alts.length) :
    (Variant.moveAssign alts this other).Post
      (fun _ p => p.1.WF alts.length ∧ p.2.WF alts.length ∧ p.1.ind = other.ind ∧
        p.2.ind = other.ind)
      (fun p => p.1.WF alts.length ∧ p.2.WF alts.length ∧ p.2.ind = other.ind ∧
        (AllNothrowMove alts → p.1.ind = this.ind)) := by
  unfold Variant.moveAssign
  apply Post_noexceptIf
  split
  · exact ⟨WF_of_fields ho rfl rfl, ho, rfl, rfl⟩
  · unfold Variant.moveAssignBody
    by_cases hvl : other.ind = kVariantNPos
    · simp only [(valueless_iff other).2 hvl, if_true]
      by_cases htl : this.ind = kVariantNPos
      · simp only [(valueless_iff this).2 htl, if_true]
        exact ⟨ht, ho, by rw [htl, hvl], rfl⟩
      · simp only [(valueless_false_iff this).2 htl, Bool.false_eq_true, if_false]
        rw [DestroyInternalValue_WF hN ht]
        exact ⟨Or.inl ⟨rfl, rfl⟩, ho, hvl.symm, rfl⟩
    · obtain ⟨hlt, y, hval⟩ := WF_ind_lt ho hvl
      obtain ⟨T, hT⟩ : ∃ T, alts[other.ind]? = some T := ⟨_, List.getElem?_eq_getElem hlt⟩
      simp only [(valueless_false_iff other).2 hvl, Variant.Index, VisitIndex_lt _ hlt,
        Variant.moveAssignVisitor, Get_holding rfl hval, hT, Bool.false_eq_true, if_false]
      by_cases hidx : this.ind = other.ind
      · obtain ⟨_, x, hx⟩ := WF_ind_lt ht (by omega)
        rw [hidx] at hx
        simp only [hidx, if_true, Get_holding hidx hx]
        split
        · exact ⟨WF_holding hlt rfl rfl, WF_holding hlt rfl rfl, rfl, rfl⟩
        · exact ⟨WF_holding hlt rfl rfl, WF_holding hlt rfl rfl, rfl, fun _ => rfl⟩
      · simp only [hidx, if_false]
        apply Post_mapState
        apply Post_void
        refine Post_mono (Emplace_post hN ht hT _) ?_ ?_
        · rintro _ s ⟨h1, h2, _⟩
          exact ⟨h1, WF_holding hlt rfl rfl, h2, rfl⟩
        · rintro s ⟨h1, _, e, he⟩
          refine ⟨h1, WF_holding hlt rfl rfl, rfl, fun hall => ?_⟩
          obtain ⟨hm, hs⟩ := hall T (mem_of_getElem? hT)
          obtain ⟨x, hx⟩ := hs.moveCtor hm y
          simp [Alt.init, hx] at he


theorem copyAssign_post {alts : List (Alt V A)} (hN : alts.length ≤ kVariantNPos)
    {this other : Variant V} (ht : this.WF alts.length) (ho : other.WF alts.length)
    (hex : IsTriviallyCopyAssignable alts = false → other.ind = kVariantNPos →
      this.ind = kVariantNPos) :
    (Variant.copyAssign alts this other).Post
      (fun _ s => s.WF alts.length ∧ s.ind = other.ind)
      (fun s => s.WF alts.length ∧ (AllNothrowMove alts → s.ind = this.ind)) := by
  unfold Variant.copyAssign
  split
  · exact ⟨WF_of_fields ho rfl rfl, rfl⟩
  · rename_i htriv
    have htriv : IsTriviallyCopyAssignable alts = false := by simpa using htriv
    unfold Variant.copyAssignBody
    by_cases hvl : other.ind = kVariantNPos
    · have htl := hex htriv hvl
      simp only [(valueless_iff other).2 hvl, (valueless_iff this).2 htl, if_true]
      exact ⟨ht, by rw [htl, hvl]⟩
    · obtain ⟨hlt, y, hval⟩ := WF_ind_lt ho hvl
      obtain ⟨T, hT⟩ : ∃ T, alts[other.ind]? = some T := ⟨_, List.getElem?_eq_getElem hlt⟩
      simp only [(valueless_false_iff other).2 hvl, Variant.Index, VisitIndex_lt _ hlt,
        Variant.copyAssignVisitor, Get_holding rfl hval, hT, Bool.false_eq_true, if_false]
      by_cases hidx : this.ind = other.ind
      · obtain ⟨_, x, hx⟩ := WF_ind_lt ht (by omega)
        rw [hidx] at hx
        simp only [hidx, if_true, Get_holding hidx hx]
        split
        · exact ⟨WF_holding hlt rfl rfl, rfl⟩
        · exact ⟨WF_holding hlt rfl rfl, fun _ => rfl⟩
      · simp only [hidx, if_false]
        split
        · rename_i hflag
          apply Post_void
          refine Post_mono (Emplace_post hN ht hT _) (fun _ s h => ⟨h.1, h.2.1⟩) ?_
          rintro s ⟨h1, _, e, he⟩
          refine ⟨h1, fun hall => ?_⟩
          obtain ⟨hm, hs⟩ := hall T (mem_of_getElem? hT)
          simp [hm] at hflag
          obtain ⟨x, hx⟩ := hs.copyCtor hflag y
          simp [Alt.init, hx] at he
        · have hc := copyCtor_post alts ho
          generalize Variant.copyCtor alts other = rc at hc ⊢
          cases rc with
          | ub => exact hc
          | terminate => trivial
          | throw e u => exact ⟨ht, fun _ => rfl⟩
          | ok tmp u =>
            obtain ⟨htmp, htind⟩ := hc
            have hma := moveAssign_post hN ht htmp
            dsimp only
            generalize Variant.moveAssign alts this tmp = rm at hma ⊢
            cases rm with
            | ub => exact hma
            | terminate => trivial
            | throw e p =>
              obtain ⟨h1, h2, _, h4⟩ := hma
              have hd := destructor_post hN h2
              obtain ⟨this1, tmp1⟩ := p
              dsimp only at hd ⊢
              generalize Variant.destructor alts tmp1 = rd at hd ⊢
              cases rd with
              | ub => exact hd
              | terminate => exact ⟨h1, h4⟩
              | throw e1 w => exact ⟨h1, h4⟩
              | ok a w => exact ⟨h1, h4⟩
            | ok a p =>
              obtain ⟨h1, h2, h3, _⟩ := hma
              have hd := destructor_post hN h2
              obtain ⟨this1, tmp1⟩ := p
              dsimp only at hd ⊢
              generalize Variant.destructor alts tmp1 = rd at hd ⊢
              cases rd with
              | ub => exact hd
              | terminate => exact ⟨h1, by rw [← htind]; exact h3⟩
              | throw e1 w => exact ⟨h1, by rw [← htind]; exact h3⟩
              | ok a w => exact ⟨h1, by rw [← htind]; exact h3⟩


theorem stdSwap_post {alts : List (Alt V A)} (hN : alts.length ≤ kVariantNPos)
    {a b : Variant V} (ha : a.WF alts.length) (hb : b.WF alts.length) :
    (stdSwap alts a b).Post
      (fun _ p => p.1.WF alts.length ∧ p.2.WF alts.length ∧ p.1.ind = b.ind ∧ p.2.ind = a.ind)
      (fun p => p.1.WF alts.length ∧ p.2.WF alts.length) := by
  unfold stdSwap
  have hc := moveCtor_post alts ha
  generalize Variant.moveCtor alts a = rc at hc ⊢
  cases rc with
  | ub => exact hc
  | terminate => trivial
  | throw e a1 => exact ⟨hc.1, hb⟩
  | ok tmp a1 =>
    obtain ⟨htmp, htind, ha1, _⟩ := hc
    have hm1 := moveAssign_post hN ha1 hb
    dsimp only
    generalize Variant.moveAssign alts a1 b = rm1 at hm1 ⊢
    cases rm1 with
    | ub => exact hm1
    | terminate => trivial
    | throw e p =>
      obtain ⟨a2, b1⟩ := p
      obtain ⟨h1, h2, _, _⟩ := hm1
      have hd := destructor_post hN htmp
      dsimp only at h1 h2 ⊢
      generalize Variant.destructor alts tmp = rd at hd ⊢
      cases rd with
      | ub => exact hd
      | terminate => exact ⟨h1, h2⟩
      | throw e1 w => exact ⟨h1, h2⟩
      | ok u w => exact ⟨h1, h2⟩
    | ok u p =>
      obtain ⟨a2, b1⟩ := p
      obtain ⟨h1, h2, h3, _⟩ := hm1
      dsimp only at h1 h2 h3 ⊢
      have hm2 := moveAssign_post hN h2 htmp
      generalize Variant.moveAssign alts b1 tmp = rm2 at hm2 ⊢
      cases rm2 with
      | ub => exact hm2
      | terminate => trivial
      | throw e q =>
        obtain ⟨b2, tmp1⟩ := q
        obtain ⟨h4, h5, _, _⟩ := hm2
        have hd := destructor_post hN h5
        dsimp only at h4 hd ⊢
        generalize Variant.destructor alts tmp1 = rd at hd ⊢
        cases rd with
        | ub => exact hd
        | terminate => exact ⟨h1, h4⟩
        | throw e1 w => exact ⟨h1, h4⟩
        | ok u1 w => exact ⟨h1, h4⟩
      | ok u1 q =>
        obtain ⟨b2, tmp1⟩ := q
        obtain ⟨h4, h5, h6, _⟩ := hm2
        have hd := destructor_post hN h5
        dsimp only at h4 h6 hd ⊢
        generalize Variant.destructor alts tmp1 = rd at hd ⊢
        cases rd with
        | ub => exact hd
        | terminate => exact ⟨h1, h4, h3, by rw [h6, htind]⟩
        | throw e1 w => exact ⟨h1, h4, h3, by rw [h6, htind]⟩
        | ok u2 w => exact ⟨h1, h4, h3, by rw [h6, htind]⟩

theorem Swap_post {alts : List (Alt V A)} (hN : alts.length ≤ kVariantNPos)
    {this other : Variant V} (ht : this.WF alts.length) (ho : other.WF alts.length) :
    (Variant.Swap alts this other).Post
      (fun _ p => p.1.WF alts.length ∧ p.2.WF alts.length ∧ p.1.ind = other.ind ∧
        p.2.ind = this.ind)
      (fun _ => False) := by
  unfold Variant.Swap
  have key : ∀ r : Res (Variant V × Variant V) Unit,
      r.Post (fun _ p => p.1.WF alts.length ∧ p.2.WF alts.length ∧ p.1.ind = other.ind ∧
        p.2.ind = this.ind) (fun _ => True) →
      (noexceptIf true r).Post (fun _ p => p.1.WF alts.length ∧ p.2.WF alts.length ∧
        p.1.ind = other.ind ∧ p.2.ind = this.ind) (fun _ => False) := by
    intro r hr
    cases r <;> simp_all [noexceptIf, Res.Post]
  apply key
  by_cases hboth : this.ind = kVariantNPos ∧ other.ind = kVariantNPos
  · simp only [(valueless_iff this).2 hboth.1, (valueless_iff other).2 hboth.2, Bool.and_self,
      if_true]
    exact ⟨ht, ho, by rw [hboth.1, hboth.2], by rw [hboth.1, hboth.2]⟩
  · have hcond : (this.ValuelessByException && other.ValuelessByException) = false := by
      rw [Bool.and_eq_false_iff, valueless_false_iff, valueless_false_iff]
      by_cases h1 : this.ind = kVariantNPos
      · right; exact fun h2 => hboth ⟨h1, h2⟩
      · left; exact h1
    simp only [hcond, Bool.false_eq_true, if_false, Variant.Index]
    by_cases hidx : other.ind = this.ind
    · have hne : other.ind ≠ kVariantNPos := by
        intro h; exact hboth ⟨by rw [← hidx]; exact h, h⟩
      obtain ⟨hlt, y, hy⟩ := WF_ind_lt ho hne
      obtain ⟨_, x, hx⟩ := WF_ind_lt ht (by rw [← hidx]; exact hne)
      obtain ⟨T, hT⟩ : ∃ T, alts[other.ind]? = some T := ⟨_, List.getElem?_eq_getElem hlt⟩
      rw [← hidx] at hx
      simp only [hidx, if_true]
      rw [← hidx]
      simp only [VisitIndex_lt _ hlt, Variant.swapVisitor, hT, Get_holding hidx.symm hx,
        Get_holding rfl hy]
      split
      · exact ⟨WF_holding hlt rfl rfl, WF_holding hlt hidx.symm rfl, rfl, hidx.symm⟩
      · trivial
    · simp only [hidx, if_false]
      exact Post_mono (stdSwap_post hN ht ho) (fun _ _ h => h) (fun _ _ => trivial)


/-! ## Statements preserve the invariant -/

theorem Inv_of_ind_lt {N : Nat} (hN : N ≤ kVariantNPos) {nv : Prop} {v : Variant V}
    (h : v.WF N) (hlt : v.ind < N) : v.Inv N nv :=
  ⟨h, fun _ => by omega⟩

theorem Inv_of_ind_eq {N : Nat} {nv : Prop} {v w : Variant V} (h : v.WF N)
    (hind : v.ind = w.ind) (hw : w.Inv N nv) : v.Inv N nv :=
  ⟨h, fun hnv => by rw [hind]; exact hw.2 hnv⟩

theorem Inv_weaken {N : Nat} {nv nv1 : Prop} {v : Variant V} (h : v.Inv N nv)
    (himp : nv1 → nv) : v.Inv N nv1 :=
  ⟨h.1, fun h1 => h.2 (himp h1)⟩

theorem StoreInv_weaken {N : Nat} {nv nv1 : Prop} {s : List (Variant V)}
    (h : StoreInv N nv s) (himp : nv1 → nv) : StoreInv N nv1 s :=
  fun v hv => Inv_weaken (h v hv) himp

theorem StoreInv_set {N : Nat} {nv : Prop} {s : List (Variant V)} (h : StoreInv N nv s)
    (i : Nat) {x : Variant V} (hx : x.Inv N nv) : StoreInv N nv (s.set i x) := by
  intro v hv
  rcases List.mem_or_eq_of_mem_set hv with h1 | h1
  · exact h v h1
  · rw [h1]; exact hx

theorem StoreInv_append {N : Nat} {nv : Prop} {s : List (Variant V)} (h : StoreInv N nv s)
    {x : Variant V} (hx : x.Inv N nv) : StoreInv N nv (s ++ [x]) := by
  intro v hv
  rcases List.mem_append.1 hv with h1 | h1
  · exact h v h1
  · rw [List.mem_singleton.1 h1]; exact hx

theorem StoreInv_get {N : Nat} {nv : Prop} {s : List (Variant V)} (h : StoreInv N nv s)
    {i : Nat} (hi : i < s.length) : ∃ v, s[i]? = some v ∧ v.Inv N nv :=
  ⟨s[i], List.getElem?_eq_getElem hi, h _ (List.getElem_mem hi)⟩

theorem declare_post {N : Nat} {nv nv1 : Prop} {s : List (Variant V)} (hs : StoreInv N nv s)
    {r : Res Unit (Variant V)} (h : r.Post (fun v _ => v.Inv N nv) (fun _ => True)) :
    (declare s r).Post (fun _ s1 => StoreInv N nv s1 ∧ s.length ≤ s1.length)
      (fun s1 => StoreInv N (nv ∧ nv1) s1 ∧ s.length ≤ s1.length) := by
  cases r with
  | ok v u => exact ⟨StoreInv_append hs h, by simp⟩
  | throw e u => exact ⟨StoreInv_weaken hs And.left, Nat.le_refl _⟩
  | terminate => trivial
  | ub => exact h

theorem inPlace_post {alts : List (Alt V A)} {N : Nat} (hlt : N < alts.length)
    (args : Arg V A) :
    (VariantStorage.inPlace alts N args).Post
      (fun v _ => v.WF alts.length ∧ v.ind = N) (fun _ => True) := by
  obtain ⟨T, hT⟩ : ∃ T, alts[N]? = some T := ⟨_, List.getElem?_eq_getElem hlt⟩
  simp only [VariantStorage.inPlace, hT]
  cases T.init args with
  | error e => trivial
  | ok x => exact ⟨WF_holding hlt rfl rfl, rfl⟩

theorem default_post {alts : List (Alt V A)} (hlt : 0 < alts.length) :
    (Variant.default alts).Post (fun v _ => v.WF alts.length ∧ v.ind = 0) (fun _ => True) := by
  obtain ⟨T, hT⟩ : ∃ T, alts[0]? = some T := ⟨_, List.getElem?_eq_getElem hlt⟩
  simp only [Variant.default, hT]
  apply Post_noexceptIf
  cases T.defaultCtor with
  | error e => trivial
  | ok x => exact ⟨WF_holding hlt rfl rfl, rfl⟩

theorem ofValue_post {alts : List (Alt V A)} {Index : Nat} (hlt : Index < alts.length)
    (t : A) :
    (Variant.ofValue alts Index t).Post
      (fun v _ => v.WF alts.length ∧ v.ind = Index) (fun _ => True) := by
  obtain ⟨T, hT⟩ : ∃ T, alts[Index]? = some T := ⟨_, List.getElem?_eq_getElem hlt⟩
  simp only [Variant.ofValue, hT]
  exact Post_noexceptIf _ (inPlace_post hlt _)


theorem step_post {alts : List (Alt V A)} (hN : alts.length ≤ kVariantNPos) {nv : Prop}
    {s : List (Variant V)} (hs : StoreInv alts.length nv s) {op : Op A}
    (hwf : op.wellFormed alts.length s) (hmv : op.isMakeValueless = false)
    (hex : ¬ op.copiesValuelessOverValue alts s) :
    (step alts s op).Post
      (fun _ s1 => StoreInv alts.length nv s1 ∧ s.length ≤ s1.length)
      (fun s1 => StoreInv alts.length (nv ∧ AllNothrowMove alts ∧ op.isAssignOrSwap = true) s1 ∧
        s.length ≤ s1.length) := by
  cases op with
  | defaultCtor =>
    exact declare_post hs (Post_mono (default_post hwf)
      (fun v _ h => Inv_of_ind_lt hN h.1 (by rw [h.2]; exact hwf)) (fun _ h => h))
  | ofValue Index t =>
    exact declare_post hs (Post_mono (ofValue_post hwf t)
      (fun v _ h => Inv_of_ind_lt hN h.1 (by rw [h.2]; exact hwf)) (fun _ h => h))
  | inPlace M t =>
    exact declare_post hs (Post_mono (inPlace_post hwf (.fwd t))
      (fun v _ h => Inv_of_ind_lt hN h.1 (by rw [h.2]; exact hwf)) (fun _ h => h))
  | copyCtor src =>
    obtain ⟨other, ho, hoi⟩ := StoreInv_get hs hwf
    simp only [step, ho]
    exact declare_post hs (Post_mono (copyCtor_post alts hoi.1)
      (fun v _ h => Inv_of_ind_eq h.1 h.2 hoi) (fun _ h => h))
  | moveCtor src =>
    obtain ⟨other, ho, hoi⟩ := StoreInv_get hs hwf
    simp only [step, ho]
    have hp := moveCtor_post alts hoi.1
    generalize Variant.moveCtor alts other = r at hp ⊢
    cases r with
    | ok v o1 =>
      obtain ⟨h1, h2, h3, h4⟩ := hp
      exact ⟨StoreInv_append (StoreInv_set hs _ (Inv_of_ind_eq h3 h4 hoi))
        (Inv_of_ind_eq h1 h2 hoi), by simp⟩
    | throw e o1 =>
      obtain ⟨h3, h4⟩ := hp
      exact ⟨StoreInv_weaken (StoreInv_set hs _ (Inv_of_ind_eq h3 h4 hoi)) And.left, by simp⟩
    | terminate => trivial
    | ub => exact hp
  | assign dst Index t =>
    obtain ⟨v, hv, hvi⟩ := StoreInv_get hs hwf.1
    obtain ⟨T, hT⟩ : ∃ T, alts[Index]? = some T := ⟨_, List.getElem?_eq_getElem hwf.2⟩
    simp only [step, hv]
    apply Post_mapState
    refine Post_mono (assignValue_post hN hvi.1 hT t) ?_ ?_
    · rintro _ v1 ⟨h1, h2⟩
      exact ⟨StoreInv_set hs _ (Inv_of_ind_lt hN h1 (by rw [h2]; exact hwf.2)), by simp⟩
    · rintro v1 ⟨h1, h2⟩
      refine ⟨StoreInv_set (StoreInv_weaken hs And.left) _ ⟨h1, ?_⟩, by simp⟩
      rintro ⟨hnv, hall, _⟩
      rw [h2 hall]
      exact hvi.2 hnv
  | copyAssign dst src =>
    obtain ⟨this, ht, hti⟩ := StoreInv_get hs hwf.1
    obtain ⟨other, ho, hoi⟩ := StoreInv_get hs hwf.2
    simp only [step, ht, ho]
    apply Post_mapState
    have hex1 : IsTriviallyCopyAssignable alts = false → other.ind = kVariantNPos →
        this.ind = kVariantNPos := by
      intro h1 h2
      by_contra h3
      exact hex ⟨h1, this, other, ht, ho, (valueless_iff other).2 h2,
        (valueless_false_iff this).2 h3⟩
    refine Post_mono (copyAssign_post hN hti.1 hoi.1 hex1) ?_ ?_
    · rintro _ v1 ⟨h1, h2⟩
      exact ⟨StoreInv_set hs _ (Inv_of_ind_eq h1 h2 hoi), by simp⟩
    · rintro v1 ⟨h1, h2⟩
      refine ⟨StoreInv_set (StoreInv_weaken hs And.left) _ ⟨h1, ?_⟩, by simp⟩
      rintro ⟨hnv, hall, _⟩
      rw [h2 hall]
      exact hti.2 hnv
  | moveAssign dst src =>
    obtain ⟨this, ht, hti⟩ := StoreInv_get hs hwf.1
    obtain ⟨other, ho, hoi⟩ := StoreInv_get hs hwf.2
    simp only [step, ht, ho]
    apply Post_mapState
    refine Post_mono (moveAssign_post hN hti.1 hoi.1) ?_ ?_
    · rintro _ p ⟨h1, h2, h3, h4⟩
      exact ⟨StoreInv_set (StoreInv_set hs _ (Inv_of_ind_eq h2 h4 hoi)) _
        (Inv_of_ind_eq h1 h3 hoi), by simp⟩
    · rintro p ⟨h1, h2, h3, h4⟩
      refine ⟨StoreInv_set (StoreInv_set (StoreInv_weaken hs And.left) _
        (Inv_weaken (Inv_of_ind_eq h2 h3 hoi) And.left)) _ ⟨h1, ?_⟩, by simp⟩
      rintro ⟨hnv, hall, _⟩
      rw [h4 hall]
      exact hti.2 hnv
  | emplace dst M t =>
    obtain ⟨v, hv, hvi⟩ := StoreInv_get hs hwf.1
    obtain ⟨T, hT⟩ : ∃ T, alts[M]? = some T := ⟨_, List.getElem?_eq_getElem hwf.2⟩
    simp only [step, hv]
    apply Post_mapState
    apply Post_void
    refine Post_mono (Emplace_post hN hvi.1 hT _) ?_ ?_
    · rintro _ v1 ⟨h1, h2, _⟩
      exact ⟨StoreInv_set hs _ (Inv_of_ind_lt hN h1 (by rw [h2]; exact hwf.2)), by simp⟩
    · rintro v1 ⟨h1, _, _⟩
      refine ⟨StoreInv_set (StoreInv_weaken hs And.left) _ ⟨h1, ?_⟩, by simp⟩
      rintro ⟨_, _, h⟩
      simp [Op.isAssignOrSwap] at h
  | swap dst src =>
    obtain ⟨this, ht, hti⟩ := StoreInv_get hs hwf.1
    obtain ⟨other, ho, hoi⟩ := StoreInv_get hs hwf.2
    simp only [step, ht, ho]
    apply Post_mapState
    refine Post_mono (Swap_post hN hti.1 hoi.1) ?_ ?_
    · rintro _ p ⟨h1, h2, h3, h4⟩
      exact ⟨StoreInv_set (StoreInv_set hs _ (Inv_of_ind_eq h2 h4 hti)) _
        (Inv_of_ind_eq h1 h3 hoi), by simp⟩
    · intro p hp
      exact hp.elim
  | makeValueless dst => simp [Op.isMakeValueless] at hmv


theorem step_not_wellFormed {alts : List (Alt V A)} (hN : alts.length ≤ kVariantNPos)
    {s : List (Variant V)} (hs : StoreInv alts.length False s) {op : Op A}
    (hwf : ¬ op.wellFormed alts.length s) : step alts s op = .ub := by
  have none_of {α : Type} {l : List α} {i : Nat} (h : ¬ i < l.length) : l[i]? = none :=
    List.getElem?_eq_none (Nat.le_of_not_lt h)
  cases op with
  | defaultCtor => simp [step, Variant.default, none_of hwf, declare]
  | ofValue Index t => simp [step, Variant.ofValue, none_of hwf, declare]
  | inPlace M t =>
    simp [step, Variant.inPlace, VariantStorage.inPlace, none_of hwf, declare]
  | copyCtor src => simp [step, none_of hwf]
  | moveCtor src => simp [step, none_of hwf]
  | makeValueless dst => simp [step, none_of hwf]
  | assign dst Index t =>
    by_cases h1 : dst < s.length
    · have h2 : ¬ Index < alts.length := fun h2 => hwf ⟨h1, h2⟩
      simp [step, List.getElem?_eq_getElem h1, Variant.assignValue, none_of h2, Res.mapState]
    · simp [step, none_of h1]
  | emplace dst M t =>
    by_cases h1 : dst < s.length
    · have h2 : ¬ M < alts.length := fun h2 => hwf ⟨h1, h2⟩
      obtain ⟨v, hv, hvi⟩ := StoreInv_get hs h1
      simp [step, hv, Emplace_WF hN hvi.1, Variant.ConstructInternalValue, none_of h2,
        Res.mapState, Res.void]
    · simp [step, none_of h1]
  | copyAssign dst src =>
    by_cases h1 : dst < s.length
    · have h2 : ¬ src < s.length := fun h2 => hwf ⟨h1, h2⟩
      simp [step, none_of h2]
    · simp [step, none_of h1]
  | moveAssign dst src =>
    by_cases h1 : dst < s.length
    · have h2 : ¬ src < s.length := fun h2 => hwf ⟨h1, h2⟩
      simp [step, none_of h2]
    · simp [step, none_of h1]
  | swap dst src =>
    by_cases h1 : dst < s.length
    · have h2 : ¬ src < s.length := fun h2 => hwf ⟨h1, h2⟩
      simp [step, none_of h2]
    · simp [step, none_of h1]

/-- The user-provided copy assignment from a valueless source over a held
value runs into the out-of-bounds dispatch. -/
theorem copyAssign_valueless_over_value {alts : List (Alt V A)}
    (hN : alts.length ≤ kVariantNPos) {this other : Variant V} (ht : this.WF alts.length)
    (htriv : IsTriviallyCopyAssignable alts = false)
    (ho : other.ValuelessByException = true) (hth : this.ValuelessByException = false) :
    Variant.copyAssign alts this other = .ub := by
  have hoi : other.ind = kVariantNPos := (valueless_iff other).1 ho
  simp only [Variant.copyAssign, htriv, Variant.copyAssignBody, ho, hth,
    DestroyInternalValue_WF hN ht, Variant.Index, hoi, Bool.false_eq_true, if_false, if_true]
  exact VisitIndex_ge _ hN

theorem step_copiesValuelessOverValue {alts : List (Alt V A)}
    (hN : alts.length ≤ kVariantNPos) {s : List (Variant V)}
    (hs : StoreInv alts.length False s) {op : Op A}
    (hex : op.copiesValuelessOverValue alts s) : step alts s op = .ub := by
  cases op with
  | copyAssign dst src =>
    obtain ⟨htriv, this, other, ht, ho, h1, h2⟩ := hex
    have hti := hs this (List.getElem?_mem ht)
    simp [step, ht, ho, copyAssign_valueless_over_value hN hti.1 htriv h1 h2, Res.mapState]
  | _ => exact hex.elim

theorem Op.wellFormed_mono {N : Nat} {s s1 : List (Variant V)} (h : s.length ≤ s1.length)
    {op : Op A} (hwf : op.wellFormed N s) : op.wellFormed N s1 := by
  cases op <;> simp only [Op.wellFormed] at hwf ⊢ <;> omega


theorem StoreInv_of {N : Nat} {s : List (Variant V)} (hwf : ∀ v ∈ s, v.WF N)
    (hnv : ∀ v ∈ s, v.ValuelessByException = false) : StoreInv N True s :=
  fun v hv => ⟨hwf v hv, fun _ => (valueless_false_iff v).1 (hnv v hv)⟩

theorem not_copiesValuelessOverValue {alts : List (Alt V A)} {s : List (Variant V)}
    (hs : StoreInv alts.length True s) (op : Op A) : ¬ op.copiesValuelessOverValue alts s := by
  cases op with
  | copyAssign dst src =>
    rintro ⟨_, this, other, _, ho, h1, _⟩
    exact (hs other (List.getElem?_mem ho)).2 trivial ((valueless_iff other).1 h1)
  | _ => exact fun h => h

theorem run_assign_swap_post {alts : List (Alt V A)} (hN : alts.length ≤ kVariantNPos)
    (hall : AllNothrowMove alts) :
    ∀ (ops : List (Op A)) (s : List (Variant V)), StoreInv alts.length True s →
      (∀ op ∈ ops, op.isAssignOrSwap = true ∧ op.wellFormed alts.length s) →
      (run alts ops s).Post (fun _ s1 => StoreInv alts.length True s1) (fun _ => True) := by
  intro ops
  induction ops with
  | nil => intro s hs _; exact hs
  | cons op ops ih =>
    intro s hs hops
    obtain ⟨hop, hwf⟩ := hops op (List.mem_cons_self _ _)
    have hmv : op.isMakeValueless = false := by
      cases op <;> first | rfl | exact absurd hop (by simp [Op.isAssignOrSwap])
    have hp := step_post hN hs hwf hmv (not_copiesValuelessOverValue hs op)
    have hrest : ∀ s1 : List (Variant V), s.length ≤ s1.length →
        ∀ op1 ∈ ops, op1.isAssignOrSwap = true ∧ op1.wellFormed alts.length s1 := by
      intro s1 hlen op1 h1
      exact ⟨(hops op1 (List.mem_cons_of_mem _ h1)).1,
        Op.wellFormed_mono hlen (hops op1 (List.mem_cons_of_mem _ h1)).2⟩
    simp only [run]
    generalize step alts s op = r at hp ⊢
    cases r with
    | ok u s1 => exact ih s1 hp.1 (hrest s1 hp.2)
    | throw e s1 =>
      exact ih s1 (StoreInv_weaken hp.1 (fun _ => ⟨trivial, hall, hop⟩)) (hrest s1 hp.2)
    | terminate => trivial
    | ub => exact hp

/-! ## No valueless state without a throwing move -/

/-- C8. If every alternative's move constructor is `noexcept` (and the
`noexcept` traits are truthful), then from variants that are well-formed and
not valueless, no finite sequence of converting assignments, copy
assignments, move assignments and `Swap`s among them has undefined behaviour
or leaves any of them with `ValuelessByException() == true`, whatever copy
constructions or constructions from the assigned value throw on the way. -/
theorem assign_swap_never_valueless (alts : List (Alt V A))
    (hN : alts.length ≤ kVariantNPos) (hall : AllNothrowMove alts) (s : List (Variant V))
    (hwf : ∀ v ∈ s, v.WF alts.length) (hnv : ∀ v ∈ s, v.ValuelessByException = false)
    (ops : List (Op A))
    (hops : ∀ op ∈ ops, op.isAssignOrSwap = true ∧ op.wellFormed alts.length s) :
    run alts ops s ≠ .ub ∧
      ∀ s1, run alts ops s = .ok () s1 → ∀ v ∈ s1, v.ValuelessByException = false := by
  have hp := run_assign_swap_post hN hall ops s (StoreInv_of hwf hnv) hops
  constructor
  · intro h; rw [h] at hp; exact hp
  · intro s1 h v hv
    rw [h] at hp
    exact (valueless_false_iff v).2 ((hp v hv).2 trivial)

theorem scalarAlt_sound (wrap : Int → Lit) : (scalarAlt wrap).Sound :=
  ⟨fun _ _ => ⟨_, rfl⟩, fun _ _ => ⟨_, rfl⟩, fun _ _ => ⟨_, rfl⟩⟩

theorem classAlt_sound (nothrowMove : Bool) : (classAlt nothrowMove).Sound :=
  ⟨fun t h => by simp [classAlt] at h, fun h => by simp [classAlt] at h,
    fun _ _ => ⟨_, rfl⟩⟩

theorem intClass_nothrowMove : AllNothrowMove (intClass true) := by
  intro T hT
  simp only [intClass, List.mem_cons, List.mem_singleton, List.not_mem_nil, or_false] at hT
  rcases hT with h | h
  · rw [h]; exact ⟨rfl, scalarAlt_sound _⟩
  · rw [h]; exact ⟨rfl, classAlt_sound _⟩

/-- The two variants of the examples: one holding the `int` 7 and one holding
the object 13, whose copy constructor throws.  The first two statements throw
and change nothing. -/
theorem assign_swap_never_valueless_witness :
    run (intClass true)
        [.assign 0 1 (.int (-3)), .copyAssign 0 1, .swap 0 1, .moveAssign 1 0, .copyAssign 1 1]
        [holdsInt 7, { val := some (1, .obj 13), ind := 1, destroyed := [] }] =
      .ok () [{ val := some (1, .obj 0), ind := 1, destroyed := [(0, .int 7)] },
        { val := some (1, .obj 13), ind := 1, destroyed := [(1, .obj 0), (0, .int 7)] }] ∧
    (run (intClass true)
        [.assign 0 1 (.int (-3)), .copyAssign 0 1, .swap 0 1, .moveAssign 1 0, .copyAssign 1 1]
        [holdsInt 7, { val := some (1, .obj 13), ind := 1, destroyed := [] }] ≠ .ub ∧
      ∀ s1, run (intClass true)
        [.assign 0 1 (.int (-3)), .copyAssign 0 1, .swap 0 1, .moveAssign 1 0, .copyAssign 1 1]
        [holdsInt 7, { val := some (1, .obj 13), ind := 1, destroyed := [] }] = .ok () s1 →
        ∀ v ∈ s1, v.ValuelessByException = false) :=
  ⟨by decide,
    assign_swap_never_valueless (intClass true) (by decide) intClass_nothrowMove
      [holdsInt 7, { val := some (1, .obj 13), ind := 1, destroyed := [] }]
      (by decide) (by decide) _ (by
        intro op hop
        simp only [List.mem_cons, List.mem_singleton, List.not_mem_nil, or_false] at hop
        rcases hop with h | h | h | h | h <;> subst h <;>
          simp [Op.isAssignOrSwap, Op.wellFormed, intClass])⟩

theorem step_state_inv {alts : List (Alt V A)} (hN : alts.length ≤ kVariantNPos) {nv : Prop}
    {s : List (Variant V)} (hs : StoreInv alts.length nv s) {op : Op A}
    (hmv : op.isMakeValueless = false) :
    (∀ s1, step alts s op = .ok () s1 → StoreInv alts.length nv s1) ∧
    (∀ e s1, step alts s op = .throw e s1 → StoreInv alts.length False s1) := by
  have hs0 : StoreInv alts.length False s := StoreInv_weaken hs False.elim
  by_cases hwf : op.wellFormed alts.length s
  · by_cases hex : op.copiesValuelessOverValue alts s
    · rw [step_copiesValuelessOverValue hN hs0 hex]
      exact ⟨fun _ h => (by cases h), fun _ _ h => (by cases h)⟩
    · have hp := step_post hN hs hwf hmv hex
      constructor
      · intro s1 h; rw [h] at hp; exact hp.1
      · intro e s1 h; rw [h] at hp; exact StoreInv_weaken hp.1 False.elim
  · rw [step_not_wellFormed hN hs0 hwf]
    exact ⟨fun _ h => (by cases h), fun _ _ h => (by cases h)⟩

/-! ## Valueless only through the documented paths -/

/-- C9. For variants that are well-formed and not valueless, every operation
of the public surface that changes or creates a variant (a constructor, a
converting, copy or move assignment, `Emplace`, `Swap`) and returns without
throwing leaves every variant of the program, the new one included, not
valueless.  The statements are all those of `Op` but the direct call of
`MakeValueless`, the helper with which `Emplace` and the assignments set the
sentinel. -/
theorem ok_never_valueless (alts : List (Alt V A)) (hN : alts.length ≤ kVariantNPos)
    (s : List (Variant V)) (hwf : ∀ v ∈ s, v.WF alts.length)
    (hnv : ∀ v ∈ s, v.ValuelessByException = false) (op : Op A)
    (hmv : op.isMakeValueless = false) (s1 : List (Variant V))
    (h : step alts s op = .ok () s1) :
    ∀ v ∈ s1, v.ValuelessByException = false := by
  intro v hv
  have := (step_state_inv hN (StoreInv_of hwf hnv) hmv).1 s1 h v hv
  exact (valueless_false_iff v).2 (this.2 trivial)

theorem ok_never_valueless_witness :
    step (intClass false) [holdsInt 7, { val := some (1, .obj 13), ind := 1, destroyed := [] }]
        (.swap 0 1) =
      .ok () [{ val := some (1, .obj 13), ind := 1, destroyed := [(0, .int 7)] },
        { val := some (0, .int 7), ind := 0, destroyed := [(1, .obj 0)] }] ∧
    Variant.ValuelessByException
      ({ val := some (1, .obj 13), ind := 1, destroyed := [(0, .int 7)] } : Variant Lit) = false ∧
    Variant.ValuelessByException
      ({ val := some (0, .int 7), ind := 0, destroyed := [(1, .obj 0)] } : Variant Lit) = false :=
  ⟨by decide,
    ok_never_valueless (intClass false) (by decide)
      [holdsInt 7, { val := some (1, .obj 13), ind := 1, destroyed := [] }]
      (by decide) (by decide) (.swap 0 1) rfl
      [{ val := some (1, .obj 13), ind := 1, destroyed := [(0, .int 7)] },
        { val := some (0, .int 7), ind := 0, destroyed := [(1, .obj 0)] }]
      (by decide) _ (List.mem_cons_self _ _),
    ok_never_valueless (intClass false) (by decide)
      [holdsInt 7, { val := some (1, .obj 13), ind := 1, destroyed := [] }]
      (by decide) (by decide) (.swap 0 1) rfl
      [{ val := some (1, .obj 13), ind := 1, destroyed := [(0, .int 7)] },
        { val := some (0, .int 7), ind := 0, destroyed := [(1, .obj 0)] }]
      (by decide) _ (List.mem_cons_of_mem _ (List.mem_cons_self _ _))⟩

/-- The helper `MakeValueless` called directly, outside `Emplace` and the
assignments: it sets the sentinel and touches nothing else, so the value the
variant held stays live in the storage, and a following `Emplace` constructs
over it. -/
theorem MakeValueless_direct_call :
    step (intClass true) [holdsInt 7] (.makeValueless 0) =
        .ok () [(holdsInt 7).MakeValueless] ∧
      (holdsInt 7).MakeValueless =
        { val := some (0, .int 7), ind := kVariantNPos, destroyed := [] } ∧
      run (intClass true) [.inPlace 1 (.int 3), .makeValueless 0, .emplace 0 0 (.int 1)] [] =
        .ub := by
  refine ⟨?_, ?_, ?_⟩ <;> decide

/-! ## The storage invariant -/

theorem run_state_inv {alts : List (Alt V A)} (hN : alts.length ≤ kVariantNPos) :
    ∀ (ops : List (Op A)) (s : List (Variant V)), StoreInv alts.length False s →
      (∀ op ∈ ops, op.isMakeValueless = false) →
      ∀ s1, run alts ops s = .ok () s1 → StoreInv alts.length False s1 := by
  intro ops
  induction ops with
  | nil =>
    intro s hs _ s1 h
    simp only [run, Res.ok.injEq, true_and] at h
    rw [← h]; exact hs
  | cons op ops ih =>
    intro s hs hops s1 h
    have hst := step_state_inv hN hs (hops op (List.mem_cons_self _ _))
    have hrest : ∀ op1 ∈ ops, op1.isMakeValueless = false :=
      fun op1 h1 => hops op1 (List.mem_cons_of_mem _ h1)
    simp only [run] at h
    generalize hr : step alts s op = r at h hst
    cases r with
    | ok u s2 => exact ih s2 (hst.1 s2 rfl) hrest s1 h
    | throw e s2 => exact ih s2 (hst.2 e s2 rfl) hrest s1 h
    | terminate => cases h
    | ub => cases h

/-- A program is undefined only from a statement that names a variable or an
alternative that does not exist, or from a user-provided copy assignment of a
valueless source over a held value; up to that statement every variant is
well-formed. -/
theorem run_ub_cause {alts : List (Alt V A)} (hN : alts.length ≤ kVariantNPos) :
    ∀ (ops : List (Op A)) (s : List (Variant V)), (∀ v ∈ s, v.WF alts.length) →
      (∀ op ∈ ops, op.isMakeValueless = false) → run alts ops s = .ub →
      ∃ pre op post s1, ops = pre ++ op :: post ∧ run alts pre s = .ok () s1 ∧
        (∀ v ∈ s1, v.WF alts.length) ∧
        (¬ op.wellFormed alts.length s1 ∨ op.copiesValuelessOverValue alts s1) := by
  intro ops
  induction ops with
  | nil =>
    intro s _ _ h
    simp only [run] at h
    cases h
  | cons op ops ih =>
    intro s hs hops h
    have hs0 : StoreInv alts.length False s := fun v hv => ⟨hs v hv, False.elim⟩
    by_cases hwf : op.wellFormed alts.length s
    · by_cases hex : op.copiesValuelessOverValue alts s
      · exact ⟨[], op, ops, s, rfl, rfl, hs, Or.inr hex⟩
      · have hp := step_post hN hs0 hwf (hops op (List.mem_cons_self _ _)) hex
        have hrest : ∀ op1 ∈ ops, op1.isMakeValueless = false :=
          fun op1 h1 => hops op1 (List.mem_cons_of_mem _ h1)
        simp only [run] at h
        generalize hr : step alts s op = r at h hp
        cases r with
        | ok u s2 =>
          obtain ⟨pre, op1, post, s1, hsplit, hrun, hwf1, hcause⟩ :=
            ih s2 (fun v hv => (hp.1 v hv).1) hrest h
          refine ⟨op :: pre, op1, post, s1, by rw [hsplit]; rfl, ?_, hwf1, hcause⟩
          simp only [run, hr]
          exact hrun
        | throw e s2 =>
          obtain ⟨pre, op1, post, s1, hsplit, hrun, hwf1, hcause⟩ :=
            ih s2 (fun v hv => (hp.1 v hv).1) hrest h
          refine ⟨op :: pre, op1, post, s1, by rw [hsplit]; rfl, ?_, hwf1, hcause⟩
          simp only [run, hr]
          exact hrun
        | terminate => cases h
        | ub => exact hp.elim
    · exact ⟨[], op, ops, s, rfl, rfl, hs, Or.inl hwf⟩

/-- C10. Programs over the constructors and mutating members of the public
surface (`MakeValueless`, a helper of the implementation, is not one of them).
A statement over existing variables on well-formed variants is defined and
leaves every variant well-formed, on return and on throw: the index a position
with exactly the member of that position live, or the sentinel with no member
live.  The one exception is the user-provided copy assignment of a valueless
source over a held value, which is undefined: after destroying the value it
dispatches on the sentinel.  Hence every state a program returns in is
well-formed, and a program is undefined only from such a copy assignment or
from a statement that names something that does not exist.  The program
`Variant<int, C> a(7); Variant<int, C> b; b.Emplace<1>(-1);` (which throws)
`a = b;` is undefined. -/
theorem reachable_WF (alts : List (Alt V A)) (hN : alts.length ≤ kVariantNPos) :
    (∀ (s : List (Variant V)) (op : Op A), (∀ v ∈ s, v.WF alts.length) →
        op.wellFormed alts.length s → op.isMakeValueless = false →
        ¬ op.copiesValuelessOverValue alts s →
        step alts s op ≠ .ub ∧
          ∀ s1, (step alts s op = .ok () s1 ∨ ∃ e, step alts s op = .throw e s1) →
            ∀ v ∈ s1, v.WF alts.length) ∧
    (∀ (s : List (Variant V)) (op : Op A), (∀ v ∈ s, v.WF alts.length) →
        op.copiesValuelessOverValue alts s → step alts s op = .ub) ∧
    (∀ (ops : List (Op A)) (s1 : List (Variant V)),
        (∀ op ∈ ops, op.isMakeValueless = false) → run alts ops [] = .ok () s1 →
        ∀ v ∈ s1, v.WF alts.length) ∧
    (∀ (ops : List (Op A)), (∀ op ∈ ops, op.isMakeValueless = false) →
        run alts ops [] = .ub →
        ∃ pre op post s1, ops = pre ++ op :: post ∧ run alts pre [] = .ok () s1 ∧
          (∀ v ∈ s1, v.WF alts.length) ∧
          (¬ op.wellFormed alts.length s1 ∨ op.copiesValuelessOverValue alts s1)) ∧
    run (intClass true)
      [.ofValue 0 (.int 7), .defaultCtor, .emplace 1 1 (.int (-1)), .copyAssign 0 1] [] = .ub ∧
    run (intClass true) [.ofValue 0 (.int 7), .defaultCtor, .emplace 1 1 (.int (-1))] [] =
      .ok () [holdsInt 7, { val := none, ind := kVariantNPos, destroyed := [(0, .int 0)] }] := by
  refine ⟨?_, ?_, ?_, ?_, by decide, by decide⟩
  · intro s op hs hwf hmv hex
    have hs0 : StoreInv alts.length False s := fun v hv => ⟨hs v hv, False.elim⟩
    have hp := step_post hN hs0 hwf hmv hex
    constructor
    · intro h; rw [h] at hp; exact hp
    · rintro s1 (h | ⟨e, h⟩) v hv
      · rw [h] at hp; exact (hp.1 v hv).1
      · rw [h] at hp; exact (hp.1 v hv).1
  · intro s op hs hex
    exact step_copiesValuelessOverValue hN (fun v hv => ⟨hs v hv, False.elim⟩) hex
  · intro ops s1 hops h v hv
    have h0 : StoreInv alts.length False ([] : List (Variant V)) := fun v hv => by cases hv
    exact (run_state_inv hN ops [] h0 hops s1 h v hv).1
  · intro ops hops h
    exact run_ub_cause hN ops [] (fun v hv => by cases hv) hops h

theorem reachable_WF_witness :
    (∀ (s : List (Variant Lit)) (op : Op Lit), (∀ v ∈ s, v.WF (intClass true).length) →
        op.wellFormed (intClass true).length s → op.isMakeValueless = false →
        ¬ op.copiesValuelessOverValue (intClass true) s →
        step (intClass true) s op ≠ .ub ∧
          ∀ s1, (step (intClass true) s op = .ok () s1 ∨
              ∃ e, step (intClass true) s op = .throw e s1) →
            ∀ v ∈ s1, v.WF (intClass true).length) ∧
    (∀ (s : List (Variant Lit)) (op : Op Lit), (∀ v ∈ s, v.WF (intClass true).length) →
        op.copiesValuelessOverValue (intClass true) s → step (intClass true) s op = .ub) ∧
    (∀ (ops : List (Op Lit)) (s1 : List (Variant Lit)),
        (∀ op ∈ ops, op.isMakeValueless = false) → run (intClass true) ops [] = .ok () s1 →
        ∀ v ∈ s1, v.WF (intClass true).length) ∧
    (∀ (ops : List (Op Lit)), (∀ op ∈ ops, op.isMakeValueless = false) →
        run (intClass true) ops [] = .ub →
        ∃ pre op post s1, ops = pre ++ op :: post ∧ run (intClass true) pre [] = .ok () s1 ∧
          (∀ v ∈ s1, v.WF (intClass true).length) ∧
          (¬ op.wellFormed (intClass true).length s1 ∨
            op.copiesValuelessOverValue (intClass true) s1)) ∧
    run (intClass true)
      [.ofValue 0 (.int 7), .defaultCtor, .emplace 1 1 (.int (-1)), .copyAssign 0 1] [] = .ub ∧
    run (intClass true) [.ofValue 0 (.int 7), .defaultCtor, .emplace 1 1 (.int (-1))] [] =
      .ok () [holdsInt 7, { val := none, ind := kVariantNPos, destroyed := [(0, .int 0)] }] :=
  reachable_WF (intClass true) (by decide)


/-! ## Access: `Get`, `GetIf` -/

theorem noexceptIf_true_ne_throw {σ α : Type} (r : Res σ α) (e : Exc) (s : σ) :
    noexceptIf true r ≠ .throw e s := by
  cases r <;> simp [noexceptIf]

/-- C11. For every well-formed variant `v` and every valid index `N`:
`Get<N>(v)` returns the held value exactly when `v.Index() == N` and
otherwise throws `BadVariantAccess`, in particular for every `N` when `v` is
valueless; `Get<1>` on a `Variant<int, double>` holding the `int` throws. -/
theorem Get_by_index (size : Nat) (hN : size ≤ kVariantNPos) (N : Nat) (hlt : N < size)
    (v : Variant V) (hv : v.WF size) :
    (v.Index = N → ∃ x, v.val = some (N, x) ∧ Get N v = .ok x ()) ∧
    (v.Index ≠ N → Get N v = .throw .BadVariantAccess ()) ∧
    (v.ValuelessByException = true → Get N v = .throw .BadVariantAccess ()) ∧
    ((∃ x, Get N v = .ok x ()) ↔ v.Index = N) ∧
    Get 1 (holdsInt 7) = .throw .BadVariantAccess () := by
  have h1 : v.Index = N → ∃ x, v.val = some (N, x) ∧ Get N v = .ok x () := by
    intro h
    have hind : v.ind = N := h
    obtain ⟨_, x, hx⟩ := WF_ind_lt hv (by omega)
    rw [hind] at hx
    exact ⟨x, hx, Get_holding hind hx⟩
  have h2 : v.Index ≠ N → Get N v = .throw .BadVariantAccess () := by
    intro h
    simp [Get, Ne.symm h]
  refine ⟨h1, h2, ?_, ?_, by decide⟩
  · intro h
    apply h2
    have := (valueless_iff v).1 h
    show v.ind ≠ N
    omega
  · constructor
    · rintro ⟨x, hx⟩
      by_contra hne
      rw [h2 hne] at hx
      cases hx
    · intro h
      obtain ⟨x, _, hx⟩ := h1 h
      exact ⟨x, hx⟩

theorem Get_by_index_witness :
    ((holdsDouble 5).Index = 1 →
      ∃ x, (holdsDouble 5).val = some (1, x) ∧ Get 1 (holdsDouble 5) = .ok x ()) ∧
    ((holdsDouble 5).Index ≠ 1 → Get 1 (holdsDouble 5) = .throw .BadVariantAccess ()) ∧
    ((holdsDouble 5).ValuelessByException = true →
      Get 1 (holdsDouble 5) = .throw .BadVariantAccess ()) ∧
    ((∃ x, Get 1 (holdsDouble 5) = .ok x ()) ↔ (holdsDouble 5).Index = 1) ∧
    Get 1 (holdsInt 7) = .throw .BadVariantAccess () :=
  Get_by_index 2 (by decide) 1 (by decide) (holdsDouble 5) (by decide)

/-- C12, at the failing input.  `Get<T>` asks `kHoldsAlternative<T>(v)`, whose
body calls `v.index()`; `Variant` has `Index()` and no `index()`, so no call of
`Get<T>` can be instantiated, for any alternative list, type and variant.  For
`Variant<int, double>` holding the `int` 7, `int` occurs once, at position 0,
and `Get<0>` returns the 7, but `Get<int>` is ill-formed. -/
theorem GetByType_ill_formed :
    (∀ (Ts : List ScalarTy) (T : ScalarTy) (v : Variant Lit),
        kHoldsAlternative Ts T v = none ∧ GetByType Ts T v = none ∧
          GetByTypeConst Ts T v = none) ∧
    kOccursOnlyOnceValue ScalarTy.int [.int, .double] = true ∧
    kFindInPackValue ScalarTy.int [.int, .double] = 0 ∧
    Get 0 (holdsInt 7) = .ok (.int 7) () ∧
    GetByType [ScalarTy.int, .double] .int (holdsInt 7) = none := by
  refine ⟨?_, by decide, by decide, by decide, by decide⟩
  intro Ts T v
  have hk : kHoldsAlternative Ts T v = none := by
    unfold kHoldsAlternative
    split
    · have : (Variant.sizeMember "index" : Option (Variant Lit → Nat)) = none := by
        unfold Variant.sizeMember
        rw [if_neg (by decide)]
      rw [this]; rfl
    · rfl
  refine ⟨hk, ?_, ?_⟩
  · simp only [GetByType, hk]
  · simp only [GetByTypeConst, hk]

/-- C13, at the failing input.  The overload of `GetIf<N>` for a pointer to a
non-const variant behaves as claimed: it never throws, returns null for a null
pointer and for another index (a valueless variant included) and a pointer to
the held value otherwise, and `GetIf<T>` is `GetIf` at the position of `T`.
The overload for a pointer to a const variant compares `N` with
`pv->index()`, a member `Variant` does not have, and cannot be instantiated;
`GetIf<0>` on a pointer to a const `Variant<int, double>` is ill-formed. -/
theorem GetIf_const_ill_formed :
    (∀ (N : Nat) (pv : Option (Variant Lit)),
        (∀ e u, GetIf N pv ≠ .throw e u) ∧
        (pv = none → GetIf N pv = .ok none ()) ∧
        (∀ v, pv = some v → v.Index ≠ N → GetIf N pv = .ok none ()) ∧
        (∀ v x, pv = some v → v.Index = N → v.val = some (N, x) →
          GetIf N pv = .ok (some x) ())) ∧
    (∀ (Ts : List ScalarTy) (T : ScalarTy) (pv : Option (Variant Lit)),
        GetIfByType Ts T pv = GetIf (kFindInPackValue T Ts) pv) ∧
    (∀ (N : Nat) (pv : Option (Variant Lit)), GetIfConst N pv = none) ∧
    (∀ (Ts : List ScalarTy) (T : ScalarTy) (pv : Option (Variant Lit)),
        GetIfByTypeConst Ts T pv = none) ∧
    GetIf 0 (some (holdsInt 7)) = .ok (some (.int 7)) () ∧
    GetIfConst 0 (some (holdsInt 7)) = none := by
  have hconst : ∀ (N : Nat) (pv : Option (Variant Lit)), GetIfConst N pv = none := by
    intro N pv
    have : (Variant.sizeMember "index" : Option (Variant Lit → Nat)) = none := by
      unfold Variant.sizeMember
      rw [if_neg (by decide)]
    simp only [GetIfConst, this]
  refine ⟨?_, fun _ _ _ => rfl, hconst, fun Ts T pv => hconst _ pv, by decide, by decide⟩
  intro N pv
  refine ⟨?_, ?_, ?_, ?_⟩
  · intro e u h
    exact noexceptIf_true_ne_throw _ e u h
  · intro h; subst h; rfl
  · intro v h hne
    subst h
    simp [GetIf, Ne.symm hne, noexceptIf]
  · intro v x h hidx hval
    subst h
    have hi : v.ind = N := hidx
    simp [GetIf, hidx, Get_holding hi hval, noexceptIf]


/-! ## `Visit` -/

theorem AtImpl_GenFmatrixImpl {R : Type} :
    ∀ (inds Ns : List Nat), List.Forall₂ (fun i N => i < N) inds Ns →
      ∀ FixedInds : List Nat,
        AtImpl (GenFmatrixImpl FixedInds Ns :
            Fmatrix (Visitor V R → List (Variant V) → List (VisitEvent V) →
              Res (List (VisitEvent V)) R)) inds =
          some (.entry (fmatrixEntry (FixedInds ++ inds))) := by
  intro inds Ns h
  induction h with
  | nil => intro FixedInds; simp [GenFmatrixImpl, AtImpl]
  | cons hlt _ ih =>
    intro FixedInds
    simp only [GenFmatrixImpl, AtImpl, List.getElem?_map, List.getElem?_range hlt,
      Option.map_some']
    rw [ih]
    simp

theorem AtImpl_entry {R : Type} :
    ∀ (Ns inds FixedInds : List Nat)
      (c : Visitor V R → List (Variant V) → List (VisitEvent V) → Res (List (VisitEvent V)) R),
      AtImpl (GenFmatrixImpl FixedInds Ns) inds = some (.entry c) →
      ∃ Inds, c = fmatrixEntry Inds := by
  intro Ns
  induction Ns with
  | nil =>
    intro inds FixedInds c h
    cases inds with
    | nil =>
      simp only [GenFmatrixImpl, AtImpl, Option.some.injEq, Fmatrix.entry.injEq] at h
      exact ⟨FixedInds, h.symm⟩
    | cons i inds => simp [GenFmatrixImpl, AtImpl] at h
  | cons N Rest ih =>
    intro inds FixedInds c h
    cases inds with
    | nil => simp [GenFmatrixImpl, AtImpl] at h
    | cons i inds =>
      simp only [GenFmatrixImpl, AtImpl, List.getElem?_map] at h
      by_cases hi : i < N
      · simp only [List.getElem?_range hi, Option.map_some'] at h
        exact ih inds _ c h
      · have : (List.range N)[i]? = none :=
          List.getElem?_eq_none (by simpa using Nat.le_of_not_lt hi)
        simp [this] at h

theorem getPack_held :
    ∀ (vs : List (Variant V)) (xs : List V),
      List.Forall₂ (fun v x => v.val = some (v.ind, x)) vs xs →
      getPack (vs.map Variant.Index) vs = .ok xs () := by
  intro vs xs h
  induction h with
  | nil => rfl
  | cons hx _ ih =>
    have hg := Get_holding rfl hx
    simp only [List.map_cons, getPack, Variant.Index] at ih ⊢
    rw [hg, ih]

theorem fmatrixEntry_events {R : Type} (Inds : List Nat) (f : Visitor V R)
    (vs : List (Variant V)) (ev : VisitEvent V) (e : Exc) :
    fmatrixEntry Inds f vs [ev] ≠ .throw e [] := by
  unfold fmatrixEntry
  cases getPack Inds vs with
  | ok args u =>
    dsimp only
    cases hf : f args <;> simp
  | throw e1 u => simp
  | terminate => simp
  | ub => simp

/-- C14. For `Visit(f, v1, ..., vk)` over variants with `N1, ..., Nk`
alternatives, each holding a value at an index below its size: the dispatch
table is indexed once, with the active indices, `f` is invoked exactly once,
with exactly the values the variants hold, in order, and `Visit` returns what
`f` returns (or propagates what it throws). -/
theorem Visit_invokes (R : Type) (Ns : List Nat) (f : Visitor V R) (vs : List (Variant V))
    (xs : List V) (hN : ∀ N ∈ Ns, N ≤ kVariantNPos)
    (hlt : List.Forall₂ (fun (v : Variant V) N => v.ind < N) vs Ns)
    (hheld : List.Forall₂ (fun (v : Variant V) x => v.val = some (v.ind, x)) vs xs) :
    Visit Ns f vs =
      match f xs with
      | .ok r => .ok r [.lookup (vs.map Variant.Index), .call xs]
      | .error e => .throw e [.lookup (vs.map Variant.Index), .call xs] := by
  have hany : (vs.any fun v => v.ValuelessByException) = false := by
    rw [List.any_eq_false]
    intro v hv
    obtain ⟨N, hNmem, hvN⟩ : ∃ N ∈ Ns, v.ind < N := by
      clear hheld
      induction hlt with
      | nil => cases hv
      | cons h _ ih =>
        rcases List.mem_cons.1 hv with h1 | h1
        · subst h1; exact ⟨_, List.mem_cons_self _ _, h⟩
        · obtain ⟨N, hm, hl⟩ := ih (fun N hN1 => hN N (List.mem_cons_of_mem _ hN1)) h1
          exact ⟨N, List.mem_cons_of_mem _ hm, hl⟩
    have := hN N hNmem
    have hne : v.ind ≠ kVariantNPos := by omega
    simp [(valueless_false_iff v).2 hne]
  have hinds : List.Forall₂ (fun i N => i < N) (vs.map Variant.Index) Ns := by
    clear hheld hany
    induction hlt with
    | nil => exact List.Forall₂.nil
    | cons h _ ih =>
      exact List.Forall₂.cons h (ih (fun N hN1 => hN N (List.mem_cons_of_mem _ hN1)))
  simp only [Visit, hany, Bool.false_eq_true, if_false, GenFmatrix,
    AtImpl_GenFmatrixImpl _ _ hinds, List.nil_append, fmatrixEntry, getPack_held vs xs hheld]
  cases f xs <;> rfl

theorem Visit_invokes_witness :
    Visit [2, 2] sumVisitor [holdsInt 7, holdsDouble 5] =
      match sumVisitor [.int 7, .dbl 5] with
      | .ok r => .ok r [.lookup ([holdsInt 7, holdsDouble 5].map Variant.Index),
          .call [.int 7, .dbl 5]]
      | .error e => .throw e [.lookup ([holdsInt 7, holdsDouble 5].map Variant.Index),
          .call [.int 7, .dbl 5]] :=
  Visit_invokes Int [2, 2] sumVisitor [holdsInt 7, holdsDouble 5] [.int 7, .dbl 5]
    (by decide)
    (List.Forall₂.cons (by decide) (List.Forall₂.cons (by decide) List.Forall₂.nil))
    (List.Forall₂.cons rfl (List.Forall₂.cons rfl List.Forall₂.nil))

/-- C15. `Visit(f, v1, ..., vk)` throws `BadVariantAccess` with no event at
all, neither a lookup in the dispatch table nor a call of `f`, if and only if
at least one of the variants is valueless. -/
theorem Visit_valueless (R : Type) (Ns : List Nat) (f : Visitor V R) (vs : List (Variant V)) :
    Visit Ns f vs = .throw .BadVariantAccess [] ↔
      ∃ v ∈ vs, v.ValuelessByException = true := by
  constructor
  · intro h
    by_contra hno
    have hany : (vs.any fun v => v.ValuelessByException) = false := by
      rw [List.any_eq_false]
      intro v hv hval
      exact hno ⟨v, hv, hval⟩
    simp only [Visit, hany, Bool.false_eq_true, if_false] at h
    cases hat : AtImpl (GenFmatrix Ns :
        Fmatrix (Visitor V R → List (Variant V) → List (VisitEvent V) →
          Res (List (VisitEvent V)) R)) (vs.map Variant.Index) with
    | none => simp [hat] at h
    | some m =>
      cases m with
      | row cells => simp [hat] at h
      | entry c =>
        obtain ⟨Inds, hc⟩ := AtImpl_entry Ns _ [] c hat
        simp only [hat, hc] at h
        exact fmatrixEntry_events Inds f vs _ _ h
  · rintro ⟨v, hv, hval⟩
    have hany : (vs.any fun v => v.ValuelessByException) = true := by
      rw [List.any_eq_true]
      exact ⟨v, hv, hval⟩
    simp [Visit, hany]


/-! ## Copy, move and swap of regular alternatives -/

theorem getElem?_of_lt {α : Type} {l : List α} {i : Nat} (h : i < l.length) :
    ∃ a, l[i]? = some a ∧ a ∈ l :=
  ⟨l[i], List.getElem?_eq_getElem h, List.getElem_mem h⟩

theorem WF_valueless_val {N : Nat} (hN : N ≤ kVariantNPos) {v : Variant V} (hv : v.WF N)
    (h : v.ind = kVariantNPos) : v.val = none := by
  rcases WF_cases hv with ⟨_, h1⟩ | ⟨h1, _⟩
  · exact h1
  · omega

theorem moveCtor_regular {alts : List (Alt V A)} (hN : alts.length ≤ kVariantNPos)
    (hreg : ∀ T ∈ alts, T.Regular) {other : Variant V} (ho : other.WF alts.length) :
    ∃ o1, Variant.moveCtor alts other =
        .ok { val := other.val, ind := other.ind, destroyed := [] } o1 ∧
      o1.WF alts.length ∧ o1.ind = other.ind := by
  unfold Variant.moveCtor
  split
  · exact ⟨other, noexceptIf_ok _ _ _, ho, rfl⟩
  · unfold Variant.moveCtorBody
    by_cases hvl : other.ind = kVariantNPos
    · have hval : other.val = none := WF_valueless_val hN ho hvl
      refine ⟨other, ?_, ho, rfl⟩
      simp only [(valueless_iff other).2 hvl, Bool.not_true, Bool.false_eq_true, if_false,
        uninitializedStorage, Variant.MakeValueless, hval, hvl]
      exact noexceptIf_ok _ _ _
    · obtain ⟨hlt, y, hval⟩ := WF_ind_lt ho hvl
      obtain ⟨T, hT, hmem⟩ := getElem?_of_lt hlt
      refine ⟨{ other with val := some (other.ind, (T.moveCtor y).2) }, ?_,
        WF_holding hlt rfl rfl, rfl⟩
      simp only [(valueless_false_iff other).2 hvl, Variant.Index, VisitIndex_lt _ hlt,
        Get_holding rfl hval, hT, Variant.ConstructInternalValue, uninitializedStorage,
        Alt.init, (hreg T hmem).moveCtor y, Bool.not_false, if_true, hval]
      exact noexceptIf_ok _ _ _


theorem moveAssign_regular {alts : List (Alt V A)} (hN : alts.length ≤ kVariantNPos)
    (hreg : ∀ T ∈ alts, T.Regular) {this other : Variant V} (ht : this.WF alts.length)
    (ho : other.WF alts.length) :
    ∃ t1 o1, Variant.moveAssign alts this other = .ok () (t1, o1) ∧ t1.ind = other.ind ∧
      t1.val = other.val ∧ t1.WF alts.length ∧ o1.WF alts.length ∧ o1.ind = other.ind := by
  have key : ∃ t1 o1, Variant.moveAssign alts this other = .ok () (t1, o1) ∧
      t1.val = other.val := by
    unfold Variant.moveAssign
    split
    · exact ⟨_, _, noexceptIf_ok _ _ _, rfl⟩
    · unfold Variant.moveAssignBody
      by_cases hvl : other.ind = kVariantNPos
      · have hoval : other.val = none := WF_valueless_val hN ho hvl
        simp only [(valueless_iff other).2 hvl, if_true]
        by_cases htl : this.ind = kVariantNPos
        · simp only [(valueless_iff this).2 htl, if_true]
          exact ⟨_, _, noexceptIf_ok _ _ _, by rw [WF_valueless_val hN ht htl, hoval]⟩
        · simp only [(valueless_false_iff this).2 htl, Bool.false_eq_true, if_false,
            DestroyInternalValue_WF hN ht, Res.mapState]
          exact ⟨_, _, noexceptIf_ok _ _ _, by rw [hoval]; rfl⟩
      · obtain ⟨hlt, y, hval⟩ := WF_ind_lt ho hvl
        obtain ⟨T, hT, hmem⟩ := getElem?_of_lt hlt
        simp only [(valueless_false_iff other).2 hvl, Variant.Index, VisitIndex_lt _ hlt,
          Variant.moveAssignVisitor, Get_holding rfl hval, hT, Bool.false_eq_true, if_false]
        by_cases hidx : this.ind = other.ind
        · obtain ⟨_, x, hx⟩ := WF_ind_lt ht (by omega)
          rw [hidx] at hx
          simp only [hidx, if_true, Get_holding hidx hx, ((hreg T hmem).moveAssign x y).1,
            ((hreg T hmem).moveAssign x y).2]
          exact ⟨_, _, noexceptIf_ok _ _ _, hval.symm⟩
        · simp only [hidx, if_false, Emplace_WF hN ht, ConstructInternalValue_cleared hT,
            Alt.init, (hreg T hmem).moveCtor y, Res.void, Res.mapState]
          exact ⟨_, _, noexceptIf_ok _ _ _, hval.symm⟩
  obtain ⟨t1, o1, hres, hv⟩ := key
  have hp := moveAssign_post hN ht ho
  rw [hres] at hp
  exact ⟨t1, o1, hres, hp.2.2.1, hv, hp.1, hp.2.1, hp.2.2.2⟩

theorem destructor_ok {alts : List (Alt V A)} (hN : alts.length ≤ kVariantNPos)
    {v : Variant V} (hv : v.WF alts.length) : v.destructor alts ≠ .ub := by
  have := destructor_post hN hv
  intro h
  rw [h] at this
  exact this

theorem stdSwap_regular {alts : List (Alt V A)} (hN : alts.length ≤ kVariantNPos)
    (hreg : ∀ T ∈ alts, T.Regular) {a b : Variant V} (ha : a.WF alts.length)
    (hb : b.WF alts.length) :
    ∃ a2 b2, stdSwap alts a b = .ok () (a2, b2) ∧ a2.ind = b.ind ∧ a2.val = b.val ∧
      b2.ind = a.ind ∧ b2.val = a.val := by
  obtain ⟨a1, hc, ha1, _⟩ := moveCtor_regular hN hreg ha
  have htmp : Variant.WF alts.length
      ({ val := a.val, ind := a.ind, destroyed := [] } : Variant V) := WF_of_fields ha rfl rfl
  obtain ⟨a2, b1, hm1, h1, h2, _, hb1, _⟩ := moveAssign_regular hN hreg ha1 hb
  obtain ⟨b2, tmp1, hm2, h3, h4, _, htmp1, _⟩ := moveAssign_regular hN hreg hb1 htmp
  refine ⟨a2, b2, ?_, h1, h2, h3, h4⟩
  simp only [stdSwap, hc, hm1, hm2]
  have hd := destructor_ok hN htmp1
  revert hd
  cases Variant.destructor alts tmp1 <;> simp

/-- C16. For every pair of well-formed states of two variants over the same
alternative list (same alternative, different alternatives, one valueless,
both valueless) whose alternatives are regular (their copy, move and swap do
not throw and transfer the value unchanged), `a.Swap(b)` returns and leaves `a`
with the former index and value of `b` and `b` with those of `a`; when both are
valueless nothing changes. -/
theorem Swap_exchanges (alts : List (Alt V A)) (hN : alts.length ≤ kVariantNPos)
    (hreg : ∀ T ∈ alts, T.Regular) (a b : Variant V) (ha : a.WF alts.length)
    (hb : b.WF alts.length) :
    (∃ a1 b1, Variant.Swap alts a b = .ok () (a1, b1) ∧ a1.ind = b.ind ∧ a1.val = b.val ∧
      b1.ind = a.ind ∧ b1.val = a.val) ∧
    (a.ValuelessByException = true → b.ValuelessByException = true →
      Variant.Swap alts a b = .ok () (a, b)) := by
  have hboth : a.ValuelessByException = true → b.ValuelessByException = true →
      Variant.Swap alts a b = .ok () (a, b) := by
    intro h1 h2
    simp [Variant.Swap, h1, h2, noexceptIf]
  refine ⟨?_, hboth⟩
  by_cases hvl : a.ind = kVariantNPos ∧ b.ind = kVariantNPos
  · refine ⟨a, b, hboth ((valueless_iff a).2 hvl.1) ((valueless_iff b).2 hvl.2), ?_, ?_, ?_, ?_⟩
    · rw [hvl.1, hvl.2]
    · rw [WF_valueless_val hN ha hvl.1, WF_valueless_val hN hb hvl.2]
    · rw [hvl.1, hvl.2]
    · rw [WF_valueless_val hN ha hvl.1, WF_valueless_val hN hb hvl.2]
  · have hcond : (a.ValuelessByException && b.ValuelessByException) = false := by
      rw [Bool.and_eq_false_iff, valueless_false_iff, valueless_false_iff]
      by_cases h1 : a.ind = kVariantNPos
      · right; exact fun h2 => hvl ⟨h1, h2⟩
      · left; exact h1
    unfold Variant.Swap
    simp only [hcond, Bool.false_eq_true, if_false, Variant.Index]
    by_cases hidx : b.ind = a.ind
    · have hne : b.ind ≠ kVariantNPos := by
        intro h; exact hvl ⟨by rw [← hidx]; exact h, h⟩
      obtain ⟨hlt, y, hy⟩ := WF_ind_lt hb hne
      obtain ⟨_, x, hx⟩ := WF_ind_lt ha (by rw [← hidx]; exact hne)
      obtain ⟨T, hT, hmem⟩ := getElem?_of_lt hlt
      rw [← hidx] at hx
      simp only [hidx, if_true]
      rw [← hidx]
      simp only [VisitIndex_lt _ hlt, Variant.swapVisitor, hT, Get_holding hidx.symm hx,
        Get_holding rfl hy, (hreg T hmem).swap x y]
      exact ⟨_, _, noexceptIf_ok _ _ _, rfl, hy.symm, hidx.symm, hx.symm⟩
    · simp only [hidx, if_false]
      obtain ⟨a2, b2, hs, h1, h2, h3, h4⟩ := stdSwap_regular hN hreg ha hb
      rw [hs]
      exact ⟨a2, b2, noexceptIf_ok _ _ _, h1, h2, h3, h4⟩

theorem scalarAlt_regular (wrap : Int → Lit) : (scalarAlt wrap).Regular :=
  ⟨fun _ => rfl, fun _ => rfl, fun _ _ => rfl, fun _ _ => ⟨rfl, rfl⟩, fun _ _ => rfl⟩

theorem recordAlt_regular : recordAlt.Regular :=
  ⟨fun _ => rfl, fun _ => rfl, fun _ _ => rfl, fun _ _ => ⟨rfl, rfl⟩, fun _ _ => rfl⟩

theorem intRecord_regular : ∀ T ∈ intRecord, T.Regular := by
  intro T hT
  simp only [intRecord, List.mem_cons, List.mem_singleton, List.not_mem_nil, or_false] at hT
  rcases hT with h | h
  · rw [h]; exact scalarAlt_regular _
  · rw [h]; exact recordAlt_regular

theorem Swap_exchanges_witness :
    (∃ a1 b1, Variant.Swap intRecord (holdsInt 7) (holdsObj 3) = .ok () (a1, b1) ∧
      a1.ind = (holdsObj 3).ind ∧ a1.val = (holdsObj 3).val ∧
      b1.ind = (holdsInt 7).ind ∧ b1.val = (holdsInt 7).val) ∧
    ((holdsInt 7).ValuelessByException = true → (holdsObj 3).ValuelessByException = true →
      Variant.Swap intRecord (holdsInt 7) (holdsObj 3) = .ok () (holdsInt 7, holdsObj 3)) :=
  Swap_exchanges intRecord (by decide) intRecord_regular (holdsInt 7) (holdsObj 3)
    (by decide) (by decide)


/-! ## Copy and move from a source that holds a value -/

theorem holding_not_valueless {N i : Nat} (hN : N ≤ kVariantNPos) (hi : i < N)
    {v : Variant V} (hind : v.ind = i) : v.ValuelessByException = false := by
  rw [valueless_false_iff]; omega

theorem copyCtor_holding_eq {alts : List (Alt V A)} (hN : alts.length ≤ kVariantNPos)
    {other : Variant V} {i : Nat} {y : V} {T : Alt V A} (hT : alts[i]? = some T)
    (hind : other.ind = i) (hval : other.val = some (i, y))
    (htriv : IsTriviallyCopyConstructible alts = false) :
    Variant.copyCtor alts other =
      match T.copyCtor y with
      | .ok z => .ok { val := some (i, z), ind := i, destroyed := [] } ()
      | .error e => .throw e () := by
  have hlt : i < alts.length := lt_length_of_getElem? hT
  simp only [Variant.copyCtor, htriv, Variant.copyCtorBody,
    holding_not_valueless hN hlt hind, Variant.Index, hind, VisitIndex_lt _ hlt,
    Get_holding hind hval, Variant.ConstructInternalValue, hT, uninitializedStorage, Alt.init,
    Bool.false_eq_true, if_false, Bool.not_false, if_true]
  cases T.copyCtor y <;> rfl

theorem moveCtor_holding_eq {alts : List (Alt V A)} (hN : alts.length ≤ kVariantNPos)
    {other : Variant V} {i : Nat} {y : V} {T : Alt V A} (hT : alts[i]? = some T)
    (hind : other.ind = i) (hval : other.val = some (i, y))
    (htriv : IsTriviallyMoveConstructible alts = false) :
    Variant.moveCtor alts other =
      noexceptIf (alts.all fun T => T.nothrowMoveConstructible)
        (match (T.moveCtor y).1 with
        | .ok z => .ok { val := some (i, z), ind := i, destroyed := [] }
            { other with val := some (i, (T.moveCtor y).2) }
        | .error e => .throw e { other with val := some (i, (T.moveCtor y).2) }) := by
  have hlt : i < alts.length := lt_length_of_getElem? hT
  simp only [Variant.moveCtor, htriv, Variant.moveCtorBody,
    holding_not_valueless hN hlt hind, Variant.Index, hind, VisitIndex_lt _ hlt,
    Get_holding hind hval, Variant.ConstructInternalValue, hT, uninitializedStorage, Alt.init,
    Bool.false_eq_true, if_false, Bool.not_false, if_true]
  cases (T.moveCtor y).1 <;> rfl

theorem moveAssign_same_eq {alts : List (Alt V A)} (hN : alts.length ≤ kVariantNPos)
    {this other : Variant V} {i : Nat} {x y : V} {T : Alt V A} (hT : alts[i]? = some T)
    (hind : other.ind = i) (hval : other.val = some (i, y))
    (htind : this.ind = i) (htval : this.val = some (i, x))
    (htriv : IsTriviallyMoveAssignable alts = false) :
    Variant.moveAssign alts this other =
      noexceptIf (alts.all fun T => T.nothrowMoveConstructible && T.nothrowMoveAssignable)
        (match (T.moveAssign x y).1 with
        | none => .ok () ({ this with val := some (i, (T.moveAssign x y).2.1) },
            { other with val := some (i, (T.moveAssign x y).2.2) })
        | some e => .throw e ({ this with val := some (i, (T.moveAssign x y).2.1) },
            { other with val := some (i, (T.moveAssign x y).2.2) })) := by
  have hlt : i < alts.length := lt_length_of_getElem? hT
  simp only [Variant.moveAssign, htriv, Variant.moveAssignBody,
    holding_not_valueless hN hlt hind, Variant.Index, hind, VisitIndex_lt _ hlt,
    Variant.moveAssignVisitor, Get_holding hind hval, hT, htind, Get_holding htind htval,
    Bool.false_eq_true, if_false, if_true]

theorem moveAssign_other_eq {alts : List (Alt V A)} (hN : alts.length ≤ kVariantNPos)
    {this other : Variant V} {i : Nat} {y : V} {T : Alt V A} (hT : alts[i]? = some T)
    (hind : other.ind = i) (hval : other.val = some (i, y))
    (ht : this.WF alts.length) (htind : this.ind ≠ i)
    (htriv : IsTriviallyMoveAssignable alts = false) :
    Variant.moveAssign alts this other =
      noexceptIf (alts.all fun T => T.nothrowMoveConstructible && T.nothrowMoveAssignable)
        (match (T.moveCtor y).1 with
        | .ok z => .ok () ({ this.cleared with val := some (i, z), ind := i },
            { other with val := some (i, (T.moveCtor y).2) })
        | .error e => .throw e (this.cleared,
            { other with val := some (i, (T.moveCtor y).2) })) := by
  have hlt : i < alts.length := lt_length_of_getElem? hT
  simp only [Variant.moveAssign, htriv, Variant.moveAssignBody,
    holding_not_valueless hN hlt hind, Variant.Index, hind, VisitIndex_lt _ hlt,
    Variant.moveAssignVisitor, Get_holding hind hval, hT, htind, Emplace_WF hN ht,
    ConstructInternalValue_cleared hT, Alt.init, Bool.false_eq_true, if_false]
  cases (T.moveCtor y).1 <;> rfl


/-- C17. Copy construction from a source holding the value `y` at alternative
`i` (whose copy constructor, when it is run, yields an equal value) yields a
variant with `Index() == i` that holds `y` at `i`; the source, taken by
reference to const, still holds `y` at `i`. -/
theorem copyCtor_copies (alts : List (Alt V A)) (hN : alts.length ≤ kVariantNPos)
    (other : Variant V) (i : Nat) (y : V) (T : Alt V A) (hT : alts[i]? = some T)
    (hind : other.ind = i) (hval : other.val = some (i, y))
    (hcopy : IsTriviallyCopyConstructible alts = false → T.copyCtor y = .ok y) :
    ∃ v, Variant.copyCtor alts other = .ok v () ∧ v.Index = i ∧ v.val = some (i, y) ∧
      Get i v = .ok y () ∧ other.Index = i ∧ Get i other = .ok y () := by
  refine ⟨{ val := some (i, y), ind := i, destroyed := [] }, ?_, rfl, rfl,
    Get_holding rfl rfl, hind, Get_holding hind hval⟩
  by_cases htriv : IsTriviallyCopyConstructible alts = true
  · simp [Variant.copyCtor, htriv, hind, hval]
  · have htriv : IsTriviallyCopyConstructible alts = false := by simpa using htriv
    rw [copyCtor_holding_eq hN hT hind hval htriv, hcopy htriv]

theorem copyCtor_copies_witness :
    ∃ v, Variant.copyCtor intRecord (holdsObj 3) = .ok v () ∧ v.Index = 1 ∧
      v.val = some (1, .obj 3) ∧ Get 1 v = .ok (.obj 3) () ∧ (holdsObj 3).Index = 1 ∧
      Get 1 (holdsObj 3) = .ok (.obj 3) () :=
  copyCtor_copies intRecord (by decide) (holdsObj 3) 1 (.obj 3) recordAlt rfl rfl rfl
    (fun _ => rfl)

/-- C19. From a valueless source, copy construction and move construction
return a valueless variant, and move assignment returns and leaves the
destination valueless, the source untouched; the user-provided move assignment
leaves no member live and makes one destructor call, on the value the
destination held, if it held one.  None of the three has undefined behaviour:
the sentinel is never used as an index into a dispatch table. -/
theorem valueless_source (alts : List (Alt V A)) (hN : alts.length ≤ kVariantNPos)
    (other : Variant V) (hvl : other.ValuelessByException = true) :
    (∃ v, Variant.copyCtor alts other = .ok v () ∧ v.ValuelessByException = true) ∧
    (∃ v, Variant.moveCtor alts other = .ok v other ∧ v.ValuelessByException = true) ∧
    (∀ this : Variant V, this.WF alts.length →
      ∃ t1, Variant.moveAssign alts this other = .ok () (t1, other) ∧
        t1.ValuelessByException = true ∧
        (IsTriviallyMoveAssignable alts = false →
          t1.val = none ∧ t1.destroyed = this.destroyed ++ this.val.toList)) := by
  have hind : other.ind = kVariantNPos := (valueless_iff other).1 hvl
  refine ⟨?_, ?_, ?_⟩
  · unfold Variant.copyCtor
    split
    · exact ⟨_, rfl, (valueless_iff _).2 hind⟩
    · exact ⟨(uninitializedStorage : Variant V).MakeValueless,
        by simp [Variant.copyCtorBody, hvl], (valueless_iff _).2 rfl⟩
  · unfold Variant.moveCtor
    split
    · exact ⟨_, noexceptIf_ok _ _ _, (valueless_iff _).2 hind⟩
    · refine ⟨(uninitializedStorage : Variant V).MakeValueless, ?_, (valueless_iff _).2 rfl⟩
      simp only [Variant.moveCtorBody, hvl, Bool.not_true, Bool.false_eq_true, if_false]
      exact noexceptIf_ok _ _ _
  · intro this ht
    unfold Variant.moveAssign
    split
    · rename_i h
      exact ⟨_, noexceptIf_ok _ _ _, (valueless_iff _).2 hind, fun h1 => by rw [h] at h1; cases h1⟩
    · unfold Variant.moveAssignBody
      by_cases htl : this.ind = kVariantNPos
      · simp only [hvl, (valueless_iff this).2 htl, if_true]
        refine ⟨this, noexceptIf_ok _ _ _, (valueless_iff this).2 htl, fun _ => ?_⟩
        have := WF_valueless_val hN ht htl
        exact ⟨this, by simp [this]⟩
      · simp only [hvl, (valueless_false_iff this).2 htl, Bool.false_eq_true, if_false, if_true,
          DestroyInternalValue_WF hN ht, Res.mapState]
        exact ⟨this.cleared, noexceptIf_ok _ _ _, (valueless_iff _).2 rfl, fun _ => ⟨rfl, rfl⟩⟩

theorem valueless_source_witness :
    (∃ v, Variant.copyCtor intRecord (holdsInt 7).cleared = .ok v () ∧
      v.ValuelessByException = true) ∧
    (∃ v, Variant.moveCtor intRecord (holdsInt 7).cleared = .ok v (holdsInt 7).cleared ∧
      v.ValuelessByException = true) ∧
    (∀ this : Variant Lit, this.WF intRecord.length →
      ∃ t1, Variant.moveAssign intRecord this (holdsInt 7).cleared =
          .ok () (t1, (holdsInt 7).cleared) ∧
        t1.ValuelessByException = true ∧
        (IsTriviallyMoveAssignable intRecord = false →
          t1.val = none ∧ t1.destroyed = this.destroyed ++ this.val.toList)) :=
  valueless_source intRecord (by decide) (holdsInt 7).cleared ((valueless_iff _).2 rfl)

/-- C20. From a source holding the value `y` at alternative `i`: move
construction yields a variant with `Index() == i` holding the value the
alternative's move constructor produced from `y` (or `y` itself, member-wise,
when the move is trivial); move assignment leaves the destination with
`Index() == i`, holding what the alternative's move assignment (same index) or
move constructor (other index) produced from `y`.  In every case the source
keeps `Index() == i`, holding its moved-from value, and is not valueless. -/
theorem move_from_holding (alts : List (Alt V A)) (hN : alts.length ≤ kVariantNPos)
    (other : Variant V) (i : Nat) (y : V) (T : Alt V A) (hT : alts[i]? = some T)
    (hind : other.ind = i) (hval : other.val = some (i, y)) :
    (IsTriviallyMoveConstructible alts = true →
      Variant.moveCtor alts other = .ok { val := some (i, y), ind := i, destroyed := [] } other) ∧
    (IsTriviallyMoveConstructible alts = false → ∀ z, (T.moveCtor y).1 = .ok z →
      Variant.moveCtor alts other = .ok { val := some (i, z), ind := i, destroyed := [] }
        { other with val := some (i, (T.moveCtor y).2) }) ∧
    (∀ v o1, Variant.moveCtor alts other = .ok v o1 →
      v.Index = i ∧ o1.Index = i ∧ o1.ValuelessByException = false) ∧
    (∀ this : Variant V, this.WF alts.length →
      (IsTriviallyMoveAssignable alts = true →
        Variant.moveAssign alts this other =
          .ok () ({ this with val := some (i, y), ind := i }, other)) ∧
      (IsTriviallyMoveAssignable alts = false → this.ind = i →
        ∀ x, this.val = some (i, x) → (T.moveAssign x y).1 = none →
        Variant.moveAssign alts this other =
          .ok () ({ this with val := some (i, (T.moveAssign x y).2.1) },
            { other with val := some (i, (T.moveAssign x y).2.2) })) ∧
      (IsTriviallyMoveAssignable alts = false → this.ind ≠ i →
        ∀ z, (T.moveCtor y).1 = .ok z →
        Variant.moveAssign alts this other =
          .ok () ({ this.cleared with val := some (i, z), ind := i },
            { other with val := some (i, (T.moveCtor y).2) })) ∧
      (∀ t1 o1, Variant.moveAssign alts this other = .ok () (t1, o1) →
        t1.Index = i ∧ o1.Index = i ∧ o1.ValuelessByException = false)) := by
  have hlt : i < alts.length := lt_length_of_getElem? hT
  have ho : other.WF alts.length := WF_holding hlt hind hval
  refine ⟨?_, ?_, ?_, ?_⟩
  · intro htriv
    simp only [Variant.moveCtor, htriv, if_true, hind, hval]
    exact noexceptIf_ok _ _ _
  · intro htriv z hz
    rw [moveCtor_holding_eq hN hT hind hval htriv, hz]
    exact noexceptIf_ok _ _ _
  · intro v o1 h
    have hp := moveCtor_post alts ho
    rw [h] at hp
    obtain ⟨_, h2, _, h4⟩ := hp
    exact ⟨by rw [← hind]; exact h2, by rw [← hind]; exact h4,
      holding_not_valueless hN hlt (by rw [← hind]; exact h4)⟩
  · intro this ht
    refine ⟨?_, ?_, ?_, ?_⟩
    · intro htriv
      simp only [Variant.moveAssign, htriv, if_true, hind, hval]
      exact noexceptIf_ok _ _ _
    · intro htriv htind x hx hm
      rw [moveAssign_same_eq hN hT hind hval htind hx htriv, hm]
      exact noexceptIf_ok _ _ _
    · intro htriv htind z hz
      rw [moveAssign_other_eq hN hT hind hval ht htind htriv, hz]
      exact noexceptIf_ok _ _ _
    · intro t1 o1 h
      have hp := moveAssign_post hN ht ho
      rw [h] at hp
      obtain ⟨_, _, h3, h4⟩ := hp
      exact ⟨by rw [← hind]; exact h3, by rw [← hind]; exact h4,
        holding_not_valueless hN hlt (by rw [← hind]; exact h4)⟩


theorem move_from_holding_witness :
    (IsTriviallyMoveConstructible intRecord = true →
      Variant.moveCtor intRecord (holdsObj 3) =
        .ok { val := some (1, .obj 3), ind := 1, destroyed := [] } (holdsObj 3)) ∧
    (IsTriviallyMoveConstructible intRecord = false →
      ∀ z, (recordAlt.moveCtor (.obj 3)).1 = .ok z →
      Variant.moveCtor intRecord (holdsObj 3) =
        .ok { val := some (1, z), ind := 1, destroyed := [] }
          { holdsObj 3 with val := some (1, (recordAlt.moveCtor (.obj 3)).2) }) ∧
    (∀ v o1, Variant.moveCtor intRecord (holdsObj 3) = .ok v o1 →
      v.Index = 1 ∧ o1.Index = 1 ∧ o1.ValuelessByException = false) ∧
    (∀ this : Variant Lit, this.WF intRecord.length →
      (IsTriviallyMoveAssignable intRecord = true →
        Variant.moveAssign intRecord this (holdsObj 3) =
          .ok () ({ this with val := some (1, .obj 3), ind := 1 }, holdsObj 3)) ∧
      (IsTriviallyMoveAssignable intRecord = false → this.ind = 1 →
        ∀ x, this.val = some (1, x) → (recordAlt.moveAssign x (.obj 3)).1 = none →
        Variant.moveAssign intRecord this (holdsObj 3) =
          .ok () ({ this with val := some (1, (recordAlt.moveAssign x (.obj 3)).2.1) },
            { holdsObj 3 with val := some (1, (recordAlt.moveAssign x (.obj 3)).2.2) })) ∧
      (IsTriviallyMoveAssignable intRecord = false → this.ind ≠ 1 →
        ∀ z, (recordAlt.moveCtor (.obj 3)).1 = .ok z →
        Variant.moveAssign intRecord this (holdsObj 3) =
          .ok () ({ this.cleared with val := some (1, z), ind := 1 },
            { holdsObj 3 with val := some (1, (recordAlt.moveCtor (.obj 3)).2) })) ∧
      (∀ t1 o1, Variant.moveAssign intRecord this (holdsObj 3) = .ok () (t1, o1) →
        t1.Index = 1 ∧ o1.Index = 1 ∧ o1.ValuelessByException = false)) :=
  move_from_holding intRecord (by decide) (holdsObj 3) 1 (.obj 3) recordAlt rfl rfl rfl

theorem copyCtor_ok_holding {alts : List (Alt V A)} (hN : alts.length ≤ kVariantNPos)
    {b : Variant V} {i : Nat} {y : V} {T : Alt V A} (hT : alts[i]? = some T)
    (hind : b.ind = i) (hval : b.val = some (i, y))
    (hcc : ∀ z, T.copyCtor y = .ok z → z = y) {tmp : Variant V}
    (h : Variant.copyCtor alts b = .ok tmp ()) :
    tmp.ind = i ∧ tmp.val = some (i, y) ∧
      (IsTriviallyCopyConstructible alts = false → T.copyCtor y = .ok y) := by
  by_cases htriv : IsTriviallyCopyConstructible alts = true
  · simp only [Variant.copyCtor, htriv, if_true, Res.ok.injEq, and_true] at h
    subst h
    exact ⟨hind, hval, fun h1 => by rw [htriv] at h1; cases h1⟩
  · have htriv : IsTriviallyCopyConstructible alts = false := by simpa using htriv
    rw [copyCtor_holding_eq hN hT hind hval htriv] at h
    cases hc : T.copyCtor y with
    | error e => simp [hc] at h
    | ok z =>
      have hz := hcc z hc
      subst hz
      simp only [hc, Res.ok.injEq, and_true] at h
      subst h
      exact ⟨rfl, rfl, fun _ => rfl⟩

theorem moveAssign_ok_other {alts : List (Alt V A)} (hN : alts.length ≤ kVariantNPos)
    {a tmp : Variant V} {i : Nat} {y : V} {T : Alt V A} (hT : alts[i]? = some T)
    (hind : tmp.ind = i) (hval : tmp.val = some (i, y)) (ha : a.WF alts.length)
    (hidx : a.ind ≠ i) (hmc : ∀ z, (T.moveCtor y).1 = .ok z → z = y)
    {p : Variant V × Variant V} (h : Variant.moveAssign alts a tmp = .ok () p) :
    p.1.ind = i ∧ p.1.val = some (i, y) ∧ p.2.WF alts.length := by
  have hlt : i < alts.length := lt_length_of_getElem? hT
  have hp := moveAssign_post hN ha (WF_holding hlt hind hval)
  rw [h] at hp
  refine ⟨by rw [← hind]; exact hp.2.2.1, ?_, hp.2.1⟩
  by_cases htriv : IsTriviallyMoveAssignable alts = true
  · simp only [Variant.moveAssign, htriv, if_true] at h
    have h := noexceptIf_eq_ok h
    simp only [Res.ok.injEq, true_and] at h
    rw [← h]
    exact hval
  · have htriv : IsTriviallyMoveAssignable alts = false := by simpa using htriv
    rw [moveAssign_other_eq hN hT hind hval ha hidx htriv] at h
    have h := noexceptIf_eq_ok h
    cases hm : (T.moveCtor y).1 with
    | error e => simp [hm] at h
    | ok z =>
      have hz := hmc z hm
      subst hz
      simp only [hm, Res.ok.injEq, true_and] at h
      rw [← h]

/-- C18. When the copy assignment `a = b` with `b` holding the value `y` at
alternative `i` returns (the alternative's copy and move yielding equal
values), `a` has `Index() == i` and holds `y`, and `b`, taken by reference to
const, still holds `y` at `i`.  When `a` already held `i` no destructor was
called on it; when it did not, and the copy is not the trivial member-wise
one, the alternative's copy constructor was run on `y`. -/
theorem copyAssign_copies (alts : List (Alt V A)) (hN : alts.length ≤ kVariantNPos)
    (a b : Variant V) (i : Nat) (y : V) (T : Alt V A) (hT : alts[i]? = some T)
    (ha : a.WF alts.length) (hind : b.ind = i) (hval : b.val = some (i, y))
    (hca : ∀ x z, T.copyAssign x y = (none, z) → z = y)
    (hcc : ∀ z, T.copyCtor y = .ok z → z = y)
    (hmc : ∀ z, (T.moveCtor y).1 = .ok z → z = y)
    (a1 : Variant V) (h : Variant.copyAssign alts a b = .ok () a1) :
    a1.Index = i ∧ a1.val = some (i, y) ∧ Get i a1 = .ok y () ∧
      b.Index = i ∧ Get i b = .ok y () ∧
      (a.ind = i → a1.destroyed = a.destroyed) ∧
      (a.ind ≠ i → IsTriviallyCopyAssignable alts = false →
        IsTriviallyCopyConstructible alts = false → T.copyCtor y = .ok y) := by
  have hlt : i < alts.length := lt_length_of_getElem? hT
  have key : a1.ind = i ∧ a1.val = some (i, y) ∧ (a.ind = i → a1.destroyed = a.destroyed) ∧
      (a.ind ≠ i → IsTriviallyCopyAssignable alts = false →
        IsTriviallyCopyConstructible alts = false → T.copyCtor y = .ok y) := by
    by_cases htriv : IsTriviallyCopyAssignable alts = true
    · simp only [Variant.copyAssign, htriv, if_true, Res.ok.injEq, true_and] at h
      subst h
      exact ⟨hind, hval, fun _ => rfl, fun _ h1 => by rw [htriv] at h1; cases h1⟩
    · have htriv : IsTriviallyCopyAssignable alts = false := by simpa using htriv
      simp only [Variant.copyAssign, htriv, Variant.copyAssignBody,
        holding_not_valueless hN hlt hind, Variant.Index, hind, VisitIndex_lt _ hlt,
        Variant.copyAssignVisitor, hT, Get_holding hind hval, Bool.false_eq_true,
        if_false] at h
      by_cases hidx : a.ind = i
      · obtain ⟨_, x, hx⟩ := WF_ind_lt ha (by omega)
        rw [hidx] at hx
        simp only [hidx, if_true, Get_holding hidx hx] at h
        cases hr : T.copyAssign x y with
        | mk exc z =>
          cases exc with
          | some e => simp [hr] at h
          | none =>
            have hz := hca x z hr
            subst hz
            simp only [hr, Res.ok.injEq, true_and] at h
            subst h
            exact ⟨rfl, rfl, fun _ => rfl, fun h1 => absurd hidx h1⟩
      · simp only [hidx, if_false] at h
        split at h
        · simp only [Emplace_WF hN ha, ConstructInternalValue_cleared hT, Alt.init] at h
          cases hc : T.copyCtor y with
          | error e => simp [hc, Res.void] at h
          | ok z =>
            have hz := hcc z hc
            subst hz
            simp only [hc, Res.void, Res.ok.injEq, true_and] at h
            subst h
            exact ⟨rfl, rfl, fun h1 => absurd h1 hidx, fun _ _ _ => rfl⟩
        · cases hctor : Variant.copyCtor alts b with
          | throw e u => simp [hctor] at h
          | terminate => simp [hctor] at h
          | ub => simp [hctor] at h
          | ok tmp u =>
            obtain ⟨htind, htval, hrun⟩ := copyCtor_ok_holding hN hT hind hval hcc hctor
            simp only [hctor] at h
            cases hma : Variant.moveAssign alts a tmp with
            | throw e p =>
              obtain ⟨p1, p2⟩ := p
              simp only [hma] at h
              cases hd : Variant.destructor alts p2 <;> simp [hd] at h
            | terminate => simp [hma] at h
            | ub => simp [hma] at h
            | ok u1 p =>
              obtain ⟨h1, h2, _⟩ := moveAssign_ok_other hN hT htind htval ha hidx hmc hma
              obtain ⟨p1, p2⟩ := p
              simp only [hma] at h
              have hp1 : p1 = a1 := by
                cases hd : Variant.destructor alts p2 <;> simp [hd] at h <;> exact h
              subst hp1
              exact ⟨h1, h2, fun h3 => absurd h3 hidx, fun _ _ h4 => hrun h4⟩
  obtain ⟨h1, h2, h3, h4⟩ := key
  exact ⟨h1, h2, Get_holding h1 h2, hind, Get_holding hind hval, h3, h4⟩

theorem copyAssign_copies_witness :
    Variant.Index
        ({ val := some (1, .obj 3), ind := 1, destroyed := [(0, .int 7)] } : Variant Lit) = 1 ∧
      Variant.val
        ({ val := some (1, .obj 3), ind := 1, destroyed := [(0, .int 7)] } : Variant Lit) =
          some (1, .obj 3) ∧
      Get 1 ({ val := some (1, .obj 3), ind := 1, destroyed := [(0, .int 7)] } : Variant Lit) =
        .ok (.obj 3) () ∧
      (holdsObj 3).Index = 1 ∧ Get 1 (holdsObj 3) = .ok (.obj 3) () ∧
      ((holdsInt 7).ind = 1 →
        Variant.destroyed
          ({ val := some (1, .obj 3), ind := 1, destroyed := [(0, .int 7)] } : Variant Lit) =
            (holdsInt 7).destroyed) ∧
      ((holdsInt 7).ind ≠ 1 → IsTriviallyCopyAssignable intRecord = false →
        IsTriviallyCopyConstructible intRecord = false →
        recordAlt.copyCtor (.obj 3) = .ok (.obj 3)) :=
  copyAssign_copies intRecord (by decide) (holdsInt 7) (holdsObj 3) 1 (.obj 3) recordAlt rfl
    (by decide) rfl rfl (fun _ _ h => by cases h; rfl) (fun _ h => by cases h; rfl)
    (fun _ h => by cases h; rfl)
    { val := some (1, .obj 3), ind := 1, destroyed := [(0, .int 7)] } (by decide)

/-! ## Comparison operators -/

theorem AtImpl_GenFmatrixIndexImpl {β : Type} :
    ∀ (inds Ns : List Nat), List.Forall₂ (fun i N => i < N) inds Ns →
      ∀ FixedInds : List Nat,
        AtImpl (GenFmatrixIndexImpl FixedInds Ns : Fmatrix ((List Nat → β) → β)) inds =
          some (.entry fun f => f (FixedInds ++ inds)) := by
  intro inds Ns h
  induction h with
  | nil => intro FixedInds; simp [GenFmatrixIndexImpl, AtImpl]
  | cons hlt _ ih =>
    intro FixedInds
    simp only [GenFmatrixIndexImpl, AtImpl, List.getElem?_map, List.getElem?_range hlt,
      Option.map_some']
    rw [ih]
    simp

theorem VisitIndexPack_lt {σ α : Type} {N i j : Nat} (vis : List Nat → Res σ α)
    (hi : i < N) (hj : j < N) : VisitIndexPack [N, N] vis [i, j] = vis [i, j] := by
  have h : List.Forall₂ (fun i N => i < N) [i, j] [N, N] :=
    List.Forall₂.cons hi (List.Forall₂.cons hj List.Forall₂.nil)
  simp only [VisitIndexPack, AtImpl_GenFmatrixIndexImpl _ _ h, List.nil_append]

theorem operatorEq_holding {alts : List (Alt V A)} {v w : Variant V} {i : Nat} {x y : V}
    {T : Alt V A} (hN : alts.length ≤ kVariantNPos) (hT : alts[i]? = some T)
    (hv : v.ind = i) (hvx : v.val = some (i, x)) (hw : w.ind = i) (hwy : w.val = some (i, y)) :
    Variant.operatorEq alts v w = .ok (T.eq x y) () := by
  have hlt : i < alts.length := lt_length_of_getElem? hT
  simp only [Variant.operatorEq, Variant.Index, hv, hw, ne_eq, not_true_eq_false, if_false,
    holding_not_valueless hN hlt hv, Bool.false_eq_true, VisitIndex_lt _ hlt,
    Variant.eqVisitor, hT, Get_holding hv hvx, Get_holding hw hwy]
  rfl

theorem operatorLt_holding {alts : List (Alt V A)} {v w : Variant V} {i : Nat} {x y : V}
    {T : Alt V A} (hN : alts.length ≤ kVariantNPos) (hT : alts[i]? = some T)
    (hv : v.ind = i) (hvx : v.val = some (i, x)) (hw : w.ind = i) (hwy : w.val = some (i, y)) :
    Variant.operatorLt alts v w = .ok (T.lt x y) () := by
  have hlt : i < alts.length := lt_length_of_getElem? hT
  simp only [Variant.operatorLt, Variant.Index, hv, hw,
    holding_not_valueless hN hlt hv, holding_not_valueless hN hlt hw, Bool.false_eq_true,
    if_false, VisitIndexPack_lt _ hlt hlt, Variant.ltVisitor, Nat.lt_irrefl, gt_iff_lt,
    hT, Get_holding hv hvx, Get_holding hw hwy]
  rfl

/-- C21. On two well-formed variants over the same alternative list
`operator==` returns, and returns `true` if and only if the indices are equal
and either both variants are valueless or the values held at that index
compare equal with the alternative's `==`; `operator!=` returns the negation. -/
theorem operatorEq_iff (alts : List (Alt V A)) (hN : alts.length ≤ kVariantNPos)
    (v w : Variant V) (hv : v.WF alts.length) (hw : w.WF alts.length) :
    ∃ b, Variant.operatorEq alts v w = .ok b () ∧ Variant.operatorNe alts v w = .ok (!b) () ∧
      (b = true ↔ v.Index = w.Index ∧
        ((v.ValuelessByException = true ∧ w.ValuelessByException = true) ∨
          ∃ T x y, alts[v.Index]? = some T ∧ v.val = some (v.Index, x) ∧
            w.val = some (w.Index, y) ∧ T.eq x y = true)) := by
  have hne : ∀ b, Variant.operatorEq alts v w = .ok b () →
      Variant.operatorNe alts v w = .ok (!b) () := by
    intro b hb
    simp only [Variant.operatorNe, hb, noexceptIf_ok]
  by_cases hidx : v.ind = w.ind
  · by_cases hvl : v.ind = kVariantNPos
    · have heq : Variant.operatorEq alts v w = .ok true () := by
        simp only [Variant.operatorEq, Variant.Index, hidx, ne_eq, not_true_eq_false, if_false,
          (valueless_iff v).2 hvl, if_true]
        exact noexceptIf_ok _ _ _
      refine ⟨true, heq, hne _ heq, ?_⟩
      simp only [true_iff]
      exact ⟨hidx, Or.inl ⟨(valueless_iff v).2 hvl, (valueless_iff w).2 (hidx ▸ hvl)⟩⟩
    · obtain ⟨hlt, x, hx⟩ := WF_ind_lt hv hvl
      obtain ⟨_, y, hy⟩ := WF_ind_lt hw (hidx ▸ hvl)
      obtain ⟨T, hT, _⟩ := getElem?_of_lt hlt
      have heq := operatorEq_holding hN hT rfl hx hidx.symm (hidx ▸ hy)
      refine ⟨T.eq x y, heq, hne _ heq, ?_⟩
      constructor
      · intro hb
        exact ⟨hidx, Or.inr ⟨T, x, y, hT, hx, hy, hb⟩⟩
      · rintro ⟨_, h | ⟨T1, x1, y1, hT1, hx1, hy1, hb⟩⟩
        · exact absurd ((valueless_iff v).1 h.1) hvl
        · simp only [Variant.Index] at hT1 hx1 hy1
          rw [hT] at hT1
          rw [hx] at hx1
          rw [hy] at hy1
          cases hT1; cases hx1; cases hy1
          exact hb
  · have heq : Variant.operatorEq alts v w = .ok false () := by
      simp only [Variant.operatorEq, Variant.Index, ne_eq, hidx, not_false_eq_true, if_true]
      exact noexceptIf_ok _ _ _
    refine ⟨false, heq, hne _ heq, ?_⟩
    simp only [Bool.false_eq_true, false_iff, not_and]
    intro h
    exact absurd h hidx

theorem operatorEq_iff_witness :
    ∃ b, Variant.operatorEq intDouble (holdsInt 7) (holdsInt 7) = .ok b () ∧
      Variant.operatorNe intDouble (holdsInt 7) (holdsInt 7) = .ok (!b) () ∧
      (b = true ↔ (holdsInt 7).Index = (holdsInt 7).Index ∧
        (((holdsInt 7).ValuelessByException = true ∧ (holdsInt 7).ValuelessByException = true) ∨
          ∃ T x y, intDouble[(holdsInt 7).Index]? = some T ∧
            (holdsInt 7).val = some ((holdsInt 7).Index, x) ∧
            (holdsInt 7).val = some ((holdsInt 7).Index, y) ∧ T.eq x y = true)) :=
  operatorEq_iff intDouble (by decide) (holdsInt 7) (holdsInt 7) (by decide) (by decide)


/-- C22. On two well-formed variants `operator<` returns, and `v < w` holds if
and only if `w` is not valueless and either `v` is valueless, or
`v.Index() < w.Index()`, or the indices are equal and the value of `v` is less
than the value of `w` by the alternative's `<`: the lexicographic order on
(index, value) with valueless first. -/
theorem operatorLt_iff (alts : List (Alt V A)) (hN : alts.length ≤ kVariantNPos)
    (v w : Variant V) (hv : v.WF alts.length) (hw : w.WF alts.length) :
    ∃ b, Variant.operatorLt alts v w = .ok b () ∧
      (b = true ↔ w.ValuelessByException = false ∧
        (v.ValuelessByException = true ∨ v.Index < w.Index ∨
          (v.Index = w.Index ∧ ∃ T x y, alts[v.Index]? = some T ∧
            v.val = some (v.Index, x) ∧ w.val = some (w.Index, y) ∧ T.lt x y = true))) := by
  by_cases hwl : w.ind = kVariantNPos
  · have hlt : Variant.operatorLt alts v w = .ok false () := by
      simp only [Variant.operatorLt, (valueless_iff w).2 hwl, if_true]
      exact noexceptIf_ok _ _ _
    refine ⟨false, hlt, ?_⟩
    simp [(valueless_iff w).2 hwl]
  · have hwf : w.ValuelessByException = false := (valueless_false_iff w).2 hwl
    obtain ⟨hjlt, y, hy⟩ := WF_ind_lt hw hwl
    by_cases hvl : v.ind = kVariantNPos
    · have hlt : Variant.operatorLt alts v w = .ok true () := by
        simp only [Variant.operatorLt, hwf, (valueless_iff v).2 hvl, Bool.false_eq_true,
          if_false, if_true]
        exact noexceptIf_ok _ _ _
      refine ⟨true, hlt, ?_⟩
      simp only [true_iff]
      exact ⟨hwf, Or.inl ((valueless_iff v).2 hvl)⟩
    · have hvf : v.ValuelessByException = false := (valueless_false_iff v).2 hvl
      obtain ⟨hilt, x, hx⟩ := WF_ind_lt hv hvl
      rcases Nat.lt_trichotomy v.ind w.ind with h | h | h
      · have hlt : Variant.operatorLt alts v w = .ok true () := by
          simp only [Variant.operatorLt, hwf, hvf, Bool.false_eq_true, if_false, Variant.Index,
            VisitIndexPack_lt _ hilt hjlt, Variant.ltVisitor, h, if_true]
          exact noexceptIf_ok _ _ _
        refine ⟨true, hlt, ?_⟩
        simp only [true_iff]
        exact ⟨hwf, Or.inr (Or.inl h)⟩
      · obtain ⟨T, hT, _⟩ := getElem?_of_lt hilt
        have hlt := operatorLt_holding hN hT rfl hx h.symm (h ▸ hy)
        refine ⟨T.lt x y, hlt, ?_⟩
        constructor
        · intro hb
          exact ⟨hwf, Or.inr (Or.inr ⟨h, T, x, y, hT, hx, hy, hb⟩)⟩
        · rintro ⟨_, h1 | h1 | ⟨_, T1, x1, y1, hT1, hx1, hy1, hb⟩⟩
          · rw [hvf] at h1; cases h1
          · exact absurd h1 (by simp only [Variant.Index]; omega)
          · simp only [Variant.Index] at hT1 hx1 hy1
            rw [hT] at hT1
            rw [hx] at hx1
            rw [hy] at hy1
            cases hT1; cases hx1; cases hy1
            exact hb
      · have hlt : Variant.operatorLt alts v w = .ok false () := by
          simp only [Variant.operatorLt, hwf, hvf, Bool.false_eq_true, if_false, Variant.Index,
            VisitIndexPack_lt _ hilt hjlt, Variant.ltVisitor, Nat.lt_asymm h, gt_iff_lt, h,
            if_true]
          exact noexceptIf_ok _ _ _
        refine ⟨false, hlt, ?_⟩
        simp only [Bool.false_eq_true, false_iff, not_and, not_or, Variant.Index]
        intro _
        exact ⟨by rw [hvf]; simp, by omega, fun h1 => by omega⟩

theorem operatorLt_iff_witness :
    ∃ b, Variant.operatorLt intDouble (holdsInt 7) (holdsDouble 5) = .ok b () ∧
      (b = true ↔ (holdsDouble 5).ValuelessByException = false ∧
        ((holdsInt 7).ValuelessByException = true ∨ (holdsInt 7).Index < (holdsDouble 5).Index ∨
          ((holdsInt 7).Index = (holdsDouble 5).Index ∧
            ∃ T x y, intDouble[(holdsInt 7).Index]? = some T ∧
              (holdsInt 7).val = some ((holdsInt 7).Index, x) ∧
              (holdsDouble 5).val = some ((holdsDouble 5).Index, y) ∧ T.lt x y = true))) :=
  operatorLt_iff intDouble (by decide) (holdsInt 7) (holdsDouble 5) (by decide) (by decide)

/-! ## Default construction -/

/-- C23. When the first alternative is default-constructible and its default
constructor returns the value `x`, the default-constructed variant has
`Index() == 0`, is not valueless, and holds `x` at position 0. -/
theorem default_holds_zero (alts : List (Alt V A)) (ZeroAlt : Alt V A) (x : V)
    (h0 : alts[0]? = some ZeroAlt) (hx : ZeroAlt.defaultCtor = .ok x) :
    ∃ v, Variant.default alts = .ok v () ∧ v.Index = 0 ∧ v.ValuelessByException = false ∧
      v.val = some (0, x) ∧ Get 0 v = .ok x () ∧ v.destroyed = [] := by
  have h0n : (0 : Nat) ≠ kVariantNPos := by decide
  refine ⟨{ val := some (0, x), ind := 0, destroyed := [] }, ?_, rfl,
    (valueless_false_iff _).2 h0n, rfl, Get_holding rfl rfl, rfl⟩
  simp only [Variant.default, h0, hx]
  exact noexceptIf_ok _ _ _

theorem default_holds_zero_witness :
    ∃ v, Variant.default intDouble = .ok v () ∧ v.Index = 0 ∧
      v.ValuelessByException = false ∧ v.val = some (0, .int 0) ∧
      Get 0 v = .ok (.int 0) () ∧ v.destroyed = [] :=
  default_holds_zero intDouble (scalarAlt .int) (.int 0) rfl rfl

/-! ## Converting assignment to the alternative already held -/

/-- C24. When the variant already holds the resolved alternative `i`, with
value `x`, the converting assignment runs that alternative's own assignment on
`x` and nothing else: whether it returns or the assignment throws, the variant
has `Index() == i`, is not valueless, holds at `i` what the assignment left
there, and no destructor has been called; the result is never undefined. -/
theorem assignValue_in_place (alts : List (Alt V A)) (hN : alts.length ≤ kVariantNPos)
    (i : Nat) (ChosenT : Alt V A) (t : A) (v : Variant V) (x : V)
    (hT : alts[i]? = some ChosenT) (hind : v.ind = i) (hval : v.val = some (i, x)) :
    Variant.assignValue alts i t v =
        noexceptIf (ChosenT.nothrowAssignable t && ChosenT.nothrowConstructible t)
          (match (ChosenT.assign x t).1 with
          | none => .ok () { v with val := some (i, (ChosenT.assign x t).2) }
          | some e => .throw e { v with val := some (i, (ChosenT.assign x t).2) }) ∧
      (∀ v1, Variant.assignValue alts i t v = .ok () v1 →
        (ChosenT.assign x t).1 = none ∧ v1.Index = i ∧ v1.ValuelessByException = false ∧
          v1.val = some (i, (ChosenT.assign x t).2) ∧ v1.destroyed = v.destroyed) ∧
      (∀ e v1, Variant.assignValue alts i t v = .throw e v1 →
        (ChosenT.assign x t).1 = some e ∧ v1.Index = i ∧ v1.ValuelessByException = false ∧
          v1.val = some (i, (ChosenT.assign x t).2) ∧ v1.destroyed = v.destroyed) ∧
      Variant.assignValue alts i t v ≠ .ub := by
  have hlt : i < alts.length := lt_length_of_getElem? hT
  have hnv : ∀ u : Variant V, u.ind = i → u.ValuelessByException = false :=
    fun u hu => holding_not_valueless hN hlt hu
  have heq : Variant.assignValue alts i t v =
      noexceptIf (ChosenT.nothrowAssignable t && ChosenT.nothrowConstructible t)
        (match (ChosenT.assign x t).1 with
        | none => .ok () { v with val := some (i, (ChosenT.assign x t).2) }
        | some e => .throw e { v with val := some (i, (ChosenT.assign x t).2) }) := by
    simp only [Variant.assignValue, hT, Variant.Index, hind, if_true,
      Get_holding hind hval]
  refine ⟨heq, ?_, ?_, ?_⟩
  · intro v1 h
    rw [heq] at h
    have h := noexceptIf_eq_ok h
    cases hr : (ChosenT.assign x t).1 with
    | some e => simp [hr] at h
    | none =>
      simp only [hr, Res.ok.injEq, true_and] at h
      subst h
      exact ⟨rfl, hind, hnv _ hind, rfl, rfl⟩
  · intro e v1 h
    rw [heq] at h
    cases hs : (ChosenT.nothrowAssignable t && ChosenT.nothrowConstructible t) with
    | true =>
      rw [hs] at h
      exact absurd h (noexceptIf_true_ne_throw _ e v1)
    | false =>
      rw [hs, noexceptIf_false] at h
      cases hr : (ChosenT.assign x t).1 with
      | none => simp [hr] at h
      | some e1 =>
        simp only [hr, Res.throw.injEq] at h
        obtain ⟨he, hv1⟩ := h
        subst he; subst hv1
        exact ⟨rfl, hind, hnv _ hind, rfl, rfl⟩
  · rw [heq]
    apply noexceptIf_ne_ub
    cases (ChosenT.assign x t).1 <;> simp


theorem assignValue_in_place_witness :
    Variant.assignValue (intClass false) 1 (Lit.int (-1)) (holdsObj 4) =
        noexceptIf ((classAlt false).nothrowAssignable (Lit.int (-1)) &&
            (classAlt false).nothrowConstructible (Lit.int (-1)))
          (match ((classAlt false).assign (.obj 4) (Lit.int (-1))).1 with
          | none => .ok ()
              { holdsObj 4 with val := some (1, ((classAlt false).assign (.obj 4) (Lit.int (-1))).2) }
          | some e => .throw e
              { holdsObj 4 with
                val := some (1, ((classAlt false).assign (.obj 4) (Lit.int (-1))).2) }) ∧
      (∀ v1, Variant.assignValue (intClass false) 1 (Lit.int (-1)) (holdsObj 4) = .ok () v1 →
        ((classAlt false).assign (.obj 4) (Lit.int (-1))).1 = none ∧ v1.Index = 1 ∧
          v1.ValuelessByException = false ∧
          v1.val = some (1, ((classAlt false).assign (.obj 4) (Lit.int (-1))).2) ∧
          v1.destroyed = (holdsObj 4).destroyed) ∧
      (∀ e v1, Variant.assignValue (intClass false) 1 (Lit.int (-1)) (holdsObj 4) = .throw e v1 →
        ((classAlt false).assign (.obj 4) (Lit.int (-1))).1 = some e ∧ v1.Index = 1 ∧
          v1.ValuelessByException = false ∧
          v1.val = some (1, ((classAlt false).assign (.obj 4) (Lit.int (-1))).2) ∧
          v1.destroyed = (holdsObj 4).destroyed) ∧
      Variant.assignValue (intClass false) 1 (Lit.int (-1)) (holdsObj 4) ≠ .ub :=
  assignValue_in_place (intClass false) (by decide) 1 (classAlt false) (Lit.int (-1))
    (holdsObj 4) (.obj 4) rfl rfl rfl

/-! ## The constraint of the converting overloads -/

/-- C25, at the failing input.  `IsConvertibleToChosenTypeVariant` is false
for every source type that is an in-place marker once its qualifiers are
removed, and for the source type `Variant` itself.  The conjunct about the
variant compares the deduced `T` with `Variant` as it is, without
`std::remove_cvref_t`: for an lvalue source, `T` is `Variant<int, Any>&`, the
comparison fails, `ChosenOverload` resolves to `Any` (constructible from
anything) and the constraint is true, so the converting constructor is a
candidate for a source that is the variant's own type. -/
theorem constraint_admits_lvalue_variant :
    (∀ (U : Type) [DecidableEq U] (valid : CvRefTy U → CvRefTy U → Bool)
        (rank : CvRefTy U → CvRefTy U → Option Nat) (ctor : CvRefTy U → CvRefTy U → Bool)
        (Ts : List (CvRefTy U)) (T ChosenT : CvRefTy U),
        ((∃ M, T.base = .InPlaceType M) ∨ (∃ I, T.base = .InPlaceIndex I) ∨
            T = CvRefTy.plain .Variant) →
          IsConvertibleToChosenTypeVariant (sourceConversions valid rank ctor) Ts T ChosenT =
            false) ∧
    remove_cvref_t variantLvalue = CvRefTy.plain .Variant ∧
    ChosenOverload anyConversions variantLvalue intAny =
      some (1, CvRefTy.plain (.other .Any)) ∧
    IsConvertibleToChosenTypeVariant anyConversions intAny variantLvalue
      (CvRefTy.plain (.other .Any)) = true ∧
    Variant.convertingCtor anyConversions intAny intRecord variantLvalue (Lit.obj 3) =
      some (Variant.ofValue intRecord 1 (Lit.obj 3)) := by
  refine ⟨?_, by decide, by decide, by decide, by decide⟩
  intro U _ valid rank ctor Ts T ChosenT h
  rcases h with ⟨M, h⟩ | ⟨I, h⟩ | h
  · simp [IsConvertibleToChosenTypeVariant, sourceConversions, kIsInPlaceTypeValue,
      IsInPlaceType, remove_cvref_t, CvRefTy.plain, h]
  · simp [IsConvertibleToChosenTypeVariant, sourceConversions, kIsInPlaceTypeValue,
      IsInPlaceType, remove_cvref_t, CvRefTy.plain, h]
  · simp [IsConvertibleToChosenTypeVariant, sourceConversions, is_same_v, h]

/-! ## The relational operators together -/

theorem Alt.StrictTotalOrder.trichotomy {T : Alt V A} (h : T.StrictTotalOrder) (x y : V) :
    (T.lt x y = true ∧ T.eq x y = false ∧ T.lt y x = false) ∨
      (T.lt x y = false ∧ T.eq x y = true ∧ T.lt y x = false) ∨
      (T.lt x y = false ∧ T.eq x y = false ∧ T.lt y x = true) := by
  have he := h.eq_iff x y
  cases hxy : T.lt x y <;> cases hyx : T.lt y x
  · right; left
    exact ⟨rfl, he.2 ⟨hxy, hyx⟩, rfl⟩
  · right; right
    refine ⟨rfl, ?_, rfl⟩
    cases heq : T.eq x y with
    | false => rfl
    | true => have := (he.1 heq).2; rw [hyx] at this; cases this
  · left
    refine ⟨rfl, ?_, rfl⟩
    cases heq : T.eq x y with
    | false => rfl
    | true => have := (he.1 heq).1; rw [hxy] at this; cases this
  · have := h.trans x y x hxy hyx
    rw [h.irrefl x] at this
    cases this

theorem operatorLt_valueless_right {alts : List (Alt V A)} {v w : Variant V}
    (hw : w.ind = kVariantNPos) : Variant.operatorLt alts v w = .ok false () := by
  simp only [Variant.operatorLt, (valueless_iff w).2 hw, if_true]
  exact noexceptIf_ok _ _ _

theorem operatorLt_valueless_left {alts : List (Alt V A)} {v w : Variant V}
    (hv : v.ind = kVariantNPos) (hw : w.ind ≠ kVariantNPos) :
    Variant.operatorLt alts v w = .ok true () := by
  simp only [Variant.operatorLt, (valueless_false_iff w).2 hw, (valueless_iff v).2 hv,
    Bool.false_eq_true, if_false, if_true]
  exact noexceptIf_ok _ _ _

theorem operatorLt_index {alts : List (Alt V A)} {v w : Variant V}
    (hv : v.ind < alts.length) (hw : w.ind < alts.length) (hN : alts.length ≤ kVariantNPos)
    (hne : v.ind ≠ w.ind) : Variant.operatorLt alts v w = .ok (decide (v.ind < w.ind)) () := by
  have hvf : v.ValuelessByException = false := (valueless_false_iff v).2 (by omega)
  have hwf : w.ValuelessByException = false := (valueless_false_iff w).2 (by omega)
  simp only [Variant.operatorLt, hwf, hvf, Bool.false_eq_true, if_false, Variant.Index,
    VisitIndexPack_lt _ hv hw, Variant.ltVisitor]
  by_cases h : v.ind < w.ind
  · simp only [h, if_true, decide_True]
    exact noexceptIf_ok _ _ _
  · have h2 : w.ind < v.ind := by omega
    simp only [h, if_false, gt_iff_lt, h2, if_true, decide_False]
    exact noexceptIf_ok _ _ _

theorem operatorEq_index {alts : List (Alt V A)} {v w : Variant V} (hne : v.ind ≠ w.ind) :
    Variant.operatorEq alts v w = .ok false () := by
  simp only [Variant.operatorEq, Variant.Index, ne_eq, hne, not_false_eq_true, if_true]
  exact noexceptIf_ok _ _ _

theorem operatorEq_valueless {alts : List (Alt V A)} {v w : Variant V}
    (hv : v.ind = kVariantNPos) (hw : w.ind = kVariantNPos) :
    Variant.operatorEq alts v w = .ok true () := by
  simp only [Variant.operatorEq, Variant.Index, hv, hw, ne_eq, not_true_eq_false, if_false,
    (valueless_iff v).2 hv, if_true]
  exact noexceptIf_ok _ _ _

/-- What `<`, `==` and the reversed `<` return on two variants, each with the
sentinel as index or well-formed, in terms of three Booleans of which exactly
one is set. -/
theorem relational_cases {alts : List (Alt V A)} (hN : alts.length ≤ kVariantNPos)
    (hord : ∀ T ∈ alts, T.StrictTotalOrder) {v w : Variant V}
    (hv : v.ind = kVariantNPos ∨ v.WF alts.length)
    (hw : w.ind = kVariantNPos ∨ w.WF alts.length) :
    ∃ lt eq gt : Bool, Variant.operatorLt alts v w = .ok lt () ∧
      Variant.operatorEq alts v w = .ok eq () ∧ Variant.operatorLt alts w v = .ok gt () ∧
      ((lt = true ∧ eq = false ∧ gt = false) ∨ (lt = false ∧ eq = true ∧ gt = false) ∨
        (lt = false ∧ eq = false ∧ gt = true)) := by
  by_cases hvl : v.ind = kVariantNPos <;> by_cases hwl : w.ind = kVariantNPos
  · exact ⟨false, true, false, operatorLt_valueless_right hwl, operatorEq_valueless hvl hwl,
      operatorLt_valueless_right hvl, Or.inr (Or.inl ⟨rfl, rfl, rfl⟩)⟩
  · exact ⟨true, false, false, operatorLt_valueless_left hvl hwl,
      operatorEq_index (by rw [hvl]; exact Ne.symm hwl), operatorLt_valueless_right hvl,
      Or.inl ⟨rfl, rfl, rfl⟩⟩
  · exact ⟨false, false, true, operatorLt_valueless_right hwl,
      operatorEq_index (by rw [hwl]; exact hvl), operatorLt_valueless_left hwl hvl,
      Or.inr (Or.inr ⟨rfl, rfl, rfl⟩)⟩
  · obtain ⟨hi, x, hx⟩ := WF_ind_lt (hv.resolve_left hvl) hvl
    obtain ⟨hj, y, hy⟩ := WF_ind_lt (hw.resolve_left hwl) hwl
    by_cases hidx : v.ind = w.ind
    · obtain ⟨T, hT, hmem⟩ := getElem?_of_lt hi
      refine ⟨T.lt x y, T.eq x y, T.lt y x, operatorLt_holding hN hT rfl hx hidx.symm (hidx ▸ hy),
        operatorEq_holding hN hT rfl hx hidx.symm (hidx ▸ hy),
        operatorLt_holding hN hT hidx.symm (hidx ▸ hy) rfl hx, (hord T hmem).trichotomy x y⟩
    · refine ⟨decide (v.ind < w.ind), false, decide (w.ind < v.ind),
        operatorLt_index hi hj hN hidx, operatorEq_index hidx,
        operatorLt_index hj hi hN (Ne.symm hidx), ?_⟩
      by_cases h : v.ind < w.ind
      · left
        exact ⟨by simp [h], rfl, by simp; omega⟩
      · right; right
        exact ⟨by simp [h], rfl, by simp; omega⟩

/-- C35. If the `<` of every alternative is a strict total order consistent
with its `==`, then for variants `v` and `w` that are valueless (the index is
the sentinel, whatever `MakeValueless` left in the storage) or well-formed,
the operators return, exactly one of `v < w`, `v == w`, `w < v` holds,
`v > w` is `w < v`, `v <= w` is `v < w || v == w`, and `v >= w` is
`v > w || v == w`. -/
theorem relational_trichotomy (alts : List (Alt V A)) (hN : alts.length ≤ kVariantNPos)
    (hord : ∀ T ∈ alts, T.StrictTotalOrder) (v w : Variant V)
    (hv : v.ind = kVariantNPos ∨ v.WF alts.length)
    (hw : w.ind = kVariantNPos ∨ w.WF alts.length) :
    ∃ lt eq gt : Bool, Variant.operatorLt alts v w = .ok lt () ∧
      Variant.operatorEq alts v w = .ok eq () ∧ Variant.operatorLt alts w v = .ok gt () ∧
      ((lt = true ∧ eq = false ∧ gt = false) ∨ (lt = false ∧ eq = true ∧ gt = false) ∨
        (lt = false ∧ eq = false ∧ gt = true)) ∧
      Variant.operatorGt alts v w = .ok gt () ∧
      Variant.operatorLe alts v w = .ok (lt || eq) () ∧
      Variant.operatorGe alts v w = .ok (gt || eq) () := by
  obtain ⟨lt, eq, gt, hlt, heq, hgt, hone⟩ := relational_cases hN hord hv hw
  refine ⟨lt, eq, gt, hlt, heq, hgt, hone, ?_, ?_, ?_⟩
  · simp only [Variant.operatorGt, hgt]
    exact noexceptIf_ok _ _ _
  · have hb : (!gt) = (lt || eq) := by
      rcases hone with ⟨h1, h2, h3⟩ | ⟨h1, h2, h3⟩ | ⟨h1, h2, h3⟩ <;> subst h1 h2 h3 <;> rfl
    simp only [Variant.operatorLe, Variant.operatorGt, hgt, noexceptIf_ok, Res.negate, hb]
  · have hb : (!lt) = (gt || eq) := by
      rcases hone with ⟨h1, h2, h3⟩ | ⟨h1, h2, h3⟩ | ⟨h1, h2, h3⟩ <;> subst h1 h2 h3 <;> rfl
    simp only [Variant.operatorGe, hlt, noexceptIf_ok, Res.negate, hb]

theorem scalarAlt_order (wrap : Int → Lit) : (scalarAlt wrap).StrictTotalOrder where
  irrefl x := by simp [scalarAlt]
  trans x y z h1 h2 := by
    simp only [scalarAlt, decide_eq_true_eq] at h1 h2 ⊢
    omega
  eq_iff x y := by
    simp only [scalarAlt, beq_iff_eq, decide_eq_false_iff_not]
    omega

theorem intDouble_order : ∀ T ∈ intDouble, T.StrictTotalOrder := by
  intro T hT
  simp only [intDouble, List.mem_cons, List.mem_singleton, List.not_mem_nil, or_false] at hT
  rcases hT with h | h <;> rw [h] <;> exact scalarAlt_order _

theorem relational_trichotomy_witness :
    ∃ lt eq gt : Bool, Variant.operatorLt intDouble (holdsInt 7) (holdsDouble 5) = .ok lt () ∧
      Variant.operatorEq intDouble (holdsInt 7) (holdsDouble 5) = .ok eq () ∧
      Variant.operatorLt intDouble (holdsDouble 5) (holdsInt 7) = .ok gt () ∧
      ((lt = true ∧ eq = false ∧ gt = false) ∨ (lt = false ∧ eq = true ∧ gt = false) ∨
        (lt = false ∧ eq = false ∧ gt = true)) ∧
      Variant.operatorGt intDouble (holdsInt 7) (holdsDouble 5) = .ok gt () ∧
      Variant.operatorLe intDouble (holdsInt 7) (holdsDouble 5) = .ok (lt || eq) () ∧
      Variant.operatorGe intDouble (holdsInt 7) (holdsDouble 5) = .ok (gt || eq) () :=
  relational_trichotomy intDouble (by decide) intDouble_order (holdsInt 7) (holdsDouble 5)
    (Or.inr (by decide)) (Or.inr (by decide))


/-! ## Swap of different alternatives, the destruction step, the index table -/

theorem Post_ne_ub {σ α : Type} {ok : α → σ → Prop} {thr : σ → Prop} {r : Res σ α}
    (h : r.Post ok thr) : r ≠ .ub := by
  intro hr
  rw [hr] at h
  exact h

theorem stdSwap_eq_ok {alts : List (Alt V A)} {a b a2 b2 : Variant V}
    (h : stdSwap alts a b = .ok () (a2, b2)) :
    ∃ tmp a1 b1 tmp1, Variant.moveCtor alts a = .ok tmp a1 ∧
      Variant.moveAssign alts a1 b = .ok () (a2, b1) ∧
      Variant.moveAssign alts b1 tmp = .ok () (b2, tmp1) := by
  unfold stdSwap at h
  cases h1 : Variant.moveCtor alts a with
  | ok tmp a1 =>
    rw [h1] at h
    simp only at h
    cases h2 : Variant.moveAssign alts a1 b with
    | ok u p =>
      obtain ⟨a3, b1⟩ := p
      rw [h2] at h
      simp only at h
      cases h3 : Variant.moveAssign alts b1 tmp with
      | ok u1 q =>
        obtain ⟨b3, tmp1⟩ := q
        rw [h3] at h
        simp only at h
        have hab : a3 = a2 ∧ b3 = b2 := by
          cases h4 : tmp1.destructor alts <;> rw [h4] at h <;> simp only at h <;>
            first
            | (cases h; exact ⟨rfl, rfl⟩)
            | cases h
        obtain ⟨rfl, rfl⟩ := hab
        refine ⟨tmp, a1, b1, tmp1, ?_, ?_, ?_⟩
        · rfl
        · exact h2
        · exact h3
      | throw e q =>
        obtain ⟨b3, tmp1⟩ := q
        rw [h3] at h
        simp only at h
        cases h4 : tmp1.destructor alts <;> rw [h4] at h <;> cases h
      | terminate => rw [h3] at h; cases h
      | ub => rw [h3] at h; cases h
    | throw e p =>
      obtain ⟨a3, b1⟩ := p
      rw [h2] at h
      simp only at h
      cases h4 : tmp.destructor alts <;> rw [h4] at h <;> cases h
    | terminate => rw [h2] at h; cases h
    | ub => rw [h2] at h; cases h
  | throw e a1 => rw [h1] at h; cases h
  | terminate => rw [h1] at h; cases h
  | ub => rw [h1] at h; cases h

theorem Swap_mismatched_eq (alts : List (Alt V A)) {a b : Variant V} (hne : a.ind ≠ b.ind) :
    Variant.Swap alts a b = noexceptIf true (stdSwap alts a b) := by
  have hv : (a.ValuelessByException && b.ValuelessByException) = false := by
    cases ha : a.ValuelessByException
    · rfl
    · cases hb : b.ValuelessByException
      · rfl
      · exact absurd (((valueless_iff a).1 ha).trans ((valueless_iff b).1 hb).symm) hne
  simp only [Variant.Swap, hv, Bool.false_eq_true, if_false, Variant.Index, Ne.symm hne]

/-- C32. `Swap` of two well-formed variants with different indices (different
alternatives, or exactly one of them valueless) is the generic exchange and
nothing else: it returns what `std::swap` returns under `noexcept`, which is
never undefined; when it returns normally, a temporary was move-constructed
from the first operand and two move assignments followed, and both operands
are well-formed with the indices exchanged; and with alternatives whose
operations do not throw it returns with the contents exchanged. -/
theorem Swap_mismatched_three_steps (alts : List (Alt V A)) (hN : alts.length ≤ kVariantNPos)
    (a b : Variant V) (ha : a.WF alts.length) (hb : b.WF alts.length) (hne : a.ind ≠ b.ind) :
    Variant.Swap alts a b = noexceptIf true (stdSwap alts a b) ∧
    Variant.Swap alts a b ≠ .ub ∧
    (∀ a2 b2, Variant.Swap alts a b = .ok () (a2, b2) →
      (∃ tmp a1 b1 tmp1, Variant.moveCtor alts a = .ok tmp a1 ∧
        Variant.moveAssign alts a1 b = .ok () (a2, b1) ∧
        Variant.moveAssign alts b1 tmp = .ok () (b2, tmp1)) ∧
      a2.WF alts.length ∧ b2.WF alts.length ∧ a2.ind = b.ind ∧ b2.ind = a.ind) ∧
    ((∀ T ∈ alts, T.Regular) →
      ∃ a2 b2, Variant.Swap alts a b = .ok () (a2, b2) ∧ a2.ind = b.ind ∧ a2.val = b.val ∧
        b2.ind = a.ind ∧ b2.val = a.val) := by
  have heq := Swap_mismatched_eq alts hne
  have hpost := Swap_post hN ha hb
  refine ⟨heq, Post_ne_ub hpost, ?_, ?_⟩
  · intro a2 b2 hok
    refine ⟨stdSwap_eq_ok (noexceptIf_eq_ok (heq ▸ hok)), ?_⟩
    rw [hok] at hpost
    exact hpost
  · intro hreg
    obtain ⟨a2, b2, hs, h⟩ := stdSwap_regular hN hreg ha hb
    refine ⟨a2, b2, ?_, h⟩
    rw [heq, hs]
    exact noexceptIf_ok _ _ _

theorem Swap_mismatched_three_steps_witness :
    Variant.Swap intRecord (holdsObj 3) (holdsObj 3).cleared =
      noexceptIf true (stdSwap intRecord (holdsObj 3) (holdsObj 3).cleared) ∧
    Variant.Swap intRecord (holdsObj 3) (holdsObj 3).cleared ≠ .ub ∧
    (∀ a2 b2, Variant.Swap intRecord (holdsObj 3) (holdsObj 3).cleared = .ok () (a2, b2) →
      (∃ tmp a1 b1 tmp1, Variant.moveCtor intRecord (holdsObj 3) = .ok tmp a1 ∧
        Variant.moveAssign intRecord a1 (holdsObj 3).cleared = .ok () (a2, b1) ∧
        Variant.moveAssign intRecord b1 tmp = .ok () (b2, tmp1)) ∧
      a2.WF intRecord.length ∧ b2.WF intRecord.length ∧ a2.ind = (holdsObj 3).cleared.ind ∧
        b2.ind = (holdsObj 3).ind) ∧
    ((∀ T ∈ intRecord, T.Regular) →
      ∃ a2 b2, Variant.Swap intRecord (holdsObj 3) (holdsObj 3).cleared = .ok () (a2, b2) ∧
        a2.ind = (holdsObj 3).cleared.ind ∧ a2.val = (holdsObj 3).cleared.val ∧
        b2.ind = (holdsObj 3).ind ∧ b2.val = (holdsObj 3).val) :=
  Swap_mismatched_three_steps intRecord (by decide) (holdsObj 3) (holdsObj 3).cleared
    (by decide) (Or.inl ⟨rfl, rfl⟩) (by decide)

/-- C33. `DestroyInternalValue` on a variant that has the sentinel as index or
is well-formed: with the sentinel nothing happens, whatever the storage holds;
with the index of an alternative the value of that alternative, and no other,
is destroyed; in both cases the call returns and the stored index is what it
was. -/
theorem DestroyInternalValue_frame (N : Nat) (hN : N ≤ kVariantNPos) (v : Variant V)
    (h : v.ind = kVariantNPos ∨ v.WF N) :
    (v.ind = kVariantNPos → v.DestroyInternalValue N = .ok () v) ∧
    (v.ind ≠ kVariantNPos → ∃ x, v.val = some (v.ind, x) ∧
      v.DestroyInternalValue N =
        .ok () { val := none, ind := v.ind, destroyed := v.destroyed ++ [(v.ind, x)] }) ∧
    (∃ v1, v.DestroyInternalValue N = .ok () v1 ∧ v1.ind = v.ind) := by
  have hsent : v.ind = kVariantNPos → v.DestroyInternalValue N = .ok () v := by
    intro hs
    simp only [Variant.DestroyInternalValue, hs, ne_eq, not_true_eq_false, if_false]
  have hlive : v.ind ≠ kVariantNPos → ∃ x, v.val = some (v.ind, x) ∧
      v.DestroyInternalValue N =
        .ok () { val := none, ind := v.ind, destroyed := v.destroyed ++ [(v.ind, x)] } := by
    intro hs
    have hwf := h.resolve_left hs
    obtain ⟨_, x, hx⟩ := WF_ind_lt hwf hs
    refine ⟨x, hx, ?_⟩
    rw [DestroyInternalValue_WF hN hwf, hx]
    rfl
  refine ⟨hsent, hlive, ?_⟩
  by_cases hs : v.ind = kVariantNPos
  · exact ⟨v, hsent hs, rfl⟩
  · obtain ⟨x, _, hx⟩ := hlive hs
    exact ⟨_, hx, rfl⟩

theorem DestroyInternalValue_frame_witness :
    ((holdsObj 3).ind = kVariantNPos →
      (holdsObj 3).DestroyInternalValue 2 = .ok () (holdsObj 3)) ∧
    ((holdsObj 3).ind ≠ kVariantNPos → ∃ x, (holdsObj 3).val = some ((holdsObj 3).ind, x) ∧
      (holdsObj 3).DestroyInternalValue 2 =
        .ok () { val := none, ind := (holdsObj 3).ind,
                 destroyed := (holdsObj 3).destroyed ++ [((holdsObj 3).ind, x)] }) ∧
    (∃ v1, (holdsObj 3).DestroyInternalValue 2 = .ok () v1 ∧ v1.ind = (holdsObj 3).ind) :=
  DestroyInternalValue_frame 2 (by decide) (holdsObj 3) (Or.inr (by decide))

theorem operatorEq_returns {alts : List (Alt V A)} (hN : alts.length ≤ kVariantNPos)
    {v w : Variant V} (hv : v.WF alts.length) (hw : w.WF alts.length) :
    ∃ b, Variant.operatorEq alts v w = .ok b () := by
  by_cases hidx : v.ind = w.ind
  · by_cases hvl : v.ind = kVariantNPos
    · exact ⟨true, operatorEq_valueless hvl (hidx ▸ hvl)⟩
    · obtain ⟨hi, x, hx⟩ := WF_ind_lt hv hvl
      obtain ⟨_, y, hy⟩ := WF_ind_lt hw (hidx ▸ hvl)
      obtain ⟨T, hT, _⟩ := getElem?_of_lt hi
      exact ⟨T.eq x y, operatorEq_holding hN hT rfl hx hidx.symm (hidx ▸ hy)⟩
  · exact ⟨false, operatorEq_index hidx⟩

theorem operatorLt_returns {alts : List (Alt V A)} (hN : alts.length ≤ kVariantNPos)
    {v w : Variant V} (hv : v.WF alts.length) (hw : w.WF alts.length) :
    ∃ b, Variant.operatorLt alts v w = .ok b () := by
  by_cases hwl : w.ind = kVariantNPos
  · exact ⟨false, operatorLt_valueless_right hwl⟩
  · by_cases hvl : v.ind = kVariantNPos
    · exact ⟨true, operatorLt_valueless_left hvl hwl⟩
    · obtain ⟨hi, x, hx⟩ := WF_ind_lt hv hvl
      obtain ⟨hj, y, hy⟩ := WF_ind_lt hw hwl
      by_cases hidx : v.ind = w.ind
      · obtain ⟨T, hT, _⟩ := getElem?_of_lt hi
        exact ⟨T.lt x y, operatorLt_holding hN hT rfl hx hidx.symm (hidx ▸ hy)⟩
      · exact ⟨_, operatorLt_index hi hj hN hidx⟩

/-- Copy assignment of a valueless variant to one that holds a value, when
the user-provided operator is the one selected: the destination is destroyed
and marked valueless, and the dispatch on the index of the source follows. -/
theorem copyAssign_dispatch_sentinel {alts : List (Alt V A)} (hN : alts.length ≤ kVariantNPos)
    {this other : Variant V} (ht : this.WF alts.length)
    (htriv : IsTriviallyCopyAssignable alts = false) (hth : this.ind ≠ kVariantNPos)
    (hoth : other.ind = kVariantNPos) :
    Variant.copyAssign alts this other =
      VisitIndex alts.length
        (Variant.copyAssignVisitor alts
          ({ val := none, ind := this.ind,
             destroyed := this.destroyed ++ this.val.toList } : Variant V).MakeValueless other)
        kVariantNPos := by
  simp only [Variant.copyAssign, htriv, Bool.false_eq_true, if_false, Variant.copyAssignBody,
    (valueless_iff other).2 hoth, if_true, (valueless_false_iff this).2 hth,
    DestroyInternalValue_WF hN ht, Variant.Index, hoth]

/-- C34. The lookups in the index table, for well-formed operands over at most
`2^64 - 1` alternatives.  A lookup at the sentinel is out of bounds.  The
dispatches of `DestroyInternalValue`, of copy and move construction, of move
assignment, of `Swap`, of `operator==` and of `operator<` stay in bounds, and
so does copy assignment unless the source is valueless and the destination is
not; in that one case the user-provided copy assignment looks the sentinel up
and is undefined. -/
theorem VisitIndex_bounds (alts : List (Alt V A)) (hN : alts.length ≤ kVariantNPos)
    (this other : Variant V) (ht : this.WF alts.length) (ho : other.WF alts.length) :
    (∀ vis : Nat → Res (Variant V) Unit, VisitIndex alts.length vis kVariantNPos = .ub) ∧
    this.DestroyInternalValue alts.length ≠ .ub ∧
    Variant.copyCtor alts other ≠ .ub ∧
    Variant.moveCtor alts other ≠ .ub ∧
    Variant.moveAssign alts this other ≠ .ub ∧
    Variant.Swap alts this other ≠ .ub ∧
    Variant.operatorEq alts this other ≠ .ub ∧
    Variant.operatorLt alts this other ≠ .ub ∧
    ((other.ind = kVariantNPos → this.ind = kVariantNPos) →
      Variant.copyAssign alts this other ≠ .ub) ∧
    (IsTriviallyCopyAssignable alts = false → this.ind ≠ kVariantNPos →
      other.ind = kVariantNPos → other.Index = kVariantNPos ∧ ¬ other.Index < alts.length ∧
        Variant.copyAssign alts this other = .ub) := by
  refine ⟨fun vis => VisitIndex_ge vis hN, ?_, Post_ne_ub (copyCtor_post alts ho),
    Post_ne_ub (moveCtor_post alts ho), Post_ne_ub (moveAssign_post hN ht ho),
    Post_ne_ub (Swap_post hN ht ho), ?_, ?_, ?_, ?_⟩
  · rw [DestroyInternalValue_WF hN ht]
    exact fun h => Res.noConfusion h
  · obtain ⟨b, hb⟩ := operatorEq_returns hN ht ho
    rw [hb]
    exact fun h => Res.noConfusion h
  · obtain ⟨b, hb⟩ := operatorLt_returns hN ht ho
    rw [hb]
    exact fun h => Res.noConfusion h
  · intro hex
    exact Post_ne_ub (copyAssign_post hN ht ho fun _ => hex)
  · intro htriv hth hoth
    refine ⟨hoth, ?_, ?_⟩
    · rw [Variant.Index, hoth]
      omega
    · rw [copyAssign_dispatch_sentinel hN ht htriv hth hoth]
      exact VisitIndex_ge _ hN

theorem VisitIndex_bounds_witness :
    (∀ vis : Nat → Res (Variant Lit) Unit,
      VisitIndex (intClass true).length vis kVariantNPos = .ub) ∧
    (holdsInt 7).DestroyInternalValue (intClass true).length ≠ .ub ∧
    Variant.copyCtor (intClass true) (holdsInt 7).cleared ≠ .ub ∧
    Variant.moveCtor (intClass true) (holdsInt 7).cleared ≠ .ub ∧
    Variant.moveAssign (intClass true) (holdsInt 7) (holdsInt 7).cleared ≠ .ub ∧
    Variant.Swap (intClass true) (holdsInt 7) (holdsInt 7).cleared ≠ .ub ∧
    Variant.operatorEq (intClass true) (holdsInt 7) (holdsInt 7).cleared ≠ .ub ∧
    Variant.operatorLt (intClass true) (holdsInt 7) (holdsInt 7).cleared ≠ .ub ∧
    (((holdsInt 7).cleared.ind = kVariantNPos → (holdsInt 7).ind = kVariantNPos) →
      Variant.copyAssign (intClass true) (holdsInt 7) (holdsInt 7).cleared ≠ .ub) ∧
    (IsTriviallyCopyAssignable (intClass true) = false → (holdsInt 7).ind ≠ kVariantNPos →
      (holdsInt 7).cleared.ind = kVariantNPos →
        (holdsInt 7).cleared.Index = kVariantNPos ∧
        ¬ (holdsInt 7).cleared.Index < (intClass true).length ∧
        Variant.copyAssign (intClass true) (holdsInt 7) (holdsInt 7).cleared = .ub) :=
  VisitIndex_bounds (intClass true) (by decide) (holdsInt 7) (holdsInt 7).cleared
    (by decide) (Or.inl ⟨rfl, rfl⟩)

end cpp.variant

namespace cpp.optional

variable {T : Type}

/-! ## Optional: presence and swap -/

/-- C26. An `Optional` is empty after default construction and after
construction from `nullopt` (its conversion to `bool` is `false`); after
construction from a value `v` it is present and dereferencing it yields `v`.
The three constructors establish the invariant; `Optional<int> opt{5}` has
`*opt == 5`. -/
theorem Optional_presence (T : Type) (v : T) :
    (Optional.default : Optional T).operatorBool = false ∧
      (Optional.ofNullopt : Optional T).operatorBool = false ∧
      (Optional.ofValue v).operatorBool = true ∧
      (Optional.ofValue v).operatorStar = some v ∧
      (Optional.default : Optional T).WF ∧ (Optional.ofNullopt : Optional T).WF ∧
      (Optional.ofValue v).WF ∧
      (Optional.ofValue (5 : Int)).operatorStar = some 5 := by
  refine ⟨rfl, rfl, rfl, rfl, ?_, ?_, ?_, rfl⟩
  · simp [Optional.WF, Optional.default]
  · simp [Optional.WF, Optional.ofNullopt]
  · simp [Optional.WF, Optional.ofValue]

/-- C27. For every two `Optional`s `a` and `b` of the same type, `swap(a, b)`
exchanges presence and held value: afterwards `a` is present iff `b` was, `b`
is present iff `a` was, dereferencing each yields what dereferencing the other
did, and the invariant is kept.  With `a` holding `{5, -1, 2}` and `b` empty,
`a` ends empty and `b` holds `{5, -1, 2}`. -/
theorem optional_swap_exchanges (T : Type) (a b : Optional T) :
    (swap a b).1.operatorBool = b.operatorBool ∧
      (swap a b).2.operatorBool = a.operatorBool ∧
      (swap a b).1.operatorStar = b.operatorStar ∧
      (swap a b).2.operatorStar = a.operatorStar ∧
      (swap a b).1 = b ∧ (swap a b).2 = a ∧
      (a.WF → b.WF → (swap a b).1.WF ∧ (swap a b).2.WF) ∧
      swap (Optional.ofValue [(5 : Int), -1, 2]) Optional.default =
        (Optional.default, Optional.ofValue [(5 : Int), -1, 2]) := by
  refine ⟨rfl, rfl, rfl, rfl, rfl, rfl, fun ha hb => ⟨hb, ha⟩, rfl⟩

end cpp.optional

namespace cpp.pointer

/-! ## Counting the pointers on a control block -/

theorem Outcome.ok_bind {α β : Type} (a : α) (f : α → Outcome β) :
    (Outcome.ok a).bind f = f a := rfl

theorem Outcome.bind_eq_ok {α β : Type} {x : Outcome α} {f : α → Outcome β} {b : β}
    (h : x.bind f = .ok b) : ∃ a, x = .ok a ∧ f a = .ok b := by
  cases x with
  | ok a => exact ⟨a, rfl, h⟩
  | assertFailed => cases h
  | ub => cases h

theorem countP_append_one {α : Type} (p : α → Bool) (l : List α) (a : α) :
    (l ++ [a]).countP p = l.countP p + (p a).toNat := by
  rw [List.countP_append, List.countP_singleton]
  cases p a <;> rfl

theorem countP_set_add {α : Type} (p : α → Bool) :
    ∀ (l : List α) (i : Nat) (a b : α), l[i]? = some a →
      (l.set i b).countP p + (p a).toNat = l.countP p + (p b).toNat := by
  intro l
  induction l with
  | nil => intro i a b h; simp at h
  | cons x xs ih =>
    intro i a b h
    cases i with
    | zero =>
      simp only [List.getElem?_cons_zero, Option.some.injEq] at h
      subst h
      simp only [List.set_cons_zero, List.countP_cons]
      cases p x <;> cases p b <;> simp
    | succ i =>
      simp only [List.getElem?_cons_succ] at h
      have := ih i a b h
      simp only [List.set_cons_succ, List.countP_cons]
      omega

theorem countP_pos_of_getElem? {α : Type} (p : α → Bool) {l : List α} {i : Nat} {a : α}
    (h : l[i]? = some a) (ha : p a = true) : 0 < l.countP p := by
  rw [List.countP_pos_iff]
  exact ⟨a, List.getElem?_mem h, ha⟩

theorem sharers_le (s : State) (c : Nat) : s.sharers c ≤ s.shared.length :=
  List.countP_le_length _

theorem observers_le (s : State) (c : Nat) : s.observers c ≤ s.weak.length :=
  List.countP_le_length _

theorem Counts_congr {h : Heap} {f g f1 g1 : Nat → Nat} (hc : h.Counts f g)
    (hf : ∀ c, f1 c = f c) (hg : ∀ c, g1 c = g c) : h.Counts f1 g1 := by
  have e1 : f1 = f := funext hf
  have e2 : g1 = g := funext hg
  rw [e1, e2]
  exact hc

theorem Counts_live {h : Heap} {f g : Nat → Nat} (hc : h.Counts f g) {c : Nat}
    (hpos : 0 < f c + g c) :
    ∃ cb, h.blocks[c]? = some (some cb) ∧ cb.strong_ptr_count_ = f c ∧
      cb.ptr_count_ = f c + g c := by
  have := hc c
  cases hb : h.blocks[c]? with
  | none => rw [hb] at this; simp only at this; omega
  | some o =>
    cases o with
    | none => rw [hb] at this; simp only at this; omega
    | some cb => rw [hb] at this; exact ⟨cb, rfl, this.1, this.2⟩

theorem Counts_at {h : Heap} {f g : Nat → Nat} (hc : h.Counts f g) {c : Nat} {cb : ControlBlock}
    (hb : h.blocks[c]? = some (some cb)) :
    cb.strong_ptr_count_ = f c ∧ cb.ptr_count_ = f c + g c := by
  have := hc c
  rw [hb] at this
  exact this

theorem read_live {h : Heap} {c : Nat} {cb : ControlBlock} (hb : h.blocks[c]? = some (some cb)) :
    h.read c = .ok cb := by
  simp only [Heap.read, hb]

theorem read_eq_ok {h : Heap} {c : Nat} {cb : ControlBlock} (hr : h.read c = .ok cb) :
    h.blocks[c]? = some (some cb) := by
  unfold Heap.read at hr
  split at hr
  · rename_i cb1 heq
    cases hr
    exact heq
  · cases hr

/-- Writing the block at `c` with counters that agree with the new numbers. -/
theorem Counts_write {h : Heap} {f g f1 g1 : Nat → Nat} (hc : h.Counts f g) {c : Nat}
    {cb cb1 : ControlBlock} (hb : h.blocks[c]? = some (some cb))
    (hs : cb1.strong_ptr_count_ = f1 c) (hp : cb1.ptr_count_ = f1 c + g1 c)
    (hf : ∀ c1, c1 ≠ c → f1 c1 = f c1) (hg : ∀ c1, c1 ≠ c → g1 c1 = g c1)
    (destructed : List (Option Nat)) :
    ({ (h.write c cb1) with destructed := destructed } : Heap).Counts f1 g1 := by
  intro c1
  have hlen : c < h.blocks.length := by
    by_contra hge
    rw [List.getElem?_eq_none (by omega)] at hb
    cases hb
  by_cases h1 : c1 = c
  · subst h1
    simp only [Heap.write, List.getElem?_set_self hlen]
    exact ⟨hs, hp⟩
  · have := hc c1
    simp only [Heap.write, List.getElem?_set_ne (Ne.symm h1)]
    rw [hf c1 h1, hg c1 h1]
    exact this

/-- Deleting the block at `c` once no pointer is on it. -/
theorem Counts_delete {h : Heap} {f g : Nat → Nat} (hc : h.Counts f g) {c : Nat}
    {cb : ControlBlock} (hb : h.blocks[c]? = some (some cb)) (hz : cb.ptr_count_ = 0) :
    ∃ h1, h.delete c = .ok h1 ∧ h1.Counts f g := by
  have hd : h.delete c = .ok { blocks := h.blocks.set c none
                               destructed := h.destructed ++
                                 (if cb.data_is_deleted_ then [] else [cb.data_]) } := by
    simp only [Heap.delete, read_live hb, Outcome.ok_bind]
  refine ⟨_, hd, ?_⟩
  intro c1
  have hlen : c < h.blocks.length := by
    by_contra hge
    rw [List.getElem?_eq_none (by omega)] at hb
    cases hb
  by_cases h1 : c1 = c
  · subst h1
    have := Counts_at hc hb
    simp only [List.getElem?_set_self hlen]
    omega
  · have := hc c1
    simp only [List.getElem?_set_ne (Ne.symm h1)]
    exact this

theorem Counts_deleteIfUnused {h : Heap} {f g : Nat → Nat} (hc : h.Counts f g) {c : Nat}
    {cb : ControlBlock} (hb : h.blocks[c]? = some (some cb)) :
    ∃ h1, h.deleteIfUnused c = .ok h1 ∧ h1.Counts f g := by
  simp only [Heap.deleteIfUnused, read_live hb, Outcome.ok_bind]
  by_cases hz : cb.ptr_count_ = 0
  · simp only [ControlBlock.ControlBlockMustBeDeleted, hz, beq_self_eq_true, if_true]
    exact Counts_delete hc hb hz
  · have : (cb.ptr_count_ == 0) = false := by simpa using hz
    simp only [ControlBlock.ControlBlockMustBeDeleted, this, Bool.false_eq_true, if_false]
    exact ⟨h, rfl, hc⟩


theorem blocks_lt_length {h : Heap} {c : Nat} {cb : ControlBlock}
    (hb : h.blocks[c]? = some (some cb)) : c < h.blocks.length := by
  by_contra hge
  rw [List.getElem?_eq_none (by omega)] at hb
  cases hb

theorem AddStrongPointer_counts {h : Heap} {f g : Nat → Nat} (hc : h.Counts f g) {c : Nat}
    {cb : ControlBlock} (hb : h.blocks[c]? = some (some cb)) (hbound : f c + g c + 1 < 2 ^ 64) :
    ∃ h1, h.AddStrongPointer c = .ok h1 ∧
      h1.Counts (fun c1 => f c1 + if c1 = c then 1 else 0) g := by
  obtain ⟨hs, hp⟩ := Counts_at hc hb
  have hchk : cb.CheckInvariant = .ok () := by
    simp only [ControlBlock.CheckInvariant]
    rw [if_pos (by omega)]
  have heq : h.AddStrongPointer c = .ok (h.write c { cb with
      strong_ptr_count_ := (cb.strong_ptr_count_ + 1) % 2 ^ 64
      ptr_count_ := (cb.ptr_count_ + 1) % 2 ^ 64 }) := by
    simp only [Heap.AddStrongPointer, read_live hb, Outcome.ok_bind,
      ControlBlock.AddStrongPointer, hchk]
  refine ⟨_, heq, ?_⟩
  refine Counts_write hc hb ?_ ?_ ?_ (fun _ _ => rfl) h.destructed
  · simp only [if_true]
    rw [Nat.mod_eq_of_lt (by omega)]
    omega
  · simp only [if_true]
    rw [Nat.mod_eq_of_lt (by omega)]
    omega
  · intro c1 h1
    simp only [if_neg h1, Nat.add_zero]

theorem AddWeakPointer_counts {h : Heap} {f g : Nat → Nat} (hc : h.Counts f g) {c : Nat}
    {cb : ControlBlock} (hb : h.blocks[c]? = some (some cb)) (hbound : f c + g c + 1 < 2 ^ 64) :
    ∃ h1, h.AddWeakPointer c = .ok h1 ∧
      h1.Counts f (fun c1 => g c1 + if c1 = c then 1 else 0) := by
  obtain ⟨hs, hp⟩ := Counts_at hc hb
  have hmod : (cb.ptr_count_ + 1) % 2 ^ 64 = cb.ptr_count_ + 1 := Nat.mod_eq_of_lt (by omega)
  have hchk : ({ cb with ptr_count_ := (cb.ptr_count_ + 1) % 2 ^ 64 } :
      ControlBlock).CheckInvariant = .ok () := by
    simp only [ControlBlock.CheckInvariant, hmod]
    rw [if_pos (by omega)]
  have heq : h.AddWeakPointer c = .ok (h.write c { cb with
      ptr_count_ := (cb.ptr_count_ + 1) % 2 ^ 64 }) := by
    simp only [Heap.AddWeakPointer, read_live hb, Outcome.ok_bind,
      ControlBlock.AddWeakPointer, hchk]
  refine ⟨_, heq, ?_⟩
  refine Counts_write hc hb ?_ ?_ (fun _ _ => rfl) ?_ h.destructed
  · exact hs
  · simp only [if_true, hmod]
    omega
  · intro c1 h1
    simp only [if_neg h1, Nat.add_zero]

theorem SharedPointer_destructor_counts {h : Heap} {f g : Nat → Nat} (hc : h.Counts f g)
    (p : SharedPointer)
    (hp : ∀ c, p.control_block_ = some c → 0 < f c ∧ f c + g c < 2 ^ 64) :
    ∃ h1, SharedPointer.destructor h p = .ok h1 ∧
      h1.Counts (fun c1 => f c1 - (sharesBlock c1 (some p)).toNat) g := by
  cases hcb : p.control_block_ with
  | none =>
    refine ⟨h, by simp only [SharedPointer.destructor, hcb], ?_⟩
    refine Counts_congr hc (fun c => ?_) (fun _ => rfl)
    simp [sharesBlock, hcb]
  | some c =>
    obtain ⟨hpos, hlt⟩ := hp c hcb
    obtain ⟨cb, hb, hs, hpt⟩ := Counts_live hc (c := c) (by omega)
    have hchk : cb.CheckInvariant = .ok () := by
      simp only [ControlBlock.CheckInvariant]
      rw [if_pos (by omega)]
    have hm1 : (cb.strong_ptr_count_ + (2 ^ 64 - 1)) % 2 ^ 64 = f c - 1 := by omega
    have hm2 : (cb.ptr_count_ + (2 ^ 64 - 1)) % 2 ^ 64 = f c - 1 + g c := by omega
    obtain ⟨r, hr, hr1, hr2⟩ : ∃ r, cb.RemoveStrongPointer = .ok r ∧
        r.1.strong_ptr_count_ = f c - 1 ∧ r.1.ptr_count_ = f c - 1 + g c := by
      simp only [ControlBlock.RemoveStrongPointer, hchk, Outcome.ok_bind]
      refine ⟨_, rfl, ?_, ?_⟩
      · split <;> simp only [ControlBlock.DeleteData, hm1]
      · split <;> simp only [ControlBlock.DeleteData, hm2]
    have hf1 : ∀ c1, (sharesBlock c1 (some p)).toNat = if c1 = c then 1 else 0 := by
      intro c1
      simp only [sharesBlock, hcb]
      by_cases h1 : c1 = c
      · subst h1; simp
      · have : (some c == some c1) = false := by simpa using Ne.symm h1
        simp [this, h1]
    have hw : ({ (h.write c r.1) with destructed := h.destructed ++ r.2 } : Heap).Counts
        (fun c1 => f c1 - (sharesBlock c1 (some p)).toNat) g := by
      refine Counts_write hc hb ?_ ?_ ?_ (fun _ _ => rfl) _
      · simp only [hf1, if_true]; exact hr1
      · simp only [hf1, if_true]; exact hr2
      · intro c1 h1
        simp only [hf1, if_neg h1, Nat.sub_zero]
    have hb1 : ({ (h.write c r.1) with destructed := h.destructed ++ r.2 } : Heap).blocks[c]? =
        some (some r.1) := by
      simp only [Heap.write, List.getElem?_set_self (blocks_lt_length hb)]
    obtain ⟨h1, hd, hc1⟩ := Counts_deleteIfUnused hw hb1
    refine ⟨h1, ?_, hc1⟩
    simp only [SharedPointer.destructor, hcb, read_live hb, Outcome.ok_bind, hr]
    exact hd

theorem WeakPointer_destructor_counts {h : Heap} {f g : Nat → Nat} (hc : h.Counts f g)
    (w : WeakPointer)
    (hp : ∀ c, w.control_block_ = some c → 0 < g c ∧ f c + g c < 2 ^ 64) :
    ∃ h1, WeakPointer.destructor h w = .ok h1 ∧
      h1.Counts f (fun c1 => g c1 - (observesBlock c1 (some w)).toNat) := by
  cases hcb : w.control_block_ with
  | none =>
    refine ⟨h, by simp only [WeakPointer.destructor, hcb], ?_⟩
    refine Counts_congr hc (fun _ => rfl) (fun c => ?_)
    simp [observesBlock, hcb]
  | some c =>
    obtain ⟨hpos, hlt⟩ := hp c hcb
    obtain ⟨cb, hb, hs, hpt⟩ := Counts_live hc (c := c) (by omega)
    have hm2 : (cb.ptr_count_ + (2 ^ 64 - 1)) % 2 ^ 64 = f c + (g c - 1) := by omega
    have hchk : ({ cb with ptr_count_ := (cb.ptr_count_ + (2 ^ 64 - 1)) % 2 ^ 64 } :
        ControlBlock).CheckInvariant = .ok () := by
      simp only [ControlBlock.CheckInvariant, hm2]
      rw [if_pos (by omega)]
    have hf1 : ∀ c1, (observesBlock c1 (some w)).toNat = if c1 = c then 1 else 0 := by
      intro c1
      simp only [observesBlock, hcb]
      by_cases h1 : c1 = c
      · subst h1; simp
      · have : (some c == some c1) = false := by simpa using Ne.symm h1
        simp [this, h1]
    have hw : ({ (h.write c { cb with ptr_count_ := (cb.ptr_count_ + (2 ^ 64 - 1)) % 2 ^ 64 })
        with destructed := h.destructed } : Heap).Counts
        f (fun c1 => g c1 - (observesBlock c1 (some w)).toNat) := by
      refine Counts_write hc hb ?_ ?_ (fun _ _ => rfl) ?_ _
      · exact hs
      · simp only [hf1, if_true, hm2]
      · intro c1 h1
        simp only [hf1, if_neg h1, Nat.sub_zero]
    have hb1 : ({ (h.write c { cb with ptr_count_ := (cb.ptr_count_ + (2 ^ 64 - 1)) % 2 ^ 64 })
        with destructed := h.destructed } : Heap).blocks[c]? = some (some
          { cb with ptr_count_ := (cb.ptr_count_ + (2 ^ 64 - 1)) % 2 ^ 64 }) := by
      simp only [Heap.write, List.getElem?_set_self (blocks_lt_length hb)]
    obtain ⟨h1, hd, hc1⟩ := Counts_deleteIfUnused hw hb1
    refine ⟨h1, ?_, hc1⟩
    simp only [WeakPointer.destructor, hcb, read_live hb, Outcome.ok_bind,
      ControlBlock.RemoveWeakPointer, hchk]
    exact hd


theorem sharesBlock_toNat (p : SharedPointer) (c c1 : Nat) (hcb : p.control_block_ = some c) :
    (sharesBlock c1 (some p)).toNat = if c1 = c then 1 else 0 := by
  simp only [sharesBlock, hcb]
  by_cases h1 : c1 = c
  · subst h1; simp
  · have : (some c == some c1) = false := by simpa using Ne.symm h1
    simp [this, h1]

theorem observesBlock_toNat (w : WeakPointer) (c c1 : Nat) (hcb : w.control_block_ = some c) :
    (observesBlock c1 (some w)).toNat = if c1 = c then 1 else 0 := by
  simp only [observesBlock, hcb]
  by_cases h1 : c1 = c
  · subst h1; simp
  · have : (some c == some c1) = false := by simpa using Ne.symm h1
    simp [this, h1]

theorem sharesBlock_null (p : SharedPointer) (c1 : Nat) (hcb : p.control_block_ = none) :
    (sharesBlock c1 (some p)).toNat = 0 := by
  simp [sharesBlock, hcb]

theorem observesBlock_null (w : WeakPointer) (c1 : Nat) (hcb : w.control_block_ = none) :
    (observesBlock c1 (some w)).toNat = 0 := by
  simp [observesBlock, hcb]

theorem SharedPointer_ofControlBlock_counts {h : Heap} {f g : Nat → Nat} (hc : h.Counts f g)
    {c : Nat} {cb : ControlBlock} (hb : h.blocks[c]? = some (some cb))
    (hbound : f c + g c + 1 < 2 ^ 64) (data : Option Nat) :
    ∃ h1, SharedPointer.ofControlBlock h (some c) data =
        .ok (h1, { control_block_ := some c, pointer_ := data }) ∧
      h1.Counts (fun c1 => f c1 +
        (sharesBlock c1 (some { control_block_ := some c, pointer_ := data })).toNat) g := by
  obtain ⟨h1, ha, hc1⟩ := AddStrongPointer_counts hc hb hbound
  refine ⟨h1, by simp only [SharedPointer.ofControlBlock, ha, Outcome.ok_bind], ?_⟩
  exact Counts_congr hc1 (fun c1 => by rw [sharesBlock_toNat _ c c1 rfl]) (fun _ => rfl)

theorem SharedPointer_copyCtor_counts {h : Heap} {f g : Nat → Nat} (hc : h.Counts f g)
    (other : SharedPointer)
    (ho : ∀ c, other.control_block_ = some c → 0 < f c + g c ∧ f c + g c + 1 < 2 ^ 64) :
    ∃ h1, SharedPointer.copyCtor h other = .ok (h1, other) ∧
      h1.Counts (fun c1 => f c1 + (sharesBlock c1 (some other)).toNat) g := by
  cases hcb : other.control_block_ with
  | none =>
    have he : ({ control_block_ := none, pointer_ := other.pointer_ } : SharedPointer) = other := by
      cases other; simp only at hcb; subst hcb; rfl
    refine ⟨h, by simp only [SharedPointer.copyCtor, hcb, he], ?_⟩
    exact Counts_congr hc (fun c1 => by rw [sharesBlock_null _ _ hcb]; rfl) (fun _ => rfl)
  | some c =>
    have he : ({ control_block_ := some c, pointer_ := other.pointer_ } : SharedPointer) =
        other := by
      cases other; simp only at hcb; subst hcb; rfl
    obtain ⟨hpos, hlt⟩ := ho c hcb
    obtain ⟨cb, hb, _, _⟩ := Counts_live hc hpos
    obtain ⟨h1, ha, hc1⟩ := AddStrongPointer_counts hc hb hlt
    refine ⟨h1, by simp only [SharedPointer.copyCtor, hcb, ha, Outcome.ok_bind, he], ?_⟩
    exact Counts_congr hc1 (fun c1 => by rw [sharesBlock_toNat _ c c1 hcb]) (fun _ => rfl)

theorem WeakPointer_ofShared_counts {h : Heap} {f g : Nat → Nat} (hc : h.Counts f g)
    (p : SharedPointer)
    (ho : ∀ c, p.control_block_ = some c → 0 < f c + g c ∧ f c + g c + 1 < 2 ^ 64) :
    ∃ h1, WeakPointer.ofShared h p = .ok (h1, { control_block_ := p.control_block_ }) ∧
      h1.Counts f (fun c1 => g c1 +
        (observesBlock c1 (some { control_block_ := p.control_block_ })).toNat) := by
  cases hcb : p.control_block_ with
  | none =>
    refine ⟨h, by simp only [WeakPointer.ofShared, hcb], ?_⟩
    exact Counts_congr hc (fun _ => rfl) (fun c1 => by rw [observesBlock_null _ _ rfl]; rfl)
  | some c =>
    obtain ⟨hpos, hlt⟩ := ho c hcb
    obtain ⟨cb, hb, _, _⟩ := Counts_live hc hpos
    obtain ⟨h1, ha, hc1⟩ := AddWeakPointer_counts hc hb hlt
    refine ⟨h1, by simp only [WeakPointer.ofShared, hcb, ha, Outcome.ok_bind], ?_⟩
    exact Counts_congr hc1 (fun _ => rfl) (fun c1 => by rw [observesBlock_toNat _ c c1 rfl])

theorem WeakPointer_copyCtor_counts {h : Heap} {f g : Nat → Nat} (hc : h.Counts f g)
    (other : WeakPointer)
    (ho : ∀ c, other.control_block_ = some c → 0 < f c + g c ∧ f c + g c + 1 < 2 ^ 64) :
    ∃ h1, WeakPointer.copyCtor h other = .ok (h1, other) ∧
      h1.Counts f (fun c1 => g c1 + (observesBlock c1 (some other)).toNat) := by
  cases hcb : other.control_block_ with
  | none =>
    have he : ({ control_block_ := none } : WeakPointer) = other := by
      cases other; simp only at hcb; subst hcb; rfl
    refine ⟨h, by simp only [WeakPointer.copyCtor, hcb, he], ?_⟩
    exact Counts_congr hc (fun _ => rfl) (fun c1 => by rw [observesBlock_null _ _ hcb]; rfl)
  | some c =>
    have he : ({ control_block_ := some c } : WeakPointer) = other := by
      cases other; simp only at hcb; subst hcb; rfl
    obtain ⟨hpos, hlt⟩ := ho c hcb
    obtain ⟨cb, hb, _, _⟩ := Counts_live hc hpos
    obtain ⟨h1, ha, hc1⟩ := AddWeakPointer_counts hc hb hlt
    refine ⟨h1, by simp only [WeakPointer.copyCtor, hcb, ha, Outcome.ok_bind, he], ?_⟩
    exact Counts_congr hc1 (fun _ => rfl) (fun c1 => by rw [observesBlock_toNat _ c c1 hcb])

/-- A fresh control block with both counters zero. -/
theorem Counts_new {h : Heap} {f g : Nat → Nat} (hc : h.Counts f g) (cb0 : ControlBlock)
    (hs : cb0.strong_ptr_count_ = 0) (hp : cb0.ptr_count_ = 0) :
    (h.new cb0).1.Counts f g ∧ (h.new cb0).1.blocks[(h.new cb0).2]? = some (some cb0) ∧
      f (h.new cb0).2 = 0 ∧ g (h.new cb0).2 = 0 := by
  have hfresh := hc h.blocks.length
  rw [List.getElem?_eq_none (Nat.le_refl _)] at hfresh
  simp only at hfresh
  refine ⟨?_, by simp [Heap.new], hfresh.1, hfresh.2⟩
  intro c
  simp only [Heap.new]
  rcases Nat.lt_trichotomy c h.blocks.length with h1 | h1 | h1
  · rw [List.getElem?_append_left h1]
    exact hc c
  · subst h1
    simp only [List.getElem?_concat_length]
    omega
  · have hn : (h.blocks ++ [some cb0])[c]? = none :=
      List.getElem?_eq_none (by simp; omega)
    have := hc c
    rw [List.getElem?_eq_none (by omega)] at this
    rw [hn]
    exact this

theorem SharedPointer_ofRaw_counts {h : Heap} {f g : Nat → Nat} (hc : h.Counts f g)
    (data : Option Nat) :
    ∃ h1, SharedPointer.ofRaw h data =
        .ok (h1, { control_block_ := some h.blocks.length, pointer_ := data }) ∧
      h1.Counts (fun c1 => f c1 + (sharesBlock c1
        (some { control_block_ := some h.blocks.length, pointer_ := data })).toNat) g ∧
      f h.blocks.length = 0 := by
  obtain ⟨hn, hb, hf0, hg0⟩ := Counts_new hc
    { strong_ptr_count_ := 0, ptr_count_ := 0, data_is_deleted_ := false, inplace := false,
      data_ := data } rfl rfl
  obtain ⟨h1, ha, hc1⟩ := AddStrongPointer_counts hn hb (by rw [hf0, hg0]; decide)
  refine ⟨h1, ?_, ?_, hf0⟩
  · simp only [SharedPointer.ofRaw, ha, Outcome.ok_bind]
    rfl
  · exact Counts_congr hc1 (fun c1 => by rw [sharesBlock_toNat _ _ c1 rfl]; rfl) (fun _ => rfl)

theorem MakeShared_counts {h : Heap} {f g : Nat → Nat} (hc : h.Counts f g) (obj : Nat) :
    ∃ h1, MakeShared h obj =
        .ok (h1, { control_block_ := some h.blocks.length, pointer_ := some obj }) ∧
      h1.Counts (fun c1 => f c1 + (sharesBlock c1
        (some { control_block_ := some h.blocks.length, pointer_ := some obj })).toNat) g ∧
      f h.blocks.length = 0 := by
  obtain ⟨hn, hb, hf0, hg0⟩ := Counts_new hc
    { strong_ptr_count_ := 0, ptr_count_ := 0, data_is_deleted_ := false, inplace := true,
      data_ := some obj } rfl rfl
  obtain ⟨h1, ha, hc1⟩ :=
    SharedPointer_ofControlBlock_counts hn hb (by rw [hf0, hg0]; decide) (some obj)
  refine ⟨h1, ?_, hc1, hf0⟩
  simp only [MakeShared, read_live hb, Outcome.ok_bind, ControlBlock.GetPointer]
  exact ha


theorem SharedPointer_Swap_eq (this other : SharedPointer) : this.Swap other = (other, this) := by
  cases this; cases other; rfl

theorem WeakPointer_Swap_eq (this other : WeakPointer) : this.Swap other = (other, this) := by
  cases this; cases other; rfl

theorem SharedPointer_moveCtor_eq (other : SharedPointer) :
    SharedPointer.moveCtor other = (other, SharedPointer.default) := by
  cases other; rfl

theorem WeakPointer_moveCtor_eq (other : WeakPointer) :
    WeakPointer.moveCtor other = (other, WeakPointer.default) := by
  cases other; rfl

theorem SharedPointer_copyAssign_counts {h : Heap} {f g : Nat → Nat} (hc : h.Counts f g)
    (hB : ∀ c, f c + g c + 1 < 2 ^ 64) (this other : SharedPointer)
    (ht : ∀ c, this.control_block_ = some c → 0 < f c)
    (ho : ∀ c, other.control_block_ = some c → 0 < f c) :
    ∃ h1, SharedPointer.copyAssign h false this other = .ok (h1, other) ∧
      h1.Counts (fun c1 => f c1 + (sharesBlock c1 (some other)).toNat -
        (sharesBlock c1 (some this)).toNat) g := by
  obtain ⟨h1, hcopy, hc1⟩ := SharedPointer_copyCtor_counts hc other
    (fun c hcb => ⟨by have := ho c hcb; omega, hB c⟩)
  obtain ⟨h2, hd, hc2⟩ := SharedPointer_destructor_counts hc1 this (fun c hcb => by
    have := ht c hcb
    have := hB c
    have := Bool.toNat_le (sharesBlock c (some other))
    constructor <;> omega)
  refine ⟨h2, ?_, hc2⟩
  simp only [SharedPointer.copyAssign, Bool.false_eq_true, if_false, hcopy, Outcome.ok_bind,
    SharedPointer_Swap_eq, hd]

theorem SharedPointer_moveAssign_counts {h : Heap} {f g : Nat → Nat} (hc : h.Counts f g)
    (hB : ∀ c, f c + g c + 1 < 2 ^ 64) (this other : SharedPointer)
    (ht : ∀ c, this.control_block_ = some c → 0 < f c) :
    ∃ h1, SharedPointer.moveAssign h false this other =
        .ok (h1, other, SharedPointer.default) ∧
      h1.Counts (fun c1 => f c1 - (sharesBlock c1 (some this)).toNat) g := by
  obtain ⟨h2, hd, hc2⟩ := SharedPointer_destructor_counts hc this (fun c hcb => by
    have := ht c hcb
    have := hB c
    constructor <;> omega)
  refine ⟨h2, ?_, hc2⟩
  simp only [SharedPointer.moveAssign, Bool.false_eq_true, if_false, SharedPointer_moveCtor_eq,
    SharedPointer_Swap_eq, hd, Outcome.ok_bind]

theorem SharedPointer_Reset_counts {h : Heap} {f g : Nat → Nat} (hc : h.Counts f g)
    (hB : ∀ c, f c + g c + 1 < 2 ^ 64) (this : SharedPointer)
    (ht : ∀ c, this.control_block_ = some c → 0 < f c) :
    ∃ h1, SharedPointer.Reset h this = .ok (h1, SharedPointer.default) ∧
      h1.Counts (fun c1 => f c1 - (sharesBlock c1 (some this)).toNat) g := by
  obtain ⟨h2, hd, hc2⟩ := SharedPointer_destructor_counts hc this (fun c hcb => by
    have := ht c hcb
    have := hB c
    constructor <;> omega)
  refine ⟨h2, ?_, hc2⟩
  simp only [SharedPointer.Reset, SharedPointer_Swap_eq, hd, Outcome.ok_bind]

theorem WeakPointer_copyAssign_counts {h : Heap} {f g : Nat → Nat} (hc : h.Counts f g)
    (hB : ∀ c, f c + g c + 1 < 2 ^ 64) (this other : WeakPointer)
    (ht : ∀ c, this.control_block_ = some c → 0 < g c)
    (ho : ∀ c, other.control_block_ = some c → 0 < g c) :
    ∃ h1, WeakPointer.copyAssign h false this other = .ok (h1, other) ∧
      h1.Counts f (fun c1 => g c1 + (observesBlock c1 (some other)).toNat -
        (observesBlock c1 (some this)).toNat) := by
  obtain ⟨h1, hcopy, hc1⟩ := WeakPointer_copyCtor_counts hc other
    (fun c hcb => ⟨by have := ho c hcb; omega, hB c⟩)
  obtain ⟨h2, hd, hc2⟩ := WeakPointer_destructor_counts hc1 this (fun c hcb => by
    have := ht c hcb
    have := hB c
    have := Bool.toNat_le (observesBlock c (some other))
    constructor <;> omega)
  refine ⟨h2, ?_, hc2⟩
  simp only [WeakPointer.copyAssign, Bool.false_eq_true, if_false, hcopy, Outcome.ok_bind,
    WeakPointer_Swap_eq, hd]

theorem WeakPointer_moveAssign_counts {h : Heap} {f g : Nat → Nat} (hc : h.Counts f g)
    (hB : ∀ c, f c + g c + 1 < 2 ^ 64) (this other : WeakPointer)
    (ht : ∀ c, this.control_block_ = some c → 0 < g c) :
    ∃ h1, WeakPointer.moveAssign h false this other = .ok (h1, other, WeakPointer.default) ∧
      h1.Counts f (fun c1 => g c1 - (observesBlock c1 (some this)).toNat) := by
  obtain ⟨h2, hd, hc2⟩ := WeakPointer_destructor_counts hc this (fun c hcb => by
    have := ht c hcb
    have := hB c
    constructor <;> omega)
  refine ⟨h2, ?_, hc2⟩
  simp only [WeakPointer.moveAssign, Bool.false_eq_true, if_false, WeakPointer_moveCtor_eq,
    WeakPointer_Swap_eq, hd, Outcome.ok_bind]

theorem WeakPointer_Lock_counts {h : Heap} {f g : Nat → Nat} (hc : h.Counts f g)
    (hB : ∀ c, f c + g c + 1 < 2 ^ 64) (w : WeakPointer) (c : Nat)
    (hcb : w.control_block_ = some c) (hw : 0 < g c) :
    ∃ h1 p, w.Lock h = .ok (h1, p) ∧
      h1.Counts (fun c1 => f c1 + (sharesBlock c1 (some p)).toNat) g ∧
      (f c = 0 → p = SharedPointer.default ∧ h1 = h) ∧
      (0 < f c → p.control_block_ = some c) := by
  obtain ⟨cb, hb, hs, hp⟩ := Counts_live hc (c := c) (by omega)
  have hexp : w.IsExpired h = .ok (cb.strong_ptr_count_ == 0) := by
    simp only [WeakPointer.IsExpired, hcb, read_live hb, Outcome.ok_bind]
  by_cases hz : f c = 0
  · have h0 : (cb.strong_ptr_count_ == 0) = true := by rw [hs, hz]; rfl
    refine ⟨h, SharedPointer.default, ?_, ?_, fun _ => ⟨rfl, rfl⟩, fun hpos => by omega⟩
    · simp only [WeakPointer.Lock, hexp, Outcome.ok_bind, h0, if_true]
    · exact Counts_congr hc (fun c1 => by rw [sharesBlock_null _ _ rfl]; rfl) (fun _ => rfl)
  · have h0 : (cb.strong_ptr_count_ == 0) = false := by
      rw [hs]; simpa using hz
    obtain ⟨h1, ho, hc1⟩ := SharedPointer_ofControlBlock_counts hc hb (hB c) cb.GetPointer
    refine ⟨h1, _, ?_, hc1, fun h0 => absurd h0 hz, fun _ => rfl⟩
    simp only [WeakPointer.Lock, hexp, Outcome.ok_bind, h0, Bool.false_eq_true, if_false, hcb,
      read_live hb]
    exact ho


/-! ## Statements preserve the counts -/

theorem sharedAt_live {s : State} {i : Nat} {p : SharedPointer}
    (h : s.shared[i]? = some (some p)) : s.sharedAt i = .ok p := by
  simp only [State.sharedAt, h]

theorem weakAt_live {s : State} {i : Nat} {w : WeakPointer}
    (h : s.weak[i]? = some (some w)) : s.weakAt i = .ok w := by
  simp only [State.weakAt, h]

theorem sharers_pos {s : State} {i : Nat} {p : SharedPointer} {c : Nat}
    (h : s.shared[i]? = some (some p)) (hcb : p.control_block_ = some c) : 0 < s.sharers c :=
  countP_pos_of_getElem? _ h (by simp [sharesBlock, hcb])

theorem observers_pos {s : State} {i : Nat} {w : WeakPointer} {c : Nat}
    (h : s.weak[i]? = some (some w)) (hcb : w.control_block_ = some c) : 0 < s.observers c :=
  countP_pos_of_getElem? _ h (by simp [observesBlock, hcb])

theorem Inv_bound {s : State} (hS : s.shared.length + s.weak.length + 1 < 2 ^ 64) (c : Nat) :
    s.sharers c + s.observers c + 1 < 2 ^ 64 := by
  have := sharers_le s c
  have := observers_le s c
  omega

theorem getElem?_set_cases {α : Type} (l : List α) (i j : Nat) (a b : α)
    (hj : l[j]? = some b) : ∃ x, (l.set i a)[j]? = some x ∧ (x = a ∨ x = b) := by
  by_cases hij : i = j
  · subst hij
    have hlt : i < l.length := by
      by_contra hge
      rw [List.getElem?_eq_none (by omega)] at hj
      cases hj
    exact ⟨a, List.getElem?_set_self hlt, Or.inl rfl⟩
  · exact ⟨b, by rw [List.getElem?_set_ne hij]; exact hj, Or.inr rfl⟩

/-- Two writes into a list of objects change a count by what they overwrite
and what they write. -/
theorem countP_set_set {α : Type} (p : α → Bool) (l : List α) (i j : Nat) (a b x y : α)
    (hi : l[i]? = some x) (hj : l[j]? = some y) :
    (i ≠ j → ((l.set j b).set i a).countP p + (p x).toNat + (p y).toNat =
      l.countP p + (p a).toNat + (p b).toNat) ∧
    (i = j → ((l.set j b).set i a).countP p + (p x).toNat = l.countP p + (p a).toNat) := by
  have h1 := countP_set_add p l j y b hj
  constructor
  · intro hij
    have hi1 : (l.set j b)[i]? = some x := by
      rw [List.getElem?_set_ne (Ne.symm hij)]; exact hi
    have h2 := countP_set_add p (l.set j b) i x a hi1
    omega
  · intro hij
    subst hij
    have hlt : i < l.length := by
      by_contra hge
      rw [List.getElem?_eq_none (by omega)] at hi
      cases hi
    have hi1 : (l.set i b)[i]? = some b := List.getElem?_set_self hlt
    have h2 := countP_set_add p (l.set i b) i b a hi1
    have hxy : x = y := by rw [hi] at hj; cases hj; rfl
    subst hxy
    omega


theorem step_shared_create {s : State} (h1 : Heap) (p : SharedPointer)
    (hc1 : h1.Counts (fun c1 => s.sharers c1 + (sharesBlock c1 (some p)).toNat) s.observers) :
    ({ s with heap := h1, shared := s.shared ++ [some p] } : State).Inv ∧
      ({ s with heap := h1, shared := s.shared ++ [some p] } : State).shared.length +
        ({ s with heap := h1, shared := s.shared ++ [some p] } : State).weak.length ≤
          s.shared.length + s.weak.length + 1 := by
  refine ⟨Counts_congr hc1 (fun c => ?_) (fun _ => rfl), ?_⟩
  · simp only [State.sharers, countP_append_one]
  · simp only [List.length_append, List.length_singleton]; omega

theorem step_weak_create {s : State} (h1 : Heap) (w : WeakPointer)
    (hc1 : h1.Counts s.sharers (fun c1 => s.observers c1 + (observesBlock c1 (some w)).toNat)) :
    ({ s with heap := h1, weak := s.weak ++ [some w] } : State).Inv ∧
      ({ s with heap := h1, weak := s.weak ++ [some w] } : State).shared.length +
        ({ s with heap := h1, weak := s.weak ++ [some w] } : State).weak.length ≤
          s.shared.length + s.weak.length + 1 := by
  refine ⟨Counts_congr hc1 (fun _ => rfl) (fun c => ?_), ?_⟩
  · simp only [State.observers, countP_append_one]
  · simp only [List.length_append, List.length_singleton]; omega

theorem step_Inv_shared {s : State} (hinv : s.Inv)
    (hS : s.shared.length + s.weak.length + 1 < 2 ^ 64) (op : Op) (hv : op.valid s)
    (hop : op = .sharedDefault ∨ (∃ d, op = .sharedOfRaw d) ∨ (∃ o, op = .makeShared o) ∨
      (∃ j, op = .sharedCopy j) ∨ (∃ j, op = .sharedMove j) ∨
      (∃ i j, op = .sharedAssign i j) ∨ (∃ i j, op = .sharedMoveAssign i j) ∨
      (∃ i j, op = .sharedSwap i j) ∨ (∃ i, op = .sharedReset i) ∨
      (∃ i, op = .sharedDestroy i)) :
    ∃ s1, step s op = .ok s1 ∧ s1.Inv ∧
      s1.shared.length + s1.weak.length ≤ s.shared.length + s.weak.length + 1 := by
  have hB := Inv_bound hS
  rcases hop with h | ⟨d, h⟩ | ⟨o, h⟩ | ⟨j, h⟩ | ⟨j, h⟩ | ⟨i, j, h⟩ | ⟨i, j, h⟩ | ⟨i, j, h⟩ |
    ⟨i, h⟩ | ⟨i, h⟩
  · subst h
    simp only [step]
    refine ⟨_, rfl, ?_⟩
    exact step_shared_create s.heap SharedPointer.default
      (Counts_congr hinv (fun c => by rw [sharesBlock_null SharedPointer.default c rfl]; rfl)
        (fun _ => rfl))
  · subst h
    obtain ⟨h1, he, hc1, _⟩ := SharedPointer_ofRaw_counts hinv d
    simp only [step, he, Outcome.ok_bind]
    exact ⟨_, rfl, step_shared_create h1 _ hc1⟩
  · subst h
    obtain ⟨h1, he, hc1, _⟩ := MakeShared_counts hinv o
    simp only [step, he, Outcome.ok_bind]
    exact ⟨_, rfl, step_shared_create h1 _ hc1⟩
  · subst h
    obtain ⟨p, hp⟩ := hv
    obtain ⟨h1, he, hc1⟩ := SharedPointer_copyCtor_counts hinv p
      (fun c hcb => ⟨by have := sharers_pos hp hcb; omega, hB c⟩)
    simp only [step, sharedAt_live hp, he, Outcome.ok_bind]
    exact ⟨_, rfl, step_shared_create h1 _ hc1⟩
  · subst h
    obtain ⟨p, hp⟩ := hv
    simp only [step, sharedAt_live hp, Outcome.ok_bind, SharedPointer_moveCtor_eq]
    refine ⟨_, rfl, Counts_congr hinv (fun c => ?_) (fun _ => rfl), ?_⟩
    · have h1 := countP_set_add (sharesBlock c) s.shared j (some p)
        (some SharedPointer.default) hp
      rw [sharesBlock_null SharedPointer.default c rfl] at h1
      simp only [State.sharers, countP_append_one]
      omega
    · simp only [List.length_append, List.length_singleton, List.length_set]; omega
  · subst h
    obtain ⟨⟨p, hp⟩, ⟨q, hq⟩⟩ := hv
    by_cases hij : i = j
    · subst hij
      rw [hp] at hq
      cases hq
      simp only [step, sharedAt_live hp, Outcome.ok_bind, SharedPointer.copyAssign,
        beq_self_eq_true, if_true]
      refine ⟨_, rfl, Counts_congr hinv (fun c => ?_) (fun _ => rfl), ?_⟩
      · have h1 := countP_set_add (sharesBlock c) s.shared i (some p) (some p) hp
        simp only [State.sharers]
        omega
      · simp only [List.length_set]; omega
    · have hne : (i == j) = false := by simpa using hij
      obtain ⟨h1, he, hc1⟩ := SharedPointer_copyAssign_counts hinv hB p q
        (fun c hcb => sharers_pos hp hcb) (fun c hcb => sharers_pos hq hcb)
      simp only [step, sharedAt_live hp, sharedAt_live hq, Outcome.ok_bind, hne, he]
      refine ⟨_, rfl, Counts_congr hc1 (fun c => ?_) (fun _ => rfl), ?_⟩
      · have h1 := countP_set_add (sharesBlock c) s.shared i (some p) (some q) hp
        simp only [State.sharers]
        omega
      · simp only [List.length_set]; omega
  · subst h
    obtain ⟨⟨p, hp⟩, ⟨q, hq⟩⟩ := hv
    by_cases hij : i = j
    · subst hij
      simp only [step, sharedAt_live hp, Outcome.ok_bind, SharedPointer.moveAssign,
        beq_self_eq_true, if_true]
      refine ⟨_, rfl, Counts_congr hinv (fun c => ?_) (fun _ => rfl), ?_⟩
      · have h1 := (countP_set_set (sharesBlock c) s.shared i i (some p) (some p) (some p)
          (some p) hp hp).2 rfl
        simp only [State.sharers]
        omega
      · simp only [List.length_set]; omega
    · have hne : (i == j) = false := by simpa using hij
      obtain ⟨h1, he, hc1⟩ := SharedPointer_moveAssign_counts hinv hB p q
        (fun c hcb => sharers_pos hp hcb)
      simp only [step, sharedAt_live hp, sharedAt_live hq, Outcome.ok_bind, hne, he]
      refine ⟨_, rfl, Counts_congr hc1 (fun c => ?_) (fun _ => rfl), ?_⟩
      · have h1 := (countP_set_set (sharesBlock c) s.shared i j (some q)
          (some SharedPointer.default) (some p) (some q) hp hq).1 hij
        rw [sharesBlock_null SharedPointer.default c rfl] at h1
        simp only [State.sharers]
        omega
      · simp only [List.length_set]; omega
  · subst h
    obtain ⟨⟨p, hp⟩, ⟨q, hq⟩⟩ := hv
    simp only [step, sharedAt_live hp, sharedAt_live hq, Outcome.ok_bind, SharedPointer_Swap_eq]
    refine ⟨_, rfl, Counts_congr hinv (fun c => ?_) (fun _ => rfl), ?_⟩
    · have h1 := countP_set_set (sharesBlock c) s.shared j i (some p) (some q) (some q)
        (some p) hq hp
      simp only [State.sharers]
      by_cases hij : j = i
      · have h2 := h1.2 hij
        subst hij
        rw [hp] at hq
        cases hq
        omega
      · have h2 := h1.1 hij
        omega
    · simp only [List.length_set]; omega
  · subst h
    obtain ⟨p, hp⟩ := hv
    obtain ⟨h1, he, hc1⟩ := SharedPointer_Reset_counts hinv hB p
      (fun c hcb => sharers_pos hp hcb)
    simp only [step, sharedAt_live hp, Outcome.ok_bind, he]
    refine ⟨_, rfl, Counts_congr hc1 (fun c => ?_) (fun _ => rfl), ?_⟩
    · have h1 := countP_set_add (sharesBlock c) s.shared i (some p)
        (some SharedPointer.default) hp
      rw [sharesBlock_null SharedPointer.default c rfl] at h1
      simp only [State.sharers]
      omega
    · simp only [List.length_set]; omega
  · subst h
    obtain ⟨p, hp⟩ := hv
    obtain ⟨h1, he, hc1⟩ := SharedPointer_destructor_counts hinv p
      (fun c hcb => ⟨sharers_pos hp hcb, by have := hB c; omega⟩)
    simp only [step, sharedAt_live hp, Outcome.ok_bind, he]
    refine ⟨_, rfl, Counts_congr hc1 (fun c => ?_) (fun _ => rfl), ?_⟩
    · have h1 := countP_set_add (sharesBlock c) s.shared i (some p) none hp
      have h2 : (sharesBlock c none).toNat = 0 := rfl
      simp only [State.sharers]
      omega
    · simp only [List.length_set]; omega


theorem step_Inv_weak {s : State} (hinv : s.Inv)
    (hS : s.shared.length + s.weak.length + 1 < 2 ^ 64) (op : Op) (hv : op.valid s)
    (hop : op = .weakDefault ∨ (∃ j, op = .weakOfShared j) ∨ (∃ j, op = .weakCopy j) ∨
      (∃ j, op = .weakMove j) ∨ (∃ i j, op = .weakAssign i j) ∨
      (∃ i j, op = .weakMoveAssign i j) ∨ (∃ i j, op = .weakSwap i j) ∨
      (∃ j, op = .weakLock j) ∨ (∃ i, op = .weakDestroy i)) :
    ∃ s1, step s op = .ok s1 ∧ s1.Inv ∧
      s1.shared.length + s1.weak.length ≤ s.shared.length + s.weak.length + 1 := by
  have hB := Inv_bound hS
  rcases hop with h | ⟨j, h⟩ | ⟨j, h⟩ | ⟨j, h⟩ | ⟨i, j, h⟩ | ⟨i, j, h⟩ | ⟨i, j, h⟩ | ⟨j, h⟩ |
    ⟨i, h⟩
  · subst h
    simp only [step]
    refine ⟨_, rfl, ?_⟩
    exact step_weak_create s.heap WeakPointer.default
      (Counts_congr hinv (fun _ => rfl)
        (fun c => by rw [observesBlock_null WeakPointer.default c rfl]; rfl))
  · subst h
    obtain ⟨p, hp⟩ := hv
    obtain ⟨h1, he, hc1⟩ := WeakPointer_ofShared_counts hinv p
      (fun c hcb => ⟨by have := sharers_pos hp hcb; omega, hB c⟩)
    simp only [step, sharedAt_live hp, he, Outcome.ok_bind]
    exact ⟨_, rfl, step_weak_create h1 _ hc1⟩
  · subst h
    obtain ⟨w, hw⟩ := hv
    obtain ⟨h1, he, hc1⟩ := WeakPointer_copyCtor_counts hinv w
      (fun c hcb => ⟨by have := observers_pos hw hcb; omega, hB c⟩)
    simp only [step, weakAt_live hw, he, Outcome.ok_bind]
    exact ⟨_, rfl, step_weak_create h1 _ hc1⟩
  · subst h
    obtain ⟨w, hw⟩ := hv
    simp only [step, weakAt_live hw, Outcome.ok_bind, WeakPointer_moveCtor_eq]
    refine ⟨_, rfl, Counts_congr hinv (fun _ => rfl) (fun c => ?_), ?_⟩
    · have h1 := countP_set_add (observesBlock c) s.weak j (some w)
        (some WeakPointer.default) hw
      rw [observesBlock_null WeakPointer.default c rfl] at h1
      simp only [State.observers, countP_append_one]
      omega
    · simp only [List.length_append, List.length_singleton, List.length_set]; omega
  · subst h
    obtain ⟨⟨w, hw⟩, ⟨x, hx⟩⟩ := hv
    by_cases hij : i = j
    · subst hij
      rw [hw] at hx
      cases hx
      simp only [step, weakAt_live hw, Outcome.ok_bind, WeakPointer.copyAssign,
        beq_self_eq_true, if_true]
      refine ⟨_, rfl, Counts_congr hinv (fun _ => rfl) (fun c => ?_), ?_⟩
      · have h1 := countP_set_add (observesBlock c) s.weak i (some w) (some w) hw
        simp only [State.observers]
        omega
      · simp only [List.length_set]; omega
    · have hne : (i == j) = false := by simpa using hij
      obtain ⟨h1, he, hc1⟩ := WeakPointer_copyAssign_counts hinv hB w x
        (fun c hcb => observers_pos hw hcb) (fun c hcb => observers_pos hx hcb)
      simp only [step, weakAt_live hw, weakAt_live hx, Outcome.ok_bind, hne, he]
      refine ⟨_, rfl, Counts_congr hc1 (fun _ => rfl) (fun c => ?_), ?_⟩
      · have h1 := countP_set_add (observesBlock c) s.weak i (some w) (some x) hw
        simp only [State.observers]
        omega
      · simp only [List.length_set]; omega
  · subst h
    obtain ⟨⟨w, hw⟩, ⟨x, hx⟩⟩ := hv
    by_cases hij : i = j
    · subst hij
      simp only [step, weakAt_live hw, Outcome.ok_bind, WeakPointer.moveAssign,
        beq_self_eq_true, if_true]
      refine ⟨_, rfl, Counts_congr hinv (fun _ => rfl) (fun c => ?_), ?_⟩
      · have h1 := (countP_set_set (observesBlock c) s.weak i i (some w) (some w) (some w)
          (some w) hw hw).2 rfl
        simp only [State.observers]
        omega
      · simp only [List.length_set]; omega
    · have hne : (i == j) = false := by simpa using hij
      obtain ⟨h1, he, hc1⟩ := WeakPointer_moveAssign_counts hinv hB w x
        (fun c hcb => observers_pos hw hcb)
      simp only [step, weakAt_live hw, weakAt_live hx, Outcome.ok_bind, hne, he]
      refine ⟨_, rfl, Counts_congr hc1 (fun _ => rfl) (fun c => ?_), ?_⟩
      · have h1 := (countP_set_set (observesBlock c) s.weak i j (some x)
          (some WeakPointer.default) (some w) (some x) hw hx).1 hij
        rw [observesBlock_null WeakPointer.default c rfl] at h1
        simp only [State.observers]
        omega
      · simp only [List.length_set]; omega
  · subst h
    obtain ⟨⟨w, hw⟩, ⟨x, hx⟩⟩ := hv
    simp only [step, weakAt_live hw, weakAt_live hx, Outcome.ok_bind, WeakPointer_Swap_eq]
    refine ⟨_, rfl, Counts_congr hinv (fun _ => rfl) (fun c => ?_), ?_⟩
    · have h1 := countP_set_set (observesBlock c) s.weak j i (some w) (some x) (some x)
        (some w) hx hw
      simp only [State.observers]
      by_cases hij : j = i
      · have h2 := h1.2 hij
        subst hij
        rw [hw] at hx
        cases hx
        omega
      · have h2 := h1.1 hij
        omega
    · simp only [List.length_set]; omega
  · subst h
    obtain ⟨w, c, hw, hcb⟩ := hv
    obtain ⟨h1, p, he, hc1, _, _⟩ := WeakPointer_Lock_counts hinv hB w c hcb
      (observers_pos hw hcb)
    simp only [step, weakAt_live hw, Outcome.ok_bind, he]
    exact ⟨_, rfl, step_shared_create h1 _ hc1⟩
  · subst h
    obtain ⟨w, hw⟩ := hv
    obtain ⟨h1, he, hc1⟩ := WeakPointer_destructor_counts hinv w
      (fun c hcb => ⟨observers_pos hw hcb, by have := hB c; omega⟩)
    simp only [step, weakAt_live hw, Outcome.ok_bind, he]
    refine ⟨_, rfl, Counts_congr hc1 (fun _ => rfl) (fun c => ?_), ?_⟩
    · have h1 := countP_set_add (observesBlock c) s.weak i (some w) none hw
      have h2 : (observesBlock c none).toNat = 0 := rfl
      simp only [State.observers]
      omega
    · simp only [List.length_set]; omega

/-- Every statement that names live objects (and does not `Lock` a weak pointer
without a control block) returns, and the counts stay right. -/
theorem step_Inv {s : State} (hinv : s.Inv)
    (hS : s.shared.length + s.weak.length + 1 < 2 ^ 64) (op : Op) (hv : op.valid s) :
    ∃ s1, step s op = .ok s1 ∧ s1.Inv ∧
      s1.shared.length + s1.weak.length ≤ s.shared.length + s.weak.length + 1 := by
  cases op with
  | sharedDefault => exact step_Inv_shared hinv hS _ hv (Or.inl rfl)
  | sharedOfRaw d => exact step_Inv_shared hinv hS _ hv (Or.inr (Or.inl ⟨d, rfl⟩))
  | makeShared o => exact step_Inv_shared hinv hS _ hv (Or.inr (Or.inr (Or.inl ⟨o, rfl⟩)))
  | sharedCopy j =>
    exact step_Inv_shared hinv hS _ hv (Or.inr (Or.inr (Or.inr (Or.inl ⟨j, rfl⟩))))
  | sharedMove j =>
    exact step_Inv_shared hinv hS _ hv (Or.inr (Or.inr (Or.inr (Or.inr (Or.inl ⟨j, rfl⟩)))))
  | sharedAssign i j =>
    exact step_Inv_shared hinv hS _ hv
      (Or.inr (Or.inr (Or.inr (Or.inr (Or.inr (Or.inl ⟨i, j, rfl⟩))))))
  | sharedMoveAssign i j =>
    exact step_Inv_shared hinv hS _ hv
      (Or.inr (Or.inr (Or.inr (Or.inr (Or.inr (Or.inr (Or.inl ⟨i, j, rfl⟩)))))))
  | sharedSwap i j =>
    exact step_Inv_shared hinv hS _ hv
      (Or.inr (Or.inr (Or.inr (Or.inr (Or.inr (Or.inr (Or.inr (Or.inl ⟨i, j, rfl⟩))))))))
  | sharedReset i =>
    exact step_Inv_shared hinv hS _ hv
      (Or.inr (Or.inr (Or.inr (Or.inr (Or.inr (Or.inr (Or.inr (Or.inr (Or.inl ⟨i, rfl⟩)))))))))
  | sharedDestroy i =>
    exact step_Inv_shared hinv hS _ hv
      (Or.inr (Or.inr (Or.inr (Or.inr (Or.inr (Or.inr (Or.inr (Or.inr (Or.inr ⟨i, rfl⟩)))))))))
  | weakDefault => exact step_Inv_weak hinv hS _ hv (Or.inl rfl)
  | weakOfShared j => exact step_Inv_weak hinv hS _ hv (Or.inr (Or.inl ⟨j, rfl⟩))
  | weakCopy j => exact step_Inv_weak hinv hS _ hv (Or.inr (Or.inr (Or.inl ⟨j, rfl⟩)))
  | weakMove j => exact step_Inv_weak hinv hS _ hv (Or.inr (Or.inr (Or.inr (Or.inl ⟨j, rfl⟩))))
  | weakAssign i j =>
    exact step_Inv_weak hinv hS _ hv (Or.inr (Or.inr (Or.inr (Or.inr (Or.inl ⟨i, j, rfl⟩)))))
  | weakMoveAssign i j =>
    exact step_Inv_weak hinv hS _ hv
      (Or.inr (Or.inr (Or.inr (Or.inr (Or.inr (Or.inl ⟨i, j, rfl⟩))))))
  | weakSwap i j =>
    exact step_Inv_weak hinv hS _ hv
      (Or.inr (Or.inr (Or.inr (Or.inr (Or.inr (Or.inr (Or.inl ⟨i, j, rfl⟩)))))))
  | weakLock j =>
    exact step_Inv_weak hinv hS _ hv
      (Or.inr (Or.inr (Or.inr (Or.inr (Or.inr (Or.inr (Or.inr (Or.inl ⟨j, rfl⟩))))))))
  | weakDestroy i =>
    exact step_Inv_weak hinv hS _ hv
      (Or.inr (Or.inr (Or.inr (Or.inr (Or.inr (Or.inr (Or.inr (Or.inr ⟨i, rfl⟩))))))))


theorem sharedAt_eq_ok {s : State} {i : Nat} {p : SharedPointer} (h : s.sharedAt i = .ok p) :
    s.shared[i]? = some (some p) := by
  unfold State.sharedAt at h
  split at h
  · rename_i q heq
    cases h
    exact heq
  · cases h

theorem weakAt_eq_ok {s : State} {i : Nat} {w : WeakPointer} (h : s.weakAt i = .ok w) :
    s.weak[i]? = some (some w) := by
  unfold State.weakAt at h
  split at h
  · rename_i q heq
    cases h
    exact heq
  · cases h

theorem Inv_empty : State.empty.Inv := by
  intro c
  simp [State.empty, State.sharers, State.observers]

theorem run_Inv : ∀ (ops : List Op) (s s1 : State), s.Inv →
    s.shared.length + s.weak.length + ops.length < 2 ^ 64 → run ops s = .ok s1 →
    s1.Inv ∧ s1.shared.length + s1.weak.length ≤ s.shared.length + s.weak.length + ops.length
  | [], s, s1, hinv, _, h => by
    simp only [run, Outcome.ok.injEq] at h
    subst h
    exact ⟨hinv, Nat.le_refl _⟩
  | op :: ops, s, s1, hinv, hS, h => by
    simp only [run] at h
    obtain ⟨s2, hstep, hrest⟩ := Outcome.bind_eq_ok h
    simp only [List.length_cons] at hS ⊢
    have hv : op.valid s := by
      cases op <;> simp only [step] at hstep <;> simp only [Op.valid]
      case sharedCopy j =>
        obtain ⟨p, hp, _⟩ := Outcome.bind_eq_ok hstep
        exact ⟨p, sharedAt_eq_ok hp⟩
      case sharedMove j =>
        obtain ⟨p, hp, _⟩ := Outcome.bind_eq_ok hstep
        exact ⟨p, sharedAt_eq_ok hp⟩
      case sharedReset j =>
        obtain ⟨p, hp, _⟩ := Outcome.bind_eq_ok hstep
        exact ⟨p, sharedAt_eq_ok hp⟩
      case sharedDestroy j =>
        obtain ⟨p, hp, _⟩ := Outcome.bind_eq_ok hstep
        exact ⟨p, sharedAt_eq_ok hp⟩
      case weakOfShared j =>
        obtain ⟨p, hp, _⟩ := Outcome.bind_eq_ok hstep
        exact ⟨p, sharedAt_eq_ok hp⟩
      case sharedAssign i j =>
        obtain ⟨p, hp, h1⟩ := Outcome.bind_eq_ok hstep
        obtain ⟨q, hq, _⟩ := Outcome.bind_eq_ok h1
        exact ⟨⟨p, sharedAt_eq_ok hp⟩, ⟨q, sharedAt_eq_ok hq⟩⟩
      case sharedMoveAssign i j =>
        obtain ⟨p, hp, h1⟩ := Outcome.bind_eq_ok hstep
        obtain ⟨q, hq, _⟩ := Outcome.bind_eq_ok h1
        exact ⟨⟨p, sharedAt_eq_ok hp⟩, ⟨q, sharedAt_eq_ok hq⟩⟩
      case sharedSwap i j =>
        obtain ⟨p, hp, h1⟩ := Outcome.bind_eq_ok hstep
        obtain ⟨q, hq, _⟩ := Outcome.bind_eq_ok h1
        exact ⟨⟨p, sharedAt_eq_ok hp⟩, ⟨q, sharedAt_eq_ok hq⟩⟩
      case weakCopy j =>
        obtain ⟨p, hp, _⟩ := Outcome.bind_eq_ok hstep
        exact ⟨p, weakAt_eq_ok hp⟩
      case weakMove j =>
        obtain ⟨p, hp, _⟩ := Outcome.bind_eq_ok hstep
        exact ⟨p, weakAt_eq_ok hp⟩
      case weakDestroy j =>
        obtain ⟨p, hp, _⟩ := Outcome.bind_eq_ok hstep
        exact ⟨p, weakAt_eq_ok hp⟩
      case weakAssign i j =>
        obtain ⟨p, hp, h1⟩ := Outcome.bind_eq_ok hstep
        obtain ⟨q, hq, _⟩ := Outcome.bind_eq_ok h1
        exact ⟨⟨p, weakAt_eq_ok hp⟩, ⟨q, weakAt_eq_ok hq⟩⟩
      case weakMoveAssign i j =>
        obtain ⟨p, hp, h1⟩ := Outcome.bind_eq_ok hstep
        obtain ⟨q, hq, _⟩ := Outcome.bind_eq_ok h1
        exact ⟨⟨p, weakAt_eq_ok hp⟩, ⟨q, weakAt_eq_ok hq⟩⟩
      case weakSwap i j =>
        obtain ⟨p, hp, h1⟩ := Outcome.bind_eq_ok hstep
        obtain ⟨q, hq, _⟩ := Outcome.bind_eq_ok h1
        exact ⟨⟨p, weakAt_eq_ok hp⟩, ⟨q, weakAt_eq_ok hq⟩⟩
      case weakLock j =>
        obtain ⟨w, hw, h1⟩ := Outcome.bind_eq_ok hstep
        obtain ⟨r, hr, _⟩ := Outcome.bind_eq_ok h1
        cases hcb : w.control_block_ with
        | some c => exact ⟨w, c, weakAt_eq_ok hw, hcb⟩
        | none =>
          simp [WeakPointer.Lock, WeakPointer.IsExpired, hcb, Outcome.ok_bind] at hr
    obtain ⟨s3, hs3, hinv3, hlen3⟩ := step_Inv hinv (by omega) op hv
    rw [hstep] at hs3
    cases hs3
    obtain ⟨hfin, hlen⟩ := run_Inv ops s2 s1 hinv3 (by omega) hrest
    exact ⟨hfin, by omega⟩

theorem UseCount_of_Inv {s : State} (hinv : s.Inv) {i : Nat} {p : SharedPointer} {c : Nat}
    (hp : s.shared[i]? = some (some p)) (hcb : p.control_block_ = some c) :
    p.UseCount s.heap = .ok (s.sharers c) ∧ 0 < s.sharers c := by
  have hpos := sharers_pos hp hcb
  obtain ⟨cb, hb, hs, _⟩ := Counts_live hinv (c := c) (by omega)
  refine ⟨?_, hpos⟩
  simp only [SharedPointer.UseCount, hcb, read_live hb, Outcome.ok_bind, hs]

theorem weak_of_Inv {s : State} (hinv : s.Inv) {k : Nat} {w : WeakPointer} {c : Nat}
    (hw : s.weak[k]? = some (some w)) (hcb : w.control_block_ = some c) :
    w.UseCount s.heap = .ok (s.sharers c) ∧
      w.IsExpired s.heap = .ok (decide (s.sharers c = 0)) := by
  have hpos := observers_pos hw hcb
  obtain ⟨cb, hb, hs, _⟩ := Counts_live hinv (c := c) (by omega)
  constructor
  · simp only [WeakPointer.UseCount, hcb, read_live hb, Outcome.ok_bind, hs]
  · simp only [WeakPointer.IsExpired, hcb, read_live hb, Outcome.ok_bind, hs]
    by_cases hz : s.sharers c = 0 <;> simp [hz]


/-! ## `UseCount` and `IsExpired` -/

theorem step_create_UseCount {s s1 : State} {p : SharedPointer} {c : Nat}
    (hinv1 : s1.Inv) (hsh : s1.shared = s.shared ++ [some p])
    (hcb : p.control_block_ = some c) (hfresh : s.sharers c = 0) :
    p.UseCount s1.heap = .ok 1 := by
  have hp : s1.shared[s.shared.length]? = some (some p) := by
    rw [hsh, List.getElem?_concat_length]
  have h1 := (UseCount_of_Inv hinv1 hp hcb).1
  have h2 : s1.sharers c = 1 := by
    simp only [State.sharers, hsh, countP_append_one]
    have : (sharesBlock c (some p)).toNat = 1 := by rw [sharesBlock_toNat p c c hcb]; simp
    simp only [State.sharers] at hfresh
    omega
  rw [h2] at h1
  exact h1

/-- C28. In every state a program of pointer statements reaches, `UseCount()`
of a `SharedPointer` with a control block is the number of live `SharedPointer`
objects sharing that block.  A pointer constructed from a raw pointer or by
`MakeShared` reports 1; after a copy the group has one sharer more; after
copy-assigning a pointer of another group over one sharer, the old group has
one less and the new group one more, and every pointer reports the new
number of its group. -/
theorem UseCount_counts (ops : List Op) (s : State) (hlen : ops.length + 1 < 2 ^ 64)
    (hrun : run ops State.empty = .ok s) :
    (∀ (i : Nat) (p : SharedPointer) (c : Nat), s.shared[i]? = some (some p) → p.control_block_ = some c →
      p.UseCount s.heap = .ok (s.sharers c) ∧ 0 < s.sharers c) ∧
    (∀ data, ∃ s1 p, step s (.sharedOfRaw data) = .ok s1 ∧
      s1.shared = s.shared ++ [some p] ∧ p.UseCount s1.heap = .ok 1) ∧
    (∀ obj, ∃ s1 p, step s (.makeShared obj) = .ok s1 ∧
      s1.shared = s.shared ++ [some p] ∧ p.UseCount s1.heap = .ok 1) ∧
    (∀ (j : Nat) (q : SharedPointer) (c : Nat), s.shared[j]? = some (some q) → q.control_block_ = some c →
      ∃ s1, step s (.sharedCopy j) = .ok s1 ∧ s1.shared = s.shared ++ [some q] ∧
        s1.sharers c = s.sharers c + 1 ∧
        ∀ (k : Nat) (r : SharedPointer), s1.shared[k]? = some (some r) → r.control_block_ = some c →
          r.UseCount s1.heap = .ok (s.sharers c + 1)) ∧
    (∀ (i j : Nat) (p q : SharedPointer) (ci cj : Nat), s.shared[i]? = some (some p) → s.shared[j]? = some (some q) →
      p.control_block_ = some ci → q.control_block_ = some cj → ci ≠ cj →
      ∃ s1, step s (.sharedAssign i j) = .ok s1 ∧ s1.shared = s.shared.set i (some q) ∧
        s1.sharers ci = s.sharers ci - 1 ∧ s1.sharers cj = s.sharers cj + 1 ∧
        (∀ (k : Nat) (r : SharedPointer), s1.shared[k]? = some (some r) → r.control_block_ = some ci →
          r.UseCount s1.heap = .ok (s.sharers ci - 1)) ∧
        (∀ (k : Nat) (r : SharedPointer), s1.shared[k]? = some (some r) → r.control_block_ = some cj →
          r.UseCount s1.heap = .ok (s.sharers cj + 1))) := by
  obtain ⟨hinv, hsize⟩ := run_Inv ops State.empty s Inv_empty
    (by simp only [State.empty, List.length_nil]; omega) hrun
  simp only [State.empty, List.length_nil, Nat.zero_add] at hsize
  have hS : s.shared.length + s.weak.length + 1 < 2 ^ 64 := by omega
  have hB := Inv_bound hS
  refine ⟨fun i p c hp hcb => UseCount_of_Inv hinv hp hcb, ?_, ?_, ?_, ?_⟩
  · intro data
    obtain ⟨h1, he, hc1, hf0⟩ := SharedPointer_ofRaw_counts hinv data
    have hstep : step s (.sharedOfRaw data) = .ok { s with heap := h1, shared := s.shared ++
        [some { control_block_ := some s.heap.blocks.length, pointer_ := data }] } := by
      simp only [step, he, Outcome.ok_bind]
    exact ⟨_, _, hstep, rfl,
      step_create_UseCount (step_shared_create h1 _ hc1).1 rfl rfl hf0⟩
  · intro obj
    obtain ⟨h1, he, hc1, hf0⟩ := MakeShared_counts hinv obj
    have hstep : step s (.makeShared obj) = .ok { s with heap := h1, shared := s.shared ++
        [some { control_block_ := some s.heap.blocks.length, pointer_ := some obj }] } := by
      simp only [step, he, Outcome.ok_bind]
    exact ⟨_, _, hstep, rfl,
      step_create_UseCount (step_shared_create h1 _ hc1).1 rfl rfl hf0⟩
  · intro j q c hq hcb
    obtain ⟨h1, he, hc1⟩ := SharedPointer_copyCtor_counts hinv q
      (fun c hcb => ⟨by have := sharers_pos hq hcb; omega, hB c⟩)
    have hstep : step s (.sharedCopy j) =
        .ok { s with heap := h1, shared := s.shared ++ [some q] } := by
      simp only [step, sharedAt_live hq, he, Outcome.ok_bind]
    have hinv1 := (step_shared_create h1 _ hc1).1
    have hsh : ({ s with heap := h1, shared := s.shared ++ [some q] } : State).sharers c =
        s.sharers c + 1 := by
      simp only [State.sharers, countP_append_one, sharesBlock_toNat q c c hcb, if_true]
    refine ⟨_, hstep, rfl, hsh, fun k r hr hrcb => ?_⟩
    rw [← hsh]
    exact (UseCount_of_Inv hinv1 hr hrcb).1
  · intro i j p q ci cj hp hq hpcb hqcb hne
    have hij : i ≠ j := by
      intro h
      subst h
      rw [hp] at hq
      cases hq
      rw [hpcb] at hqcb
      cases hqcb
      exact hne rfl
    have hbeq : (i == j) = false := by simpa using hij
    obtain ⟨h1, he, hc1⟩ := SharedPointer_copyAssign_counts hinv hB p q
      (fun c hcb => sharers_pos hp hcb) (fun c hcb => sharers_pos hq hcb)
    have hstep : step s (.sharedAssign i j) =
        .ok { s with heap := h1, shared := s.shared.set i (some q) } := by
      simp only [step, sharedAt_live hp, sharedAt_live hq, Outcome.ok_bind, hbeq, he]
    have hcount : ∀ c, ({ s with heap := h1, shared := s.shared.set i (some q) } :
        State).sharers c + (sharesBlock c (some p)).toNat =
          s.sharers c + (sharesBlock c (some q)).toNat := fun c =>
      countP_set_add (sharesBlock c) s.shared i (some p) (some q) hp
    have hinv1 : ({ s with heap := h1, shared := s.shared.set i (some q) } : State).Inv := by
      refine Counts_congr hc1 (fun c => ?_) (fun _ => rfl)
      have := hcount c
      omega
    have hci : ({ s with heap := h1, shared := s.shared.set i (some q) } : State).sharers ci =
        s.sharers ci - 1 := by
      have := hcount ci
      rw [sharesBlock_toNat p ci ci hpcb, sharesBlock_toNat q cj ci hqcb] at this
      simp only [if_true, if_neg hne] at this
      omega
    have hcj : ({ s with heap := h1, shared := s.shared.set i (some q) } : State).sharers cj =
        s.sharers cj + 1 := by
      have := hcount cj
      rw [sharesBlock_toNat p ci cj hpcb, sharesBlock_toNat q cj cj hqcb] at this
      simp only [if_true, if_neg (Ne.symm hne)] at this
      omega
    refine ⟨_, hstep, rfl, hci, hcj, fun k r hr hrcb => ?_, fun k r hr hrcb => ?_⟩
    · rw [← hci]
      exact (UseCount_of_Inv hinv1 hr hrcb).1
    · rw [← hcj]
      exact (UseCount_of_Inv hinv1 hr hrcb).1


theorem UseCount_counts_witness :
    run mainProgram State.empty = .ok mainState ∧
    SharedPointer.UseCount mainState.heap { control_block_ := some 0, pointer_ := some 0 } =
      .ok 2 ∧
    SharedPointer.UseCount mainState.heap { control_block_ := some 1, pointer_ := some 1 } =
      .ok 3 ∧
    ((∀ (i : Nat) (p : SharedPointer) (c : Nat), mainState.shared[i]? = some (some p) →
      p.control_block_ = some c →
      p.UseCount mainState.heap = .ok (mainState.sharers c) ∧ 0 < mainState.sharers c) ∧
    (∀ data, ∃ s1 p, step mainState (.sharedOfRaw data) = .ok s1 ∧
      s1.shared = mainState.shared ++ [some p] ∧ p.UseCount s1.heap = .ok 1) ∧
    (∀ obj, ∃ s1 p, step mainState (.makeShared obj) = .ok s1 ∧
      s1.shared = mainState.shared ++ [some p] ∧ p.UseCount s1.heap = .ok 1) ∧
    (∀ (j : Nat) (q : SharedPointer) (c : Nat), mainState.shared[j]? = some (some q) →
      q.control_block_ = some c →
      ∃ s1, step mainState (.sharedCopy j) = .ok s1 ∧
        s1.shared = mainState.shared ++ [some q] ∧
        s1.sharers c = mainState.sharers c + 1 ∧
        ∀ (k : Nat) (r : SharedPointer), s1.shared[k]? = some (some r) →
          r.control_block_ = some c → r.UseCount s1.heap = .ok (mainState.sharers c + 1)) ∧
    (∀ (i j : Nat) (p q : SharedPointer) (ci cj : Nat),
      mainState.shared[i]? = some (some p) → mainState.shared[j]? = some (some q) →
      p.control_block_ = some ci → q.control_block_ = some cj → ci ≠ cj →
      ∃ s1, step mainState (.sharedAssign i j) = .ok s1 ∧
        s1.shared = mainState.shared.set i (some q) ∧
        s1.sharers ci = mainState.sharers ci - 1 ∧ s1.sharers cj = mainState.sharers cj + 1 ∧
        (∀ (k : Nat) (r : SharedPointer), s1.shared[k]? = some (some r) →
          r.control_block_ = some ci → r.UseCount s1.heap = .ok (mainState.sharers ci - 1)) ∧
        (∀ (k : Nat) (r : SharedPointer), s1.shared[k]? = some (some r) →
          r.control_block_ = some cj →
          r.UseCount s1.heap = .ok (mainState.sharers cj + 1)))) :=
  ⟨by decide, by decide, by decide, UseCount_counts mainProgram mainState (by decide) (by decide)⟩

/-- C29. In every state a program reaches, a `WeakPointer` on a control block
reports as `UseCount()` the number of live `SharedPointer` objects sharing the
block, and `IsExpired()` exactly when that number is zero: `true` with
`UseCount() == 0` once every such `SharedPointer` is gone, `false` while one
is alive.  For an owner made from a raw pointer and destroyed the weak pointer
is expired with count 0 (for `MakeShared` see the witness); while the owner
lives it is not expired. -/
theorem weak_expired (ops : List Op) (s : State) (hlen : ops.length < 2 ^ 64)
    (hrun : run ops State.empty = .ok s) :
    (∀ (k : Nat) (w : WeakPointer) (c : Nat), s.weak[k]? = some (some w) →
      w.control_block_ = some c →
      w.UseCount s.heap = .ok (s.sharers c) ∧
        w.IsExpired s.heap = .ok (decide (s.sharers c = 0))) ∧
    (∃ s1, run [.sharedOfRaw (some 7), .weakOfShared 0, .sharedDestroy 0] State.empty = .ok s1 ∧
      s1.shared = [none] ∧ s1.weak = [some { control_block_ := some 0 }] ∧
      WeakPointer.IsExpired s1.heap { control_block_ := some 0 } = .ok true ∧
      WeakPointer.UseCount s1.heap { control_block_ := some 0 } = .ok 0) ∧
    (∃ s1, run [.makeShared 7, .weakOfShared 0] State.empty = .ok s1 ∧
      s1.weak = [some { control_block_ := some 0 }] ∧
      WeakPointer.IsExpired s1.heap { control_block_ := some 0 } = .ok false ∧
      WeakPointer.UseCount s1.heap { control_block_ := some 0 } = .ok 1) := by
  obtain ⟨hinv, _⟩ := run_Inv ops State.empty s Inv_empty
    (by simp only [State.empty, List.length_nil]; omega) hrun
  exact ⟨fun k w c hw hcb => weak_of_Inv hinv hw hcb,
    ⟨_, rfl, rfl, rfl, rfl, rfl⟩, ⟨_, rfl, rfl, rfl, rfl⟩⟩

theorem weak_expired_witness :
    run expiredProgram State.empty = .ok expiredState ∧
    WeakPointer.IsExpired expiredState.heap { control_block_ := some 0 } = .ok true ∧
    WeakPointer.UseCount expiredState.heap { control_block_ := some 0 } = .ok 0 ∧
    ((∀ (k : Nat) (w : WeakPointer) (c : Nat), expiredState.weak[k]? = some (some w) →
      w.control_block_ = some c →
      w.UseCount expiredState.heap = .ok (expiredState.sharers c) ∧
        w.IsExpired expiredState.heap = .ok (decide (expiredState.sharers c = 0))) ∧
    (∃ s1, run [.sharedOfRaw (some 7), .weakOfShared 0, .sharedDestroy 0] State.empty = .ok s1 ∧
      s1.shared = [none] ∧ s1.weak = [some { control_block_ := some 0 }] ∧
      WeakPointer.IsExpired s1.heap { control_block_ := some 0 } = .ok true ∧
      WeakPointer.UseCount s1.heap { control_block_ := some 0 } = .ok 0) ∧
    (∃ s1, run [.makeShared 7, .weakOfShared 0] State.empty = .ok s1 ∧
      s1.weak = [some { control_block_ := some 0 }] ∧
      WeakPointer.IsExpired s1.heap { control_block_ := some 0 } = .ok false ∧
      WeakPointer.UseCount s1.heap { control_block_ := some 0 } = .ok 1)) :=
  ⟨by decide, by decide, by decide, weak_expired expiredProgram expiredState (by decide)
    (by decide)⟩

/-! ## The assertion of `CheckInvariant`, and `Lock` -/

theorem sharedAt_dead {s : State} {i : Nat} (h : ¬ ∃ p, s.shared[i]? = some (some p)) :
    s.sharedAt i = .ub := by
  unfold State.sharedAt
  cases hs : s.shared[i]? with
  | none => rfl
  | some o =>
    cases o with
    | none => rfl
    | some p => exact absurd ⟨p, hs⟩ h

theorem weakAt_dead {s : State} {i : Nat} (h : ¬ ∃ w, s.weak[i]? = some (some w)) :
    s.weakAt i = .ub := by
  unfold State.weakAt
  cases hs : s.weak[i]? with
  | none => rfl
  | some o =>
    cases o with
    | none => rfl
    | some w => exact absurd ⟨w, hs⟩ h

theorem sharedAt_pair_dead {s : State} {i j : Nat} {β : Type}
    (h : ¬ ((∃ p, s.shared[i]? = some (some p)) ∧ ∃ q, s.shared[j]? = some (some q)))
    (f : SharedPointer → SharedPointer → Outcome β) :
    ((s.sharedAt i).bind fun this => (s.sharedAt j).bind fun other => f this other) = .ub := by
  by_cases hi : ∃ p, s.shared[i]? = some (some p)
  · obtain ⟨p, hp⟩ := hi
    rw [sharedAt_live hp, Outcome.ok_bind, sharedAt_dead fun hj => h ⟨⟨p, hp⟩, hj⟩]
    rfl
  · rw [sharedAt_dead hi]
    rfl

theorem weakAt_pair_dead {s : State} {i j : Nat} {β : Type}
    (h : ¬ ((∃ w, s.weak[i]? = some (some w)) ∧ ∃ x, s.weak[j]? = some (some x)))
    (f : WeakPointer → WeakPointer → Outcome β) :
    ((s.weakAt i).bind fun this => (s.weakAt j).bind fun other => f this other) = .ub := by
  by_cases hi : ∃ w, s.weak[i]? = some (some w)
  · obtain ⟨w, hw⟩ := hi
    rw [weakAt_live hw, Outcome.ok_bind, weakAt_dead fun hj => h ⟨⟨w, hw⟩, hj⟩]
    rfl
  · rw [weakAt_dead hi]
    rfl

/-- `Lock` on a weak pointer without a control block: `IsExpired()` is false
and `control_block_->GetPointer()` goes through the null pointer. -/
theorem Lock_null (h : Heap) (w : WeakPointer) (hcb : w.control_block_ = none) :
    w.Lock h = .ub := by
  simp only [WeakPointer.Lock, WeakPointer.IsExpired, hcb, Outcome.ok_bind, Bool.false_eq_true,
    if_false]

/-- A statement that names an object outside its lifetime, or calls `Lock`
without a control block, is undefined. -/
theorem step_not_valid {s : State} {op : Op} (h : ¬ op.valid s) : step s op = .ub := by
  cases op with
  | sharedDefault => exact absurd trivial h
  | sharedOfRaw data => exact absurd trivial h
  | makeShared obj => exact absurd trivial h
  | weakDefault => exact absurd trivial h
  | sharedCopy j => simp only [step, sharedAt_dead h]; rfl
  | sharedMove j => simp only [step, sharedAt_dead h]; rfl
  | sharedReset j => simp only [step, sharedAt_dead h]; rfl
  | sharedDestroy j => simp only [step, sharedAt_dead h]; rfl
  | weakOfShared j => simp only [step, sharedAt_dead h]; rfl
  | sharedAssign i j => exact sharedAt_pair_dead h _
  | sharedMoveAssign i j => exact sharedAt_pair_dead h _
  | sharedSwap i j => exact sharedAt_pair_dead h _
  | weakCopy j => simp only [step, weakAt_dead h]; rfl
  | weakMove j => simp only [step, weakAt_dead h]; rfl
  | weakDestroy j => simp only [step, weakAt_dead h]; rfl
  | weakAssign i j => exact weakAt_pair_dead h _
  | weakMoveAssign i j => exact weakAt_pair_dead h _
  | weakSwap i j => exact weakAt_pair_dead h _
  | weakLock j =>
    by_cases hj : ∃ w, s.weak[j]? = some (some w)
    · obtain ⟨w, hw⟩ := hj
      have hcb : w.control_block_ = none := by
        cases hc : w.control_block_ with
        | none => rfl
        | some c => exact absurd ⟨w, c, hw, hc⟩ h
      simp only [step, weakAt_live hw, Outcome.ok_bind, Lock_null s.heap w hcb]
      rfl
    · simp only [step, weakAt_dead hj]
      rfl

theorem step_ne_assertFailed {s : State} (hinv : s.Inv)
    (hS : s.shared.length + s.weak.length + 1 < 2 ^ 64) (op : Op) :
    step s op ≠ .assertFailed := by
  by_cases hv : op.valid s
  · obtain ⟨s1, hs, _⟩ := step_Inv hinv hS op hv
    rw [hs]
    exact fun h => Outcome.noConfusion h
  · rw [step_not_valid hv]
    exact fun h => Outcome.noConfusion h

theorem run_ne_assertFailed : ∀ (ops : List Op) (s : State), s.Inv →
    s.shared.length + s.weak.length + ops.length < 2 ^ 64 → run ops s ≠ .assertFailed
  | [], s, _, _ => fun h => Outcome.noConfusion h
  | op :: ops, s, hinv, hS => by
    simp only [List.length_cons] at hS
    simp only [run]
    by_cases hv : op.valid s
    · obtain ⟨s1, hs, hinv1, hlen⟩ := step_Inv hinv (by omega) op hv
      rw [hs, Outcome.ok_bind]
      exact run_ne_assertFailed ops s1 hinv1 (by omega)
    · rw [step_not_valid hv]
      exact fun h => Outcome.noConfusion h

/-- C36. No program of fewer than `2^64` statements over `SharedPointer` and
`WeakPointer` objects fails the assertion of `CheckInvariant`, and neither
does one more statement after it.  In every state such a program reaches,
each live control block has `strong_ptr_count_ <= ptr_count_`, both being the
numbers of pointers on it; the block of a live `SharedPointer` has both
counters positive and the block of a live `WeakPointer` has
`strong_ptr_count_ < ptr_count_`, so that the decrements of the destructors
do not wrap. -/
theorem CheckInvariant_never_fails (ops : List Op) (hlen : ops.length + 1 < 2 ^ 64) :
    run ops State.empty ≠ .assertFailed ∧
    ∀ s, run ops State.empty = .ok s →
      (∀ op, step s op ≠ .assertFailed) ∧
      (∀ (c : Nat) (cb : ControlBlock), s.heap.blocks[c]? = some (some cb) →
        cb.CheckInvariant = .ok () ∧ cb.strong_ptr_count_ ≤ cb.ptr_count_ ∧
          cb.strong_ptr_count_ = s.sharers c ∧
          cb.ptr_count_ = s.sharers c + s.observers c ∧ cb.ptr_count_ + 1 < 2 ^ 64) ∧
      (∀ (i : Nat) (p : SharedPointer) (c : Nat), s.shared[i]? = some (some p) →
        p.control_block_ = some c →
        ∃ cb, s.heap.blocks[c]? = some (some cb) ∧ 0 < cb.strong_ptr_count_ ∧
          0 < cb.ptr_count_) ∧
      (∀ (k : Nat) (w : WeakPointer) (c : Nat), s.weak[k]? = some (some w) →
        w.control_block_ = some c →
        ∃ cb, s.heap.blocks[c]? = some (some cb) ∧
          cb.strong_ptr_count_ < cb.ptr_count_) := by
  have hS0 : State.empty.shared.length + State.empty.weak.length + ops.length < 2 ^ 64 := by
    simp only [State.empty, List.length_nil, Nat.zero_add]
    omega
  refine ⟨run_ne_assertFailed ops State.empty Inv_empty hS0, fun s hrun => ?_⟩
  obtain ⟨hinv, hsize⟩ := run_Inv ops State.empty s Inv_empty hS0 hrun
  simp only [State.empty, List.length_nil, Nat.zero_add] at hsize
  have hS : s.shared.length + s.weak.length + 1 < 2 ^ 64 := by omega
  refine ⟨fun op => step_ne_assertFailed hinv hS op, ?_, ?_, ?_⟩
  · intro c cb hcb
    obtain ⟨h1, h2⟩ := Counts_at hinv hcb
    have hB := Inv_bound hS c
    refine ⟨?_, by omega, h1, h2, by omega⟩
    simp only [ControlBlock.CheckInvariant]
    rw [if_pos (by omega)]
  · intro i p c hp hcb
    have hpos := sharers_pos hp hcb
    obtain ⟨cb, hb, h1, h2⟩ := Counts_live hinv (c := c) (by omega)
    exact ⟨cb, hb, by omega, by omega⟩
  · intro k w c hw hcb
    have hpos := observers_pos hw hcb
    obtain ⟨cb, hb, h1, h2⟩ := Counts_live hinv (c := c) (by omega)
    exact ⟨cb, hb, by omega⟩

theorem CheckInvariant_never_fails_witness :
    run lockProgram State.empty ≠ .ub ∧
    run lockProgram State.empty ≠ .assertFailed ∧
    ∀ s, run lockProgram State.empty = .ok s →
      (∀ op, step s op ≠ .assertFailed) ∧
      (∀ (c : Nat) (cb : ControlBlock), s.heap.blocks[c]? = some (some cb) →
        cb.CheckInvariant = .ok () ∧ cb.strong_ptr_count_ ≤ cb.ptr_count_ ∧
          cb.strong_ptr_count_ = s.sharers c ∧
          cb.ptr_count_ = s.sharers c + s.observers c ∧ cb.ptr_count_ + 1 < 2 ^ 64) ∧
      (∀ (i : Nat) (p : SharedPointer) (c : Nat), s.shared[i]? = some (some p) →
        p.control_block_ = some c →
        ∃ cb, s.heap.blocks[c]? = some (some cb) ∧ 0 < cb.strong_ptr_count_ ∧
          0 < cb.ptr_count_) ∧
      (∀ (k : Nat) (w : WeakPointer) (c : Nat), s.weak[k]? = some (some w) →
        w.control_block_ = some c →
        ∃ cb, s.heap.blocks[c]? = some (some cb) ∧
          cb.strong_ptr_count_ < cb.ptr_count_) :=
  ⟨by decide, CheckInvariant_never_fails lockProgram (by decide)⟩

/-- The statement `auto p = weak[k].Lock();` in a state that satisfies the
invariant, for a weak pointer with a control block. -/
theorem step_weakLock {s : State} (hinv : s.Inv)
    (hS : s.shared.length + s.weak.length + 1 < 2 ^ 64) {k : Nat} {w : WeakPointer} {c : Nat}
    (hw : s.weak[k]? = some (some w)) (hcb : w.control_block_ = some c) :
    ∃ s1 p, step s (.weakLock k) = .ok s1 ∧ s1.shared = s.shared ++ [some p] ∧
      s1.weak = s.weak ∧
      (s.sharers c = 0 → p = SharedPointer.default ∧ s1.heap = s.heap ∧
        p.UseCount s1.heap = .ok 0) ∧
      (0 < s.sharers c → p.control_block_ = some c ∧ s1.sharers c = s.sharers c + 1 ∧
        ∀ (i : Nat) (r : SharedPointer), s1.shared[i]? = some (some r) →
          r.control_block_ = some c → r.UseCount s1.heap = .ok (s.sharers c + 1)) := by
  obtain ⟨h1, p, hl, hc1, hexp, hlive⟩ :=
    WeakPointer_Lock_counts hinv (Inv_bound hS) w c hcb (observers_pos hw hcb)
  have hstep : step s (.weakLock k) =
      .ok { s with heap := h1, shared := s.shared ++ [some p] } := by
    simp only [step, weakAt_live hw, hl, Outcome.ok_bind]
  have hinv1 := (step_shared_create h1 p hc1).1
  refine ⟨_, p, hstep, rfl, rfl, ?_, ?_⟩
  · intro h0
    obtain ⟨hp, hh⟩ := hexp h0
    refine ⟨hp, hh, ?_⟩
    rw [hp]
    rfl
  · intro hpos
    have hpc := hlive hpos
    have hsh : ({ s with heap := h1, shared := s.shared ++ [some p] } : State).sharers c =
        s.sharers c + 1 := by
      simp only [State.sharers, countP_append_one, sharesBlock_toNat p c c hpc, if_true]
    refine ⟨hpc, hsh, fun i r hr hrcb => ?_⟩
    rw [← hsh]
    exact (UseCount_of_Inv hinv1 hr hrcb).1

/-- C37. `Lock()` on a default-constructed `WeakPointer` is undefined, on every
free store: `IsExpired()` is false without a control block, and the other
branch calls `GetPointer()` through the null `control_block_`; so is the
program `WeakPointer<T> w; auto p = w.Lock();`.  For a weak pointer with a
control block, in a state a program of fewer than `2^64` statements reaches,
`Lock()` returns (two such programs are run): an empty `SharedPointer`, the free store untouched, when no
`SharedPointer` is left on the block, and otherwise a `SharedPointer` on that
block, after which `UseCount()` of every pointer on it is one more. -/
theorem Lock_default_null_dereference :
    (∀ h : Heap, WeakPointer.IsExpired h WeakPointer.default = .ok false ∧
      WeakPointer.Lock h WeakPointer.default = .ub) ∧
    run [.weakDefault, .weakLock 0] State.empty = .ub ∧
    ((run [.makeShared 7, .weakOfShared 0, .sharedDestroy 0, .weakLock 0] State.empty).bind
      fun s => .ok s.shared) = .ok [none, some SharedPointer.default] ∧
    ((run [.makeShared 7, .weakOfShared 0, .weakLock 0] State.empty).bind
      fun s => (SharedPointer.UseCount s.heap { control_block_ := some 0, pointer_ := some 7 }).bind
        fun n => .ok (s.shared, n)) =
      .ok ([some { control_block_ := some 0, pointer_ := some 7 },
            some { control_block_ := some 0, pointer_ := some 7 }], 2) ∧
    (∀ (ops : List Op) (s : State), ops.length + 1 < 2 ^ 64 → run ops State.empty = .ok s →
      ∀ (k : Nat) (w : WeakPointer) (c : Nat), s.weak[k]? = some (some w) →
        w.control_block_ = some c →
        ∃ s1 p, step s (.weakLock k) = .ok s1 ∧ s1.shared = s.shared ++ [some p] ∧
          s1.weak = s.weak ∧
          (s.sharers c = 0 → p = SharedPointer.default ∧ s1.heap = s.heap ∧
            p.UseCount s1.heap = .ok 0) ∧
          (0 < s.sharers c → p.control_block_ = some c ∧ s1.sharers c = s.sharers c + 1 ∧
            ∀ (i : Nat) (r : SharedPointer), s1.shared[i]? = some (some r) →
              r.control_block_ = some c → r.UseCount s1.heap = .ok (s.sharers c + 1))) := by
  refine ⟨fun h => ⟨rfl, Lock_null h _ rfl⟩, by decide, by decide, by decide, ?_⟩
  intro ops s hlen hrun k w c hw hcb
  have hS0 : State.empty.shared.length + State.empty.weak.length + ops.length < 2 ^ 64 := by
    simp only [State.empty, List.length_nil, Nat.zero_add]
    omega
  obtain ⟨hinv, hsize⟩ := run_Inv ops State.empty s Inv_empty hS0 hrun
  simp only [State.empty, List.length_nil, Nat.zero_add] at hsize
  exact step_weakLock hinv (by omega) hw hcb

end cpp.pointer

/-! # Intrusive list: properties -/

namespace cpp.intrusive

theorem ListElementBase.eq_of {a b : ListElementBase} (h1 : a.prev_ = b.prev_)
    (h2 : a.next_ = b.next_) : a = b := by
  cases a
  cases b
  simp only at h1 h2
  rw [h1, h2]

theorem setPrev_prev (m : Memory) (a p b : Nat) :
    (m.setPrev a p b).prev_ = if b = a then p else (m b).prev_ := by
  unfold Memory.setPrev
  split <;> rfl

theorem setPrev_next (m : Memory) (a p b : Nat) : (m.setPrev a p b).next_ = (m b).next_ := by
  unfold Memory.setPrev
  split <;> rfl

theorem setNext_next (m : Memory) (a n b : Nat) :
    (m.setNext a n b).next_ = if b = a then n else (m b).next_ := by
  unfold Memory.setNext
  split <;> rfl

theorem setNext_prev (m : Memory) (a n b : Nat) : (m.setNext a n b).prev_ = (m b).prev_ := by
  unfold Memory.setNext
  split <;> rfl

theorem InsertBetween_apply (m : Memory) (this left right y : Nat) :
    InsertBetween m this left right y =
      { prev_ := if y = right then this else if y = this then left else (m y).prev_,
        next_ := if y = left then this else if y = this then right else (m y).next_ } := by
  apply ListElementBase.eq_of <;>
    simp only [InsertBetween, setPrev_prev, setPrev_next, setNext_next, setNext_prev]

theorem Unlink_apply (m : Memory) (this y : Nat) :
    Unlink m this y =
      { prev_ := if y = this then this else if y = (m this).next_ then (m this).prev_
          else (m y).prev_,
        next_ := if y = this then this else if y = (m this).prev_ then (m this).next_
          else (m y).next_ } := by
  apply ListElementBase.eq_of <;>
    simp only [Unlink, setPrev_prev, setPrev_next, setNext_next, setNext_prev, ite_self]

theorem Unlink_self {m : Memory} {this : Nat} (h : m this = { prev_ := this, next_ := this }) :
    Unlink m this = m := by
  funext y
  rw [Unlink_apply, h]
  by_cases hy : y = this
  · simp only [hy, if_true, h]
  · simp only [hy, if_false]

theorem Ring_initial : Ring Memory.initial := fun _ => ⟨rfl, rfl⟩

theorem Ring.next_eq {m : Memory} (h : Ring m) {x y : Nat} (hxy : (m x).next_ = y) :
    (m y).prev_ = x := by
  rw [← hxy]
  exact (h x).1

theorem Ring.prev_eq {m : Memory} (h : Ring m) {x y : Nat} (hxy : (m x).prev_ = y) :
    (m y).next_ = x := by
  rw [← hxy]
  exact (h x).2

theorem Ring_Unlink {m : Memory} (h : Ring m) (this : Nat) : Ring (Unlink m this) := by
  intro y
  have hn := (h this).1
  have hp := (h this).2
  constructor
  · by_cases hy : y = this
    · subst hy
      simp only [Unlink_apply, if_true]
    · rw [Unlink_apply m this y]
      simp only [hy, if_false]
      by_cases hyp : y = (m this).prev_
      · simp only [hyp, if_true] at hy ⊢
        rw [Unlink_apply]
        have hne : (m this).next_ ≠ this := by
          intro hc
          exact hy (h.next_eq hc)
        simp only [hne, if_false, if_true]
      · simp only [hyp, if_false]
        rw [Unlink_apply]
        have h1 : (m y).next_ ≠ this := by
          intro hc
          exact hyp (h.next_eq hc).symm
        have h2 : (m y).next_ ≠ (m this).next_ := by
          intro hc
          have e1 := h.next_eq hc
          rw [hn] at e1
          exact hy e1.symm
        simp only [h1, h2, if_false]
        exact (h y).1
  · by_cases hy : y = this
    · subst hy
      simp only [Unlink_apply, if_true]
    · rw [Unlink_apply m this y]
      simp only [hy, if_false]
      by_cases hyn : y = (m this).next_
      · simp only [hyn, if_true] at hy ⊢
        rw [Unlink_apply]
        have hne : (m this).prev_ ≠ this := by
          intro hc
          exact hy (h.prev_eq hc)
        simp only [hne, if_false, if_true]
      · simp only [hyn, if_false]
        rw [Unlink_apply]
        have h1 : (m y).prev_ ≠ this := by
          intro hc
          exact hyn (h.prev_eq hc).symm
        have h2 : (m y).prev_ ≠ (m this).prev_ := by
          intro hc
          have e1 := h.prev_eq hc
          rw [hp] at e1
          exact hy e1.symm
        simp only [h1, h2, if_false]
        exact (h y).2

theorem Ring_InsertBetween {m : Memory} (h : Ring m) {this left right : Nat}
    (hs : m this = { prev_ := this, next_ := this }) (hl : (m left).next_ = right) :
    Ring (InsertBetween m this left right) := by
  have hr : (m right).prev_ = left := h.next_eq hl
  have hsn : (m this).next_ = this := by rw [hs]
  have hsp : (m this).prev_ = this := by rw [hs]
  intro y
  constructor
  · rw [InsertBetween_apply m this left right y]
    by_cases hyl : y = left
    · simp only [hyl, if_true]
      rw [InsertBetween_apply]
      by_cases htr : this = right
      · simp only [htr, if_true]
        rw [← htr, hsp] at hr
        rw [← htr]
        exact hr
      · simp only [htr, if_false, if_true]
    · simp only [hyl, if_false]
      by_cases hyt : y = this
      · simp only [hyt, if_true]
        rw [InsertBetween_apply]
        simp only [if_true]
      · simp only [hyt, if_false]
        rw [InsertBetween_apply]
        have h1 : (m y).next_ ≠ right := by
          intro hc
          have hq := h.next_eq hc
          rw [hr] at hq
          exact hyl hq.symm
        have h2 : (m y).next_ ≠ this := by
          intro hc
          have hq := h.next_eq hc
          rw [hsp] at hq
          exact hyt hq.symm
        simp only [h1, h2, if_false]
        exact (h y).1
  · rw [InsertBetween_apply m this left right y]
    by_cases hyr : y = right
    · simp only [hyr, if_true]
      rw [InsertBetween_apply]
      by_cases htl : this = left
      · simp only [htl, if_true]
        rw [← htl, hsn] at hl
        rw [← htl]
        exact hl
      · simp only [htl, if_false, if_true]
    · simp only [hyr, if_false]
      by_cases hyt : y = this
      · simp only [hyt, if_true]
        rw [InsertBetween_apply]
        simp only [if_true]
      · simp only [hyt, if_false]
        rw [InsertBetween_apply]
        have h1 : (m y).prev_ ≠ left := by
          intro hc
          have hq := h.prev_eq hc
          rw [hl] at hq
          exact hyr hq.symm
        have h2 : (m y).prev_ ≠ this := by
          intro hc
          have hq := h.prev_eq hc
          rw [hsn] at hq
          exact hyt hq.symm
        simp only [h1, h2, if_false]
        exact (h y).2

theorem Ring_InsertBefore {m : Memory} (h : Ring m) {x : Nat}
    (hs : m x = { prev_ := x, next_ := x }) (e : Nat) : Ring (InsertBefore m x e) :=
  Ring_InsertBetween h hs (h e).2

theorem Ring_InsertAfter {m : Memory} (h : Ring m) {x : Nat}
    (hs : m x = { prev_ := x, next_ := x }) (e : Nat) : Ring (InsertAfter m x e) :=
  Ring_InsertBetween h hs rfl

theorem mainList_ring : Ring mainList :=
  Ring_InsertBefore (Ring_InsertAfter (Ring_InsertBefore (Ring_InsertAfter
    (Ring_InsertBefore Ring_initial (by decide) 0) (by decide) 0) (by decide) 0) (by decide) 0)
    (by decide) 0

theorem Chain_append {m : Memory} : ∀ (l1 : List Nat) (a x : Nat) (l2 : List Nat) (b : Nat),
    Chain m a (l1 ++ x :: l2) b ↔ Chain m a l1 x ∧ Chain m x l2 b
  | [], a, x, l2, b => by
    simp only [List.nil_append, Chain, and_assoc]
  | y :: l1, a, x, l2, b => by
    have ih : Chain m y (l1 ++ x :: l2) b ↔ Chain m y l1 x ∧ Chain m x l2 b :=
      Chain_append l1 y x l2 b
    show Chain m a (y :: (l1 ++ x :: l2)) b ↔ Chain m a (y :: l1) x ∧ Chain m x l2 b
    simp only [Chain]
    rw [ih]
    simp only [and_assoc]

/-- A chain reads `next_` of its start, both members of its inner elements and
`prev_` of its end. -/
theorem Chain_frame {m m1 : Memory} : ∀ (l : List Nat) (a b : Nat),
    (m1 a).next_ = (m a).next_ → (∀ x ∈ l, m1 x = m x) → (m1 b).prev_ = (m b).prev_ →
    Chain m a l b → Chain m1 a l b
  | [], a, b, ha, _, hb, h => by
    simp only [Chain] at h ⊢
    rw [ha, hb]
    exact h
  | x :: l, a, b, ha, hl, hb, h => by
    simp only [Chain] at h ⊢
    have hx := hl x (List.mem_cons_self x l)
    refine ⟨by rw [ha]; exact h.1, by rw [hx]; exact h.2.1, ?_⟩
    exact Chain_frame l x b (by rw [hx]) (fun y hy => hl y (List.mem_cons_of_mem x hy)) hb h.2.2

theorem Chain_prev_mem {m : Memory} : ∀ (l : List Nat) (a b : Nat),
    Chain m a l b → (m b).prev_ ∈ a :: l ∧ (m (m b).prev_).next_ = b
  | [], a, b, h => by
    simp only [Chain] at h
    rw [h.2]
    exact ⟨List.mem_singleton.2 rfl, h.1⟩
  | x :: l, a, b, h => by
    simp only [Chain] at h
    obtain ⟨hm, hn⟩ := Chain_prev_mem l x b h.2.2
    exact ⟨List.mem_cons_of_mem a hm, hn⟩

/-- Linking a fresh element `e` before the end `b` of a chain extends the
chain by `e`. -/
theorem Chain_snoc {m : Memory} {e b : Nat} (heb : e ≠ b) :
    ∀ (l : List Nat) (a : Nat), Chain m a l b → e ∉ a :: l → (a :: l).Nodup → b ∉ l →
      Chain (InsertBetween m e (m b).prev_ b) a (l ++ [e]) b
  | [], a, h, he, _, _ => by
    simp only [Chain] at h
    have hea : e ≠ a := fun hc => he (hc ▸ List.mem_singleton.2 rfl)
    simp only [List.nil_append, Chain, InsertBetween_apply, h.2, if_true, heb, if_false, hea,
      and_self]
  | x :: l, a, h, he, hnd, hb => by
    simp only [Chain] at h
    have hea : e ≠ a := fun hc => he (hc ▸ List.mem_cons_self _ _)
    have hex : e ∉ x :: l := fun hc => he (List.mem_cons_of_mem a hc)
    have hxb : x ≠ b := fun hc => hb (hc ▸ List.mem_cons_self _ _)
    have hxe : x ≠ e := fun hc => hex (hc ▸ List.mem_cons_self _ _)
    have hnd1 := List.nodup_cons.1 hnd
    obtain ⟨hmem, _⟩ := Chain_prev_mem l x b h.2.2
    have hal : a ≠ (m b).prev_ := fun hc => hnd1.1 (hc ▸ hmem)
    have ih := Chain_snoc heb l x h.2.2 hex hnd1.2 (fun hc => hb (List.mem_cons_of_mem x hc))
    simp only [List.cons_append, Chain]
    refine ⟨?_, ?_, ih⟩
    · simp only [InsertBetween_apply, hal, if_false, Ne.symm hea]
      exact h.1
    · simp only [InsertBetween_apply, hxb, if_false, hxe]
      exact h.2.1

/-- The loop of `TraverseListAndInvoke` visits the elements of the list. -/
theorem traverse_Chain {m : Memory} {s : Nat} : ∀ (l : List Nat) (a fuel : Nat),
    Chain m a l s → s ∉ l → l.length < fuel → traverse m s fuel (m a).next_ = l
  | [], a, fuel + 1, h, _, _ => by
    simp only [Chain] at h
    simp only [traverse, h.1, if_true]
  | x :: l, a, fuel + 1, h, hs, hf => by
    simp only [Chain] at h
    have hxs : x ≠ s := fun hc => hs (hc ▸ List.mem_cons_self _ _)
    simp only [List.length_cons, Nat.add_lt_add_iff_right] at hf
    simp only [traverse, h.1, hxs, if_false]
    rw [traverse_Chain l x fuel h.2.2 (fun hc => hs (List.mem_cons_of_mem x hc)) hf]

theorem IsList.elements {m : Memory} {s : Nat} {l : List Nat} (h : IsList m s l) {fuel : Nat}
    (hf : l.length < fuel) : List.elements m s fuel = l :=
  traverse_Chain l s fuel h.1 (List.nodup_cons.1 h.2).1 hf

/-- What `InsertBefore` of a fresh element at a position of a list leaves:
the list with the element before the position. -/
theorem IsList_InsertBefore {m : Memory} {s : Nat} {l1 l2 : List Nat} {p e : Nat}
    (hl : IsList m s (l1 ++ l2)) (hp : (l2 ++ [s]).head? = some p)
    (hne : e ∉ s :: (l1 ++ l2)) :
    IsList (InsertBefore m e p) s (l1 ++ e :: l2) ∧ (m (m p).prev_).next_ = p ∧
      e ≠ p ∧ e ≠ (m p).prev_ := by
  obtain ⟨hch, hnd⟩ := hl
  have hes : e ≠ s := fun hc => hne (hc ▸ List.mem_cons_self _ _)
  have hel : e ∉ l1 ++ l2 := fun hc => hne (List.mem_cons_of_mem s hc)
  have hnd1 := List.nodup_cons.1 hnd
  have hndr : (s :: (l1 ++ e :: l2)).Nodup := by
    have hperm : (s :: (l1 ++ e :: l2)).Perm (e :: s :: (l1 ++ l2)) :=
      (List.Perm.cons s List.perm_middle).trans (List.Perm.swap e s _)
    exact hperm.nodup_iff.2 (List.nodup_cons.2 ⟨hne, hnd⟩)
  cases l2 with
  | nil =>
    simp only [List.nil_append, List.head?_cons, Option.some.injEq] at hp
    subst hp
    simp only [List.append_nil] at hch hnd hnd1 hel hne
    have hsnoc := Chain_snoc hes l1 s hch hne hnd hnd1.1
    obtain ⟨hmem, hnext⟩ := Chain_prev_mem l1 s s hch
    exact ⟨⟨hsnoc, hndr⟩, hnext, hes, fun hc => hne (hc ▸ hmem)⟩
  | cons q l2 =>
    simp only [List.cons_append, List.head?_cons, Option.some.injEq] at hp
    subst hp
    obtain ⟨h1, h2⟩ := (Chain_append l1 s q l2 s).1 hch
    have hnd2 : (s :: l1).Nodup ∧ (q :: l2).Nodup ∧ ∀ x ∈ s :: l1, ∀ y ∈ q :: l2, x ≠ y := by
      have h := List.nodup_append.1 (by simpa using hnd : ((s :: l1) ++ q :: l2).Nodup)
      exact ⟨h.1, h.2.1, fun x hx y hy hxy => List.disjoint_left.1 h.2.2 hx (hxy ▸ hy)⟩
    have hq1 : q ∉ l1 := fun hc =>
      hnd2.2.2 q (List.mem_cons_of_mem s hc) q (List.mem_cons_self _ _) rfl
    have heq : e ≠ q := fun hc => hel (List.mem_append_right l1 (hc ▸ List.mem_cons_self _ _))
    have he1 : e ∉ s :: l1 := by
      intro hc
      rcases List.mem_cons.1 hc with hc | hc
      · exact hes hc
      · exact hel (List.mem_append_left _ hc)
    have hsnoc := Chain_snoc heq l1 s h1 he1 hnd2.1 hq1
    obtain ⟨hmem, hnext⟩ := Chain_prev_mem l1 s q h1
    have hlq : (m q).prev_ ≠ q := fun hc =>
      hnd2.2.2 _ hmem q (List.mem_cons_self _ _) hc
    have hel2 : e ∉ l2 := fun hc =>
      hel (List.mem_append_right l1 (List.mem_cons_of_mem q hc))
    have hsq : s ≠ q := hnd2.2.2 s (List.mem_cons_self _ _) q (List.mem_cons_self _ _)
    have hrest : Chain (InsertBetween m e (m q).prev_ q) q l2 s := by
      refine Chain_frame l2 q s ?_ (fun x hx => ?_) ?_ h2
      · simp only [InsertBetween_apply, Ne.symm hlq, if_false, Ne.symm heq]
      · have hxq : x ≠ q := fun hc => (List.nodup_cons.1 hnd2.2.1).1 (hc ▸ hx)
        have hxe : x ≠ e := fun hc => hel2 (hc ▸ hx)
        have hxl : x ≠ (m q).prev_ := fun hc =>
          hnd2.2.2 _ hmem x (List.mem_cons_of_mem q hx) hc.symm
        rw [InsertBetween_apply]
        simp only [hxq, hxe, hxl, if_false]
      · simp only [InsertBetween_apply, hsq, if_false, Ne.symm hes]
    have hall : Chain (InsertBetween m e (m q).prev_ q) s ((l1 ++ [e]) ++ q :: l2) s :=
      (Chain_append (l1 ++ [e]) s q l2 s).2 ⟨hsnoc, hrest⟩
    simp only [List.append_assoc, List.singleton_append] at hall
    refine ⟨⟨hall, hndr⟩, hnext, heq, fun hc => ?_⟩
    exact he1 (hc ▸ hmem)

/-- C38. With the links forming rings, `Unlink` of any element keeps them so,
leaves the element pointing to itself both ways (`IsLinked()` false), links
its former neighbours to each other when it was linked, touches no other
object, and changes nothing at all when the element was unlinked; and
`InsertBefore` and `InsertAfter` of an unlinked element keep the rings, the
element ending between the target and its former neighbour.  The memory in
which nothing has been linked yet forms rings. -/
theorem ring_preserved (m : Memory) (h : Ring m) (x : Nat) :
    Ring Memory.initial ∧
    Ring (Unlink m x) ∧
    Unlink m x x = { prev_ := x, next_ := x } ∧
    IsLinked (Unlink m x) x = false ∧
    (IsLinked m x = true →
      (Unlink m x (m x).prev_).next_ = (m x).next_ ∧
      (Unlink m x (m x).next_).prev_ = (m x).prev_) ∧
    (∀ y, y ≠ x → y ≠ (m x).prev_ → y ≠ (m x).next_ → Unlink m x y = m y) ∧
    (IsLinked m x = false → Unlink m x = m) ∧
    (m x = { prev_ := x, next_ := x } → ∀ e,
      Ring (InsertBefore m x e) ∧ Ring (InsertAfter m x e) ∧
      (x ≠ e → InsertBefore m x e x = { prev_ := (m e).prev_, next_ := e } ∧
        (InsertBefore m x e e).prev_ = x ∧ (InsertBefore m x e (m e).prev_).next_ = x ∧
        IsLinked (InsertBefore m x e) x = true) ∧
      (x ≠ e → InsertAfter m x e x = { prev_ := e, next_ := (m e).next_ } ∧
        (InsertAfter m x e e).next_ = x ∧ (InsertAfter m x e (m e).next_).prev_ = x ∧
        IsLinked (InsertAfter m x e) x = true)) := by
  have hlinked : IsLinked m x = true → (m x).prev_ ≠ x ∧ (m x).next_ ≠ x := by
    intro hl
    simpa [IsLinked] using hl
  have hself : IsLinked m x = false → m x = { prev_ := x, next_ := x } := by
    intro hl
    have hor : (m x).prev_ = x ∨ (m x).next_ = x := by
      by_cases hp : (m x).prev_ = x
      · exact Or.inl hp
      · right
        simpa [IsLinked, hp] using hl
    have hp : (m x).prev_ = x := by
      rcases hor with hp | hn
      · exact hp
      · have e1 := h.next_eq hn
        exact e1
    have hn : (m x).next_ = x := by
      have e1 := h.prev_eq hp
      exact e1
    exact ListElementBase.eq_of hp hn
  refine ⟨Ring_initial, Ring_Unlink h x, ?_, ?_, ?_, ?_, ?_, ?_⟩
  · rw [Unlink_apply]
    simp only [if_true]
  · simp only [IsLinked, Unlink_apply, if_true, bne_self_eq_false, Bool.and_self]
  · intro hl
    obtain ⟨hp, hn⟩ := hlinked hl
    constructor
    · rw [Unlink_apply]
      simp only [hp, if_false, if_true]
    · rw [Unlink_apply]
      simp only [hn, if_false, if_true]
  · intro y h1 h2 h3
    rw [Unlink_apply]
    simp only [h1, h2, h3, if_false]
  · intro hl
    exact Unlink_self (hself hl)
  · intro hs e
    have hsp : (m x).prev_ = x := by rw [hs]
    have hsn : (m x).next_ = x := by rw [hs]
    refine ⟨Ring_InsertBetween h hs (h e).2, Ring_InsertBetween h hs rfl, ?_, ?_⟩
    · intro hne
      have hpe : (m e).prev_ ≠ x := by
        intro hc
        have e1 := h.prev_eq hc
        rw [hsn] at e1
        exact hne e1
      refine ⟨?_, ?_, ?_, ?_⟩
      · simp only [InsertBefore, InsertBetween_apply, hne, if_false, if_true, Ne.symm hpe]
      · simp only [InsertBefore, InsertBetween_apply, if_true]
      · simp only [InsertBefore, InsertBetween_apply, if_true]
      · simp only [IsLinked, InsertBefore, InsertBetween_apply, hne, if_false, if_true,
          Ne.symm hpe, bne_iff_ne, ne_eq, Bool.and_eq_true, hpe, Ne.symm hne,
          not_false_eq_true, and_self]
    · intro hne
      have hpe : (m e).next_ ≠ x := by
        intro hc
        have e1 := h.next_eq hc
        rw [hsp] at e1
        exact hne e1
      refine ⟨?_, ?_, ?_, ?_⟩
      · simp only [InsertAfter, InsertBetween_apply, hne, if_false, if_true, Ne.symm hpe]
      · simp only [InsertAfter, InsertBetween_apply, if_true]
      · simp only [InsertAfter, InsertBetween_apply, if_true]
      · simp only [IsLinked, InsertAfter, InsertBetween_apply, hne, if_false, if_true,
          Ne.symm hpe, bne_iff_ne, ne_eq, Bool.and_eq_true, hpe, Ne.symm hne,
          not_false_eq_true, and_self]

theorem ring_preserved_witness :
    Ring Memory.initial ∧
    Ring (Unlink mainList 2) ∧
    Unlink mainList 2 2 = { prev_ := 2, next_ := 2 } ∧
    IsLinked (Unlink mainList 2) 2 = false ∧
    (IsLinked mainList 2 = true →
      (Unlink mainList 2 (mainList 2).prev_).next_ = (mainList 2).next_ ∧
      (Unlink mainList 2 (mainList 2).next_).prev_ = (mainList 2).prev_) ∧
    (∀ y, y ≠ 2 → y ≠ (mainList 2).prev_ → y ≠ (mainList 2).next_ →
      Unlink mainList 2 y = mainList y) ∧
    (IsLinked mainList 2 = false → Unlink mainList 2 = mainList) ∧
    (mainList 2 = { prev_ := 2, next_ := 2 } → ∀ e,
      Ring (InsertBefore mainList 2 e) ∧ Ring (InsertAfter mainList 2 e) ∧
      (2 ≠ e → InsertBefore mainList 2 e 2 = { prev_ := (mainList e).prev_, next_ := e } ∧
        (InsertBefore mainList 2 e e).prev_ = 2 ∧
        (InsertBefore mainList 2 e (mainList e).prev_).next_ = 2 ∧
        IsLinked (InsertBefore mainList 2 e) 2 = true) ∧
      (2 ≠ e → InsertAfter mainList 2 e 2 = { prev_ := e, next_ := (mainList e).next_ } ∧
        (InsertAfter mainList 2 e e).next_ = 2 ∧
        (InsertAfter mainList 2 e (mainList e).next_).prev_ = 2 ∧
        IsLinked (InsertAfter mainList 2 e) 2 = true)) :=
  ring_preserved mainList mainList_ring 2

/-- An object that points to itself is not an element of a list. -/
theorem IsList.not_mem_of_self {m : Memory} {s : Nat} {l : List Nat} {e : Nat}
    (hl : IsList m s l) (he : m e = { prev_ := e, next_ := e }) (hes : e ≠ s) : e ∉ l := by
  intro hmem
  obtain ⟨l1, l2, rfl⟩ := List.append_of_mem hmem
  obtain ⟨hch, hnd⟩ := hl
  have h2 := ((Chain_append l1 s e l2 s).1 hch).2
  have hen : (m e).next_ = e := by rw [he]
  cases l2 with
  | nil =>
    simp only [Chain] at h2
    exact hes (hen.symm.trans h2.1)
  | cons q l2 =>
    simp only [Chain] at h2
    have hq : e = q := hen.symm.trans h2.1
    have hnd1 : (e :: q :: l2).Nodup :=
      ((List.nodup_append.1 (List.nodup_cons.1 hnd).2).2.1)
    exact (List.nodup_cons.1 hnd1).1 (hq ▸ List.mem_cons_self _ _)

/-- C31. In a list with the elements `l1 ++ l2`, let `p` be the position of the
first element of `l2`, or `end()` when `l2` is empty, and `e` an object other
than the sentinel that is linked nowhere.  `Insert(p, e)` returns an iterator to `e` and leaves the
list `l1 ++ e :: l2`, with `p` next after `e`; `Erase` of that iterator
returns `p` and leaves every object as it was before the insertion, hence the
same sequence of elements. -/
theorem Insert_Erase_roundtrip (m : Memory) (s : Nat) (l1 l2 : List Nat) (p e : Nat)
    (hl : IsList m s (l1 ++ l2)) (hp : (l2 ++ [s]).head? = some p)
    (he : m e = { prev_ := e, next_ := e }) (hes : e ≠ s) :
    (List.Insert m p e).2 = e ∧
    IsList (List.Insert m p e).1 s (l1 ++ e :: l2) ∧
    ((List.Insert m p e).1 e).next_ = p ∧
    (∀ fuel, (l1 ++ l2).length + 1 < fuel →
      List.elements (List.Insert m p e).1 s fuel = l1 ++ e :: l2) ∧
    (List.Erase (List.Insert m p e).1 (List.Insert m p e).2).2 = p ∧
    (List.Erase (List.Insert m p e).1 (List.Insert m p e).2).1 = m ∧
    IsList (List.Erase (List.Insert m p e).1 (List.Insert m p e).2).1 s (l1 ++ l2) ∧
    (∀ fuel, List.elements (List.Erase (List.Insert m p e).1 (List.Insert m p e).2).1 s fuel =
      List.elements m s fuel) := by
  have hne : e ∉ s :: (l1 ++ l2) := fun hc =>
    (List.mem_cons.1 hc).elim hes (hl.not_mem_of_self he hes)
  obtain ⟨hins, hnext, hep, hel⟩ := IsList_InsertBefore hl hp hne
  have hI : List.Insert m p e = (InsertBefore m e p, e) := by
    simp only [List.Insert, Unlink_self he]
  have hen : (InsertBefore m e p e).next_ = p := by
    simp only [InsertBefore, InsertBetween_apply, hel, if_false, if_true]
  have hepv : (InsertBefore m e p e).prev_ = (m p).prev_ := by
    simp only [InsertBefore, InsertBetween_apply, hep, if_false, if_true]
  have hback : Unlink (InsertBefore m e p) e = m := by
    funext y
    rw [Unlink_apply, hen, hepv]
    apply ListElementBase.eq_of
    · by_cases hye : y = e
      · simp only [hye, if_true, he]
      · by_cases hyp : y = p
        · simp only [hyp, if_true, Ne.symm hep, if_false]
        · simp only [hye, hyp, if_false, InsertBefore, InsertBetween_apply]
    · by_cases hye : y = e
      · simp only [hye, if_true, he]
      · by_cases hyl : y = (m p).prev_
        · simp only [hyl, if_true, Ne.symm hel, if_false, hnext]
        · simp only [hye, hyl, if_false, InsertBefore, InsertBetween_apply]
  have hE : List.Erase (InsertBefore m e p) e = (m, p) := by
    simp only [List.Erase, hback, hen]
  rw [hI]
  simp only [hE]
  refine ⟨trivial, hins, hen, fun fuel hf => hins.elements ?_, trivial, trivial, hl,
    fun _ => trivial⟩
  simpa using hf

theorem Insert_Erase_roundtrip_witness :
    (List.Insert mainList 1 6).2 = 6 ∧
    IsList (List.Insert mainList 1 6).1 0 ([4, 2] ++ 6 :: [1, 3, 5]) ∧
    ((List.Insert mainList 1 6).1 6).next_ = 1 ∧
    (∀ fuel, ([4, 2] ++ [1, 3, 5]).length + 1 < fuel →
      List.elements (List.Insert mainList 1 6).1 0 fuel = [4, 2] ++ 6 :: [1, 3, 5]) ∧
    (List.Erase (List.Insert mainList 1 6).1 (List.Insert mainList 1 6).2).2 = 1 ∧
    (List.Erase (List.Insert mainList 1 6).1 (List.Insert mainList 1 6).2).1 = mainList ∧
    IsList (List.Erase (List.Insert mainList 1 6).1 (List.Insert mainList 1 6).2).1 0
      ([4, 2] ++ [1, 3, 5]) ∧
    (∀ fuel,
      List.elements (List.Erase (List.Insert mainList 1 6).1 (List.Insert mainList 1 6).2).1 0
        fuel = List.elements mainList 0 fuel) :=
  Insert_Erase_roundtrip mainList 0 [4, 2] [1, 3, 5] 1 6 (by decide) (by decide) (by decide)
    (by decide)

/-- C39. `a.Swap(b)` with `a` empty and `b` holding the one element `x` (the
lists at 0 and 1, `x` at 2) does not exchange the contents: afterwards `a`
does not hold `x`, `b` is not an empty list, the sentinels point at each
other, `x` points forward to itself and back to `a`, and the traversal of
each list visits the sentinel of the other; the same happens with the roles
exchanged.  Two empty lists, and two lists with elements, are exchanged. -/
theorem Swap_one_empty :
    IsList oneEmpty 0 [] ∧ IsList oneEmpty 1 [2] ∧
    ¬ IsList (List.Swap oneEmpty 0 1) 0 [2] ∧ ¬ IsList (List.Swap oneEmpty 0 1) 1 [] ∧
    List.Swap oneEmpty 0 1 0 = { prev_ := 2, next_ := 1 } ∧
    List.Swap oneEmpty 0 1 1 = { prev_ := 1, next_ := 0 } ∧
    List.Swap oneEmpty 0 1 2 = { prev_ := 0, next_ := 2 } ∧
    List.elements (List.Swap oneEmpty 0 1) 0 8 = [1] ∧
    List.elements (List.Swap oneEmpty 0 1) 1 8 = [0] ∧
    ¬ IsList (List.Swap oneEmpty 1 0) 0 [2] ∧ ¬ IsList (List.Swap oneEmpty 1 0) 1 [] ∧
    IsList (List.Swap Memory.initial 0 1) 0 [] ∧ IsList (List.Swap Memory.initial 0 1) 1 [] ∧
    IsList bothFilled 0 [2] ∧ IsList bothFilled 1 [3, 4] ∧
    IsList (List.Swap bothFilled 0 1) 0 [3, 4] ∧ IsList (List.Swap bothFilled 0 1) 1 [2] := by
  decide

end cpp.intrusive

/-! # Signal: emission -/

namespace cpp.signal

variable {Args W : Type}

theorem construct_apply (m : cpp.intrusive.Memory) (this b : Nat) :
    m.construct this b = if b = this then { prev_ := this, next_ := this } else m b := rfl

/-- `Connect` at a fresh address links the new connection at the back. -/
theorem Connect_links {signal : Signal Args W} {l : List Nat} {a : Nat}
    (hl : cpp.intrusive.IsList signal.links signal.empty_element_ l)
    (ha : a ∉ signal.empty_element_ :: l) (slot : Args → W → W) :
    cpp.intrusive.IsList (signal.Connect a slot).links signal.empty_element_ (l ++ [a]) := by
  obtain ⟨hch, hnd⟩ := hl
  have has : a ≠ signal.empty_element_ := fun hc => ha (hc ▸ List.mem_cons_self _ _)
  have hal : a ∉ l := fun hc => ha (List.mem_cons_of_mem _ hc)
  have hsl : signal.empty_element_ ∉ l := (List.nodup_cons.1 hnd).1
  have hne : ∀ x, x ∈ signal.empty_element_ :: l → x ≠ a := fun x hx hc => ha (hc ▸ hx)
  have hch1 : cpp.intrusive.Chain (signal.links.construct a) signal.empty_element_ l
      signal.empty_element_ := by
    refine cpp.intrusive.Chain_frame l _ _ ?_ (fun x hx => ?_) ?_ hch
    · rw [construct_apply, if_neg (Ne.symm has)]
    · rw [construct_apply, if_neg (hne x (List.mem_cons_of_mem _ hx))]
    · rw [construct_apply, if_neg (Ne.symm has)]
  have hsnoc := cpp.intrusive.Chain_snoc has l signal.empty_element_ hch1 ha hnd hsl
  refine ⟨hsnoc, ?_⟩
  have hperm : (signal.empty_element_ :: (l ++ [a])).Perm (a :: signal.empty_element_ :: l) :=
    (List.Perm.cons _ (List.perm_append_singleton a l)).trans (List.Perm.swap a _ _)
  exact hperm.nodup_iff.2 (List.nodup_cons.2 ⟨ha, hnd⟩)

theorem Connect_connection_self (signal : Signal Args W) (a : Nat) (slot : Args → W → W) :
    (signal.Connect a slot).connection a =
      some { signal_ := some signal.address, slot_ := slot } := by
  simp only [Signal.Connect, if_true]

theorem Connect_connection_ne (signal : Signal Args W) {a b : Nat} (slot : Args → W → W)
    (h : b ≠ a) : (signal.Connect a slot).connection b = signal.connection b := by
  simp only [Signal.Connect, h, if_false]

theorem Slots_Connect {signal : Signal Args W} {cs : List (Nat × (Args → W → W))}
    (h : Slots signal cs) {a : Nat} (ha : a ∉ cs.map Prod.fst) (slot : Args → W → W) :
    Slots (signal.Connect a slot) (cs ++ [(a, slot)]) := by
  intro c hc
  rcases List.mem_append.1 hc with hc | hc
  · have hca : c.1 ≠ a := fun he => ha (he ▸ List.mem_map_of_mem Prod.fst hc)
    rw [Connect_connection_ne signal slot hca]
    exact h c hc
  · rw [List.mem_singleton.1 hc]
    exact ⟨_, Connect_connection_self signal a slot⟩

/-- The statements of `connectAll` after the connections `pre`: the list holds
the connections in the order of the calls of `Connect`, and each connection
holds its slot. -/
theorem connectAll_links : ∀ (cs pre : List (Nat × (Args → W → W))) (signal : Signal Args W),
    cpp.intrusive.IsList signal.links signal.empty_element_ (pre.map Prod.fst) →
    Slots signal pre → (signal.empty_element_ :: (pre ++ cs).map Prod.fst).Nodup →
    cpp.intrusive.IsList (signal.connectAll cs).links signal.empty_element_
        ((pre ++ cs).map Prod.fst) ∧
      Slots (signal.connectAll cs) (pre ++ cs) ∧
      (signal.connectAll cs).empty_element_ = signal.empty_element_ ∧
      (signal.connectAll cs).address = signal.address ∧
      (signal.connectAll cs).top_ = signal.top_
  | [], pre, signal, hl, hs, _ => by
    rw [List.append_nil]
    exact ⟨hl, hs, rfl, rfl, rfl⟩
  | c :: cs, pre, signal, hl, hs, hnd => by
    have hnd1 : (signal.empty_element_ :: ((pre ++ [c]) ++ cs).map Prod.fst).Nodup := by
      simpa using hnd
    have hc : c.1 ∉ signal.empty_element_ :: pre.map Prod.fst := by
      have h1 := List.nodup_cons.1 hnd
      have h2 : ((pre.map Prod.fst) ++ c.1 :: cs.map Prod.fst).Nodup := by simpa using h1.2
      have h3 := List.nodup_append.1 h2
      intro hmem
      rcases List.mem_cons.1 hmem with hmem | hmem
      · exact h1.1 (by simp [← hmem])
      · exact List.disjoint_left.1 h3.2.2 hmem (List.mem_cons_self _ _)
    have hl1 := Connect_links hl hc c.2
    have hs1 : Slots (signal.Connect c.1 c.2) (pre ++ [c]) :=
      Slots_Connect hs (fun h => hc (List.mem_cons_of_mem _ h)) c.2
    have hmap : (pre ++ [c]).map Prod.fst = pre.map Prod.fst ++ [c.1] := by simp
    have ih := connectAll_links cs (pre ++ [c]) (signal.Connect c.1 c.2)
      (by rw [hmap]; exact hl1) hs1 hnd1
    simp only [Signal.connectAll]
    have happ : pre ++ c :: cs = (pre ++ [c]) ++ cs := by simp
    rw [happ]
    exact ih

/-- The loop of `operator()` with the holder at the start of a chain of
connections: every slot of the chain is called, in order, and the holder ends
at the sentinel. -/
theorem loop_Chain (args : Args) : ∀ (cs : List (Nat × (Args → W → W))) (a fuel : Nat)
    (signal : Signal Args W) (w : W) (called : List Nat) (holder : IteratorHolder)
    (next_ : List IteratorHolder),
    signal.top_ = holder :: next_ → holder.current_ = (signal.links a).next_ →
    holder.signal_ ≠ none →
    cpp.intrusive.Chain signal.links a (cs.map Prod.fst) signal.empty_element_ →
    signal.empty_element_ ∉ cs.map Prod.fst → Slots signal cs → cs.length < fuel →
    Signal.loop args fuel signal w called =
      .returned ({ signal with
          top_ := { holder with current_ := signal.empty_element_ } :: next_ },
        cs.foldl (fun w c => c.2 args w) w, called ++ cs.map Prod.fst)
  | [], a, fuel + 1, signal, w, called, holder, next_, htop, hcur, _, hch, _, _, _ => by
    simp only [List.map_nil, cpp.intrusive.Chain] at hch
    have hc : holder.current_ = signal.empty_element_ := hcur.trans hch.1
    simp only [Signal.loop, htop, List.end, hc, ne_eq, not_true_eq_false, if_false,
      List.map_nil, List.append_nil, List.foldl_nil]
    have hh : ({ holder with current_ := signal.empty_element_ } : IteratorHolder) = holder := by
      rw [← hc]
    rw [hh, ← htop]
  | c :: cs, a, fuel + 1, signal, w, called, holder, next_, htop, hcur, hsig, hch, hs, hsl,
      hf => by
    simp only [List.map_cons, cpp.intrusive.Chain] at hch
    have hc : holder.current_ = c.1 := hcur.trans hch.1
    have hcs : c.1 ≠ signal.empty_element_ := fun he => hs (by simp [he])
    obtain ⟨sg, hconn⟩ := hsl c (List.mem_cons_self _ _)
    have hf1 : cs.length < fuel := by simpa using hf
    have ih := loop_Chain args cs c.1 fuel
      { signal with top_ := { holder with current_ := (signal.links c.1).next_ } :: next_ }
      (c.2 args w) (called ++ [c.1]) { holder with current_ := (signal.links c.1).next_ } next_
      rfl rfl hsig hch.2.2 (fun h => hs (List.mem_cons_of_mem _ h))
      (fun d hd => hsl d (List.mem_cons_of_mem _ hd)) hf1
    simp only [Signal.loop, htop, List.end, hc, ne_eq, hcs, not_false_eq_true, if_true,
      Iterator.increment, hconn, hsig, if_false, List.foldl_cons, List.map_cons]
    rw [ih]
    simp only [List.append_assoc, List.singleton_append]

/-- One emission on a signal whose list holds the connections of `cs` in
order: every slot is called once, in that order, and the signal is left as it
was, the holder gone from `top_`. -/
theorem operatorCall_returns {signal : Signal Args W} {cs : List (Nat × (Args → W → W))}
    (hl : cpp.intrusive.IsList signal.links signal.empty_element_ (cs.map Prod.fst))
    (hs : Slots signal cs) (args : Args) {fuel : Nat} (hf : cs.length < fuel) (w : W) :
    signal.operatorCall args fuel w =
      .returned (signal, cs.foldl (fun w c => c.2 args w) w, cs.map Prod.fst) := by
  have hloop := loop_Chain args cs signal.empty_element_ fuel (IteratorHolder.construct signal) w
    [] { current_ := List.begin signal.links signal.empty_element_,
         signal_ := some signal.address } signal.top_ rfl rfl (by simp) hl.1
    (List.nodup_cons.1 hl.2).1 hs hf
  unfold Signal.operatorCall
  rw [hloop]
  simp only [IteratorHolder.destructor, IteratorHolder.construct, ne_eq, not_false_eq_true,
    if_true, List.nil_append, reduceCtorEq]

theorem emissions_returns {signal : Signal Args W} {cs : List (Nat × (Args → W → W))}
    (hl : cpp.intrusive.IsList signal.links signal.empty_element_ (cs.map Prod.fst))
    (hs : Slots signal cs) (args : Args) {fuel : Nat} (hf : cs.length < fuel) :
    ∀ (n : Nat) (w : W), Signal.emissions args fuel n signal w =
      .returned (signal, invokeAll cs args n w, (List.replicate n (cs.map Prod.fst)).flatten)
  | 0, w => rfl
  | n + 1, w => by
    simp only [Signal.emissions, operatorCall_returns hl hs args hf w,
      emissions_returns hl hs args hf n, invokeAll, List.replicate_succ, List.flatten_cons]

theorem count_join_replicate (l : List Nat) (a : Nat) :
    ∀ n : Nat, ((List.replicate n l).flatten).count a = n * l.count a
  | 0 => by simp
  | n + 1 => by
    rw [List.replicate_succ, List.flatten_cons, List.count_append, count_join_replicate l a n,
      Nat.add_mul, Nat.one_mul, Nat.add_comm]

theorem invokeAll_mainSlots : ∀ (n g1 g2 : Nat),
    invokeAll mainSlots () n (g1, g2) = (g1 + n, g2 + n)
  | 0, g1, g2 => rfl
  | n + 1, g1, g2 => by
    have h := invokeAll_mainSlots n (g1 + 1) (g2 + 1)
    have hfirst : mainSlots.foldl (fun w c => c.2 () w) (g1, g2) = (g1 + 1, g2 + 1) := rfl
    simp only [invokeAll, hfirst, h]
    rw [Nat.add_assoc, Nat.add_assoc, Nat.add_comm 1 n]

theorem default_links (address s : Nat) (links : cpp.intrusive.Memory) :
    cpp.intrusive.IsList (Signal.default address s links : Signal Args W).links s [] := by
  refine ⟨?_, List.nodup_singleton s⟩
  simp only [cpp.intrusive.Chain, Signal.default, construct_apply, if_true, and_self]

/-- C30. A signal is constructed and the slots of `cs` are connected to it one
after the other, by `Connect`, the `Connection` objects being distinct and
none of them the sentinel of the list.  Then `connections_` holds them in the order of
connection; one emission returns, having called every slot exactly once, in
connection order, and leaves the signal as it was; `n` emissions call every
slot exactly `n` times.  With the two counting slots of `main`, after `n`
emissions `got1 == n` and `got2 == n`. -/
theorem emission_invokes (address s : Nat) (links : cpp.intrusive.Memory)
    (cs : List (Nat × (Args → W → W))) (hdistinct : (s :: cs.map Prod.fst).Nodup)
    (args : Args) (w : W) (n fuel : Nat) (hfuel : cs.length < fuel) :
    cpp.intrusive.IsList ((Signal.default address s links).connectAll cs).links s
      (cs.map Prod.fst) ∧
    ((Signal.default address s links).connectAll cs).operatorCall args fuel w =
      .returned ((Signal.default address s links).connectAll cs,
        cs.foldl (fun w c => c.2 args w) w, cs.map Prod.fst) ∧
    (∀ c ∈ cs, (cs.map Prod.fst).count c.1 = 1) ∧
    Signal.emissions args fuel n ((Signal.default address s links).connectAll cs) w =
      .returned ((Signal.default address s links).connectAll cs, invokeAll cs args n w,
        (List.replicate n (cs.map Prod.fst)).flatten) ∧
    (∀ c ∈ cs, ((List.replicate n (cs.map Prod.fst)).flatten).count c.1 = n) ∧
    Signal.emissions () 3 n mainSignal (0, 0) =
      .returned (mainSignal, (n, n), (List.replicate n [1, 2]).flatten) := by
  have hall := connectAll_links cs [] (Signal.default address s links : Signal Args W)
    (default_links address s links) (fun c hc => by cases hc) (by simpa using hdistinct)
  simp only [List.nil_append] at hall
  obtain ⟨hl, hs, he, _, _⟩ := hall
  have he0 : (Signal.default address s links : Signal Args W).empty_element_ = s := rfl
  rw [he0] at hl he
  have hl1 : cpp.intrusive.IsList ((Signal.default address s links).connectAll cs).links
      ((Signal.default address s links).connectAll cs).empty_element_ (cs.map Prod.fst) := by
    rw [he]
    exact hl
  have hone : ∀ c ∈ cs, (cs.map Prod.fst).count c.1 = 1 := fun c hc =>
    List.count_eq_one_of_mem (List.nodup_cons.1 hdistinct).2 (List.mem_map_of_mem _ hc)
  refine ⟨hl, operatorCall_returns hl1 hs args hfuel w, hone,
    emissions_returns hl1 hs args hfuel n w, ?_, ?_⟩
  · intro c hc
    rw [count_join_replicate, hone c hc, Nat.mul_one]
  · have hm := connectAll_links mainSlots []
      (Signal.default 0 0 cpp.intrusive.Memory.initial : Signal Unit (Nat × Nat))
      (default_links 0 0 _) (fun c hc => by cases hc) (by decide)
    simp only [List.nil_append] at hm
    have h := @emissions_returns Unit (Nat × Nat) mainSignal mainSlots hm.1 hm.2.1 () 3
      (by decide) n (0, 0)
    rw [h, invokeAll_mainSlots]
    simp [mainSlots]

theorem emission_invokes_witness :
    cpp.intrusive.IsList
      ((Signal.default 0 0 cpp.intrusive.Memory.initial).connectAll mainSlots).links 0
      (mainSlots.map Prod.fst) ∧
    ((Signal.default 0 0 cpp.intrusive.Memory.initial).connectAll mainSlots).operatorCall ()
        3 (0, 0) =
      .returned ((Signal.default 0 0 cpp.intrusive.Memory.initial).connectAll mainSlots,
        mainSlots.foldl (fun w c => c.2 () w) (0, 0), mainSlots.map Prod.fst) ∧
    (∀ c ∈ mainSlots, (mainSlots.map Prod.fst).count c.1 = 1) ∧
    Signal.emissions () 3 2
        ((Signal.default 0 0 cpp.intrusive.Memory.initial).connectAll mainSlots) (0, 0) =
      .returned ((Signal.default 0 0 cpp.intrusive.Memory.initial).connectAll mainSlots,
        invokeAll mainSlots () 2 (0, 0), (List.replicate 2 (mainSlots.map Prod.fst)).flatten) ∧
    (∀ c ∈ mainSlots, ((List.replicate 2 (mainSlots.map Prod.fst)).flatten).count c.1 = 2) ∧
    Signal.emissions () 3 2 mainSignal (0, 0) =
      .returned (mainSignal, (2, 2), (List.replicate 2 [1, 2]).flatten) :=
  emission_invokes 0 0 cpp.intrusive.Memory.initial mainSlots (by decide) () (0, 0) 2 3
    (by decide)

end cpp.signal
